import Mathlib

/-!
Textiler: a shallow embedding of `textile.go`.

Conventions of the embedding.

* A Go `[]byte` is a `List Nat` (`Bytes`), one number per byte. A nil slice and an
  empty slice are both `[]`; wherever the source compares a result with `nil`, the
  result is an `Option` and `none` stands for `nil`. Slicing a non-nil slice never
  gives `nil` in Go, so `some []` is an empty non-nil slice.
* Go loops are recursive functions. A `for` loop over the bytes of a slice recurses
  on the bytes that are left and carries the index `i`; a loop with no syntactic
  bound takes fuel and stops with `Stop.outOfFuel` when it is used up.
* `append` on a slice of the input writes into the input's backing array when the
  capacity allows it. `extractStyleOpt` does so for one byte, always in place (the
  closing brace of the style token becomes a semicolon): the functions on that path
  return, next to their Go results, the contents of their argument after the call.
  `byteConcat` does so for a whole style text, in place or not depending on the
  capacity of the caller's buffer: there the embedding stops with
  `Stop.aliasedAppend`.
* The table `blockTags` of valid HTML tag names is not part of `textile.go`; it is
  the parameter `tags` of the functions that read it.
* Printing to standard output (`dumpLines`) is not modelled; it does not change the
  returned bytes.
* Indexing and slicing are total on lists, so this embedding says nothing about index
  bounds. The second embedding, in the namespace `Mem` below, is over the backing array
  of the input: there every index and slice expression is checked
  (`Stop.outOfRange`), and `append` writes in place when the capacity allows it.
-/

set_option autoImplicit false

namespace Textiler

/-- The contents of a Go byte slice. -/
abbrev Bytes := List Nat

/-- The bytes of an ASCII string literal. -/
def ascii (s : String) : Bytes := s.toList.map Char.toNat

/-- Why the embedding gave no result. -/
inductive Stop where
  | outOfFuel
  | aliasedAppend
  | outOfRange
  deriving DecidableEq, Repr

deriving instance DecidableEq for Except

/-- Go: `bytes.IndexByte(l, c)`, `none` for -1. -/
def indexByte : Bytes → Nat → Option Nat
  | [], _ => none
  | x :: t, c => if x = c then some 0 else (indexByte t c).map (· + 1)

/-- Go: `bytes.HasPrefix(l, p)`. -/
def hasPrefix : Bytes → Bytes → Bool
  | _, [] => true
  | [], _ :: _ => false
  | x :: l, y :: p => x = y && hasPrefix l p

/-- Go: `bytes.Index(l, sep)`, `none` for -1. -/
def bytesIndex : Bytes → Bytes → Option Nat
  | [], sep => if hasPrefix [] sep then some 0 else none
  | x :: t, sep =>
    if hasPrefix (x :: t) sep then some 0 else (bytesIndex t sep).map (· + 1)

/-! ## Data model -/

structure UrlRef where
  url : Bytes
  name : Bytes
  deriving DecidableEq, Repr

def RENDERER_XHTML : Nat := 1

def STYLE_FLOAT_RIGHT : Nat := 1

structure TextileRenderer where
  flags : Nat
  deriving DecidableEq, Repr

/-- Go: `TextileParser`. The map `refs` is an association list read with
`List.lookup`; `out` is the contents of the output buffer. -/
structure TextileParser where
  r : TextileRenderer
  refs : List (Bytes × UrlRef)
  inP : Bool
  out : Bytes
  olLevel : Int
  ulLevel : Int
  blockLineNo : Int
  blockTags : List Bytes
  dumpLines : Bool
  dumpParagraphs : Bool
  deriving DecidableEq, Repr

/-- Go: `m[k] = v` on a map: the entry for `k` is replaced. -/
def mapSet (m : List (Bytes × UrlRef)) (k : Bytes) (v : UrlRef) : List (Bytes × UrlRef) :=
  (k, v) :: m.filter (fun e => e.1 ≠ k)

/-- Go: `v, ok := m[k]`. -/
def mapGet (m : List (Bytes × UrlRef)) (k : Bytes) : Option UrlRef :=
  m.lookup k

def tagSkipPre (tag : Bytes) : Bool :=
  if tag = ascii "pre" then true
  else if tag = ascii "code" then true
  else false

def pushBlockTag (p : TextileParser) (tag : Bytes) : TextileParser :=
  if tagSkipPre tag then { p with blockTags := p.blockTags ++ [tag] } else p

def lastBlockTagIs (p : TextileParser) (tag : Bytes) : Bool :=
  if p.blockTags.length = 0 then false
  else
    let last := p.blockTags.getD (p.blockTags.length - 1) []
    last = tag

def popBlockTag (p : TextileParser) (tag : Bytes) : TextileParser × Bool :=
  if !tagSkipPre tag then (p, false)
  else if lastBlockTagIs p tag then
    ({ p with blockTags := p.blockTags.take (p.blockTags.length - 1) }, true)
  else (p, false)

def inHtmlCode (p : TextileParser) : Bool := lastBlockTagIs p (ascii "code")

def inHtmlPre (p : TextileParser) : Bool := lastBlockTagIs p (ascii "pre")

def inHtmlBlock (p : TextileParser) : Bool := p.blockTags.length > 0

def isFlagSet (r : TextileRenderer) (flag : Nat) : Bool := (r.flags &&& flag) ≠ 0

def isXhtml (r : TextileRenderer) : Bool := isFlagSet r RENDERER_XHTML

def NewTextileParser (renderer : TextileRenderer) : TextileParser :=
  { r := renderer, refs := [], inP := false, out := [], olLevel := 0, ulLevel := 0,
    blockLineNo := 0, blockTags := [], dumpLines := false, dumpParagraphs := false }

/-- Go: `isValidTag`; `tags` holds the keys of the table `blockTags`. -/
def isValidTag (tags : List Bytes) (tag : Bytes) : Bool := tags.contains tag

def startsWithByte (s : Bytes) (b : Nat) (minLen : Nat) : Bool :=
  s.length ≥ minLen && s.getD 0 0 = b

/-! ## Line splitter -/

def cr : Nat := 0xd

def lf : Nat := 0xa

/-- The loop of `extractLine`: the index `pos` of the first CR or LF, `none` for -1. -/
def extractLinePos : Bytes → Option Nat
  | [] => none
  | b :: t => if b = cr ∨ b = lf then some 0 else (extractLinePos t).map (· + 1)

/-- Go: `extractLine`. The first component is `none` when the line is `nil`. -/
def extractLine (d : Bytes) : Option Bytes × Bytes :=
  if d.length = 0 then (none, [])
  else
    match extractLinePos d with
    | none => (some d, [])
    | some pos =>
      let wasCr : Bool := d.getD pos 0 = cr
      let line := d.take pos
      let rest := d.drop (pos + 1)
      let rest := if wasCr ∧ rest.length > 0 ∧ rest.getD 0 0 = lf then rest.drop 1 else rest
      (some line, rest)

/-- The `for` loop of `splitIntoLines`. -/
def splitIntoLinesLoop : Nat → Bytes → List Bytes → Except Stop (List Bytes)
  | 0, _, _ => .error .outOfFuel
  | fuel + 1, d, res =>
    match extractLine d with
    | (none, _) => .ok res
    | (some l, d) => splitIntoLinesLoop fuel d (res ++ [l])

/-- Go: `splitIntoLines`. Every turn of the loop but the last removes a byte of `d`. -/
def splitIntoLines (d : Bytes) : Except Stop (List Bytes) :=
  splitIntoLinesLoop (d.length + 1) d []

/-! ## Reference definitions -/

def isUrlEnd (b : Nat) : Bool :=
  match indexByte [32, 33] b with  -- ' ', '!'
  | none => false
  | some _ => true

/-- The loop of `detectUrl`, at index `i` with `l[i:]` left to read. -/
def detectUrlLoop (l : Bytes) : Nat → Bytes → Bytes × Bytes
  | _, [] => (l, [])
  | i, c :: t => if isUrlEnd c then (l.take i, l.drop i) else detectUrlLoop l (i + 1) t

/-- Go: `detectUrl`; `none` for `nil, nil`. -/
def detectUrl (l : Bytes) : Option (Bytes × Bytes) :=
  match bytesIndex l [58, 47, 47] with  -- "://"
  | none => none
  | some i =>
    let s := l.take i
    if !(s = ascii "http" || s = ascii "https") then none
    else some (detectUrlLoop l (i + 3) (l.drop (i + 3)))

/-- Go: `isUrlRef`; the result is `(name, url)`, `none` for `nil, nil`. -/
def isUrlRef (l : Bytes) : Option (Bytes × Bytes) :=
  if l.length < 4 then none
  else if l.getD 0 0 ≠ 91 then none  -- '['
  else
    let l := l.drop 1
    match indexByte l 93 with  -- ']'
    | none => none
    | some endIdx =>
      let name := l.take endIdx
      let l := l.drop (endIdx + 1)
      match detectUrl l with
      | none => none
      | some (url, rest) => if rest.length > 0 then none else some (name, url)

def parseRef (p : TextileParser) (line : Bytes) : TextileParser × Bool :=
  match isUrlRef line with
  | some (name, url) => ({ p with refs := mapSet p.refs name { name := name, url := url } }, true)
  | none => (p, false)

/-- The loop of `firstPass` over the lines that are left, with `res` so far. -/
def firstPassLoop : TextileParser → List Bytes → List Bytes → TextileParser × List Bytes
  | p, res, [] => (p, res)
  | p, res, l :: ls =>
    match parseRef p l with
    | (p, true) => firstPassLoop p res ls
    | (p, false) =>
      if l.length > 0 then firstPassLoop p (res ++ [l]) ls
      else if res.length > 0 then
        let last := res.getD (res.length - 1) []
        if last.length > 0 then firstPassLoop p (res ++ [l]) ls
        else firstPassLoop p res ls
      else firstPassLoop p res ls

/-- Go: `firstPass`: the parser with its reference table filled, and the lines kept. -/
def firstPass (p : TextileParser) (lines : List Bytes) : TextileParser × List Bytes :=
  firstPassLoop p [] lines

/-! ## HTML tags -/

/-- Go: `parseStartTag`; the result is `(rest, html, tag)`, `none` for `nil, nil, nil`. -/
def parseStartTag (tags : List Bytes) (l : Bytes) : Option (Bytes × Bytes × Bytes) :=
  if !startsWithByte l 60 3 then none  -- '<'
  else
    match indexByte l 62 with  -- '>'
    | none => none
    | some htmlEnd =>
      let html := l.take (htmlEnd + 1)
      let tagEnd := match indexByte l 32 with  -- ' '
        | none => htmlEnd
        | some tagEnd => tagEnd
      let tag := (l.take tagEnd).drop 1
      if !isValidTag tags tag then none
      else some (l.drop (htmlEnd + 1), html, tag)

/-- Go: `parseEndTag`; the result is `(rest, html, tag)`, `none` for `nil, nil, nil`. -/
def parseEndTag (tags : List Bytes) (l : Bytes) : Option (Bytes × Bytes × Bytes) :=
  if !startsWithByte l 60 4 then none  -- '<'
  else if l.getD 1 0 ≠ 47 then none  -- '/'
  else
    match indexByte l 62 with  -- '>'
    | none => none
    | some htmlEnd =>
      let tag := (l.take htmlEnd).drop 2
      if !isValidTag tags tag then none
      else some (l.drop (htmlEnd + 1), l.take (htmlEnd + 1), tag)

/-- Go: `parseHtml`; the result is `(rest, html, tag, start)`, `none` when `rest` is `nil`. -/
def parseHtml (tags : List Bytes) (l : Bytes) : Option (Bytes × Bytes × Bytes × Bool) :=
  match parseEndTag tags l with
  | some (rest, html, tag) => some (rest, html, tag, false)
  | none =>
    match parseStartTag tags l with
    | some (rest, html, tag) => some (rest, html, tag, true)
    | none => none

/-! ## Inline sub-parsers -/

/-- Go: `extractUntil`; the result is `(rest, inside)`. -/
def extractUntil (l : Bytes) (c : Nat) : Option (Bytes × Bytes) :=
  match indexByte l c with
  | none => none
  | some idx => some (l.drop (idx + 1), l.take idx)

/-- Go: `extractInside`; the result is `(rest, inside)`. -/
def extractInside (l : Bytes) (start «end» : Nat) : Option (Bytes × Bytes) :=
  if l.length = 0 || l.getD 0 0 ≠ start then none
  else
    match extractUntil (l.drop 1) «end» with
    | none => none
    | some (rest, inside) => some (rest, inside)

/-- The loop of `extractUrlOrRefName`, at index `i` with `l[i:]` left to read. -/
def extractUrlOrRefNameLoop (l : Bytes) : Nat → Bytes → Bytes × Bytes
  | _, [] => ([], l)
  | i, c :: t =>
    if isUrlEnd c then (l.drop i, l.take i) else extractUrlOrRefNameLoop l (i + 1) t

/-- Go: `extractUrlOrRefName`; the result is `(rest, urlOrRef)`. -/
def extractUrlOrRefName (l : Bytes) : Bytes × Bytes :=
  extractUrlOrRefNameLoop l 0 l

/-- Go: `parseImg`; the result is `(rest, url, imgSrc, alt, style)`, `none` when `rest`
is `nil`. -/
def parseImg (l : Bytes) : Option (Bytes × Bytes × Bytes × Bytes × Nat) :=
  if l.length < 3 then none
  else if l.getD 0 0 ≠ 33 then none  -- '!'
  else
    let l := l.drop 1
    let (style, l) := if l.getD 0 0 = 62 then (STYLE_FLOAT_RIGHT, l.drop 1) else (0, l)  -- '>'
    let parts : Option (Bytes × Bytes × Bytes) :=
      match indexByte l 40 with  -- '('
      | some endIdx =>
        let imgSrc := l.take endIdx
        let l := l.drop (endIdx + 1)
        match indexByte l 41 with  -- ')'
        | none => none
        | some endIdx =>
          let alt := l.take endIdx
          let l := l.drop (endIdx + 1)
          if l.length < 1 || l.getD 0 0 ≠ 33 then none  -- '!'
          else some (imgSrc, alt, l.drop 1)
      | none =>
        match indexByte l 33 with  -- '!'
        | none => none
        | some endIdx =>
          let imgSrc := l.take endIdx
          let l := l.drop (endIdx + 1)
          some (imgSrc, [], l)
    match parts with
    | none => none
    | some (imgSrc, alt, l) =>
      if l.length > 0 && l.getD 0 0 = 58 then  -- ':'
        let (l, url) := extractUrlOrRefName (l.drop 1)
        some (l, url, imgSrc, alt, style)
      else some (l, [], imgSrc, alt, style)

/-- Go: `byteConcat`. With both arguments non-nil the source appends `b2` to `b1`, a
slice of the input: the bytes of the input that follow `b1` are overwritten when the
backing array has room for `b2`, and are left alone otherwise. The capacity of the
caller's buffer is not part of the embedding, which stops there. -/
def byteConcat (b1 b2 : Option Bytes) : Except Stop (Option Bytes) :=
  match b1, b2 with
  | none, none => .ok none
  | none, some b2 => .ok (some b2)
  | some b1, none => .ok (some b1)
  | some _, some _ => .error .aliasedAppend

structure PaddingInfo where
  alignLeft : Bool := false
  alignRight : Bool := false
  alignCenter : Bool := false
  alignJustify : Bool := false
  paddingLeft : Nat := 0
  paddingRight : Nat := 0
  deriving DecidableEq, Repr

/-- Go: `fmt.Sprintf("%d", n)`. -/
def decimal (n : Int) : Bytes := ascii (toString n)

/-- Go: `formatPaddingInfo`; `none` for `nil`. -/
def formatPaddingInfo (pi : PaddingInfo) : Option Bytes :=
  let s : Bytes := []
  let s := if pi.paddingLeft > 0 then
    s ++ ascii "padding-left:" ++ decimal pi.paddingLeft ++ ascii "em;" else s
  let s := if pi.paddingRight > 0 then
    s ++ ascii "padding-right:" ++ decimal pi.paddingRight ++ ascii "em;" else s
  let s := if pi.alignLeft then s ++ ascii "text-align:left;" else s
  let s := if pi.alignRight then s ++ ascii "text-align:right;" else s
  let s := if pi.alignJustify then s ++ ascii "text-align:justify;" else s
  let s := if pi.alignCenter then s ++ ascii "text-align:center;" else s
  if s.length = 0 then none else some s

/-- The loop of `countRepeatedChars`, at index `n` with `l[n:]` left to read. -/
def countRepeatedCharsLoop (l : Bytes) (c : Nat) : Nat → Bytes → Bytes × Nat
  | _, [] => ([], l.length)
  | n, b :: t => if b ≠ c then (l.drop n, n) else countRepeatedCharsLoop l c (n + 1) t

/-- Go: `countRepeatedChars`; the result is `(rest, n)`. -/
def countRepeatedChars (l : Bytes) (c : Nat) : Bytes × Nat :=
  countRepeatedCharsLoop l c 0 l

/-- The loop of `parseStyle`. Every turn that does not leave the loop removes a byte of
`l`. -/
def parseStyleLoop : Nat → Bytes → PaddingInfo → Except Stop (Bytes × PaddingInfo)
  | 0, _, _ => .error .outOfFuel
  | fuel + 1, l, pi =>
    if l.length > 0 then
      let c := l.getD 0 0
      if c = 60 then  -- '<'
        if l.length > 1 && l.getD 1 0 = 62 then  -- '>'
          parseStyleLoop fuel (l.drop 2) { pi with alignJustify := true }
        else parseStyleLoop fuel (l.drop 1) { pi with alignLeft := true }
      else if c = 62 then  -- '>'
        parseStyleLoop fuel (l.drop 1) { pi with alignRight := true }
      else if c = 61 then  -- '='
        parseStyleLoop fuel (l.drop 1) { pi with alignCenter := true }
      else if c = 40 then  -- '('
        let (l, n) := countRepeatedChars l 40
        parseStyleLoop fuel l { pi with paddingLeft := n }
      else if c = 41 then  -- ')'
        let (l, n) := countRepeatedChars l 41
        parseStyleLoop fuel l { pi with paddingRight := n }
      else .ok (l, pi)
    else .ok (l, pi)

/-- Go: `parseStyle`; the result is `(rest, style)`. -/
def parseStyle (l : Bytes) : Except Stop (Bytes × Option Bytes) :=
  match parseStyleLoop (l.length + 1) l {} with
  | .error e => .error e
  | .ok (l, pi) => .ok (l, formatPaddingInfo pi)

structure AttributesOpt where
  «class» : Option Bytes := none
  style : Option Bytes := none
  lang : Option Bytes := none
  deriving DecidableEq, Repr

def isChar (c : Nat) : Bool := (c ≥ 97 && c ≤ 122) || (c ≥ 65 && c ≤ 90)

def isDigit (c : Nat) : Bool := c ≥ 48 && c ≤ 57

def isClassChar (c : Nat) : Bool := isChar c || isDigit c || c = 35 || c = 45  -- '#', '-'

/-- The loop of `extractClassOpt`, at index `i` with `l[i:]` left to read. -/
def extractClassOptLoop (l : Bytes) : Nat → Bytes → Bytes × Option Bytes
  | _, [] => (l, none)
  | i, c :: t =>
    if !isClassChar c then
      if c = 41 then (l.drop (i + 1), some ((l.take i).drop 1))  -- ')'
      else extractClassOptLoop l (i + 1) t
    else extractClassOptLoop l (i + 1) t

/-- Go: `extractClassOpt`; the result is `(rest, classOpt)`. -/
def extractClassOpt (l : Bytes) : Bytes × Option Bytes :=
  if !startsWithByte l 40 3 then (l, none)  -- '('
  else if l.getD 1 0 = 41 then (l, none)  -- ')'
  else extractClassOptLoop l 1 (l.drop 1)

def isStyleChar (c : Nat) : Bool :=
  isChar c || isDigit c || (indexByte [35, 45, 58, 59] c).isSome  -- '#', '-', ':', ';'

def endsWithByte (s : Bytes) (b : Nat) : Bool :=
  if s.length = 0 then false
  else
    let n := s.length - 1
    s.getD n 0 = b

/-- The loop of `extractStyleOpt`, at index `i` with `l[i:]` left to read. The second
component is `l` after the call: `append(styleOpt, ';')` has room in the backing array
of `l` and writes the semicolon at `l[i]`, over the closing brace. -/
def extractStyleOptLoop (l : Bytes) : Nat → Bytes → (Bytes × Option Bytes) × Bytes
  | _, [] => ((l, none), l)
  | i, c :: t =>
    if !isStyleChar c then
      if c = 125 then  -- '}'
        let rest := l.drop (i + 1)
        let styleOpt := (l.take i).drop 1
        if !endsWithByte styleOpt 59 then  -- ';'
          ((rest, some (styleOpt ++ [59])), l.set i 59)
        else ((rest, some styleOpt), l)
      else extractStyleOptLoop l (i + 1) t
    else extractStyleOptLoop l (i + 1) t

/-- Go: `extractStyleOpt`; the result is `(rest, styleOpt)`, paired with the contents of
`l` after the call. -/
def extractStyleOpt (l : Bytes) : (Bytes × Option Bytes) × Bytes :=
  if !startsWithByte l 123 3 then ((l, none), l)  -- '{'
  else if l.getD 1 0 = 125 then ((l, none), l)  -- '}'
  else extractStyleOptLoop l 1 (l.drop 1)

def isLangChar (c : Nat) : Bool := isChar c || (indexByte [45] c).isSome  -- '-'

/-- The loop of `extractLangOpt`, at index `i` with `l[i:]` left to read. -/
def extractLangOptLoop (l : Bytes) : Nat → Bytes → Bytes × Option Bytes
  | _, [] => (l, none)
  | i, c :: t =>
    if !isLangChar c then
      if c = 93 then (l.drop (i + 1), some ((l.take i).drop 1))  -- ']'
      else extractLangOptLoop l (i + 1) t
    else extractLangOptLoop l (i + 1) t

/-- Go: `extractLangOpt`; the result is `(rest, langOpt)`. -/
def extractLangOpt (l : Bytes) : Bytes × Option Bytes :=
  if !startsWithByte l 91 3 then (l, none)  -- '['
  else if l.getD 1 0 = 93 then (l, none)  -- ']'
  else extractLangOptLoop l 1 (l.drop 1)

/-- The slice `whole` once its last `part.length` bytes have become `part`: what a write
through the sub-slice `whole[k:]` leaves in `whole`. -/
def writeBack (whole part : Bytes) : Bytes :=
  whole.take (whole.length - part.length) ++ part

/-- The `for` loop of `parseAttributesOpt`: `buf` is the argument of `parseAttributesOpt`
with the writes made so far, `l` the part of it still to read. Every turn that does not
leave the loop removes a byte of `l`. -/
def parseAttributesOptLoop :
    Nat → Bytes → Bytes → AttributesOpt → Except Stop (Bytes × AttributesOpt × Bytes)
  | 0, _, _, _ => .error .outOfFuel
  | fuel + 1, buf, l, attrs =>
    if l.length > 0 then
      let n := l.length
      let c := l.getD 0 0
      let (l, attrs, buf) : Bytes × AttributesOpt × Bytes :=
        if c = 40 then  -- '('
          let (l, cls) := extractClassOpt l
          (l, { attrs with «class» := cls }, buf)
        else if c = 91 then  -- '['
          let (l, lang) := extractLangOpt l
          (l, { attrs with lang := lang }, buf)
        else if c = 123 then  -- '{'
          let ((rest, style), l) := extractStyleOpt l
          (rest, { attrs with style := style }, writeBack buf l)
        else (l, attrs, buf)
      if n = l.length then .ok (l, attrs, buf)
      else parseAttributesOptLoop fuel buf l attrs
    else .ok (l, attrs, buf)

/-- Go: `parseAttributesOpt`; the result is `(rest, attrs)`, paired with the contents of
`l` after the call. -/
def parseAttributesOpt (l : Bytes) : Except Stop ((Bytes × AttributesOpt) × Bytes) :=
  let buf := l
  let attrs : AttributesOpt := {}
  let (l, attrs) : Bytes × AttributesOpt :=
    if l.getD 0 0 = 40 then  -- '('
      let (l, cls) := extractClassOpt l
      (l, { attrs with «class» := cls })
    else (l, attrs)
  match parseStyle l with
  | .error e => .error e
  | .ok (l, style) =>
    match parseAttributesOptLoop (l.length + 1) buf l attrs with
    | .error e => .error e
    | .ok (l, attrs, buf) =>
      match byteConcat attrs.style style with
      | .error e => .error e
      | .ok st => .ok ((l, { attrs with style := st }), buf)

/-- Go: `parseSpan`; the result is `(rest, inside, attrs)`, `none` when `rest` is `nil`,
paired with the contents of `l` after the call. -/
def parseSpan (l : Bytes) : Except Stop (Option (Bytes × Bytes × AttributesOpt) × Bytes) :=
  if !startsWithByte l 37 3 then .ok (none, l)  -- '%'
  else
    match parseAttributesOpt (l.drop 1) with
    | .error e => .error e
    | .ok ((l1, attrs), buf) =>
      match extractUntil l1 37 with
      | none => .ok (none, writeBack l buf)
      | some (rest, inside) => .ok (some (rest, inside, attrs), writeBack l buf)

/-- Go: `parseStrongWithOptStyle`; the result is `(rest, inside, styleOpt)`, `none` when
`rest` is `nil`, paired with the contents of `l` after the call. -/
def parseStrongWithOptStyle (l : Bytes) : Option (Bytes × Bytes × Option Bytes) × Bytes :=
  if !startsWithByte l 42 3 then (none, l)  -- '*'
  else
    let ((l1, styleOpt), buf) := extractStyleOpt (l.drop 1)
    match extractUntil l1 42 with
    | none => (none, writeBack l buf)
    | some (rest, inside) => (some (rest, inside, styleOpt), writeBack l buf)

/-- Go: `parseEmWithOptClass`; the result is `(rest, inside, classOpt)`. -/
def parseEmWithOptClass (l : Bytes) : Option (Bytes × Bytes × Option Bytes) :=
  if l.length < 2 then none
  else if l.getD 0 0 ≠ 95 then none  -- '_'
  else
    let (l, classOpt) := extractClassOpt (l.drop 1)
    match indexByte l 95 with
    | none => none
    | some idx => some (l.drop (idx + 1), l.take idx, classOpt)

def parseCode (l : Bytes) : Option (Bytes × Bytes) := extractInside l 64 64  -- '@'

def parseDel (l : Bytes) : Option (Bytes × Bytes) := extractInside l 45 45  -- '-'

def parseIns (l : Bytes) : Option (Bytes × Bytes) := extractInside l 43 43  -- '+'

def parseSup (l : Bytes) : Option (Bytes × Bytes) := extractInside l 94 94  -- '^'

def parseSub (l : Bytes) : Option (Bytes × Bytes) := extractInside l 126 126  -- '~'

/-- The loop of `is2Byte`, at index `i` with `l[i:]` left to read; the loop runs while
`i < len(l)-1`, that is while two bytes are left. -/
def is2ByteLoop (l : Bytes) (b : Nat) : Nat → Bytes → Option (Bytes × Bytes)
  | i, x :: y :: t =>
    if x = b then
      if y = b then some (l.drop (i + 2), (l.take i).drop 2)
      else is2ByteLoop l b (i + 1) (y :: t)
    else is2ByteLoop l b (i + 1) (y :: t)
  | _, _ => none

/-- Go: `is2Byte`; the result is `(rest, inside)`. -/
def is2Byte (l : Bytes) (b : Nat) : Option (Bytes × Bytes) :=
  if l.length < 4 then none
  else if l.getD 0 0 ≠ b || l.getD 1 0 ≠ b then none
  else is2ByteLoop l b 2 (l.drop 2)

def parseItalic (l : Bytes) : Option (Bytes × Bytes) := is2Byte l 95  -- '_'

def parseBold (l : Bytes) : Option (Bytes × Bytes) := is2Byte l 42  -- '*'

def parseCite (l : Bytes) : Option (Bytes × Bytes) := is2Byte l 63  -- '?'

/-- Go: `parseH`; the result is `(rest, level, attrs)`, paired with the contents of `l`
after the call. `n` is a byte: the subtraction wraps at 256. -/
def parseH (l : Bytes) : Except Stop ((Bytes × Int × Option AttributesOpt) × Bytes) :=
  if !startsWithByte l 104 4 then .ok ((l, -1, none), l)  -- 'h'
  else
    let n := (l.getD 1 0 + 256 - 48) % 256  -- l[1] - '0'
    if n < 1 || n > 6 then .ok ((l, -1, none), l)
    else
      match parseAttributesOpt (l.drop 2) with
      | .error e => .error e
      | .ok ((l1, attrs), buf) =>
        if l1.length < 2 || l1.getD 0 0 ≠ 46 || l1.getD 1 0 ≠ 32 then  -- '.', ' '
          .ok ((l1, -1, none), writeBack l buf)
        else .ok ((l1.drop 2, (n : Int), some attrs), writeBack l buf)

/-- Go: `parseUrlOrRefName`; the result is `(rest, title, urlOrRefName)`. -/
def parseUrlOrRefName (l : Bytes) : Option (Bytes × Bytes × Bytes) :=
  if l.length < 4 then none
  else
    match extractInside l 34 34 with  -- '"'
    | none => none
    | some (l, title) =>
      if !startsWithByte l 58 1 then none  -- ':'
      else
        let (rest, urlOrRefName) := extractUrlOrRefName (l.drop 1)
        some (rest, title, urlOrRefName)

/-- Go: `startsWith`; `none` for `nil`. -/
def startsWith (l pre : Bytes) : Option Bytes :=
  if hasPrefix l pre then some (l.drop pre.length) else none

def parseNoTextile (l : Bytes) : Option Bytes := startsWith l (ascii "notextile. ")

def parseBlockQuote (l : Bytes) : Option Bytes := startsWith l (ascii "bq. ")

/-- Go: `parseP`; the result is `(rest, attrs)`, `none` when `rest` is `nil`, paired
with the contents of `l` after the call. -/
def parseP (l : Bytes) : Except Stop (Option (Bytes × AttributesOpt) × Bytes) :=
  if !startsWithByte l 112 3 then .ok (none, l)  -- 'p'
  else
    match parseAttributesOpt (l.drop 1) with
    | .error e => .error e
    | .ok ((l1, attrs), buf) =>
      if l1.length < 2 || l1.getD 0 0 ≠ 46 || l1.getD 1 0 ≠ 32 then  -- '.', ' '
        .ok (none, writeBack l buf)
      else .ok (some (l1.drop 2, attrs), writeBack l buf)

/-- The loop of `parseOl` and `parseUl` for the marker `m`, at index `level` with
`l[level:]` left to read; the result is `(rest, level)`, `none` when `rest` is `nil`. -/
def parseListLoop (m : Nat) (l : Bytes) : Nat → Bytes → Option (Bytes × Nat)
  | _, [] => none
  | level, c :: t =>
    if c ≠ m then
      if c = 32 && level > 0 then some (l.drop (level + 1), level)  -- ' '
      else none
    else parseListLoop m l (level + 1) t

def parseOl (l : Bytes) : Option (Bytes × Nat) := parseListLoop 35 l 0 l  -- '#'

def parseUl (l : Bytes) : Option (Bytes × Nat) := parseListLoop 42 l 0 l  -- '*'

/-! ## Serialisation -/

/-- Go: `p.out.Write(s)`, `p.out.WriteString(s)`, `p.out.WriteByte(b)`. -/
def write (p : TextileParser) (s : Bytes) : TextileParser :=
  { p with out := p.out ++ s }

/-- Go: `needsHtmlCodeEscaping`; `none` for `nil`. -/
def needsHtmlCodeEscaping (b : Nat) : Option Bytes :=
  if b = 38 then some (ascii "&amp;")  -- '&'
  else if b = 60 then some (ascii "&lt;")  -- '<'
  else if b = 62 then some (ascii "&gt;")  -- '>'
  else none

/-- Go: `needsEscaping`; `none` for `nil`. -/
def needsEscaping (b : Nat) : Option Bytes :=
  if b = 39 then some (ascii "&#8217;")  -- '\''
  else none

def serEscaped (p : TextileParser) : Bytes → TextileParser
  | [] => p
  | b :: t =>
    match needsEscaping b with
    | some esc => serEscaped (write p esc) t
    | none => serEscaped (write p [b]) t

def serAsHtmlCode (p : TextileParser) : Bytes → TextileParser
  | [] => p
  | b :: t =>
    match needsHtmlCodeEscaping b with
    | some esc => serAsHtmlCode (write p esc) t
    | none => serAsHtmlCode (write p [b]) t

def serEscapedInContext (p : TextileParser) (l : Bytes) : TextileParser :=
  if inHtmlCode p || inHtmlPre p then serAsHtmlCode p l else serEscaped p l

def serTagStartWithOptClass (p : TextileParser) (tag : Bytes) («class» : Option Bytes) :
    TextileParser :=
  let p := write p [60]  -- '<'
  let p := write p tag
  match «class» with
  | none => write p [62]  -- '>'
  | some c => write p (ascii " class=\"" ++ c ++ ascii "\">")

def serTagStartWithOptStyle (p : TextileParser) (tag : Bytes) (style : Option Bytes) :
    TextileParser :=
  let p := write p [60]  -- '<'
  let p := write p tag
  match style with
  | none => write p [62]  -- '>'
  | some s => write p (ascii " style=\"" ++ s ++ ascii "\">")

def serTagEnd (p : TextileParser) (tag : Bytes) : TextileParser :=
  let p := write p (ascii "</")
  let p := write p tag
  write p [62]  -- '>'

/-- Go: `serClassOrIdOpt`. -/
def serClassOrIdOpt (s : Option Bytes) : Bytes :=
  match s with
  | none => []
  | some s =>
    if s.length = 0 then []
    else
      match indexByte s 35 with  -- '#'
      | none => ascii " class=\"" ++ s ++ ascii "\""
      | some idx =>
        if 0 = idx then ascii " id=\"" ++ s.drop 1 ++ ascii "\""
        else ascii " class=\"" ++ s.take idx ++ ascii "\" id=\"" ++ s.drop (idx + 1) ++ ascii "\""

/-- The loop of `prettyPrintStyle`, with `res` and `state` so far. -/
def prettyPrintStyleLoop : Bytes → Nat → Bytes → Bytes
  | res, _, [] => res
  | res, state, b :: t =>
    if state = 0 then
      let res := res ++ [b]
      if b = 59 then prettyPrintStyleLoop res 1 t  -- ';'
      else prettyPrintStyleLoop res state t
    else
      if b ≠ 32 then  -- ' '
        let res := res ++ [32]
        let res := res ++ [b]
        prettyPrintStyleLoop res 0 t
      else prettyPrintStyleLoop res state t

def prettyPrintStyle (s : Bytes) : Bytes :=
  let res := prettyPrintStyleLoop [] 0 s
  if !endsWithByte res 59 then res ++ [59] else res  -- ';'

def serStyleOpt (s : Option Bytes) : Bytes :=
  match s with
  | none => []
  | some s =>
    if s.length = 0 then []
    else
      let s := prettyPrintStyle s
      ascii " style=\"" ++ s ++ ascii "\""

def serLangOpt (s : Option Bytes) : Bytes :=
  match s with
  | none => []
  | some s =>
    if s.length = 0 then []
    else ascii " lang=\"" ++ s ++ ascii "\""

def serAttributesOpt (attrs : Option AttributesOpt) : Bytes :=
  match attrs with
  | none => []
  | some attrs =>
    let s1 := serClassOrIdOpt attrs.«class»
    let s2 := serStyleOpt attrs.style
    let s3 := serLangOpt attrs.lang
    s1 ++ s2 ++ s3

def serNoTextile (p : TextileParser) (s : Bytes) : TextileParser := write p s

def serP (p : TextileParser) (s : Bytes) (attrs : Option AttributesOpt) : TextileParser :=
  let attrsStr := serAttributesOpt attrs
  write p (ascii "\t<p" ++ attrsStr ++ ascii ">" ++ s ++ ascii "</p>")

def serBlockQuote (p : TextileParser) (s : Bytes) : TextileParser :=
  let p := write p (ascii "\t<blockquote>\n\t")
  let p := serP p s none
  write p (ascii "\n\t</blockquote>")

def serH (p : TextileParser) (rest : Bytes) (n : Int) (attrs : Option AttributesOpt) :
    TextileParser :=
  let s := serAttributesOpt attrs
  let p := write p (ascii "\t<h" ++ decimal n ++ s ++ ascii ">")
  let p := write p rest
  write p (ascii "</h" ++ decimal n ++ ascii ">")

/-- The loop of `closeOlIfNecessary`. -/
def closeOlLoop : Nat → TextileParser → Except Stop TextileParser
  | 0, _ => .error .outOfFuel
  | fuel + 1, p =>
    if p.olLevel > 0 then
      let p := { p with olLevel := p.olLevel - 1 }
      let p := write p (ascii "</li>\n")
      let p := write p (ascii "\t</ol>")
      closeOlLoop fuel p
    else .ok p

/-- Go: `closeOlIfNecessary`. Every turn of the loop but the last lowers `olLevel`. -/
def closeOlIfNecessary (p : TextileParser) : Except Stop TextileParser :=
  closeOlLoop (p.olLevel.toNat + 1) p

/-- The loop of `closeUlIfNecessary`. -/
def closeUlLoop : Nat → TextileParser → Except Stop TextileParser
  | 0, _ => .error .outOfFuel
  | fuel + 1, p =>
    if p.ulLevel > 0 then
      let p := { p with ulLevel := p.ulLevel - 1 }
      let p := write p (ascii "</li>\n")
      let p := write p (ascii "\t</ul>")
      closeUlLoop fuel p
    else .ok p

/-- Go: `closeUlIfNecessary`. Every turn of the loop but the last lowers `ulLevel`. -/
def closeUlIfNecessary (p : TextileParser) : Except Stop TextileParser :=
  closeUlLoop (p.ulLevel.toNat + 1) p

/-- The loop `for n > 0` of `serOl` and `serUl`, writing `s` each turn. -/
def openListLoop (s : Bytes) : Nat → Int → TextileParser → Except Stop TextileParser
  | 0, _, _ => .error .outOfFuel
  | fuel + 1, n, p =>
    if n > 0 then openListLoop s fuel (n - 1) (write p s)
    else .ok p

/-! ## Inline scanner -/

section Inline

variable (tags : List Bytes) (rec : TextileParser → Bytes → Except Stop TextileParser)

/-- Go: `serHtmlRaw`. -/
def serHtmlRaw (p : TextileParser) (before htmlRaw rest : Bytes) : Except Stop TextileParser :=
  let p := serEscaped p before
  let p := write p htmlRaw
  rec p rest

/-- Go: `serTag`; `rec` is `parseInline`. -/
def serTag (p : TextileParser) (tag before inside rest : Bytes) : Except Stop TextileParser :=
  let p := serEscaped p before
  let p := serTagStartWithOptClass p tag none
  match rec p inside with
  | .error e => .error e
  | .ok p =>
    let p := serTagEnd p tag
    rec p rest

/-- Go: `serTagWithOptClass`; `rec` is `parseInline`. -/
def serTagWithOptClass (p : TextileParser) (tag before inside : Bytes)
    («class» : Option Bytes) (rest : Bytes) : Except Stop TextileParser :=
  let p := write p before
  let p := serTagStartWithOptClass p tag «class»
  match rec p inside with
  | .error e => .error e
  | .ok p =>
    let p := serTagEnd p tag
    rec p rest

/-- Go: `serTagWithOptStyle`; `rec` is `parseInline`. -/
def serTagWithOptStyle (p : TextileParser) (tag before inside : Bytes)
    (style : Option Bytes) (rest : Bytes) : Except Stop TextileParser :=
  let p := serEscaped p before
  let p := serTagStartWithOptStyle p tag style
  match rec p inside with
  | .error e => .error e
  | .ok p =>
    let p := serTagEnd p tag
    rec p rest

/-- Go: `serSpan`; `rec` is `parseInline`. -/
def serSpan (p : TextileParser) (before inside : Bytes) (attrs : Option AttributesOpt)
    (rest : Bytes) : Except Stop TextileParser :=
  let p := serEscaped p before
  let attrsStr := serAttributesOpt attrs
  let p := write p (ascii "<span" ++ attrsStr ++ ascii ">")
  match rec p inside with
  | .error e => .error e
  | .ok p =>
    let p := write p (ascii "</span>")
    rec p rest

/-- Go: `serUrl`; `rec` is `parseInline`. -/
def serUrl (p : TextileParser) (before title url rest : Bytes) : Except Stop TextileParser :=
  let p := serEscaped p before
  let p := write p (ascii "<a href=\"" ++ url ++ ascii "\">")
  let p := serEscaped p title
  let p := write p (ascii "</a>")
  rec p rest

/-- Go: `serCode`; `rec` is `parseInline`. -/
def serCode (p : TextileParser) (before inside rest : Bytes) : Except Stop TextileParser :=
  let p := serEscaped p before
  let p := write p (ascii "<code>" ++ inside ++ ascii "</code>")
  rec p rest

/-- Go: `serImg`; `rec` is `parseInline`. -/
def serImg (p : TextileParser) (before imgSrc alt : Bytes) (style : Nat) (url rest : Bytes) :
    Except Stop TextileParser :=
  let p := serEscaped p before
  let p := if url.length > 0 then write p (ascii "<a href=\"" ++ url ++ ascii "\" class=\"img\">")
    else p
  let altStr := alt
  let styleStr := if style = STYLE_FLOAT_RIGHT then ascii " style=\"float: right;\"" else []
  let p := if alt.length > 0 then
      write p (ascii "<img src=\"" ++ imgSrc ++ ascii "\"" ++ styleStr ++ ascii " title=\"" ++ altStr
        ++ ascii "\" alt=\"" ++ altStr ++ ascii "\">")
    else write p (ascii "<img src=\"" ++ imgSrc ++ ascii "\"" ++ styleStr ++ ascii " alt=\"\">")
  let p := if url.length > 0 then write p (ascii "</a>") else p
  rec p rest

/-- The `for` loop of `parseInline` at index `i`, with `n` bytes of `l` left to visit;
`rec` is `parseInline` for the recursive calls. A sub-parser that fails after
`extractStyleOpt` has written into `l[i:]` leaves the loop with the rewritten `l`. -/
def parseInlineLoop (p : TextileParser) : Bytes → Nat → Nat → Except Stop TextileParser
  | l, _, 0 => .ok (serEscaped p l)
  | l, i, n + 1 =>
    let b := l.getD i 0
    if b = 95 then  -- '_'
      match parseItalic (l.drop i) with
      | some (rest, inside) => serTag rec p (ascii "i") (l.take i) inside rest
      | none =>
        match parseEmWithOptClass (l.drop i) with
        | some (rest, inside, cls) =>
          serTagWithOptClass rec p (ascii "em") (l.take i) inside cls rest
        | none => parseInlineLoop p l (i + 1) n
    else if b = 42 then  -- '*'
      match parseBold (l.drop i) with
      | some (rest, inside) => serTag rec p (ascii "b") (l.take i) inside rest
      | none =>
        match parseStrongWithOptStyle (l.drop i) with
        | (some (rest, inside, style), _) =>
          serTagWithOptStyle rec p (ascii "strong") (l.take i) inside style rest
        | (none, li) => parseInlineLoop p (writeBack l li) (i + 1) n
    else if b = 34 then  -- '"'
      match parseUrlOrRefName (l.drop i) with
      | some (rest, title, urlOrRefName) =>
        let url := match mapGet p.refs urlOrRefName with
          | some urlRef => urlRef.url
          | none => urlOrRefName
        serUrl rec p (l.take i) title url rest
      | none => parseInlineLoop p l (i + 1) n
    else if b = 33 then  -- '!'
      match parseImg (l.drop i) with
      | some (rest, url, imgSrc, alt, style) => serImg rec p (l.take i) imgSrc alt style url rest
      | none => parseInlineLoop p l (i + 1) n
    else if b = 64 then  -- '@'
      match parseCode (l.drop i) with
      | some (rest, inside) => serCode rec p (l.take i) inside rest
      | none => parseInlineLoop p l (i + 1) n
    else if b = 37 then  -- '%'
      match parseSpan (l.drop i) with
      | .error e => .error e
      | .ok (some (rest, inside, attrs), _) => serSpan rec p (l.take i) inside (some attrs) rest
      | .ok (none, li) => parseInlineLoop p (writeBack l li) (i + 1) n
    else if b = 60 then  -- '<'
      match parseHtml tags (l.drop i) with
      | some (rest, html, _, _) =>
        match rec p (l.take i) with
        | .error e => .error e
        | .ok p =>
          let p := serEscapedInContext p html
          rec p rest
      | none => parseInlineLoop p l (i + 1) n
    else if b = 63 then  -- '?'
      match parseCite (l.drop i) with
      | some (rest, inside) => serTag rec p (ascii "cite") (l.take i) inside rest
      | none => parseInlineLoop p l (i + 1) n
    else if b = 45 then  -- '-'
      match parseDel (l.drop i) with
      | some (rest, inside) => serTag rec p (ascii "del") (l.take i) inside rest
      | none => parseInlineLoop p l (i + 1) n
    else if b = 43 then  -- '+'
      match parseIns (l.drop i) with
      | some (rest, inside) => serTag rec p (ascii "ins") (l.take i) inside rest
      | none => parseInlineLoop p l (i + 1) n
    else if b = 94 then  -- '^'
      match parseSup (l.drop i) with
      | some (rest, inside) => serTag rec p (ascii "sup") (l.take i) inside rest
      | none => parseInlineLoop p l (i + 1) n
    else if b = 126 then  -- '~'
      match parseSub (l.drop i) with
      | some (rest, inside) => serTag rec p (ascii "sub") (l.take i) inside rest
      | none => parseInlineLoop p l (i + 1) n
    else parseInlineLoop p l (i + 1) n

end Inline

/-- Go: `parseInline`. Each recursive call is on a slice shorter than `l`, and takes one
unit of fuel. -/
def parseInlineFuel (tags : List Bytes) : Nat → TextileParser → Bytes → Except Stop TextileParser
  | 0, _, _ => .error .outOfFuel
  | fuel + 1, p, l => parseInlineLoop tags (parseInlineFuel tags fuel) p l 0 l.length

/-- Go: `parseInline`, with fuel for the longest chain of recursive calls on `l`. -/
def parseInline (tags : List Bytes) (p : TextileParser) (l : Bytes) : Except Stop TextileParser :=
  parseInlineFuel tags (l.length + 1) p l

/-- Go: `serOl`. -/
def serOl (tags : List Bytes) (p : TextileParser) (l : Bytes) (level : Int) :
    Except Stop TextileParser :=
  let p := if p.olLevel > 0 then write p (ascii "</li>\n") else p
  let opened : Except Stop TextileParser :=
    if level > p.olLevel then
      let n := level - p.olLevel
      openListLoop (ascii "\t<ol>\n") (n.toNat + 1) n p
    else .ok p
  match opened with
  | .error e => .error e
  | .ok p =>
    let p := { p with olLevel := level }
    let p := write p (ascii "\t\t<li>")
    parseInline tags p l

/-- Go: `serUl`. -/
def serUl (tags : List Bytes) (p : TextileParser) (l : Bytes) (level : Int) :
    Except Stop TextileParser :=
  let p := if p.ulLevel > 0 then write p (ascii "</li>\n") else p
  let opened : Except Stop TextileParser :=
    if level > p.ulLevel then
      let n := level - p.ulLevel
      openListLoop (ascii "\t<ul>\n") (n.toNat + 1) n p
    else .ok p
  match opened with
  | .error e => .error e
  | .ok p =>
    let p := { p with ulLevel := level }
    let p := write p (ascii "\t\t<li>")
    parseInline tags p l

/-! ## Block dispatcher -/

def startNewLine (p : TextileParser) : TextileParser :=
  if inHtmlBlock p then
    if p.blockLineNo > 1 then write p (ascii "\n") else p
  else if !p.inP then
    let p := write p (ascii "\t<p>")
    { p with inP := true }
  else
    if isXhtml p.r then write p (ascii "<br />\n")
    else write p (ascii "<br>\n")

def closeP (p : TextileParser) : TextileParser :=
  let p := if p.inP then { write p (ascii "</p>") with inP := false } else p
  write p (ascii "\n\n")

/-- The statements of `parseBlock` after its `switch`. -/
def parseBlockDefault (tags : List Bytes) (p : TextileParser) (l : Bytes) :
    Except Stop TextileParser :=
  match closeOlIfNecessary p with
  | .error e => .error e
  | .ok p =>
    match closeUlIfNecessary p with
    | .error e => .error e
    | .ok p =>
      if inHtmlCode p then
        let p := startNewLine p
        .ok (serAsHtmlCode p l)
      else
        let p := startNewLine p
        parseInline tags p l

/-- Go: `parseBlock`. A case of the `switch` that does not return goes on to the
statements after it, with `l` as `parseH` or `parseP` left it. -/
def parseBlock (tags : List Bytes) (p : TextileParser) (l : Bytes) : Except Stop TextileParser :=
  if l.length = 0 then
    let p := closeP p
    .ok { p with blockLineNo := 0 }
  else
    let p := { p with blockLineNo := p.blockLineNo + 1 }
    let b := l.getD 0 0
    if b = 104 then  -- 'h'
      match parseH l with
      | .error e => .error e
      | .ok ((rest, n, attrs), l) =>
        if n ≠ -1 then .ok (serH p rest n attrs)
        else parseBlockDefault tags p l
    else if b = 60 then  -- '<'
      match parseHtml tags l with
      | some (rest, html, tag, startTag) =>
        let tagStr := tag
        let p := if startTag then pushBlockTag p tagStr else p
        let p := startNewLine p
        match serHtmlRaw (parseInline tags) p [] html rest with
        | .error e => .error e
        | .ok p =>
          let p := if !startTag then (popBlockTag p tagStr).1 else p
          .ok p
      | none => parseBlockDefault tags p l
    else if b = 110 then  -- 'n'
      match parseNoTextile l with
      | some rest => .ok (serNoTextile p rest)
      | none => parseBlockDefault tags p l
    else if b = 112 then  -- 'p'
      match parseP l with
      | .error e => .error e
      | .ok (some (rest, attrs), _) => .ok (serP p rest (some attrs))
      | .ok (none, l) => parseBlockDefault tags p l
    else if b = 98 then  -- 'b'
      match parseBlockQuote l with
      | some rest => .ok (serBlockQuote p rest)
      | none => parseBlockDefault tags p l
    else if b = 35 then  -- '#'
      match parseOl l with
      | some (rest, level) => serOl tags p rest level
      | none => parseBlockDefault tags p l
    else if b = 42 then  -- '*'
      match parseUl l with
      | some (rest, level) => serUl tags p rest level
      | none => parseBlockDefault tags p l
    else parseBlockDefault tags p l

/-- The loop of `toHtml` over the lines. -/
def parseBlocks (tags : List Bytes) : TextileParser → List Bytes → Except Stop TextileParser
  | p, [] => .ok p
  | p, l :: ls =>
    match parseBlock tags p l with
    | .error e => .error e
    | .ok p => parseBlocks tags p ls

/-- Go: `bytes.TrimRight(s, "\n")`. -/
def trimRightNewlines (s : Bytes) : Bytes :=
  (s.reverse.dropWhile (fun b => b = 10)).reverse

/-- Go: `toHtml`. -/
def toHtml (tags : List Bytes) (p : TextileParser) (d : Bytes) : Except Stop Bytes :=
  match splitIntoLines d with
  | .error e => .error e
  | .ok lines =>
    let (p, lines) := firstPass p lines
    match parseBlocks tags p lines with
    | .error e => .error e
    | .ok p =>
      match closeOlIfNecessary p with
      | .error e => .error e
      | .ok p =>
        match closeUlIfNecessary p with
        | .error e => .error e
        | .ok p =>
          let p := closeP p
          let res := p.out
          .ok (trimRightNewlines res)

def NewParserWithRenderer (isXhtml : Bool) : TextileParser :=
  let r : TextileRenderer := { flags := 0 }
  let r := if isXhtml then { r with flags := RENDERER_XHTML } else r
  NewTextileParser r

def ToHtml (tags : List Bytes) (d : Bytes) (dumpLines dumpParagraphs : Bool) : Except Stop Bytes :=
  let p := NewParserWithRenderer false
  let p := { p with dumpLines := dumpLines }
  let p := { p with dumpParagraphs := dumpParagraphs }
  toHtml tags p d

def ToXhtml (tags : List Bytes) (d : Bytes) (dumpLines dumpParagraphs : Bool) : Except Stop Bytes :=
  let p := NewParserWithRenderer true
  let p := { p with dumpLines := dumpLines }
  let p := { p with dumpParagraphs := dumpParagraphs }
  toHtml tags p d


/-! ## Memory-level model

The functions of `textile.go` once more, this time over the backing array of the input,
for the claims about index and slice bounds.

* `mem` is the backing array of the input `d`, from the first byte of `d` to the end of
  its capacity. A non-nil byte slice of the input is a `Slice`: an offset into `mem` and
  a length. A slice that may be `nil` is an `Option Slice`.
* `s[i]` is `Slice.index`, which faults unless `i < len(s)`; `s[a:b]` is `Slice.slice`,
  which faults unless `a ≤ b ≤ len(s)`. Go checks `b` against the capacity of `s`, which
  is no smaller than its length. A fault is `Stop.outOfRange`.
* `append` to a slice of the input writes into `mem` when the bytes fit between the end
  of the slice and the end of `mem`, and gives a fresh array otherwise, as in Go.
* A `for` loop over an index range runs once per index; the other loops take fuel and
  stop with `Stop.outOfFuel` when it is used up.
-/

namespace Mem

/-- A non-nil byte slice of the input: `len` bytes of the backing array from `off`. -/
structure Slice where
  off : Nat
  len : Nat
  deriving DecidableEq, Repr

/-- The contents of `s`. -/
def Slice.bytes (mem : Bytes) (s : Slice) : Bytes := (mem.drop s.off).take s.len

/-- Go: `s[i]`. -/
def Slice.index (mem : Bytes) (s : Slice) (i : Nat) : Except Stop Nat :=
  if i < s.len then .ok (mem.getD (s.off + i) 0) else .error .outOfRange

/-- Go: `s[a:b]`. -/
def Slice.slice (s : Slice) (a b : Nat) : Except Stop Slice :=
  if a ≤ b ∧ b ≤ s.len then .ok { off := s.off + a, len := b - a } else .error .outOfRange

/-- Go: `s[a:]`. -/
def Slice.sliceFrom (s : Slice) (a : Nat) : Except Stop Slice := s.slice a s.len

/-- Go: `s[:b]`. -/
def Slice.sliceTo (s : Slice) (b : Nat) : Except Stop Slice := s.slice 0 b

/-- Go: `for i := a; i < n; i++ { body }` with `k = n - a` turns left, for a body that
either returns from the function (`some`) or goes on to the next turn (`none`). -/
def forIndex {α : Type} (body : Nat → Except Stop (Option α)) :
    Nat → Nat → Except Stop (Option α)
  | _, 0 => .ok none
  | i, k + 1 =>
    match body i with
    | .error e => .error e
    | .ok (some r) => .ok (some r)
    | .ok none => forIndex body (i + 1) k

/-- The computation `x` returns, and what it returns satisfies `P`. -/
def Returns {α : Type} (x : Except Stop α) (P : α → Prop) : Prop :=
  ∃ r, x = .ok r ∧ P r

/-- The length of a slice that may be `nil`, plus one; zero for `nil`. -/
def lenOpt : Option Slice → Nat
  | none => 0
  | some s => s.len + 1

def startsWithByte (mem : Bytes) (s : Slice) (b : Nat) (minLen : Nat) : Except Stop Bool :=
  if s.len ≥ minLen then do
    let c ← s.index mem 0
    pure (c = b)
  else pure false

/-! ### Line splitter -/

/-- Go: `extractLine`. -/
def extractLine (mem : Bytes) (d : Option Slice) : Except Stop (Option Slice × Option Slice) :=
  match d with
  | none => pure (none, none)
  | some d =>
    if d.len = 0 then pure (none, none)
    else do
      let found ← forIndex (fun i => do
        let c ← d.index mem i
        if c = cr ∨ c = lf then pure (some (i, decide (c = cr))) else pure none) 0 d.len
      match found with
      | none => pure (some d, none)
      | some (pos, wasCr) => do
        let line ← d.sliceTo pos
        let rest ← d.sliceFrom (pos + 1)
        if wasCr ∧ rest.len > 0 then do
          let c ← rest.index mem 0
          if c = lf then do
            let rest ← rest.sliceFrom 1
            pure (some line, some rest)
          else pure (some line, some rest)
        else pure (some line, some rest)

/-- The `for` loop of `splitIntoLines`. -/
def splitIntoLinesLoop (mem : Bytes) :
    Nat → Option Slice → List Slice → Except Stop (List Slice)
  | 0, _, _ => .error .outOfFuel
  | fuel + 1, d, res => do
    let (l, d) ← extractLine mem d
    match l with
    | none => pure res
    | some l => splitIntoLinesLoop mem fuel d (res ++ [l])

/-- Go: `splitIntoLines`. Every turn of the loop but the last two removes a byte of
`d`. -/
def splitIntoLines (mem : Bytes) (d : Slice) : Except Stop (List Slice) :=
  splitIntoLinesLoop mem (d.len + 2) (some d) []

/-! ### Inline sub-parsers -/

/-- Go: `extractUntil`; the result is `(rest, inside)`. -/
def extractUntil (mem : Bytes) (l : Slice) (c : Nat) : Except Stop (Option (Slice × Slice)) :=
  match indexByte (l.bytes mem) c with
  | none => pure none
  | some idx => do
    let rest ← l.sliceFrom (idx + 1)
    let inside ← l.sliceTo idx
    pure (some (rest, inside))

/-- Go: `extractInside`; the result is `(rest, inside)`. -/
def extractInside (mem : Bytes) (l : Slice) (start «end» : Nat) :
    Except Stop (Option (Slice × Slice)) :=
  if l.len = 0 then pure none
  else do
    let c ← l.index mem 0
    if c ≠ start then pure none
    else do
      let l1 ← l.sliceFrom 1
      match ← extractUntil mem l1 «end» with
      | none => pure none
      | some (rest, inside) => pure (some (rest, inside))

end Mem

namespace Mem

/-! ### HTML tags -/

/-- Go: `parseStartTag`; the result is `(rest, html, tag)`, `none` for `nil, nil, nil`. -/
def parseStartTag (tags : List Bytes) (mem : Bytes) (l : Slice) :
    Except Stop (Option (Slice × Slice × Slice)) := do
  if !(← startsWithByte mem l 60 3) then pure none  -- '<'
  else
    match indexByte (l.bytes mem) 62 with  -- '>'
    | none => pure none
    | some htmlEnd => do
      let html ← l.sliceTo (htmlEnd + 1)
      let tagEnd := match indexByte (l.bytes mem) 32 with  -- ' '
        | none => htmlEnd
        | some tagEnd => tagEnd
      let tag ← l.slice 1 tagEnd
      if !isValidTag tags (tag.bytes mem) then pure none
      else do
        let rest ← l.sliceFrom (htmlEnd + 1)
        pure (some (rest, html, tag))

/-- Go: `parseEndTag`; the result is `(rest, html, tag)`, `none` for `nil, nil, nil`. -/
def parseEndTag (tags : List Bytes) (mem : Bytes) (l : Slice) :
    Except Stop (Option (Slice × Slice × Slice)) := do
  if !(← startsWithByte mem l 60 4) then pure none  -- '<'
  else do
    let c ← l.index mem 1
    if c ≠ 47 then pure none  -- '/'
    else
      match indexByte (l.bytes mem) 62 with  -- '>'
      | none => pure none
      | some htmlEnd => do
        let tag ← l.slice 2 htmlEnd
        if !isValidTag tags (tag.bytes mem) then pure none
        else do
          let rest ← l.sliceFrom (htmlEnd + 1)
          let html ← l.sliceTo (htmlEnd + 1)
          pure (some (rest, html, tag))

/-- Go: `parseHtml`; the result is `(rest, html, tag, start)`, `none` when `rest` is `nil`. -/
def parseHtml (tags : List Bytes) (mem : Bytes) (l : Slice) :
    Except Stop (Option (Slice × Slice × Slice × Bool)) := do
  match ← parseEndTag tags mem l with
  | some (rest, html, tag) => pure (some (rest, html, tag, false))
  | none =>
    match ← parseStartTag tags mem l with
    | some (rest, html, tag) => pure (some (rest, html, tag, true))
    | none => pure none

/-! ### Links and images -/

/-- Go: `extractUrlOrRefName`; the result is `(rest, urlOrRef)`. -/
def extractUrlOrRefName (mem : Bytes) (l : Slice) : Except Stop (Slice × Slice) := do
  let found ← forIndex (fun i => do
    let c ← l.index mem i
    if isUrlEnd c then do
      let rest ← l.sliceFrom i
      let urlOrRef ← l.sliceTo i
      pure (some (rest, urlOrRef))
    else pure none) 0 l.len
  match found with
  | some r => pure r
  | none => do
    let rest ← l.slice 0 0
    pure (rest, l)

/-- The part of `parseImg` after the optional `>`: `(imgSrc, alt, l)`, `none` where the
source returns `nil`. -/
def parseImgParts (mem : Bytes) (l : Slice) : Except Stop (Option (Slice × Slice × Slice)) :=
  match indexByte (l.bytes mem) 40 with  -- '('
  | some endIdx => do
    let imgSrc ← l.sliceTo endIdx
    let l ← l.sliceFrom (endIdx + 1)
    match indexByte (l.bytes mem) 41 with  -- ')'
    | none => pure none
    | some endIdx => do
      let alt ← l.sliceTo endIdx
      let l ← l.sliceFrom (endIdx + 1)
      if l.len < 1 then pure none
      else do
        let c ← l.index mem 0
        if c ≠ 33 then pure none  -- '!'
        else do
          let l ← l.sliceFrom 1
          pure (some (imgSrc, alt, l))
  | none =>
    match indexByte (l.bytes mem) 33 with  -- '!'
    | none => pure none
    | some endIdx => do
      let imgSrc ← l.sliceTo endIdx
      let l ← l.sliceFrom (endIdx + 1)
      let alt ← l.slice 0 0
      pure (some (imgSrc, alt, l))

/-- Go: `parseImg`; the result is `(rest, url, imgSrc, alt, style)`, `none` when `rest`
is `nil`; `url` is `none` when it is `nil`. -/
def parseImg (mem : Bytes) (l : Slice) :
    Except Stop (Option (Slice × Option Slice × Slice × Slice × Nat)) :=
  if l.len < 3 then pure none
  else do
    let c ← l.index mem 0
    if c ≠ 33 then pure none  -- '!'
    else do
      let l ← l.sliceFrom 1
      let c ← l.index mem 0
      let (style, l) ← (if c = 62 then do  -- '>'
          let l ← l.sliceFrom 1
          pure (STYLE_FLOAT_RIGHT, l)
        else pure (0, l) : Except Stop (Nat × Slice))
      match ← parseImgParts mem l with
      | none => pure none
      | some (imgSrc, alt, l) =>
        if l.len > 0 then do
          let c ← l.index mem 0
          if c = 58 then do  -- ':'
            let l1 ← l.sliceFrom 1
            let (l, url) ← extractUrlOrRefName mem l1
            pure (some (l, some url, imgSrc, alt, style))
          else pure (some (l, none, imgSrc, alt, style))
        else pure (some (l, none, imgSrc, alt, style))

/-! ### Attributes -/

/-- Go: `countRepeatedChars`; the result is `(rest, n)`. -/
def countRepeatedChars (mem : Bytes) (l : Slice) (c : Nat) : Except Stop (Slice × Nat) := do
  let found ← forIndex (fun n => do
    let b ← l.index mem n
    if b ≠ c then do
      let rest ← l.sliceFrom n
      pure (some (rest, n))
    else pure none) 0 l.len
  match found with
  | some r => pure r
  | none => do
    let rest ← l.slice 0 0
    pure (rest, l.len)

/-- The loop of `parseStyle`. Every turn that does not leave the loop removes a byte of
`l`. -/
def parseStyleLoop (mem : Bytes) : Nat → Slice → PaddingInfo → Except Stop (Slice × PaddingInfo)
  | 0, _, _ => .error .outOfFuel
  | fuel + 1, l, pi =>
    if l.len > 0 then do
      let c ← l.index mem 0
      if c = 60 then  -- '<'
        if l.len > 1 then do
          let c1 ← l.index mem 1
          if c1 = 62 then do  -- '>'
            let l ← l.sliceFrom 2
            parseStyleLoop mem fuel l { pi with alignJustify := true }
          else do
            let l ← l.sliceFrom 1
            parseStyleLoop mem fuel l { pi with alignLeft := true }
        else do
          let l ← l.sliceFrom 1
          parseStyleLoop mem fuel l { pi with alignLeft := true }
      else if c = 62 then do  -- '>'
        let l ← l.sliceFrom 1
        parseStyleLoop mem fuel l { pi with alignRight := true }
      else if c = 61 then do  -- '='
        let l ← l.sliceFrom 1
        parseStyleLoop mem fuel l { pi with alignCenter := true }
      else if c = 40 then do  -- '('
        let (l, n) ← countRepeatedChars mem l 40
        parseStyleLoop mem fuel l { pi with paddingLeft := n }
      else if c = 41 then do  -- ')'
        let (l, n) ← countRepeatedChars mem l 41
        parseStyleLoop mem fuel l { pi with paddingRight := n }
      else pure (l, pi)
    else pure (l, pi)

/-- Go: `parseStyle`; the result is `(rest, style)`; `style` is a new array. -/
def parseStyle (mem : Bytes) (l : Slice) : Except Stop (Slice × Option Bytes) := do
  let (l, pi) ← parseStyleLoop mem (l.len + 1) l {}
  pure (l, formatPaddingInfo pi)

/-- A byte slice that is either a slice of the input or an array of its own. -/
inductive Data where
  | inMem (s : Slice)
  | fresh (b : Bytes)
  deriving DecidableEq, Repr

def Data.len : Data → Nat
  | .inMem s => s.len
  | .fresh b => b.length

def Data.bytes (mem : Bytes) : Data → Bytes
  | .inMem s => s.bytes mem
  | .fresh b => b

/-- Go: `s[i]`. -/
def Data.index (mem : Bytes) (s : Data) (i : Nat) : Except Stop Nat :=
  match s with
  | .inMem s => s.index mem i
  | .fresh b => if i < b.length then .ok (b.getD i 0) else .error .outOfRange

/-- The array `mem` with the bytes `x` written from index `pos`. -/
def overwrite (mem : Bytes) (pos : Nat) (x : Bytes) : Bytes :=
  mem.take pos ++ x ++ mem.drop (pos + x.length)

/-- Go: `append(s, x...)`: the array afterwards and the result. The capacity of a slice
of the input reaches to the end of `mem`; when `x` fits it is written after the last
byte of `s`, over what was there. -/
def append (mem : Bytes) (s : Data) (x : Bytes) : Bytes × Data :=
  match s with
  | .fresh b => (mem, .fresh (b ++ x))
  | .inMem s =>
    if s.off + s.len + x.length ≤ mem.length then
      (overwrite mem (s.off + s.len) x, .inMem { off := s.off, len := s.len + x.length })
    else (mem, .fresh (s.bytes mem ++ x))

/-- Go: `byteConcat`; `b2` is the style text, an array of its own. -/
def byteConcat (mem : Bytes) (b1 : Option Data) (b2 : Option Bytes) : Bytes × Option Data :=
  match b1, b2 with
  | none, none => (mem, none)
  | none, some b2 => (mem, some (.fresh b2))
  | some b1, none => (mem, some b1)
  | some b1, some b2 =>
    let (mem, r) := append mem b1 b2
    (mem, some r)

structure AttributesOpt where
  «class» : Option Slice := none
  style : Option Data := none
  lang : Option Slice := none
  deriving DecidableEq, Repr

/-- Go: `extractClassOpt`; the result is `(rest, classOpt)`. -/
def extractClassOpt (mem : Bytes) (l : Slice) : Except Stop (Slice × Option Slice) := do
  if !(← startsWithByte mem l 40 3) then pure (l, none)  -- '('
  else do
    let c ← l.index mem 1
    if c = 41 then pure (l, none)  -- ')'
    else do
      let found ← forIndex (fun i => do
        let c ← l.index mem i
        if !isClassChar c then
          if c = 41 then do  -- ')'
            let rest ← l.sliceFrom (i + 1)
            let cls ← l.slice 1 i
            pure (some (rest, some cls))
          else pure none
        else pure none) 1 (l.len - 1)
      match found with
      | some r => pure r
      | none => pure (l, none)

/-- Go: `endsWithByte`. -/
def endsWithByte (mem : Bytes) (s : Data) (b : Nat) : Except Stop Bool :=
  if s.len = 0 then pure false
  else do
    let n := s.len - 1
    let c ← s.index mem n
    pure (c = b)

/-- Go: `extractStyleOpt`; the result is the array afterwards and `(rest, styleOpt)`. -/
def extractStyleOpt (mem : Bytes) (l : Slice) : Except Stop (Bytes × Slice × Option Data) := do
  if !(← startsWithByte mem l 123 3) then pure (mem, l, none)  -- '{'
  else do
    let c ← l.index mem 1
    if c = 125 then pure (mem, l, none)  -- '}'
    else do
      let found ← forIndex (fun i => do
        let c ← l.index mem i
        if !isStyleChar c then
          if c = 125 then do  -- '}'
            let rest ← l.sliceFrom (i + 1)
            let styleOpt ← l.slice 1 i
            if !(← endsWithByte mem (.inMem styleOpt) 59) then  -- ';'
              let (mem, styleOpt) := append mem (.inMem styleOpt) [59]
              pure (some (mem, rest, some styleOpt))
            else pure (some (mem, rest, some (.inMem styleOpt)))
          else pure none
        else pure none) 1 (l.len - 1)
      match found with
      | some r => pure r
      | none => pure (mem, l, none)

/-- Go: `extractLangOpt`; the result is `(rest, langOpt)`. -/
def extractLangOpt (mem : Bytes) (l : Slice) : Except Stop (Slice × Option Slice) := do
  if !(← startsWithByte mem l 91 3) then pure (l, none)  -- '['
  else do
    let c ← l.index mem 1
    if c = 93 then pure (l, none)  -- ']'
    else do
      let found ← forIndex (fun i => do
        let c ← l.index mem i
        if !isLangChar c then
          if c = 93 then do  -- ']'
            let rest ← l.sliceFrom (i + 1)
            let lang ← l.slice 1 i
            pure (some (rest, some lang))
          else pure none
        else pure none) 1 (l.len - 1)
      match found with
      | some r => pure r
      | none => pure (l, none)

/-- One turn of the `switch` in `parseAttributesOpt`. -/
def parseAttributesOptCase (mem : Bytes) (l : Slice) (attrs : AttributesOpt) (c : Nat) :
    Except Stop (Bytes × Slice × AttributesOpt) :=
  if c = 40 then do  -- '('
    let (l, cls) ← extractClassOpt mem l
    pure (mem, l, { attrs with «class» := cls })
  else if c = 91 then do  -- '['
    let (l, lang) ← extractLangOpt mem l
    pure (mem, l, { attrs with lang := lang })
  else if c = 123 then do  -- '{'
    let (mem, l, style) ← extractStyleOpt mem l
    pure (mem, l, { attrs with style := style })
  else pure (mem, l, attrs)

/-- The `for` loop of `parseAttributesOpt`. Every turn that does not leave the loop
removes a byte of `l`. -/
def parseAttributesOptLoop :
    Nat → Bytes → Slice → AttributesOpt → Except Stop (Bytes × Slice × AttributesOpt)
  | 0, _, _, _ => .error .outOfFuel
  | fuel + 1, mem, l, attrs =>
    if l.len > 0 then do
      let n := l.len
      let c ← l.index mem 0
      let (mem, l, attrs) ← parseAttributesOptCase mem l attrs c
      if n = l.len then pure (mem, l, attrs)
      else parseAttributesOptLoop fuel mem l attrs
    else pure (mem, l, attrs)

/-- Go: `parseAttributesOpt`; the result is the array afterwards and `(rest, attrs)`. -/
def parseAttributesOpt (mem : Bytes) (l : Slice) : Except Stop (Bytes × Slice × AttributesOpt) := do
  let attrs : AttributesOpt := {}
  let c ← l.index mem 0
  let (l, attrs) ← (if c = 40 then do  -- '('
      let (l, cls) ← extractClassOpt mem l
      pure (l, { attrs with «class» := cls })
    else pure (l, attrs) : Except Stop (Slice × AttributesOpt))
  let (l, style) ← parseStyle mem l
  let (mem, l, attrs) ← parseAttributesOptLoop (l.len + 1) mem l attrs
  let (mem, st) := byteConcat mem attrs.style style
  pure (mem, l, { attrs with style := st })

/-- Go: `parseSpan`; the result is the array afterwards and `(rest, inside, attrs)`, `none`
when `rest` is `nil`. -/
def parseSpan (mem : Bytes) (l : Slice) :
    Except Stop (Bytes × Option (Slice × Slice × AttributesOpt)) := do
  if !(← startsWithByte mem l 37 3) then pure (mem, none)  -- '%'
  else do
    let l ← l.sliceFrom 1
    let (mem, l, attrs) ← parseAttributesOpt mem l
    match ← extractUntil mem l 37 with
    | none => pure (mem, none)
    | some (rest, inside) => pure (mem, some (rest, inside, attrs))

/-- Go: `parseStrongWithOptStyle`; the result is the array afterwards and
`(rest, inside, styleOpt)`, `none` when `rest` is `nil`. -/
def parseStrongWithOptStyle (mem : Bytes) (l : Slice) :
    Except Stop (Bytes × Option (Slice × Slice × Option Data)) := do
  if !(← startsWithByte mem l 42 3) then pure (mem, none)  -- '*'
  else do
    let l ← l.sliceFrom 1
    let (mem, l, styleOpt) ← extractStyleOpt mem l
    match ← extractUntil mem l 42 with
    | none => pure (mem, none)
    | some (rest, inside) => pure (mem, some (rest, inside, styleOpt))

/-- Go: `parseEmWithOptClass`; the result is `(rest, inside, classOpt)`. -/
def parseEmWithOptClass (mem : Bytes) (l : Slice) :
    Except Stop (Option (Slice × Slice × Option Slice)) :=
  if l.len < 2 then pure none
  else do
    let c ← l.index mem 0
    if c ≠ 95 then pure none  -- '_'
    else do
      let l1 ← l.sliceFrom 1
      let (l, classOpt) ← extractClassOpt mem l1
      match indexByte (l.bytes mem) 95 with
      | none => pure none
      | some idx => do
        let rest ← l.sliceFrom (idx + 1)
        let inside ← l.sliceTo idx
        pure (some (rest, inside, classOpt))

def parseCode (mem : Bytes) (l : Slice) := extractInside mem l 64 64  -- '@'

def parseDel (mem : Bytes) (l : Slice) := extractInside mem l 45 45  -- '-'

def parseIns (mem : Bytes) (l : Slice) := extractInside mem l 43 43  -- '+'

def parseSup (mem : Bytes) (l : Slice) := extractInside mem l 94 94  -- '^'

def parseSub (mem : Bytes) (l : Slice) := extractInside mem l 126 126  -- '~'

/-- Go: `is2Byte`; the result is `(rest, inside)`. -/
def is2Byte (mem : Bytes) (l : Slice) (b : Nat) : Except Stop (Option (Slice × Slice)) :=
  if l.len < 4 then pure none
  else do
    let c0 ← l.index mem 0
    if c0 ≠ b then pure none
    else do
      let c1 ← l.index mem 1
      if c1 ≠ b then pure none
      else
        forIndex (fun i => do
          let c ← l.index mem i
          if c = b then do
            let c ← l.index mem (i + 1)
            if c = b then do
              let rest ← l.sliceFrom (i + 2)
              let inside ← l.slice 2 i
              pure (some (rest, inside))
            else pure none
          else pure none) 2 (l.len - 1 - 2)

def parseItalic (mem : Bytes) (l : Slice) := is2Byte mem l 95  -- '_'

def parseBold (mem : Bytes) (l : Slice) := is2Byte mem l 42  -- '*'

def parseCite (mem : Bytes) (l : Slice) := is2Byte mem l 63  -- '?'

/-- The test `len(l) < 2 || l[0] != '.' || l[1] != ' '` of `parseH` and `parseP`. -/
def noDotSpace (mem : Bytes) (l : Slice) : Except Stop Bool :=
  if l.len < 2 then pure true
  else do
    let c0 ← l.index mem 0
    if c0 ≠ 46 then pure true  -- '.'
    else do
      let c1 ← l.index mem 1
      pure (c1 ≠ 32)  -- ' '

/-- Go: `parseH`; the result is the array afterwards and `(rest, level, attrs)`. `n` is a
byte: the subtraction wraps at 256. -/
def parseH (mem : Bytes) (l : Slice) :
    Except Stop (Bytes × Slice × Int × Option AttributesOpt) := do
  if !(← startsWithByte mem l 104 4) then pure (mem, l, -1, none)  -- 'h'
  else do
    let c ← l.index mem 1
    let n := (c + 256 - 48) % 256  -- l[1] - '0'
    if n < 1 || n > 6 then pure (mem, l, -1, none)
    else do
      let l ← l.sliceFrom 2
      let (mem, l, attrs) ← parseAttributesOpt mem l
      if ← noDotSpace mem l then pure (mem, l, -1, none)
      else do
        let rest ← l.sliceFrom 2
        pure (mem, rest, (n : Int), some attrs)

/-! ### Reference definitions and block markers -/

/-- Go: `detectUrl`; `none` for `nil, nil`. -/
def detectUrl (mem : Bytes) (l : Slice) : Except Stop (Option (Slice × Slice)) :=
  match bytesIndex (l.bytes mem) [58, 47, 47] with  -- "://"
  | none => pure none
  | some i => do
    let s ← l.sliceTo i
    if !(s.bytes mem = ascii "http" || s.bytes mem = ascii "https") then pure none
    else do
      let found ← forIndex (fun i => do
        let c ← l.index mem i
        if isUrlEnd c then do
          let url ← l.sliceTo i
          let rest ← l.sliceFrom i
          pure (some (url, rest))
        else pure none) (i + 3) (l.len - (i + 3))
      match found with
      | some r => pure (some r)
      | none => do
        let rest ← l.slice 0 0
        pure (some (l, rest))

/-- Go: `isUrlRef`; the result is `(name, url)`, `none` for `nil, nil`. -/
def isUrlRef (mem : Bytes) (l : Slice) : Except Stop (Option (Slice × Slice)) :=
  if l.len < 4 then pure none
  else do
    let c ← l.index mem 0
    if c ≠ 91 then pure none  -- '['
    else do
      let l ← l.sliceFrom 1
      match indexByte (l.bytes mem) 93 with  -- ']'
      | none => pure none
      | some endIdx => do
        let name ← l.sliceTo endIdx
        let l ← l.sliceFrom (endIdx + 1)
        match ← detectUrl mem l with
        | none => pure none
        | some (url, rest) => if rest.len > 0 then pure none else pure (some (name, url))

/-- Go: `parseUrlOrRefName`; the result is `(rest, title, urlOrRefName)`. -/
def parseUrlOrRefName (mem : Bytes) (l : Slice) :
    Except Stop (Option (Slice × Slice × Slice)) :=
  if l.len < 4 then pure none
  else do
    match ← extractInside mem l 34 34 with  -- '"'
    | none => pure none
    | some (l, title) =>
      if !(← startsWithByte mem l 58 1) then pure none  -- ':'
      else do
        let l1 ← l.sliceFrom 1
        let (rest, urlOrRefName) ← extractUrlOrRefName mem l1
        pure (some (rest, title, urlOrRefName))

/-- Go: `startsWith`; `none` for `nil`. -/
def startsWith (mem : Bytes) (l : Slice) (pre : Bytes) : Except Stop (Option Slice) :=
  if hasPrefix (l.bytes mem) pre then do
    let rest ← l.sliceFrom pre.length
    pure (some rest)
  else pure none

def parseNoTextile (mem : Bytes) (l : Slice) := startsWith mem l (ascii "notextile. ")

def parseBlockQuote (mem : Bytes) (l : Slice) := startsWith mem l (ascii "bq. ")

/-- Go: `parseP`; the result is the array afterwards and `(rest, attrs)`, `none` when
`rest` is `nil`. -/
def parseP (mem : Bytes) (l : Slice) : Except Stop (Bytes × Option (Slice × AttributesOpt)) := do
  if !(← startsWithByte mem l 112 3) then pure (mem, none)  -- 'p'
  else do
    let l ← l.sliceFrom 1
    let (mem, l, attrs) ← parseAttributesOpt mem l
    if ← noDotSpace mem l then pure (mem, none)
    else do
      let rest ← l.sliceFrom 2
      pure (mem, some (rest, attrs))

/-- Go: `parseOl` and `parseUl`, for the marker `m`; the result is `(rest, level)`, `none`
when `rest` is `nil`. -/
def parseList (m : Nat) (mem : Bytes) (l : Slice) : Except Stop (Option (Slice × Nat)) := do
  let found ← forIndex (fun level => do
    let c ← l.index mem level
    if c ≠ m then
      if c = 32 && level > 0 then do  -- ' '
        let rest ← l.sliceFrom (level + 1)
        pure (some (some (rest, level)))
      else pure (some none)
    else pure none) 0 l.len
  match found with
  | some r => pure r
  | none => pure none

def parseOl (mem : Bytes) (l : Slice) := parseList 35 mem l  -- '#'

def parseUl (mem : Bytes) (l : Slice) := parseList 42 mem l  -- '*'

end Mem

namespace Mem

/-! ### Parser state -/

structure UrlRef where
  url : Slice
  name : Slice
  deriving DecidableEq, Repr

/-- Go: `TextileParser`, together with the backing array `mem` of the input, which the
slices held by the parser and by its callers share. The reference table holds slices of
the input and is kept here; `core` holds the other fields (its own `refs` is not
used). -/
structure TextileParser where
  mem : Bytes
  refs : List (Bytes × UrlRef)
  core : Textiler.TextileParser
  deriving DecidableEq, Repr

/-- Go: `m[k] = v` on a map: the entry for `k` is replaced. -/
def mapSet (m : List (Bytes × UrlRef)) (k : Bytes) (v : UrlRef) : List (Bytes × UrlRef) :=
  (k, v) :: m.filter (fun e => e.1 ≠ k)

/-- Go: `v, ok := m[k]`. -/
def mapGet (m : List (Bytes × UrlRef)) (k : Bytes) : Option UrlRef :=
  m.lookup k

/-- Go: `lastBlockTagIs`. -/
def lastBlockTagIs (p : Textiler.TextileParser) (tag : Bytes) : Except Stop Bool :=
  if p.blockTags.length = 0 then pure false
  else
    match p.blockTags[p.blockTags.length - 1]? with
    | none => .error .outOfRange
    | some last => pure (last = tag)

/-- Go: `popBlockTag`. The slice expression `p.blockTags[0 : len(p.blockTags)-1]` faults
on an empty list, where its upper bound is negative. -/
def popBlockTag (p : Textiler.TextileParser) (tag : Bytes) :
    Except Stop (Textiler.TextileParser × Bool) := do
  if !tagSkipPre tag then pure (p, false)
  else if ← lastBlockTagIs p tag then
    if p.blockTags.length < 1 then .error .outOfRange
    else pure ({ p with blockTags := p.blockTags.take (p.blockTags.length - 1) }, true)
  else pure (p, false)

def inHtmlCode (p : Textiler.TextileParser) : Except Stop Bool := lastBlockTagIs p (ascii "code")

def inHtmlPre (p : Textiler.TextileParser) : Except Stop Bool := lastBlockTagIs p (ascii "pre")

/-! ### Serialisation -/

/-- Go: `serEscapedInContext`. -/
def serEscapedInContext (p : Textiler.TextileParser) (l : Bytes) :
    Except Stop Textiler.TextileParser := do
  if ← inHtmlCode p then pure (serAsHtmlCode p l)
  else if ← inHtmlPre p then pure (serAsHtmlCode p l)
  else pure (serEscaped p l)

/-- Go: `serClassOrIdOpt`. -/
def serClassOrIdOpt (mem : Bytes) (s : Option Slice) : Except Stop Bytes :=
  match s with
  | none => pure []
  | some s =>
    if s.len = 0 then pure []
    else
      match indexByte (s.bytes mem) 35 with  -- '#'
      | none => pure (ascii " class=\"" ++ s.bytes mem ++ ascii "\"")
      | some idx =>
        if 0 = idx then do
          let id ← s.sliceFrom 1
          pure (ascii " id=\"" ++ id.bytes mem ++ ascii "\"")
        else do
          let cls ← s.sliceTo idx
          let id ← s.sliceFrom (idx + 1)
          pure (ascii " class=\"" ++ cls.bytes mem ++ ascii "\" id=\"" ++ id.bytes mem ++ ascii "\"")

/-- Go: `prettyPrintStyle`; `res` is an array of its own. -/
def prettyPrintStyle (mem : Bytes) (s : Data) : Except Stop Bytes := do
  let res := prettyPrintStyleLoop [] 0 (s.bytes mem)
  if !(← endsWithByte mem (.fresh res) 59) then pure (res ++ [59])  -- ';'
  else pure res

def serStyleOpt (mem : Bytes) (s : Option Data) : Except Stop Bytes :=
  match s with
  | none => pure []
  | some s =>
    if s.len = 0 then pure []
    else do
      let s ← prettyPrintStyle mem s
      pure (ascii " style=\"" ++ s ++ ascii "\"")

def serLangOpt (mem : Bytes) (s : Option Slice) : Bytes :=
  match s with
  | none => []
  | some s =>
    if s.len = 0 then []
    else ascii " lang=\"" ++ s.bytes mem ++ ascii "\""

def serAttributesOpt (mem : Bytes) (attrs : Option AttributesOpt) : Except Stop Bytes :=
  match attrs with
  | none => pure []
  | some attrs => do
    let s1 ← serClassOrIdOpt mem attrs.«class»
    let s2 ← serStyleOpt mem attrs.style
    let s3 := serLangOpt mem attrs.lang
    pure (s1 ++ s2 ++ s3)

def serNoTextile (p : TextileParser) (s : Slice) : TextileParser :=
  { p with core := write p.core (s.bytes p.mem) }

def serP (p : TextileParser) (s : Slice) (attrs : Option AttributesOpt) :
    Except Stop TextileParser := do
  let attrsStr ← serAttributesOpt p.mem attrs
  let c := write p.core (ascii "\t<p" ++ attrsStr ++ ascii ">" ++ s.bytes p.mem ++ ascii "</p>")
  pure { p with core := c }

def serBlockQuote (p : TextileParser) (s : Slice) : Except Stop TextileParser := do
  let p := { p with core := write p.core (ascii "\t<blockquote>\n\t") }
  let p ← serP p s none
  pure { p with core := write p.core (ascii "\n\t</blockquote>") }

def serH (p : TextileParser) (rest : Slice) (n : Int) (attrs : Option AttributesOpt) :
    Except Stop TextileParser := do
  let s ← serAttributesOpt p.mem attrs
  let c := write p.core (ascii "\t<h" ++ decimal n ++ s ++ ascii ">")
  let c := write c (rest.bytes p.mem)
  pure { p with core := write c (ascii "</h" ++ decimal n ++ ascii ">") }

/-! ### Inline scanner -/

section Inline

variable (tags : List Bytes) (rec : TextileParser → Slice → Except Stop TextileParser)

/-- Go: `serHtmlRaw`; `before` is `nil` at the only call. -/
def serHtmlRaw (p : TextileParser) (before : Option Slice) (htmlRaw rest : Slice) :
    Except Stop TextileParser :=
  let c := match before with
    | none => serEscaped p.core []
    | some before => serEscaped p.core (before.bytes p.mem)
  let c := write c (htmlRaw.bytes p.mem)
  rec { p with core := c } rest

/-- Go: `serTag`; `rec` is `parseInline`. -/
def serTag (p : TextileParser) (tag : Bytes) (before inside rest : Slice) :
    Except Stop TextileParser := do
  let c := serEscaped p.core (before.bytes p.mem)
  let c := serTagStartWithOptClass c tag none
  let p ← rec { p with core := c } inside
  let p := { p with core := serTagEnd p.core tag }
  rec p rest

/-- Go: `serTagWithOptClass`; `rec` is `parseInline`. -/
def serTagWithOptClass (p : TextileParser) (tag : Bytes) (before inside : Slice)
    («class» : Option Slice) (rest : Slice) : Except Stop TextileParser := do
  let c := write p.core (before.bytes p.mem)
  let c := serTagStartWithOptClass c tag («class».map (fun s => s.bytes p.mem))
  let p ← rec { p with core := c } inside
  let p := { p with core := serTagEnd p.core tag }
  rec p rest

/-- Go: `serTagWithOptStyle`; `rec` is `parseInline`. -/
def serTagWithOptStyle (p : TextileParser) (tag : Bytes) (before inside : Slice)
    (style : Option Data) (rest : Slice) : Except Stop TextileParser := do
  let c := serEscaped p.core (before.bytes p.mem)
  let c := serTagStartWithOptStyle c tag (style.map (fun s => s.bytes p.mem))
  let p ← rec { p with core := c } inside
  let p := { p with core := serTagEnd p.core tag }
  rec p rest

/-- Go: `serSpan`; `rec` is `parseInline`. -/
def serSpan (p : TextileParser) (before inside : Slice) (attrs : Option AttributesOpt)
    (rest : Slice) : Except Stop TextileParser := do
  let c := serEscaped p.core (before.bytes p.mem)
  let attrsStr ← serAttributesOpt p.mem attrs
  let c := write c (ascii "<span" ++ attrsStr ++ ascii ">")
  let p ← rec { p with core := c } inside
  let p := { p with core := write p.core (ascii "</span>") }
  rec p rest

/-- Go: `serUrl`; `rec` is `parseInline`. -/
def serUrl (p : TextileParser) (before title url rest : Slice) : Except Stop TextileParser :=
  let c := serEscaped p.core (before.bytes p.mem)
  let c := write c (ascii "<a href=\"" ++ url.bytes p.mem ++ ascii "\">")
  let c := serEscaped c (title.bytes p.mem)
  let c := write c (ascii "</a>")
  rec { p with core := c } rest

/-- Go: `serCode`; `rec` is `parseInline`. -/
def serCode (p : TextileParser) (before inside rest : Slice) : Except Stop TextileParser :=
  let c := serEscaped p.core (before.bytes p.mem)
  let c := write c (ascii "<code>" ++ inside.bytes p.mem ++ ascii "</code>")
  rec { p with core := c } rest

/-- Go: `serImg`; `rec` is `parseInline`; `url` is `none` when it is `nil`. -/
def serImg (p : TextileParser) (before imgSrc alt : Slice) (style : Nat) (url : Option Slice)
    (rest : Slice) : Except Stop TextileParser :=
  let urlLen := match url with
    | none => 0
    | some u => u.len
  let urlStr := match url with
    | none => []
    | some u => u.bytes p.mem
  let c := serEscaped p.core (before.bytes p.mem)
  let c := if urlLen > 0 then write c (ascii "<a href=\"" ++ urlStr ++ ascii "\" class=\"img\">")
    else c
  let altStr := alt.bytes p.mem
  let styleStr := if style = STYLE_FLOAT_RIGHT then ascii " style=\"float: right;\"" else []
  let c := if alt.len > 0 then
      write c (ascii "<img src=\"" ++ imgSrc.bytes p.mem ++ ascii "\"" ++ styleStr
        ++ ascii " title=\"" ++ altStr ++ ascii "\" alt=\"" ++ altStr ++ ascii "\">")
    else write c (ascii "<img src=\"" ++ imgSrc.bytes p.mem ++ ascii "\"" ++ styleStr
        ++ ascii " alt=\"\">")
  let c := if urlLen > 0 then write c (ascii "</a>") else c
  rec { p with core := c } rest

/-- The cases of the `switch` of `parseInline` that try one sub-parser by way of
`extractInside` or `is2Byte` and serialise with `serTag`: `none` when the sub-parser gives
`nil` and the loop goes on. -/
def parseInlineTag (p : TextileParser) (l : Slice) (i : Nat) (tag : Bytes)
    (sub : Bytes → Slice → Except Stop (Option (Slice × Slice))) :
    Except Stop (Option TextileParser) := do
  let li ← l.sliceFrom i
  match ← sub p.mem li with
  | some (rest, inside) => do
    let before ← l.sliceTo i
    let p ← serTag rec p tag before inside rest
    pure (some p)
  | none => pure none

/-- One turn of the `for` loop of `parseInline`, at index `i`: the parser after the
`return` of the case taken (`Sum.inr`), or the parser with which the loop goes on
(`Sum.inl`), its array as the sub-parsers left it. -/
def parseInlineCase (p : TextileParser) (l : Slice) (i : Nat) :
    Except Stop (TextileParser ⊕ TextileParser) := do
  let b ← l.index p.mem i
  if b = 95 then do  -- '_'
    match ← parseInlineTag rec p l i (ascii "i") parseItalic with
    | some p => pure (.inr p)
    | none => do
      let li ← l.sliceFrom i
      match ← parseEmWithOptClass p.mem li with
      | some (rest, inside, cls) => do
        let before ← l.sliceTo i
        let p ← serTagWithOptClass rec p (ascii "em") before inside cls rest
        pure (.inr p)
      | none => pure (.inl p)
  else if b = 42 then do  -- '*'
    match ← parseInlineTag rec p l i (ascii "b") parseBold with
    | some p => pure (.inr p)
    | none => do
      let li ← l.sliceFrom i
      let (mem, r) ← parseStrongWithOptStyle p.mem li
      let p := { p with mem := mem }
      match r with
      | some (rest, inside, style) => do
        let before ← l.sliceTo i
        let p ← serTagWithOptStyle rec p (ascii "strong") before inside style rest
        pure (.inr p)
      | none => pure (.inl p)
  else if b = 34 then do  -- '"'
    let li ← l.sliceFrom i
    match ← parseUrlOrRefName p.mem li with
    | some (rest, title, urlOrRefName) => do
      let url := match mapGet p.refs (urlOrRefName.bytes p.mem) with
        | some urlRef => urlRef.url
        | none => urlOrRefName
      let before ← l.sliceTo i
      let p ← serUrl rec p before title url rest
      pure (.inr p)
    | none => pure (.inl p)
  else if b = 33 then do  -- '!'
    let li ← l.sliceFrom i
    match ← parseImg p.mem li with
    | some (rest, url, imgSrc, alt, style) => do
      let before ← l.sliceTo i
      let p ← serImg rec p before imgSrc alt style url rest
      pure (.inr p)
    | none => pure (.inl p)
  else if b = 64 then do  -- '@'
    let li ← l.sliceFrom i
    match ← parseCode p.mem li with
    | some (rest, inside) => do
      let before ← l.sliceTo i
      let p ← serCode rec p before inside rest
      pure (.inr p)
    | none => pure (.inl p)
  else if b = 37 then do  -- '%'
    let li ← l.sliceFrom i
    let (mem, r) ← parseSpan p.mem li
    let p := { p with mem := mem }
    match r with
    | some (rest, inside, attrs) => do
      let before ← l.sliceTo i
      let p ← serSpan rec p before inside (some attrs) rest
      pure (.inr p)
    | none => pure (.inl p)
  else if b = 60 then do  -- '<'
    let li ← l.sliceFrom i
    match ← parseHtml tags p.mem li with
    | some (rest, html, _, _) => do
      let before ← l.sliceTo i
      let p ← rec p before
      let c ← serEscapedInContext p.core (html.bytes p.mem)
      let p ← rec { p with core := c } rest
      pure (.inr p)
    | none => pure (.inl p)
  else if b = 63 then do  -- '?'
    match ← parseInlineTag rec p l i (ascii "cite") parseCite with
    | some p => pure (.inr p)
    | none => pure (.inl p)
  else if b = 45 then do  -- '-'
    match ← parseInlineTag rec p l i (ascii "del") parseDel with
    | some p => pure (.inr p)
    | none => pure (.inl p)
  else if b = 43 then do  -- '+'
    match ← parseInlineTag rec p l i (ascii "ins") parseIns with
    | some p => pure (.inr p)
    | none => pure (.inl p)
  else if b = 94 then do  -- '^'
    match ← parseInlineTag rec p l i (ascii "sup") parseSup with
    | some p => pure (.inr p)
    | none => pure (.inl p)
  else if b = 126 then do  -- '~'
    match ← parseInlineTag rec p l i (ascii "sub") parseSub with
    | some p => pure (.inr p)
    | none => pure (.inl p)
  else pure (.inl p)

/-- The `for` loop of `parseInline` at index `i`, with `n` bytes of `l` left to visit;
`rec` is `parseInline` for the recursive calls. -/
def parseInlineLoop (l : Slice) : TextileParser → Nat → Nat → Except Stop TextileParser
  | p, _, 0 => pure { p with core := serEscaped p.core (l.bytes p.mem) }
  | p, i, n + 1 =>
    match parseInlineCase tags rec p l i with
    | .error e => .error e
    | .ok (.inr p) => pure p
    | .ok (.inl p) => parseInlineLoop l p (i + 1) n

end Inline

/-- Go: `parseInline`. Each recursive call is on a slice shorter than `l`, and takes one
unit of fuel. -/
def parseInlineFuel (tags : List Bytes) : Nat → TextileParser → Slice → Except Stop TextileParser
  | 0, _, _ => .error .outOfFuel
  | fuel + 1, p, l => parseInlineLoop tags (parseInlineFuel tags fuel) l p 0 l.len

/-- Go: `parseInline`, with fuel for the longest chain of recursive calls on `l`. -/
def parseInline (tags : List Bytes) (p : TextileParser) (l : Slice) : Except Stop TextileParser :=
  parseInlineFuel tags (l.len + 1) p l

/-- Go: `serOl` and `serUl` up to the call of `parseInline`, on the fields in `core`. -/
def serOlStart (c : Textiler.TextileParser) (level : Int) : Except Stop Textiler.TextileParser := do
  let c := if c.olLevel > 0 then write c (ascii "</li>\n") else c
  let c ← (if level > c.olLevel then
      let n := level - c.olLevel
      openListLoop (ascii "\t<ol>\n") (n.toNat + 1) n c
    else pure c)
  let c := { c with olLevel := level }
  pure (write c (ascii "\t\t<li>"))

def serUlStart (c : Textiler.TextileParser) (level : Int) : Except Stop Textiler.TextileParser := do
  let c := if c.ulLevel > 0 then write c (ascii "</li>\n") else c
  let c ← (if level > c.ulLevel then
      let n := level - c.ulLevel
      openListLoop (ascii "\t<ul>\n") (n.toNat + 1) n c
    else pure c)
  let c := { c with ulLevel := level }
  pure (write c (ascii "\t\t<li>"))

/-- Go: `serOl`. -/
def serOl (tags : List Bytes) (p : TextileParser) (l : Slice) (level : Int) :
    Except Stop TextileParser := do
  let c ← serOlStart p.core level
  parseInline tags { p with core := c } l

/-- Go: `serUl`. -/
def serUl (tags : List Bytes) (p : TextileParser) (l : Slice) (level : Int) :
    Except Stop TextileParser := do
  let c ← serUlStart p.core level
  parseInline tags { p with core := c } l

/-! ### Block dispatcher -/

/-- The statements of `parseBlock` after its `switch`. -/
def parseBlockDefault (tags : List Bytes) (p : TextileParser) (l : Slice) :
    Except Stop TextileParser := do
  let c ← closeOlIfNecessary p.core
  let c ← closeUlIfNecessary c
  if ← inHtmlCode c then
    let c := startNewLine c
    pure { p with core := serAsHtmlCode c (l.bytes p.mem) }
  else
    let c := startNewLine c
    parseInline tags { p with core := c } l

/-- Go: `parseBlock`. A case of the `switch` that does not return goes on to the
statements after it. -/
def parseBlock (tags : List Bytes) (p : TextileParser) (l : Slice) : Except Stop TextileParser :=
  if l.len = 0 then
    let c := closeP p.core
    pure { p with core := { c with blockLineNo := 0 } }
  else do
    let p := { p with core := { p.core with blockLineNo := p.core.blockLineNo + 1 } }
    let b ← l.index p.mem 0
    if b = 104 then do  -- 'h'
      let (mem, rest, n, attrs) ← parseH p.mem l
      let p := { p with mem := mem }
      if n ≠ -1 then serH p rest n attrs
      else parseBlockDefault tags p l
    else if b = 60 then do  -- '<'
      match ← parseHtml tags p.mem l with
      | some (rest, html, tag, startTag) => do
        let tagStr := tag.bytes p.mem
        let c := if startTag then pushBlockTag p.core tagStr else p.core
        let c := startNewLine c
        let p ← serHtmlRaw (parseInline tags) { p with core := c } none html rest
        if !startTag then do
          let (c, _) ← popBlockTag p.core tagStr
          pure { p with core := c }
        else pure p
      | none => parseBlockDefault tags p l
    else if b = 110 then do  -- 'n'
      match ← parseNoTextile p.mem l with
      | some rest => pure (serNoTextile p rest)
      | none => parseBlockDefault tags p l
    else if b = 112 then do  -- 'p'
      let (mem, r) ← parseP p.mem l
      let p := { p with mem := mem }
      match r with
      | some (rest, attrs) => serP p rest (some attrs)
      | none => parseBlockDefault tags p l
    else if b = 98 then do  -- 'b'
      match ← parseBlockQuote p.mem l with
      | some rest => serBlockQuote p rest
      | none => parseBlockDefault tags p l
    else if b = 35 then do  -- '#'
      match ← parseOl p.mem l with
      | some (rest, level) => serOl tags p rest level
      | none => parseBlockDefault tags p l
    else if b = 42 then do  -- '*'
      match ← parseUl p.mem l with
      | some (rest, level) => serUl tags p rest level
      | none => parseBlockDefault tags p l
    else parseBlockDefault tags p l

/-- The loop of `toHtml` over the lines. -/
def parseBlocks (tags : List Bytes) : TextileParser → List Slice → Except Stop TextileParser
  | p, [] => pure p
  | p, l :: ls =>
    match parseBlock tags p l with
    | .error e => .error e
    | .ok p => parseBlocks tags p ls

/-- Go: `parseRef`. The key of the table is a copy of the bytes of `name`. -/
def parseRef (p : TextileParser) (line : Slice) : Except Stop (TextileParser × Bool) := do
  match ← isUrlRef p.mem line with
  | some (name, url) =>
    pure ({ p with refs := mapSet p.refs (name.bytes p.mem) { name := name, url := url } }, true)
  | none => pure (p, false)

/-- The loop of `firstPass` over the lines that are left, with `res` so far. -/
def firstPassLoop : TextileParser → List Slice → List Slice →
    Except Stop (TextileParser × List Slice)
  | p, res, [] => pure (p, res)
  | p, res, l :: ls =>
    match parseRef p l with
    | .error e => .error e
    | .ok (p, true) => firstPassLoop p res ls
    | .ok (p, false) =>
      if l.len > 0 then firstPassLoop p (res ++ [l]) ls
      else if res.length > 0 then
        match res[res.length - 1]? with
        | none => .error .outOfRange
        | some last =>
          if last.len > 0 then firstPassLoop p (res ++ [l]) ls
          else firstPassLoop p res ls
      else firstPassLoop p res ls

/-- Go: `firstPass`. -/
def firstPass (p : TextileParser) (lines : List Slice) : Except Stop (TextileParser × List Slice) :=
  firstPassLoop p [] lines

/-- Go: `toHtml`. -/
def toHtml (tags : List Bytes) (p : TextileParser) (d : Slice) : Except Stop Bytes := do
  let lines ← splitIntoLines p.mem d
  let (p, lines) ← firstPass p lines
  let p ← parseBlocks tags p lines
  let c ← closeOlIfNecessary p.core
  let c ← closeUlIfNecessary c
  let c := closeP c
  let res := c.out
  pure (trimRightNewlines res)

/-- Go: `ToHtml` on the input `d` whose backing array goes on with the bytes `spare`
(`cap(d) - len(d)` of them). -/
def ToHtml (tags : List Bytes) (d spare : Bytes) (dumpLines dumpParagraphs : Bool) :
    Except Stop Bytes :=
  let c := NewParserWithRenderer false
  let c := { c with dumpLines := dumpLines }
  let c := { c with dumpParagraphs := dumpParagraphs }
  toHtml tags { mem := d ++ spare, refs := [], core := c } { off := 0, len := d.length }

/-- Go: `ToXhtml` on the input `d` whose backing array goes on with the bytes `spare`. -/
def ToXhtml (tags : List Bytes) (d spare : Bytes) (dumpLines dumpParagraphs : Bool) :
    Except Stop Bytes :=
  let c := NewParserWithRenderer true
  let c := { c with dumpLines := dumpLines }
  let c := { c with dumpParagraphs := dumpParagraphs }
  toHtml tags { mem := d ++ spare, refs := [], core := c } { off := 0, len := d.length }

end Mem

/-! ## Line splitter: round trip -/

theorem extractLinePos_clean (x : Bytes) (hx : cr ∉ x ∧ lf ∉ x) : extractLinePos x = none := by
  induction x with
  | nil => rfl
  | cons a x ih =>
    simp only [List.mem_cons, not_or] at hx
    have ha : ¬ (a = cr ∨ a = lf) := by
      rintro (h | h)
      · exact hx.1.1 h.symm
      · exact hx.2.1 h.symm
    simp [extractLinePos, ha, ih ⟨hx.1.2, hx.2.2⟩]

theorem extractLinePos_append (x : Bytes) (c : Nat) (r : Bytes) (hx : cr ∉ x ∧ lf ∉ x)
    (hc : c = cr ∨ c = lf) : extractLinePos (x ++ c :: r) = some x.length := by
  induction x with
  | nil => simp [extractLinePos, hc]
  | cons a x ih =>
    simp only [List.mem_cons, not_or] at hx
    have ha : ¬ (a = cr ∨ a = lf) := by
      rintro (h | h)
      · exact hx.1.1 h.symm
      · exact hx.2.1 h.symm
    simp [extractLinePos, ha, ih ⟨hx.1.2, hx.2.2⟩]

theorem getD_append_length (x r : Bytes) (c : Nat) : (x ++ c :: r).getD x.length 0 = c := by
  induction x with
  | nil => rfl
  | cons a x ih => simpa using ih

theorem extractLine_nil : extractLine [] = (none, []) := rfl

theorem extractLine_last (x : Bytes) (hx : cr ∉ x ∧ lf ∉ x) (hne : x ≠ []) :
    extractLine x = (some x, []) := by
  have hlen : x.length ≠ 0 := by simpa using hne
  simp [extractLine, hlen, extractLinePos_clean x hx]

theorem extractLine_lf (x r : Bytes) (hx : cr ∉ x ∧ lf ∉ x) :
    extractLine (x ++ lf :: r) = (some x, r) := by
  have hpos := extractLinePos_append x lf r hx (Or.inr rfl)
  have hget := getD_append_length x r lf
  simp only [extractLine, hpos, hget]
  simp [cr, lf]

theorem extractLine_crlf (x r : Bytes) (hx : cr ∉ x ∧ lf ∉ x) :
    extractLine (x ++ cr :: lf :: r) = (some x, r) := by
  have hpos := extractLinePos_append x cr (lf :: r) hx (Or.inl rfl)
  have hget := getD_append_length x (lf :: r) cr
  simp only [extractLine, hpos, hget]
  simp [cr, lf]

theorem extractLine_cr (x r : Bytes) (hx : cr ∉ x ∧ lf ∉ x) (hr : r.head? ≠ some lf) :
    extractLine (x ++ cr :: r) = (some x, r) := by
  have hpos := extractLinePos_append x cr r hx (Or.inl rfl)
  have hget := getD_append_length x r cr
  simp only [extractLine, hpos, hget]
  cases r with
  | nil => simp [cr, lf]
  | cons b r =>
    have hb : ¬ b = 10 := by simpa [lf] using hr
    simp [cr, lf, hb]

theorem extractLine_terminated (x t r : Bytes) (hx : cr ∉ x ∧ lf ∉ x)
    (ht : t = [cr] ∨ t = [lf] ∨ t = [cr, lf]) (hr : t = [cr] → r.head? ≠ some lf) :
    extractLine (x ++ t ++ r) = (some x, r) := by
  rcases ht with h | h | h
  · subst h
    simpa using extractLine_cr x r hx (hr rfl)
  · subst h
    simpa using extractLine_lf x r hx
  · subst h
    simpa using extractLine_crlf x r hx

theorem intercalate_cons_cons (t x y : Bytes) (r : List Bytes) :
    t.intercalate (x :: y :: r) = x ++ t ++ t.intercalate (y :: r) := by
  simp [List.intercalate, List.intersperse]

theorem head_intercalate_ne_lf (L : List Bytes) (tail : Bytes)
    (hL : ∀ x ∈ L, cr ∉ x ∧ lf ∉ x) (htail : tail = [cr] ∨ tail = []) :
    (([cr] : Bytes).intercalate L ++ tail).head? ≠ some lf := by
  have htl : tail.head? ≠ some lf := by
    rcases htail with h | h <;> subst h <;> simp [cr, lf]
  cases L with
  | nil => simpa [List.intercalate] using htl
  | cons x L =>
    cases x with
    | nil =>
      cases L with
      | nil => simpa [List.intercalate] using htl
      | cons y r =>
        rw [intercalate_cons_cons]
        simp [cr, lf]
    | cons a x =>
      have ha : lf ∉ a :: x := (hL (a :: x) (by simp)).2
      have : a ≠ lf := fun h => ha (by simp [h])
      cases L with
      | nil => simpa [List.intercalate] using this
      | cons y r =>
        rw [intercalate_cons_cons]
        simpa using this

theorem splitIntoLinesLoop_join (t : Bytes) (ht : t = [cr] ∨ t = [lf] ∨ t = [cr, lf]) :
    ∀ (L : List Bytes) (tail : Bytes) (res : List Bytes) (fuel : Nat),
      (∀ x ∈ L, cr ∉ x ∧ lf ∉ x) → L ≠ [] →
      (tail = t ∨ (tail = [] ∧ ∀ x, L.getLast? = some x → x ≠ [])) →
      (t.intercalate L ++ tail).length + 1 ≤ fuel →
      splitIntoLinesLoop fuel (t.intercalate L ++ tail) res = .ok (res ++ L) := by
  have htlen : 0 < t.length := by
    rcases ht with h | h | h <;> subst h <;> simp
  intro L
  induction L with
  | nil => intro _ _ _ _ h; exact absurd rfl h
  | cons x L ih =>
    intro tail res fuel hL _ htail hfuel
    have hx := hL x (by simp)
    cases L with
    | nil =>
      have hd : t.intercalate [x] = x := by simp [List.intercalate]
      rw [hd] at hfuel ⊢
      rcases htail with h | ⟨h, hlast⟩
      · subst h
        have hstep : extractLine (x ++ tail) = (some x, []) := by
          have := extractLine_terminated x tail [] hx ht (by simp)
          simpa using this
        obtain ⟨f, rfl⟩ : ∃ f, fuel = f + 2 := ⟨fuel - 2, by simp at hfuel; omega⟩
        simp [splitIntoLinesLoop, hstep, extractLine_nil]
      · subst h
        have hne : x ≠ [] := hlast x (by simp)
        have hxl : 0 < x.length := List.length_pos.mpr hne
        have hstep : extractLine (x ++ []) = (some x, []) := by
          simpa using extractLine_last x hx hne
        obtain ⟨f, rfl⟩ : ∃ f, fuel = f + 2 := ⟨fuel - 2, by simp at hfuel; omega⟩
        simp only [splitIntoLinesLoop, hstep, extractLine_nil]
    | cons y r =>
      have hL' : ∀ z ∈ y :: r, cr ∉ z ∧ lf ∉ z := fun z hz => hL z (List.mem_cons_of_mem _ hz)
      have hhead : t = [cr] → (t.intercalate (y :: r) ++ tail).head? ≠ some lf := by
        intro h
        subst h
        apply head_intercalate_ne_lf _ _ hL'
        rcases htail with h | ⟨h, _⟩
        · exact Or.inl h
        · exact Or.inr h
      have hstep : extractLine (t.intercalate (x :: y :: r) ++ tail)
          = (some x, t.intercalate (y :: r) ++ tail) := by
        rw [intercalate_cons_cons, List.append_assoc]
        exact extractLine_terminated x t _ hx ht hhead
      have htail' : tail = t ∨ (tail = [] ∧ ∀ z, (y :: r).getLast? = some z → z ≠ []) := by
        rcases htail with h | ⟨h, hlast⟩
        · exact Or.inl h
        · refine Or.inr ⟨h, fun z hz => hlast z ?_⟩
          simpa [List.getLast?_cons_cons] using hz
      have hlen : (t.intercalate (x :: y :: r) ++ tail).length
          = x.length + t.length + (t.intercalate (y :: r) ++ tail).length := by
        rw [intercalate_cons_cons]
        simp [Nat.add_assoc]
      obtain ⟨f, rfl⟩ : ∃ f, fuel = f + 1 := ⟨fuel - 1, by omega⟩
      have hf : (t.intercalate (y :: r) ++ tail).length + 1 ≤ f := by omega
      simp only [splitIntoLinesLoop, hstep]
      rw [ih tail (res ++ [x]) f hL' (by simp) htail' hf]
      simp

/-- C7. Line splitting round trip: for every list `L` of lines free of CR and LF whose
last line is not empty, and for each terminator `t` among CR, LF and CRLF,
`splitIntoLines` returns exactly `L` on the lines of `L` joined by `t`, and also when one
more `t` follows the last line; the empty input gives the empty sequence. -/
theorem splitIntoLines_roundtrip (L : List Bytes) (t : Bytes)
    (ht : t = [cr] ∨ t = [lf] ∨ t = [cr, lf])
    (hL : ∀ x ∈ L, cr ∉ x ∧ lf ∉ x)
    (hlast : ∀ x, L.getLast? = some x → x ≠ []) :
    splitIntoLines (t.intercalate L) = .ok L ∧
      (L ≠ [] → splitIntoLines (t.intercalate L ++ t) = .ok L) ∧
      splitIntoLines [] = .ok [] := by
  refine ⟨?_, ?_, rfl⟩
  · by_cases hne : L = []
    · subst hne
      rfl
    · have := splitIntoLinesLoop_join t ht L [] [] ((t.intercalate L).length + 1) hL hne
        (Or.inr ⟨rfl, hlast⟩) (by simp)
      simpa [splitIntoLines] using this
  · intro hne
    have := splitIntoLinesLoop_join t ht L t [] ((t.intercalate L ++ t).length + 1) hL hne
      (Or.inl rfl) (by simp)
    simpa [splitIntoLines] using this

theorem splitIntoLines_roundtrip_witness :
    splitIntoLines (([cr, lf] : Bytes).intercalate [ascii "ab", [], ascii "c"])
        = .ok [ascii "ab", [], ascii "c"] ∧
      ([ascii "ab", [], ascii "c"] ≠ [] →
        splitIntoLines (([cr, lf] : Bytes).intercalate [ascii "ab", [], ascii "c"] ++ [cr, lf])
          = .ok [ascii "ab", [], ascii "c"]) ∧
      splitIntoLines [] = .ok [] :=
  splitIntoLines_roundtrip [ascii "ab", [], ascii "c"] [cr, lf] (by decide) (by decide) (by decide)

/-! ## Reference definitions: what `isUrlRef` accepts -/

theorem indexByte_append_of_not_mem (x : Bytes) (c : Nat) (r : Bytes) (h : c ∉ x) :
    indexByte (x ++ c :: r) c = some x.length := by
  induction x with
  | nil => simp [indexByte]
  | cons a x ih =>
    simp only [List.mem_cons, not_or] at h
    have ha : ¬ a = c := fun e => h.1 e.symm
    simp [indexByte, ha, ih h.2]

theorem indexByte_none_of_not_mem (x : Bytes) (c : Nat) (h : c ∉ x) : indexByte x c = none := by
  induction x with
  | nil => rfl
  | cons a x ih =>
    simp only [List.mem_cons, not_or] at h
    have ha : ¬ a = c := fun e => h.1 e.symm
    simp [indexByte, ha, ih h.2]

theorem indexByte_some (c : Nat) : ∀ (l : Bytes) (i : Nat), indexByte l c = some i →
    c ∉ l.take i ∧ l = l.take i ++ c :: l.drop (i + 1) := by
  intro l
  induction l with
  | nil => intro i h; simp [indexByte] at h
  | cons a l ih =>
    intro i h
    by_cases ha : a = c
    · simp [indexByte, ha] at h
      subst h
      simp [ha]
    · simp only [indexByte, ha, if_false, Option.map_eq_some'] at h
      obtain ⟨j, hj, rfl⟩ := h
      obtain ⟨h1, h2⟩ := ih j hj
      refine ⟨?_, ?_⟩
      · simp only [List.take_succ_cons, List.mem_cons, not_or]
        exact ⟨fun e => ha e.symm, h1⟩
      · simp only [List.take_succ_cons, List.drop_succ_cons, List.cons_append]
        rw [← h2]

theorem hasPrefix_append (p r : Bytes) : hasPrefix (p ++ r) p = true := by
  induction p with
  | nil => cases r <;> rfl
  | cons a p ih => simp [hasPrefix, ih]

theorem hasPrefix_eq (p : Bytes) : ∀ l : Bytes, hasPrefix l p = true → l = p ++ l.drop p.length := by
  induction p with
  | nil => intro l _; rfl
  | cons a p ih =>
    intro l h
    cases l with
    | nil => simp [hasPrefix] at h
    | cons b l =>
      simp only [hasPrefix, Bool.and_eq_true, decide_eq_true_eq] at h
      obtain ⟨rfl, h2⟩ := h
      simp only [List.cons_append, List.length_cons, List.drop_succ_cons]
      rw [← ih l h2]

theorem bytesIndex_some (sep : Bytes) : ∀ (l : Bytes) (i : Nat), bytesIndex l sep = some i →
    l = l.take i ++ sep ++ l.drop (i + sep.length) := by
  intro l
  induction l with
  | nil =>
    intro i h
    by_cases hp : hasPrefix [] sep = true
    · simp only [bytesIndex, hp, if_true, Option.some.injEq] at h
      subst h
      simpa using hasPrefix_eq sep [] hp
    · simp [bytesIndex, hp] at h
  | cons a l ih =>
    intro i h
    by_cases hp : hasPrefix (a :: l) sep = true
    · simp only [bytesIndex, hp, if_true, Option.some.injEq] at h
      subst h
      simpa using hasPrefix_eq sep (a :: l) hp
    · simp only [bytesIndex, hp, Bool.false_eq_true, if_false, Option.map_eq_some'] at h
      obtain ⟨j, hj, rfl⟩ := h
      have := ih j hj
      simp only [List.take_succ_cons, List.cons_append, Nat.add_right_comm j 1, List.drop_succ_cons]
      rw [← this]

theorem bytesIndex_http (t : Bytes) : bytesIndex (ascii "http://" ++ t) [58, 47, 47] = some 4 := by
  simp [ascii, bytesIndex, hasPrefix]

theorem bytesIndex_https (t : Bytes) : bytesIndex (ascii "https://" ++ t) [58, 47, 47] = some 5 := by
  simp [ascii, bytesIndex, hasPrefix]

theorem isUrlEnd_iff (c : Nat) : isUrlEnd c = true ↔ c = 32 ∨ c = 33 := by
  by_cases h1 : c = 32
  · simp [isUrlEnd, indexByte, h1]
  · by_cases h2 : c = 33
    · simp [isUrlEnd, indexByte, h2]
    · have h1' : ¬ 32 = c := fun e => h1 e.symm
      have h2' : ¬ 33 = c := fun e => h2 e.symm
      simp [isUrlEnd, indexByte, h1, h2, h1', h2']

theorem detectUrlLoop_clean (l : Bytes) : ∀ (s : Bytes) (i : Nat), 32 ∉ s → 33 ∉ s →
    detectUrlLoop l i s = (l, []) := by
  intro s
  induction s with
  | nil => intro i _ _; rfl
  | cons c s ih =>
    intro i h1 h2
    simp only [List.mem_cons, not_or] at h1 h2
    have hc : isUrlEnd c = false := by
      rw [Bool.eq_false_iff, Ne, isUrlEnd_iff]
      rintro (h | h)
      · exact h1.1 h.symm
      · exact h2.1 h.symm
    simp [detectUrlLoop, hc, ih (i + 1) h1.2 h2.2]

theorem detectUrlLoop_cases (l : Bytes) : ∀ (s : Bytes) (i : Nat),
    (detectUrlLoop l i s = (l, []) ∧ 32 ∉ s ∧ 33 ∉ s) ∨
      ∃ j, j < i + s.length ∧ detectUrlLoop l i s = (l.take j, l.drop j) := by
  intro s
  induction s with
  | nil => intro i; exact Or.inl ⟨rfl, by simp, by simp⟩
  | cons c s ih =>
    intro i
    by_cases hc : isUrlEnd c = true
    · exact Or.inr ⟨i, by simp, by simp [detectUrlLoop, hc]⟩
    · have hc' := hc
      rw [isUrlEnd_iff, not_or] at hc'
      rcases ih (i + 1) with ⟨h, h1, h2⟩ | ⟨j, hj, h⟩
      · refine Or.inl ⟨by simp [detectUrlLoop, hc, h], ?_, ?_⟩
        · simp only [List.mem_cons, not_or]; exact ⟨fun e => hc'.1 e.symm, h1⟩
        · simp only [List.mem_cons, not_or]; exact ⟨fun e => hc'.2 e.symm, h2⟩
      · exact Or.inr ⟨j, by simp; omega, by simp [detectUrlLoop, hc, h]⟩

/-- What `detectUrl` returns with nothing left over: the whole of `l`, a scheme followed
by bytes other than space and `!`. -/
theorem detectUrl_whole_iff (l url : Bytes) :
    detectUrl l = some (url, []) ↔
      (url = l ∧ ∃ t, (l = ascii "http://" ++ t ∨ l = ascii "https://" ++ t) ∧ 32 ∉ t ∧ 33 ∉ t) := by
  constructor
  · intro h
    unfold detectUrl at h
    cases hidx : bytesIndex l [58, 47, 47] with
    | none => simp [hidx] at h
    | some i =>
      have hl : l = l.take i ++ [58, 47, 47] ++ l.drop (i + 3) := bytesIndex_some _ l i hidx
      simp only [hidx] at h
      split at h
      · exact absurd h (by simp)
      · rename_i hcond
        have hs : l.take i = ascii "http" ∨ l.take i = ascii "https" := by
          by_contra hn
          apply hcond
          simp only [not_or] at hn
          simp [hn.1, hn.2]
        simp only [Option.some.injEq] at h
        have hlen : l.length = i + (l.drop (i + 3)).length + 3 := by
          have := congrArg List.length hl
          have hi : i ≤ l.length := by
            by_contra hcon
            rw [List.drop_eq_nil_of_le (by omega)] at this
            simp at this
            omega
          simp only [List.length_append, List.length_take, List.length_cons, List.length_nil,
            Nat.min_eq_left hi] at this
          omega
        rcases detectUrlLoop_cases l (l.drop (i + 3)) (i + 3) with ⟨h0, h1, h2⟩ | ⟨j, hj, h0⟩
        · rw [h0] at h
          have hu : url = l := (Prod.mk.inj h).1.symm
          refine ⟨hu, l.drop (i + 3), ?_, h1, h2⟩
          rcases hs with hs | hs
          · left
            rw [hs] at hl
            simpa [ascii] using hl
          · right
            rw [hs] at hl
            simpa [ascii] using hl
        · rw [h0] at h
          have hd : l.drop j = [] := (Prod.mk.inj h).2
          have : l.length ≤ j := by simpa using hd
          omega
  · rintro ⟨rfl, t, hl, h1, h2⟩
    rcases hl with hl | hl
    · have hidx := bytesIndex_http t
      rw [← hl] at hidx
      have htake : url.take 4 = ascii "http" := by rw [hl]; simp [ascii]
      have hdrop : url.drop 7 = t := by rw [hl]; simp [ascii]
      simp only [detectUrl, hidx, htake, hdrop]
      simp [detectUrlLoop_clean url t 7 h1 h2]
    · have hidx := bytesIndex_https t
      rw [← hl] at hidx
      have htake : url.take 5 = ascii "https" := by rw [hl]; simp [ascii]
      have hdrop : url.drop 8 = t := by rw [hl]; simp [ascii]
      simp only [detectUrl, hidx, htake, hdrop]
      simp [detectUrlLoop_clean url t 8 h1 h2]

theorem isUrlRef_of_shape (name url t : Bytes) (hname : 93 ∉ name)
    (hurl : url = ascii "http://" ++ t ∨ url = ascii "https://" ++ t)
    (h1 : 32 ∉ t) (h2 : 33 ∉ t) :
    isUrlRef ([91] ++ name ++ [93] ++ url) = some (name, url) := by
  have hdet : detectUrl url = some (url, []) :=
    (detectUrl_whole_iff url url).2 ⟨rfl, t, hurl, h1, h2⟩
  have hlen : ¬ ([91] ++ name ++ [93] ++ url).length < 4 := by
    rcases hurl with h | h <;> subst h <;> simp [ascii] <;> omega
  have hidx := indexByte_append_of_not_mem name 93 url hname
  simp only [isUrlRef, hlen, if_false]
  simp [hidx, hdet]

theorem isUrlRef_shape (l name url : Bytes) (h : isUrlRef l = some (name, url)) :
    l = [91] ++ name ++ [93] ++ url ∧ 93 ∉ name ∧
      ∃ t, (url = ascii "http://" ++ t ∨ url = ascii "https://" ++ t) ∧ 32 ∉ t ∧ 33 ∉ t := by
  unfold isUrlRef at h
  split at h
  · exact absurd h (by simp)
  · rename_i hlen
    split at h
    · exact absurd h (by simp)
    · rename_i hhead
      cases l with
      | nil => simp at hlen
      | cons a l =>
        have ha : a = 91 := by simpa using hhead
        subst ha
        simp only [List.drop_succ_cons, List.drop_zero] at h
        cases hidx : indexByte l 93 with
        | none => simp [hidx] at h
        | some e =>
          obtain ⟨hmem, hl⟩ := indexByte_some 93 l e hidx
          simp only [hidx] at h
          cases hdet : detectUrl (l.drop (e + 1)) with
          | none => simp [hdet] at h
          | some ur =>
            obtain ⟨u, rest⟩ := ur
            simp only [hdet] at h
            split at h
            · exact absurd h (by simp)
            · rename_i hrest
              have hr : rest = [] := by
                cases rest with
                | nil => rfl
                | cons _ _ => simp at hrest
              subst hr
              simp only [Option.some.injEq, Prod.mk.injEq] at h
              obtain ⟨hn, hu⟩ := h
              subst hn hu
              obtain ⟨hul, t, ht, h1, h2⟩ := (detectUrl_whole_iff _ _).1 hdet
              refine ⟨?_, hmem, t, ?_, h1, h2⟩
              · rw [hul]
                simpa using hl
              · rw [hul]
                exact ht

theorem append_cons_inj_of_not_mem (c : Nat) (x y r s : Bytes) (hx : c ∉ x) (hy : c ∉ y)
    (h : x ++ c :: r = y ++ c :: s) : x = y ∧ r = s := by
  have h1 := indexByte_append_of_not_mem x c r hx
  have h2 := indexByte_append_of_not_mem y c s hy
  rw [h, h2] at h1
  have hlen : y.length = x.length := Option.some.inj h1
  exact List.append_inj h hlen.symm |>.imp id (fun e => (List.cons.inj e).2)

/-- C4. `isUrlRef` recognises exactly the reference-definition lines: it returns
`(name, url)` if and only if the line is `[` name `]` url, where name has no `]` and url
is `http://` or `https://` followed by bytes other than space and `!`. An empty name is
accepted, and anything after the URL makes the line a non-reference. -/
theorem isUrlRef_iff :
    (∀ l name url : Bytes, isUrlRef l = some (name, url) ↔
      (l = [91] ++ name ++ [93] ++ url ∧ 93 ∉ name ∧
        ∃ t, (url = ascii "http://" ++ t ∨ url = ascii "https://" ++ t) ∧ 32 ∉ t ∧ 33 ∉ t)) ∧
    isUrlRef (ascii "[]http://hobix.com") = some ([], ascii "http://hobix.com") ∧
    (∀ name url t trailing : Bytes, ∀ c : Nat, 93 ∉ name →
      (url = ascii "http://" ++ t ∨ url = ascii "https://" ++ t) → 32 ∉ t → 33 ∉ t →
      (c = 32 ∨ c = 33) →
      isUrlRef ([91] ++ name ++ [93] ++ url ++ c :: trailing) = none) := by
  refine ⟨fun l name url => ⟨isUrlRef_shape l name url, ?_⟩, by decide, ?_⟩
  · rintro ⟨rfl, hname, t, hurl, h1, h2⟩
    exact isUrlRef_of_shape name url t hname hurl h1 h2
  · intro name url t trailing c hname hurl h1 h2 hc
    cases hres : isUrlRef ([91] ++ name ++ [93] ++ url ++ c :: trailing) with
    | none => rfl
    | some nu =>
      exfalso
      obtain ⟨n', u'⟩ := nu
      obtain ⟨hl, hn', t', hu', h1', h2'⟩ := isUrlRef_shape _ _ _ hres
      have hl' : name ++ 93 :: (url ++ c :: trailing) = n' ++ 93 :: u' := by
        simpa using hl
      obtain ⟨_, hu⟩ := append_cons_inj_of_not_mem 93 _ _ _ _ hname hn' hl'
      have hct : c ∉ t' := by rcases hc with h | h <;> subst h <;> assumption
      rcases hurl with h | h <;> rcases hu' with h' | h' <;> subst h <;> rw [h'] at hu
      · have : t ++ c :: trailing = t' := by simpa [ascii] using hu
        exact hct (by rw [← this]; simp)
      · simp [ascii] at hu
      · simp [ascii] at hu
      · have : t ++ c :: trailing = t' := by simpa [ascii] using hu
        exact hct (by rw [← this]; simp)

/-! ## Reference pre-pass -/

theorem isUrlRef_nil : isUrlRef [] = none := rfl

theorem firstPassLoop_ref (p : TextileParser) (res : List Bytes) (l : Bytes) (ls : List Bytes)
    (name url : Bytes) (h : isUrlRef l = some (name, url)) :
    firstPassLoop p res (l :: ls) =
      firstPassLoop { p with refs := mapSet p.refs name { name := name, url := url } } res ls := by
  simp [firstPassLoop, parseRef, h]

theorem firstPassLoop_keep (p : TextileParser) (res : List Bytes) (l : Bytes) (ls : List Bytes)
    (h : isUrlRef l = none) (hl : l ≠ []) :
    firstPassLoop p res (l :: ls) = firstPassLoop p (res ++ [l]) ls := by
  have : 0 < l.length := List.length_pos.mpr hl
  simp [firstPassLoop, parseRef, h, this]

theorem getD_last_eq (res : List Bytes) (x : Bytes) (h : res.getLast? = some x) :
    res.getD (res.length - 1) [] = x := by
  rw [List.getLast?_eq_getElem?] at h
  simp [List.getD_eq_getElem?_getD, h]

theorem firstPassLoop_blank_keep (p : TextileParser) (res : List Bytes) (ls : List Bytes)
    (x : Bytes) (hlast : res.getLast? = some x) (hx : x ≠ []) :
    firstPassLoop p res ([] :: ls) = firstPassLoop p (res ++ [[]]) ls := by
  have hres : 0 < res.length := by
    cases res with
    | nil => simp at hlast
    | cons _ _ => simp
  have hxl : 0 < x.length := List.length_pos.mpr hx
  have hget := getD_last_eq res x hlast
  simp only [firstPassLoop, parseRef, isUrlRef_nil]
  simp only [hget]
  simp [hres, hxl]

theorem firstPassLoop_blank_drop (p : TextileParser) (res : List Bytes) (ls : List Bytes)
    (hlast : res.getLast? = none ∨ res.getLast? = some []) :
    firstPassLoop p res ([] :: ls) = firstPassLoop p res ls := by
  rcases hlast with h | h
  · have : res = [] := by simpa using h
    subst this
    simp [firstPassLoop, parseRef, isUrlRef_nil]
  · have hget := getD_last_eq res [] h
    simp only [firstPassLoop, parseRef, isUrlRef_nil]
    simp only [hget]
    simp

/-- The four ways a turn of the loop of `firstPass` can go. -/
theorem firstPassLoop_cases (p : TextileParser) (res : List Bytes) (l : Bytes) (ls : List Bytes) :
    (∃ name url, isUrlRef l = some (name, url) ∧ firstPassLoop p res (l :: ls) =
        firstPassLoop { p with refs := mapSet p.refs name { name := name, url := url } } res ls) ∨
    (isUrlRef l = none ∧ l ≠ [] ∧
        firstPassLoop p res (l :: ls) = firstPassLoop p (res ++ [l]) ls) ∨
    (l = [] ∧ (∃ x, res.getLast? = some x ∧ x ≠ []) ∧
        firstPassLoop p res (l :: ls) = firstPassLoop p (res ++ [[]]) ls) ∨
    (l = [] ∧ (res.getLast? = none ∨ res.getLast? = some []) ∧
        firstPassLoop p res (l :: ls) = firstPassLoop p res ls) := by
  cases h : isUrlRef l with
  | some nu =>
    obtain ⟨name, url⟩ := nu
    exact Or.inl ⟨name, url, rfl, firstPassLoop_ref p res l ls name url h⟩
  | none =>
    by_cases hl : l = []
    · subst hl
      cases hlast : res.getLast? with
      | none => exact Or.inr (Or.inr (Or.inr ⟨rfl, Or.inl rfl, firstPassLoop_blank_drop p res ls (Or.inl hlast)⟩))
      | some x =>
        by_cases hx : x = []
        · subst hx
          exact Or.inr (Or.inr (Or.inr ⟨rfl, Or.inr rfl, firstPassLoop_blank_drop p res ls (Or.inr hlast)⟩))
        · exact Or.inr (Or.inr (Or.inl ⟨rfl, ⟨x, rfl, hx⟩, firstPassLoop_blank_keep p res ls x hlast hx⟩))
    · exact Or.inr (Or.inl ⟨rfl, hl, firstPassLoop_keep p res l ls h hl⟩)

theorem firstPassLoop_append (a b : List Bytes) : ∀ (p : TextileParser) (res : List Bytes),
    firstPassLoop p res (a ++ b) =
      firstPassLoop (firstPassLoop p res a).1 (firstPassLoop p res a).2 b := by
  induction a with
  | nil => intro p res; rfl
  | cons l ls ih =>
    intro p res
    simp only [List.cons_append, firstPassLoop]
    cases hpr : parseRef p l with
    | mk q b =>
      cases b with
      | true => exact ih _ _
      | false =>
        simp only []
        split_ifs <;> exact ih _ _

theorem firstPassLoop_filter (lines : List Bytes) : ∀ (p : TextileParser) (res : List Bytes),
    (firstPassLoop p res lines).2.filter (fun l => decide (l ≠ [])) =
      res.filter (fun l => decide (l ≠ [])) ++
        lines.filter (fun l => decide (l ≠ [] ∧ isUrlRef l = none)) := by
  induction lines with
  | nil => intro p res; simp [firstPassLoop]
  | cons l ls ih =>
    intro p res
    rcases firstPassLoop_cases p res l ls with ⟨n, u, hr, h⟩ | ⟨hr, hl, h⟩ | ⟨hl, _, h⟩ | ⟨hl, _, h⟩
    · rw [h, ih]
      simp [hr]
    · rw [h, ih]
      simp [hr, hl]
    · rw [h, ih]
      simp [hl]
    · rw [h, ih]
      simp [hl]

theorem firstPassLoop_no_ref (lines : List Bytes) : ∀ (p : TextileParser) (res : List Bytes),
    (∀ l ∈ res, isUrlRef l = none) → ∀ l ∈ (firstPassLoop p res lines).2, isUrlRef l = none := by
  induction lines with
  | nil => intro p res hres; simpa [firstPassLoop] using hres
  | cons l ls ih =>
    intro p res hres
    rcases firstPassLoop_cases p res l ls with ⟨n, u, hr, h⟩ | ⟨hr, hl, h⟩ | ⟨hl, _, h⟩ | ⟨hl, _, h⟩
    · rw [h]; exact ih _ _ hres
    · rw [h]; apply ih
      intro m hm
      rcases List.mem_append.1 hm with hm | hm
      · exact hres m hm
      · have : m = l := by simpa using hm
        rw [this]; exact hr
    · rw [h]; apply ih
      intro m hm
      rcases List.mem_append.1 hm with hm | hm
      · exact hres m hm
      · have : m = [] := by simpa using hm
        rw [this]; rfl
    · rw [h]; exact ih _ _ hres

/-- C6. The non-blank lines of the result of `firstPass` are exactly the non-blank input
lines that are not reference definitions, in their original order; no line of the result
is a reference definition. -/
theorem firstPass_keeps_text (p : TextileParser) (lines : List Bytes) :
    (firstPass p lines).2.filter (fun l => decide (l ≠ [])) =
        lines.filter (fun l => decide (l ≠ [] ∧ isUrlRef l = none)) ∧
      ∀ l ∈ (firstPass p lines).2, isUrlRef l = none := by
  refine ⟨?_, ?_⟩
  · simpa [firstPass] using firstPassLoop_filter lines p []
  · exact firstPassLoop_no_ref lines p [] (by simp)

theorem firstPassLoop_chain (lines : List Bytes) : ∀ (p : TextileParser) (res : List Bytes),
    List.Chain' (fun a b : Bytes => ¬ (a = [] ∧ b = [])) res →
    List.Chain' (fun a b : Bytes => ¬ (a = [] ∧ b = [])) (firstPassLoop p res lines).2 := by
  induction lines with
  | nil => intro p res hres; simpa [firstPassLoop] using hres
  | cons l ls ih =>
    intro p res hres
    rcases firstPassLoop_cases p res l ls with ⟨n, u, hr, h⟩ | ⟨hr, hl, h⟩ | ⟨hl, hx, h⟩ | ⟨hl, _, h⟩
    · rw [h]; exact ih _ _ hres
    · rw [h]; apply ih
      rw [List.chain'_append]
      refine ⟨hres, List.chain'_singleton l, ?_⟩
      intro x _ y hy
      have : y = l := by simpa using hy.symm
      subst this
      exact fun hc => hl hc.2
    · rw [h]; apply ih
      obtain ⟨x, hlast, hx⟩ := hx
      rw [List.chain'_append]
      refine ⟨hres, List.chain'_singleton _, ?_⟩
      intro a ha y _
      have : a = x := by
        rw [hlast] at ha
        simpa using ha.symm
      subst this
      exact fun hc => hx hc.1
    · rw [h]; exact ih _ _ hres

theorem firstPassLoop_head (lines : List Bytes) : ∀ (p : TextileParser) (res : List Bytes),
    res.head? ≠ some [] → (firstPassLoop p res lines).2.head? ≠ some [] := by
  induction lines with
  | nil => intro p res hres; simpa [firstPassLoop] using hres
  | cons l ls ih =>
    intro p res hres
    rcases firstPassLoop_cases p res l ls with ⟨n, u, hr, h⟩ | ⟨hr, hl, h⟩ | ⟨hl, hx, h⟩ | ⟨hl, _, h⟩
    · rw [h]; exact ih _ _ hres
    · rw [h]; apply ih
      cases res with
      | nil => simpa using hl
      | cons a res => simpa using hres
    · rw [h]; apply ih
      obtain ⟨x, hlast, hx⟩ := hx
      cases res with
      | nil => simp at hlast
      | cons a res => simpa using hres
    · rw [h]; exact ih _ _ hres

theorem firstPassLoop_run_closed (run : List Bytes) : ∀ (p : TextileParser) (res : List Bytes),
    (∀ l ∈ run, l = [] ∨ (isUrlRef l).isSome) →
    (res.getLast? = none ∨ res.getLast? = some []) →
    (firstPassLoop p res run).2 = res := by
  induction run with
  | nil => intro p res _ _; rfl
  | cons l ls ih =>
    intro p res hrun hres
    have hls : ∀ m ∈ ls, m = [] ∨ (isUrlRef m).isSome := fun m hm => hrun m (List.mem_cons_of_mem _ hm)
    rcases firstPassLoop_cases p res l ls with ⟨n, u, hr, h⟩ | ⟨hr, hl, h⟩ | ⟨hl, hx, h⟩ | ⟨hl, _, h⟩
    · rw [h]; exact ih _ _ hls hres
    · rcases hrun l (by simp) with h0 | h0
      · exact absurd h0 hl
      · simp [hr] at h0
    · obtain ⟨x, hlast, hx⟩ := hx
      rcases hres with h0 | h0
      · rw [h0] at hlast; simp at hlast
      · rw [h0] at hlast
        exact absurd (Option.some.inj hlast).symm hx
    · rw [h]; exact ih _ _ hls hres

theorem firstPassLoop_run_open (run : List Bytes) : ∀ (p : TextileParser) (res : List Bytes),
    (∀ l ∈ run, l = [] ∨ (isUrlRef l).isSome) → [] ∈ run →
    (∃ x, res.getLast? = some x ∧ x ≠ []) →
    (firstPassLoop p res run).2 = res ++ [[]] := by
  induction run with
  | nil => intro p res _ h; simp at h
  | cons l ls ih =>
    intro p res hrun hmem hres
    have hls : ∀ m ∈ ls, m = [] ∨ (isUrlRef m).isSome := fun m hm => hrun m (List.mem_cons_of_mem _ hm)
    rcases firstPassLoop_cases p res l ls with ⟨n, u, hr, h⟩ | ⟨hr, hl, h⟩ | ⟨hl, hx, h⟩ | ⟨hl, hx, h⟩
    · rw [h]
      have hl : l ≠ [] := by
        rintro rfl
        simp [isUrlRef_nil] at hr
      have : [] ∈ ls := by
        rcases List.mem_cons.1 hmem with h0 | h0
        · exact absurd h0.symm hl
        · exact h0
      exact ih _ _ hls this hres
    · rcases hrun l (by simp) with h0 | h0
      · exact absurd h0 hl
      · simp [hr] at h0
    · rw [h]
      exact firstPassLoop_run_closed ls p (res ++ [[]]) hls (Or.inr (by simp))
    · obtain ⟨x, hlast, hxne⟩ := hres
      rcases hx with h0 | h0
      · rw [h0] at hlast; simp at hlast
      · rw [h0] at hlast
        exact absurd (Option.some.inj hlast).symm hxne

theorem firstPassLoop_frame (lines : List Bytes) : ∀ (p : TextileParser) (a res : List Bytes),
    res ≠ [] → (firstPassLoop p (a ++ res) lines).2 = a ++ (firstPassLoop p res lines).2 := by
  induction lines with
  | nil => intro p a res _; rfl
  | cons l ls ih =>
    intro p a res hres
    have hlast : (a ++ res).getLast? = res.getLast? := by
      rw [List.getLast?_append]
      cases h : res.getLast? with
      | none => exact absurd (List.getLast?_eq_none_iff.1 h) hres
      | some x => rfl
    rcases firstPassLoop_cases p res l ls with ⟨n, u, hr, h⟩ | ⟨hr, hl, h⟩ | ⟨hl, hx, h⟩ | ⟨hl, hx, h⟩
    · rw [h, firstPassLoop_ref p (a ++ res) l ls n u hr]
      exact ih _ a res hres
    · rw [h, firstPassLoop_keep p (a ++ res) l ls hr hl, List.append_assoc]
      exact ih p a (res ++ [l]) (by simp)
    · obtain ⟨x, hx1, hx2⟩ := hx
      subst hl
      rw [h, firstPassLoop_blank_keep p (a ++ res) ls x (by rw [hlast]; exact hx1) hx2,
        List.append_assoc]
      exact ih p a (res ++ [[]]) (by simp)
    · subst hl
      rw [h, firstPassLoop_blank_drop p (a ++ res) ls (by rw [hlast]; exact hx)]
      exact ih p a res hres

theorem firstPassLoop_snd_indep (lines : List Bytes) : ∀ (p q : TextileParser) (res : List Bytes),
    (firstPassLoop p res lines).2 = (firstPassLoop q res lines).2 := by
  induction lines with
  | nil => intro p q res; rfl
  | cons l ls ih =>
    intro p q res
    rcases firstPassLoop_cases p res l ls with ⟨n, u, hr, h⟩ | ⟨hr, hl, h⟩ | ⟨hl, hx, h⟩ | ⟨hl, hx, h⟩
    · rw [h, firstPassLoop_ref q res l ls n u hr]
      exact ih _ _ res
    · rw [h, firstPassLoop_keep q res l ls hr hl]
      exact ih p q _
    · obtain ⟨x, hx1, hx2⟩ := hx
      subst hl
      rw [h, firstPassLoop_blank_keep q res ls x hx1 hx2]
      exact ih p q _
    · subst hl
      rw [h, firstPassLoop_blank_drop q res ls hx]
      exact ih p q _

/-- After a blank line kept last, or with nothing kept yet, the loop of `firstPass` goes
on as from the start. -/
theorem firstPassLoop_frame_closed (lines : List Bytes) : ∀ (p : TextileParser) (res : List Bytes),
    (res.getLast? = none ∨ res.getLast? = some []) →
    (firstPassLoop p res lines).2 = res ++ (firstPassLoop p [] lines).2 := by
  induction lines with
  | nil => intro p res _; simp [firstPassLoop]
  | cons l ls ih =>
    intro p res hres
    rcases firstPassLoop_cases p [] l ls with ⟨n, u, hr, h⟩ | ⟨hr, hl, h⟩ | ⟨hl, hx, h⟩ | ⟨hl, hx, h⟩
    · rw [h, firstPassLoop_ref p res l ls n u hr]
      exact ih _ res hres
    · rw [h, firstPassLoop_keep p res l ls hr hl]
      exact firstPassLoop_frame ls p res [l] (by simp)
    · obtain ⟨x, hx1, _⟩ := hx
      simp at hx1
    · subst hl
      rw [h, firstPassLoop_blank_drop p res ls hres]
      exact ih p res hres

theorem destutter'_head (R : Bytes → Bytes → Prop) [DecidableRel R] (l : List Bytes) :
    ∀ a : Bytes, ∃ t, List.destutter' R a l = a :: t := by
  induction l with
  | nil => intro a; exact ⟨[], rfl⟩
  | cons b l ih =>
    intro a
    by_cases h : R a b
    · exact ⟨List.destutter' R b l, List.destutter'_cons_pos _ h⟩
    · rw [List.destutter'_cons_neg _ h]
      exact ih a

/-- The loop of `firstPass` with a line `a` kept last: of the lines that are no reference
definitions, a blank line is dropped exactly when the line kept last is blank. -/
theorem firstPassLoop_destutter (lines : List Bytes) : ∀ (p : TextileParser) (pre : List Bytes)
    (a : Bytes),
    (firstPassLoop p (pre ++ [a]) lines).2 =
      pre ++ List.destutter' (fun x y : Bytes => ¬ (x = [] ∧ y = [])) a
        (lines.filter (fun l => decide (isUrlRef l = none))) := by
  induction lines with
  | nil => intro p pre a; simp [firstPassLoop]
  | cons l ls ih =>
    intro p pre a
    rcases firstPassLoop_cases p (pre ++ [a]) l ls with
      ⟨n, u, hr, h⟩ | ⟨hr, hl, h⟩ | ⟨hl, hx, h⟩ | ⟨hl, hx, h⟩
    · rw [h, ih]
      simp [hr]
    · rw [h, ih, List.filter_cons_of_pos (by simpa using hr),
        List.destutter'_cons_pos _ (fun hc => hl hc.2)]
      simp
    · obtain ⟨x, hx1, hx2⟩ := hx
      have hxa : x = a := by simpa using hx1.symm
      subst hxa hl
      rw [h, ih, List.filter_cons_of_pos (by simp [isUrlRef_nil]),
        List.destutter'_cons_pos _ (fun hc => hx2 hc.1)]
      simp
    · have ha : a = [] := by simpa using hx
      subst ha hl
      rw [h, ih, List.filter_cons_of_pos (by simp [isUrlRef_nil]),
        List.destutter'_cons_neg _ (by simp)]

theorem firstPassLoop_destutter_nil (lines : List Bytes) : ∀ (p : TextileParser),
    (firstPassLoop p [] lines).2 =
      ((lines.filter (fun l => decide (isUrlRef l = none))).destutter
        (fun x y : Bytes => ¬ (x = [] ∧ y = []))).dropWhile (fun l => decide (l = [])) := by
  induction lines with
  | nil => intro p; rfl
  | cons l ls ih =>
    intro p
    rcases firstPassLoop_cases p [] l ls with ⟨n, u, hr, h⟩ | ⟨hr, hl, h⟩ | ⟨hl, hx, h⟩ | ⟨hl, hx, h⟩
    · rw [h, ih]
      simp [hr]
    · have h2 := firstPassLoop_destutter ls p [] l
      rw [List.nil_append] at h2
      rw [h, List.nil_append, h2, List.filter_cons_of_pos (by simpa using hr),
        List.destutter_cons']
      obtain ⟨t, ht⟩ := destutter'_head (fun x y : Bytes => ¬ (x = [] ∧ y = []))
        (ls.filter (fun l => decide (isUrlRef l = none))) l
      rw [ht, List.nil_append, List.dropWhile_cons_of_neg (by simpa using hl)]
    · obtain ⟨x, hx1, _⟩ := hx
      simp at hx1
    · subst hl
      rw [h, ih, List.filter_cons_of_pos (by simp [isUrlRef_nil]), List.destutter_cons']
      cases hf : ls.filter (fun l => decide (isUrlRef l = none)) with
      | nil => simp
      | cons b f =>
        by_cases hb : b = []
        · subst hb
          rw [List.destutter_cons', List.destutter'_cons_neg _ (by simp)]
        · rw [List.destutter_cons', List.destutter'_cons_pos _ (fun hc => hb hc.2),
            List.dropWhile_cons_of_pos (by simp)]

/-- C5, as the code has it. The result of `firstPass` has no two consecutive blank lines
and does not begin with a blank line. A run of blank lines and reference definitions that
follows a kept non-blank line `x`, and has a blank line in it, leaves exactly one blank
line after `x`, whatever lines `post` follow the run: the result is that of the lines up
to `x`, one blank line, and the result of `post`. A run of blank lines and reference
definitions that opens the input leaves nothing. In closed form, the result is the lines
that are no reference definitions, with each blank line that follows a blank line taken
out, and a blank line at the head taken out. -/
theorem firstPass_blank_runs (p : TextileParser) (lines : List Bytes) :
    List.Chain' (fun a b : Bytes => ¬ (a = [] ∧ b = [])) (firstPass p lines).2 ∧
      (firstPass p lines).2.head? ≠ some [] ∧
      (∀ (pre run post : List Bytes) (x : Bytes), x ≠ [] → isUrlRef x = none →
        (∀ l ∈ run, l = [] ∨ (isUrlRef l).isSome) → [] ∈ run →
        (firstPass p (pre ++ x :: (run ++ post))).2 =
          (firstPass p (pre ++ [x])).2 ++ [] :: (firstPass p post).2) ∧
      (∀ (run post : List Bytes), (∀ l ∈ run, l = [] ∨ (isUrlRef l).isSome) →
        (firstPass p (run ++ post)).2 = (firstPass p post).2) ∧
      (firstPass p lines).2 =
        ((lines.filter (fun l => decide (isUrlRef l = none))).destutter
          (fun x y : Bytes => ¬ (x = [] ∧ y = []))).dropWhile (fun l => decide (l = [])) := by
  refine ⟨firstPassLoop_chain lines p [] List.chain'_nil,
    firstPassLoop_head lines p [] (by simp), ?_, ?_, firstPassLoop_destutter_nil lines p⟩
  · intro pre run post x hx hr hrun hmem
    simp only [firstPass]
    rw [firstPassLoop_append pre (x :: (run ++ post)), firstPassLoop_append pre [x]]
    generalize (firstPassLoop p [] pre).1 = q
    generalize (firstPassLoop p [] pre).2 = res
    rw [firstPassLoop_keep q res x (run ++ post) hr hx,
      firstPassLoop_keep q res x [] hr hx, firstPassLoop_append run post,
      firstPassLoop_run_open run q (res ++ [x]) hrun hmem ⟨x, by simp, hx⟩,
      firstPassLoop_frame_closed post _ _ (Or.inr (by simp)),
      firstPassLoop_snd_indep post _ p []]
    simp [firstPassLoop]
  · intro run post hrun
    simp only [firstPass]
    rw [firstPassLoop_append run post, firstPassLoop_run_closed run p [] hrun (Or.inl rfl)]
    exact firstPassLoop_snd_indep post _ p []

/-- C5, as stated, fails on a leading run: the blank line that opens the input is not
collapsed to one blank line, it is dropped. -/
theorem firstPass_leading_blank_dropped :
    (firstPass (NewTextileParser ⟨0⟩) [[], ascii "a"]).2 = [ascii "a"] ∧
      [] ∉ (firstPass (NewTextileParser ⟨0⟩) [[], ascii "a"]).2 := by
  decide

/-! ## Reference table -/

theorem mapGet_mapSet_self (m : List (Bytes × UrlRef)) (k : Bytes) (v : UrlRef) :
    mapGet (mapSet m k v) k = some v := by
  simp [mapGet, mapSet, List.lookup]

theorem lookup_filter_ne (m : List (Bytes × UrlRef)) (k k' : Bytes) (h : k' ≠ k) :
    (m.filter (fun e => decide (e.1 ≠ k))).lookup k' = m.lookup k' := by
  induction m with
  | nil => rfl
  | cons e m ih =>
    obtain ⟨a, b⟩ := e
    by_cases ha : a = k
    · subst ha
      have : (k' == a) = false := by simpa using h
      simp only [List.filter, List.lookup, this, ne_eq, not_true_eq_false, decide_False]
      exact ih
    · by_cases hk : k' = a
      · subst hk
        simp [List.filter, List.lookup, ha]
      · have : (k' == a) = false := by simpa using hk
        simp only [List.filter, List.lookup, this, ne_eq, ha, not_false_eq_true, decide_True]
        exact ih

theorem mapGet_mapSet_ne (m : List (Bytes × UrlRef)) (k k' : Bytes) (v : UrlRef) (h : k' ≠ k) :
    mapGet (mapSet m k v) k' = mapGet m k' := by
  have hb : (k' == k) = false := by simpa using h
  simp only [mapGet, mapSet, List.lookup, hb]
  exact lookup_filter_ne m k k' h

theorem firstPassLoop_refs_other (name : Bytes) (lines : List Bytes) :
    ∀ (p : TextileParser) (res : List Bytes),
    (∀ m ∈ lines, ∀ u, isUrlRef m ≠ some (name, u)) →
    mapGet (firstPassLoop p res lines).1.refs name = mapGet p.refs name := by
  induction lines with
  | nil => intro p res _; rfl
  | cons l ls ih =>
    intro p res hlines
    have hls : ∀ m ∈ ls, ∀ u, isUrlRef m ≠ some (name, u) :=
      fun m hm => hlines m (List.mem_cons_of_mem _ hm)
    rcases firstPassLoop_cases p res l ls with ⟨n, u, hr, h⟩ | ⟨_, _, h⟩ | ⟨_, _, h⟩ | ⟨_, _, h⟩
    · rw [h, ih _ _ hls]
      have hn : name ≠ n := by
        rintro rfl
        exact hlines l (by simp) u hr
      exact mapGet_mapSet_ne p.refs n name _ hn
    · rw [h, ih _ _ hls]
    · rw [h, ih _ _ hls]
    · rw [h, ih _ _ hls]

/-- C3, as the code has it. The reference table after the pre-pass maps a name to the
URL of its last definition: a definition line `l` of `name` that no later line redefines
decides the entry, whatever came before it. -/
theorem firstPass_last_definition_wins (p : TextileParser) (pre post : List Bytes)
    (l name url : Bytes) (hl : isUrlRef l = some (name, url))
    (hpost : ∀ m ∈ post, ∀ u, isUrlRef m ≠ some (name, u)) :
    mapGet (firstPass p (pre ++ l :: post)).1.refs name = some { name := name, url := url } := by
  simp only [firstPass]
  rw [firstPassLoop_append pre (l :: post)]
  generalize (firstPassLoop p [] pre).1 = q
  generalize (firstPassLoop p [] pre).2 = res
  rw [firstPassLoop_ref q res l post name url hl, firstPassLoop_refs_other name post _ res hpost]
  exact mapGet_mapSet_self q.refs name _

theorem firstPass_last_definition_wins_witness :
    mapGet (firstPass (NewTextileParser ⟨0⟩)
        ([ascii "[a]http://x", ascii "text"] ++ ascii "[a]http://y" :: [ascii "[b]http://z"])).1.refs
        (ascii "a") = some { name := ascii "a", url := ascii "http://y" } :=
  firstPass_last_definition_wins (NewTextileParser ⟨0⟩) [ascii "[a]http://x", ascii "text"]
    [ascii "[b]http://z"] (ascii "[a]http://y") (ascii "a") (ascii "http://y") (by decide)
    (fun m hm u h => by
      have hm' : m = ascii "[b]http://z" := by simpa using hm
      subst hm'
      have e : isUrlRef (ascii "[b]http://z") = some (ascii "b", ascii "http://z") := by decide
      rw [e] at h
      have hb : ascii "b" = ascii "a" := (Prod.mk.inj (Option.some.inj h)).1
      exact absurd hb (by decide))

/-- C3, as stated, fails: of two definitions of one name the first does not win, the
table holds the URL of the second. -/
theorem firstPass_first_definition_lost :
    mapGet (firstPass (NewTextileParser ⟨0⟩) [ascii "[a]http://x", ascii "[a]http://y"]).1.refs
        (ascii "a") = some { name := ascii "a", url := ascii "http://y" } ∧
      mapGet (firstPass (NewTextileParser ⟨0⟩) [ascii "[a]http://x", ascii "[a]http://y"]).1.refs
        (ascii "a") ≠ some { name := ascii "a", url := ascii "http://x" } := by
  decide

/-! ## Two-byte delimiters -/

theorem is2ByteLoop_found (l : Bytes) (b : Nat) (r : Bytes) : ∀ (x : Bytes) (i : Nat),
    List.Chain' (fun u v : Nat => ¬ (u = b ∧ v = b)) x → x.getLast? ≠ some b →
    is2ByteLoop l b i (x ++ b :: b :: r) =
      some (l.drop (i + x.length + 2), (l.take (i + x.length)).drop 2) := by
  intro x
  induction x with
  | nil => intro i _ _; simp [is2ByteLoop]
  | cons a x ih =>
    intro i hch hlast
    have hch' : List.Chain' (fun u v : Nat => ¬ (u = b ∧ v = b)) x := List.Chain'.tail hch
    have hlast' : x.getLast? ≠ some b := by
      cases x with
      | nil => simp
      | cons a' x' => simpa [List.getLast?_cons_cons] using hlast
    have hidx : i + (a :: x).length = i + 1 + x.length := by simp; omega
    rw [hidx, ← ih (i + 1) hch' hlast']
    cases x with
    | nil =>
      have ha : ¬ a = b := by simpa using hlast
      simp [is2ByteLoop, ha]
    | cons a' x' =>
      have hrel : ¬ (a = b ∧ a' = b) := by
        have := List.Chain'.rel_head hch
        exact this
      by_cases ha : a = b
      · have ha' : ¬ a' = b := fun h => hrel ⟨ha, h⟩
        simp [is2ByteLoop, ha, ha']
      · simp [is2ByteLoop, ha]

/-- C9. Two-byte delimiter round trip: for every delimiter byte `b`, every interior `x`
with no two adjacent `b` and no `b` at its end (the empty `x` included) and every
remainder `r`, `is2Byte` on `bb` `x` `bb` `r` succeeds with interior `x` and remainder
`r`. `____` parses as italic with an empty interior, and `__a_d___lo` gives interior
`a_d` and remainder `_lo`. -/
theorem is2Byte_roundtrip (b : Nat) (x r : Bytes)
    (hadj : List.Chain' (fun u v : Nat => ¬ (u = b ∧ v = b)) x)
    (hend : x.getLast? ≠ some b) :
    is2Byte ([b, b] ++ x ++ [b, b] ++ r) b = some (r, x) ∧
      parseItalic (ascii "____") = some ([], []) ∧
      parseItalic (ascii "__a_d___lo") = some (ascii "_lo", ascii "a_d") := by
  refine ⟨?_, by decide, by decide⟩
  have hlen : ¬ ([b, b] ++ x ++ [b, b] ++ r).length < 4 := by simp; omega
  have hloop := is2ByteLoop_found ([b, b] ++ x ++ [b, b] ++ r) b r x 2 hadj hend
  simp only [is2Byte, hlen, if_false]
  have hdrop : ([b, b] ++ x ++ [b, b] ++ r).drop 2 = x ++ b :: b :: r := by simp
  rw [hdrop, hloop]
  have h1 : ([b, b] ++ x ++ [b, b] ++ r).drop (2 + x.length + 2) = r := by
    have : ([b, b] ++ x ++ [b, b] ++ r) = ([b, b] ++ x ++ [b, b]) ++ r := by simp
    rw [this, List.drop_left' (by simp; omega)]
  have h2 : (([b, b] ++ x ++ [b, b] ++ r).take (2 + x.length)).drop 2 = x := by
    have : ([b, b] ++ x ++ [b, b] ++ r) = ([b, b] ++ x) ++ ([b, b] ++ r) := by simp
    rw [this, List.take_left' (by simp; omega)]
    simp
  rw [h1, h2]
  simp

theorem is2Byte_roundtrip_witness :
    is2Byte ([63, 63] ++ ascii "a?b" ++ [63, 63] ++ ascii "?c") 63
        = some (ascii "?c", ascii "a?b") ∧
      parseItalic (ascii "____") = some ([], []) ∧
      parseItalic (ascii "__a_d___lo") = some (ascii "_lo", ascii "a_d") :=
  is2Byte_roundtrip 63 (ascii "a?b") (ascii "?c") (by simp [ascii]) (by decide)

/-! ## Style tokens -/

theorem endsWithByte_iff (s : Bytes) (b : Nat) : endsWithByte s b = true ↔ s.getLast? = some b := by
  cases hs : s.getLast? with
  | none =>
    have : s = [] := by simpa using hs
    subst this
    simp [endsWithByte]
  | some x =>
    have hne : s.length ≠ 0 := by
      intro h
      have : s = [] := List.length_eq_zero.mp h
      subst this
      simp at hs
    have hget : s.getD (s.length - 1) 0 = x := by
      rw [List.getLast?_eq_getElem?] at hs
      simp [List.getD_eq_getElem?_getD, hs]
    simp only [endsWithByte, hne, if_false, hget]
    simp

theorem extractStyleOptLoop_found (l r : Bytes) : ∀ (s : Bytes) (i : Nat),
    (∀ c ∈ s, isStyleChar c = true) →
    extractStyleOptLoop l i (s ++ 125 :: r) =
      if !endsWithByte ((l.take (i + s.length)).drop 1) 59 then
        ((l.drop (i + s.length + 1), some ((l.take (i + s.length)).drop 1 ++ [59])),
          l.set (i + s.length) 59)
      else ((l.drop (i + s.length + 1), some ((l.take (i + s.length)).drop 1)), l) := by
  intro s
  induction s with
  | nil =>
    intro i _
    have : isStyleChar 125 = false := by decide
    simp [extractStyleOptLoop, this]
  | cons a s ih =>
    intro i hs
    have ha : isStyleChar a = true := hs a (by simp)
    have hs' : ∀ c ∈ s, isStyleChar c = true := fun c hc => hs c (List.mem_cons_of_mem _ hc)
    have hidx : i + (a :: s).length = i + 1 + s.length := by simp; omega
    rw [hidx, ← ih (i + 1) hs']
    simp [extractStyleOptLoop, ha]

theorem extractStyleOpt_token (s r : Bytes) (hne : s ≠ []) (hs : ∀ c ∈ s, isStyleChar c = true) :
    (extractStyleOpt ([123] ++ s ++ [125] ++ r)).1 =
      (r, some (if endsWithByte s 59 then s else s ++ [59])) := by
  obtain ⟨a, s', rfl⟩ : ∃ a s', s = a :: s' := by
    cases s with
    | nil => exact absurd rfl hne
    | cons a s' => exact ⟨a, s', rfl⟩
  have ha : isStyleChar a = true := hs a (by simp)
  have ha125 : ¬ a = 125 := by
    rintro rfl
    revert ha
    decide
  have hstart : startsWithByte ([123] ++ (a :: s') ++ [125] ++ r) 123 3 = true := by
    simp [startsWithByte]
    omega
  have hloop := extractStyleOptLoop_found ([123] ++ (a :: s') ++ [125] ++ r) r (a :: s') 1 hs
  have hdrop : ([123] ++ (a :: s') ++ [125] ++ r).drop 1 = (a :: s') ++ 125 :: r := by simp
  have htake : (([123] ++ (a :: s') ++ [125] ++ r).take (1 + (a :: s').length)).drop 1 = a :: s' := by
    have : [123] ++ (a :: s') ++ [125] ++ r = ([123] ++ (a :: s')) ++ ([125] ++ r) := by simp
    rw [this, List.take_left' (by simp; omega)]
    simp
  have hrest : ([123] ++ (a :: s') ++ [125] ++ r).drop (1 + (a :: s').length + 1) = r := by
    have : [123] ++ (a :: s') ++ [125] ++ r = ([123] ++ (a :: s') ++ [125]) ++ r := by simp
    rw [this, List.drop_left' (by simp; omega)]
  simp only [extractStyleOpt, hstart, Bool.not_true, Bool.false_eq_true, if_false]
  have h1 : ([123] ++ (a :: s') ++ [125] ++ r).getD 1 0 = a := by simp
  rw [h1, if_neg ha125, hdrop, hloop, htake, hrest]
  by_cases he : endsWithByte (a :: s') 59 = true
  · simp [he]
  · simp [he]

/-- C10. Style semicolon normalisation: for every non-empty style text `s` of style
characters that does not end in `;` and every remainder `r`, `extractStyleOpt` returns the
remainder `r` and the style `s;` both on `{s}r` and on `{s;}r`; `parseSpan` on
`%{color:red}%` gives the style `color:red;`. -/
theorem extractStyleOpt_semicolon (s r : Bytes) (hne : s ≠ [])
    (hs : ∀ c ∈ s, isStyleChar c = true) (hend : s.getLast? ≠ some 59) :
    (extractStyleOpt ([123] ++ s ++ [125] ++ r)).1 = (r, some (s ++ [59])) ∧
      (extractStyleOpt ([123] ++ s ++ [59, 125] ++ r)).1 = (r, some (s ++ [59])) ∧
      (parseSpan (ascii "%{color:red}%")).map (fun res => res.1) =
        .ok (some ([], [], { style := some (ascii "color:red;") })) := by
  refine ⟨?_, ?_, by decide⟩
  · have he : endsWithByte s 59 = false := by
      rw [Bool.eq_false_iff, Ne, endsWithByte_iff]
      exact hend
    rw [extractStyleOpt_token s r hne hs, he]
    simp
  · have hs' : ∀ c ∈ s ++ [59], isStyleChar c = true := by
      intro c hc
      rcases List.mem_append.1 hc with h | h
      · exact hs c h
      · have : c = 59 := by simpa using h
        subst this
        decide
    have he : endsWithByte (s ++ [59]) 59 = true := by
      rw [endsWithByte_iff]
      simp
    have := extractStyleOpt_token (s ++ [59]) r (by simp) hs'
    rw [he] at this
    simpa using this

theorem extractStyleOpt_semicolon_witness :
    (extractStyleOpt ([123] ++ ascii "color:red" ++ [125] ++ ascii "x")).1
        = (ascii "x", some (ascii "color:red" ++ [59])) ∧
      (extractStyleOpt ([123] ++ ascii "color:red" ++ [59, 125] ++ ascii "x")).1
        = (ascii "x", some (ascii "color:red" ++ [59])) ∧
      (parseSpan (ascii "%{color:red}%")).map (fun res => res.1) =
        .ok (some ([], [], { style := some (ascii "color:red;") })) :=
  extractStyleOpt_semicolon (ascii "color:red") (ascii "x") (by decide) (by decide) (by decide)

/-! ## Inline scanner: links and images -/

theorem serEscaped_eq (l : Bytes) : ∀ p : TextileParser,
    serEscaped p l =
      { p with out := p.out ++ l.flatMap (fun b => if b = 39 then ascii "&#8217;" else [b]) } := by
  induction l with
  | nil => intro p; simp [serEscaped]
  | cons b t ih =>
    intro p
    by_cases hb : b = 39
    · simp [serEscaped, needsEscaping, hb, ih, write]
    · simp [serEscaped, needsEscaping, hb, ih, write]

theorem parseInlineFuel_nil (tags : List Bytes) (f : Nat) (p : TextileParser) :
    parseInlineFuel tags (f + 1) p [] = .ok p := by
  simp [parseInlineFuel, parseInlineLoop, serEscaped]

theorem extractUrlOrRefNameLoop_clean (l : Bytes) : ∀ (s : Bytes) (i : Nat), 32 ∉ s → 33 ∉ s →
    extractUrlOrRefNameLoop l i s = ([], l) := by
  intro s
  induction s with
  | nil => intro i _ _; rfl
  | cons c s ih =>
    intro i h1 h2
    simp only [List.mem_cons, not_or] at h1 h2
    have hc : isUrlEnd c = false := by
      rw [Bool.eq_false_iff, Ne, isUrlEnd_iff]
      rintro (h | h)
      · exact h1.1 h.symm
      · exact h2.1 h.symm
    simp [extractUrlOrRefNameLoop, hc, ih (i + 1) h1.2 h2.2]

theorem parseUrlOrRefName_link (title tok : Bytes) (h34 : 34 ∉ title) (h32 : 32 ∉ tok)
    (h33 : 33 ∉ tok) (hlen : 4 ≤ ([34] ++ title ++ [34, 58] ++ tok).length) :
    parseUrlOrRefName ([34] ++ title ++ [34, 58] ++ tok) = some ([], title, tok) := by
  have hl : ¬ ([34] ++ title ++ [34, 58] ++ tok).length < 4 := by omega
  have hidx := indexByte_append_of_not_mem title 34 (58 :: tok) h34
  have hurl := extractUrlOrRefNameLoop_clean tok tok 0 h32 h33
  simp only [parseUrlOrRefName, hl, if_false]
  simp [extractInside, extractUntil, hidx, startsWithByte, extractUrlOrRefName, hurl]

/-- C2. Reference resolution in quoted links: for every title without `"` and every
token without space or `!`, the whole text being at least 4 bytes long, `parseInline` on
`"title":tok` writes exactly `<a href="U">`, the title with its apostrophes escaped, and
`</a>`, where `U` is the URL recorded for the token in the reference table if it is a
known reference name, and the token itself otherwise. -/
theorem parseInline_link (tags : List Bytes) (p : TextileParser) (title tok : Bytes)
    (h34 : 34 ∉ title) (h32 : 32 ∉ tok) (h33 : 33 ∉ tok)
    (hlen : 4 ≤ ([34] ++ title ++ [34, 58] ++ tok).length) :
    parseInline tags p ([34] ++ title ++ [34, 58] ++ tok) =
      .ok { p with out := (p.out ++ ascii "<a href=\""
        ++ (match mapGet p.refs tok with
            | some urlRef => urlRef.url
            | none => tok)
        ++ ascii "\">"
        ++ title.flatMap (fun b => if b = 39 then ascii "&#8217;" else [b])
        ++ ascii "</a>") } := by
  have hparse := parseUrlOrRefName_link title tok h34 h32 h33 hlen
  have hcons : [34] ++ title ++ [34, 58] ++ tok = 34 :: (title ++ [34, 58] ++ tok) := by simp
  rw [hcons] at hparse ⊢
  simp only [parseInline, parseInlineFuel, List.length_cons, parseInlineLoop]
  simp only [List.getD_cons_zero, List.drop_zero, List.take_zero, hparse]
  simp only [Nat.reduceEqDiff, if_false, if_true]
  simp only [serUrl, serEscaped_eq, write]
  simp [parseInlineLoop, serEscaped]

theorem parseInline_link_witness :
    parseInline [] { NewTextileParser ⟨0⟩ with
        refs := [(ascii "hobix", { url := ascii "http://hobix.com", name := ascii "hobix" })] }
      ([34] ++ ascii "Hobix's" ++ [34, 58] ++ ascii "hobix") =
      .ok { NewTextileParser ⟨0⟩ with
        refs := [(ascii "hobix", { url := ascii "http://hobix.com", name := ascii "hobix" })]
        out := ascii "<a href=\"http://hobix.com\">Hobix&#8217;s</a>" } :=
  parseInline_link [] _ (ascii "Hobix's") (ascii "hobix") (by decide) (by decide) (by decide)
    (by decide)

theorem parseImg_alt (src alt : Bytes) (hsrc : 40 ∉ src) (hgt : src.head? ≠ some 62)
    (hparen : 41 ∉ alt) :
    parseImg ([33] ++ src ++ [40] ++ alt ++ [41, 33]) = some ([], [], src, alt, 0) := by
  have hl : ¬ ([33] ++ src ++ [40] ++ alt ++ [41, 33]).length < 3 := by simp; omega
  have hdrop : ([33] ++ src ++ [40] ++ alt ++ [41, 33]).drop 1 = src ++ 40 :: (alt ++ [41, 33]) := by
    simp
  have hhead : ¬ (src ++ 40 :: (alt ++ [41, 33])).getD 0 0 = 62 := by
    cases src with
    | nil => simp
    | cons a s => simpa using hgt
  have hidx1 := indexByte_append_of_not_mem src 40 (alt ++ [41, 33]) hsrc
  have hidx2 := indexByte_append_of_not_mem alt 41 [33] hparen
  simp only [parseImg, hl, if_false, hdrop, hhead]
  simp [hidx1, hidx2]

/-- C8. Image rendering: for every src without `(` that does not start with `>` and
every non-empty alt without `)`, `parseInline` on `!src(alt)!` writes exactly
`<img src="src" title="alt" alt="alt">`; so it does on `!openwindow1.gif(Bunny.)!`. -/
theorem parseInline_image (tags : List Bytes) (p : TextileParser) (src alt : Bytes)
    (hsrc : 40 ∉ src) (hgt : src.head? ≠ some 62) (halt : alt ≠ []) (hparen : 41 ∉ alt) :
    parseInline tags p ([33] ++ src ++ [40] ++ alt ++ [41, 33]) =
        .ok { p with out := (p.out ++ ascii "<img src=\"" ++ src ++ ascii "\" title=\"" ++ alt
          ++ ascii "\" alt=\"" ++ alt ++ ascii "\">") } ∧
      (parseInline tags (NewTextileParser ⟨0⟩) (ascii "!openwindow1.gif(Bunny.)!")).map
          (fun q => q.out) =
        .ok (ascii "<img src=\"openwindow1.gif\" title=\"Bunny.\" alt=\"Bunny.\">") := by
  have main : ∀ (p : TextileParser) (src alt : Bytes), 40 ∉ src → src.head? ≠ some 62 →
      alt ≠ [] → 41 ∉ alt →
      parseInline tags p ([33] ++ src ++ [40] ++ alt ++ [41, 33]) =
        .ok { p with out := (p.out ++ ascii "<img src=\"" ++ src ++ ascii "\" title=\"" ++ alt
          ++ ascii "\" alt=\"" ++ alt ++ ascii "\">") } := by
    intro p src alt hsrc hgt halt hparen
    have hparse := parseImg_alt src alt hsrc hgt hparen
    have hcons : [33] ++ src ++ [40] ++ alt ++ [41, 33] = 33 :: (src ++ [40] ++ alt ++ [41, 33]) := by
      simp
    have haltlen : 0 < alt.length := List.length_pos.mpr halt
    rw [hcons] at hparse ⊢
    simp only [parseInline, parseInlineFuel, List.length_cons, parseInlineLoop]
    simp only [List.getD_cons_zero, List.drop_zero, List.take_zero, hparse]
    simp only [Nat.reduceEqDiff, if_false, if_true]
    simp only [serImg, serEscaped_eq, write]
    simp [haltlen, STYLE_FLOAT_RIGHT, parseInlineLoop, serEscaped, ascii]
  refine ⟨main p src alt hsrc hgt halt hparen, ?_⟩
  have hin : ascii "!openwindow1.gif(Bunny.)!"
      = [33] ++ ascii "openwindow1.gif" ++ [40] ++ ascii "Bunny." ++ [41, 33] := by decide
  rw [hin, main _ _ _ (by decide) (by decide) (by decide) (by decide)]
  decide

theorem parseInline_image_witness :
    parseInline [] (NewTextileParser ⟨0⟩) ([33] ++ ascii "a.gif" ++ [40] ++ ascii "A (b" ++ [41, 33]) =
        .ok { NewTextileParser ⟨0⟩ with out := ([] ++ ascii "<img src=\"" ++ ascii "a.gif"
          ++ ascii "\" title=\"" ++ ascii "A (b" ++ ascii "\" alt=\"" ++ ascii "A (b" ++ ascii "\">") } ∧
      (parseInline [] (NewTextileParser ⟨0⟩) (ascii "!openwindow1.gif(Bunny.)!")).map
          (fun q => q.out) =
        .ok (ascii "<img src=\"openwindow1.gif\" title=\"Bunny.\" alt=\"Bunny.\">") :=
  parseInline_image [] (NewTextileParser ⟨0⟩) (ascii "a.gif") (ascii "A (b") (by decide)
    (by decide) (by decide) (by decide)

/-! ## A line of plain text -/

theorem getD_mem_of_lt (l : Bytes) (i : Nat) (h : i < l.length) : l.getD i 0 ∈ l := by
  rw [List.getD_eq_getElem?_getD, List.getElem?_eq_getElem h]
  simp

/-- On a line with no trigger byte the loop of `parseInline` reaches the end and writes
the line escaped. -/
theorem parseInlineLoop_plain (tags : List Bytes)
    (rec : TextileParser → Bytes → Except Stop TextileParser) (p : TextileParser) (l : Bytes)
    (htrig : ∀ c ∈ l, c ∉ ascii "_*\"!@%<?-+^~") :
    ∀ (n i : Nat), i + n = l.length → parseInlineLoop tags rec p l i n = .ok (serEscaped p l) := by
  intro n
  induction n with
  | zero => intro i _; simp [parseInlineLoop]
  | succ n ih =>
    intro i hi
    have hmem : l.getD i 0 ∈ l := getD_mem_of_lt l i (by omega)
    have hb := htrig _ hmem
    simp only [ascii, String.toList, List.map, Char.toNat, List.mem_cons, List.mem_singleton,
      List.not_mem_nil, or_false, not_or] at hb
    have hb' : l.getD i 0 ≠ 95 ∧ l.getD i 0 ≠ 42 ∧ l.getD i 0 ≠ 34 ∧ l.getD i 0 ≠ 33 ∧
        l.getD i 0 ≠ 64 ∧ l.getD i 0 ≠ 37 ∧ l.getD i 0 ≠ 60 ∧ l.getD i 0 ≠ 63 ∧
        l.getD i 0 ≠ 45 ∧ l.getD i 0 ≠ 43 ∧ l.getD i 0 ≠ 94 ∧ l.getD i 0 ≠ 126 := by
      simpa using hb
    obtain ⟨h1, h2, h3, h4, h5, h6, h7, h8, h9, h10, h11, h12⟩ := hb'
    rw [parseInlineLoop]
    simp only [h1, h2, h3, h4, h5, h6, h7, h8, h9, h10, h11, h12, if_false]
    exact ih (i + 1) (by omega)

theorem parseInline_plain (tags : List Bytes) (p : TextileParser) (l : Bytes)
    (htrig : ∀ c ∈ l, c ∉ ascii "_*\"!@%<?-+^~") :
    parseInline tags p l = .ok (serEscaped p l) := by
  simp only [parseInline, parseInlineFuel]
  exact parseInlineLoop_plain tags _ p l htrig l.length 0 (by simp)

theorem closeOlIfNecessary_zero (p : TextileParser) (h : p.olLevel = 0) :
    closeOlIfNecessary p = .ok p := by
  simp [closeOlIfNecessary, closeOlLoop, h]

theorem closeUlIfNecessary_zero (p : TextileParser) (h : p.ulLevel = 0) :
    closeUlIfNecessary p = .ok p := by
  simp [closeUlIfNecessary, closeUlLoop, h]

/-- The statements after the `switch` of `parseBlock`, on a line with no trigger byte
and a parser that is in no list, no raw HTML block and no paragraph: a paragraph is
opened and the line is written escaped. -/
theorem parseBlockDefault_plain (tags : List Bytes) (p : TextileParser) (l : Bytes)
    (htrig : ∀ c ∈ l, c ∉ ascii "_*\"!@%<?-+^~")
    (hol : p.olLevel = 0) (hul : p.ulLevel = 0) (htags : p.blockTags = []) (hp : p.inP = false) :
    parseBlockDefault tags p l =
      .ok { p with
        out := (p.out ++ ascii "\t<p>"
          ++ l.flatMap (fun b => if b = 39 then ascii "&#8217;" else [b])),
        inP := true } := by
  simp only [parseBlockDefault, closeOlIfNecessary_zero p hol, closeUlIfNecessary_zero p hul]
  have hcode : inHtmlCode p = false := by simp [inHtmlCode, lastBlockTagIs, htags]
  have hblock : inHtmlBlock p = false := by simp [inHtmlBlock, htags]
  simp only [hcode, Bool.false_eq_true, if_false, startNewLine, hblock, hp, Bool.not_false, if_true]
  rw [parseInline_plain tags _ l htrig, serEscaped_eq]
  simp [write]

theorem splitIntoLines_single (l : Bytes) (hne : l ≠ []) (hnl : cr ∉ l ∧ lf ∉ l) :
    splitIntoLines l = .ok [l] := by
  obtain ⟨a, t, rfl⟩ : ∃ a t, l = a :: t := by
    cases l with
    | nil => exact absurd rfl hne
    | cons a t => exact ⟨a, t, rfl⟩
  simp [splitIntoLines, splitIntoLinesLoop, extractLine_last (a :: t) hnl hne, extractLine_nil]

theorem trimRightNewlines_closed (s : Bytes) :
    trimRightNewlines (s ++ ascii "</p>" ++ ascii "\n\n") = s ++ ascii "</p>" := by
  simp [trimRightNewlines, ascii, List.dropWhile]

/-- What `toHtml` returns on a one-line input that `parseBlock` leaves inside a
paragraph, outside any list. -/
theorem ToHtml_single_line (tags : List Bytes) (l : Bytes) (dl dp : Bool) (q : TextileParser)
    (hne : l ≠ []) (hnl : cr ∉ l ∧ lf ∉ l) (href : isUrlRef l = none)
    (hblock : parseBlock tags
      { NewParserWithRenderer false with dumpLines := dl, dumpParagraphs := dp } l = .ok q)
    (hol : q.olLevel = 0) (hul : q.ulLevel = 0) (hp : q.inP = true) :
    ToHtml tags l dl dp = .ok (q.out ++ ascii "</p>") := by
  have hfirst : ∀ p : TextileParser, firstPass p [l] = (p, [l]) := by
    intro p
    simp only [firstPass]
    rw [firstPassLoop_keep p [] l [] href hne]
    rfl
  simp only [ToHtml, toHtml, splitIntoLines_single l hne hnl, hfirst, parseBlocks, hblock,
    closeOlIfNecessary_zero q hol, closeUlIfNecessary_zero q hul]
  simp only [closeP, hp, if_true, write]
  rw [trimRightNewlines_closed]

theorem parseBlock_plain (tags : List Bytes) (l : Bytes) (p : TextileParser)
    (hne : l ≠ [])
    (htrig : ∀ c ∈ l, c ∉ ascii "_*\"!@%<?-+^~")
    (hH : ∃ rest attrs, parseH l = .ok ((rest, -1, attrs), l))
    (hP : parseP l = .ok (none, l))
    (hbq : parseBlockQuote l = none)
    (hnt : parseNoTextile l = none)
    (hli : parseOl l = none) :
    parseBlock tags p l = parseBlockDefault tags { p with blockLineNo := p.blockLineNo + 1 } l := by
  have hlen : ¬ l.length = 0 := by simpa using hne
  have hmem : l.getD 0 0 ∈ l := getD_mem_of_lt l 0 (by omega)
  have hb := htrig _ hmem
  have hb' : l.getD 0 0 ≠ 60 ∧ l.getD 0 0 ≠ 42 := by
    simp only [ascii, String.toList, List.map, Char.toNat, List.mem_cons, List.mem_singleton,
      List.not_mem_nil, or_false, not_or] at hb
    constructor
    · have := hb.2.2.2.2.2.2.1
      simpa using this
    · have := hb.2.1
      simpa using this
  obtain ⟨rest, attrs, hH⟩ := hH
  simp only [parseBlock, hlen, if_false, hH, hP, hbq, hnt, hli, hb'.1, hb'.2]
  simp

/-- A line that does not start with `h` is not a heading, and `parseH` leaves it alone. -/
theorem parseH_other (l : Bytes) (h : l.getD 0 0 ≠ 104) : parseH l = .ok ((l, -1, none), l) := by
  have hs : startsWithByte l 104 4 = false := by
    rw [List.getD_eq_getElem?_getD] at h
    simp [startsWithByte, h]
  simp [parseH, hs]

/-- A line that does not start with `p` is not an explicit paragraph, and `parseP` leaves
it alone. -/
theorem parseP_other (l : Bytes) (h : l.getD 0 0 ≠ 112) : parseP l = .ok (none, l) := by
  have hs : startsWithByte l 112 3 = false := by
    rw [List.getD_eq_getElem?_getD] at h
    simp [startsWithByte, h]
  simp [parseP, hs]

/-- C1, as the code has it. For every non-empty single-line input (no CR or LF) with
none of the inline trigger bytes `_ * " ! @ % < ? - + ^ ~` that is not a heading, an
explicit paragraph, a block quote, a notextile line, a list item or a reference
definition, and that the attempts to read it as a heading and as a paragraph left as it
was, `ToHtml` returns a tab, `<p>`, the input with each apostrophe replaced by `&#8217;`
and every other byte unchanged, and `</p>`. -/
theorem ToHtml_plain_line (tags : List Bytes) (l : Bytes) (dl dp : Bool)
    (hne : l ≠ [])
    (hnl : cr ∉ l ∧ lf ∉ l)
    (htrig : ∀ c ∈ l, c ∉ ascii "_*\"!@%<?-+^~")
    (hH : ∃ rest attrs, parseH l = .ok ((rest, -1, attrs), l))
    (hP : parseP l = .ok (none, l))
    (hbq : parseBlockQuote l = none)
    (hnt : parseNoTextile l = none)
    (hli : parseOl l = none)
    (href : isUrlRef l = none) :
    ToHtml tags l dl dp =
      .ok (ascii "\t<p>" ++ l.flatMap (fun b => if b = 39 then ascii "&#8217;" else [b])
        ++ ascii "</p>") := by
  have hblock := parseBlock_plain tags l
    { NewParserWithRenderer false with dumpLines := dl, dumpParagraphs := dp }
    hne htrig hH hP hbq hnt hli
  rw [parseBlockDefault_plain tags _ l htrig rfl rfl rfl rfl] at hblock
  rw [ToHtml_single_line tags l dl dp _ hne hnl href hblock rfl rfl rfl]
  simp [NewParserWithRenderer, NewTextileParser]

theorem ToHtml_plain_line_witness :
    ToHtml [ascii "pre", ascii "code"] (ascii "it's plain {text}") false false =
      .ok (ascii "\t<p>"
        ++ (ascii "it's plain {text}").flatMap (fun b => if b = 39 then ascii "&#8217;" else [b])
        ++ ascii "</p>") :=
  ToHtml_plain_line [ascii "pre", ascii "code"] (ascii "it's plain {text}") false false
    (by decide) (by decide) (by decide) ⟨ascii "it's plain {text}", none, by decide⟩ (by decide)
    (by decide) (by decide) (by decide) (by decide)

/-- C1, as stated, fails. Whatever the table of valid tags, `ToHtml` on the line `a`
returns a tab before `<p>a</p>`; and on the line `p{a}b`, which is not an explicit
paragraph, the attempt to read it as one has already turned the closing brace into a
semicolon when the line is written. -/
theorem ToHtml_plain_line_not_bare :
    (∀ tags : List Bytes, ToHtml tags (ascii "a") false false = .ok (ascii "\t<p>a</p>")) ∧
      ascii "\t<p>a</p>" ≠ ascii "<p>a</p>" ∧
      (∀ tags : List Bytes,
        ToHtml tags (ascii "p{a}b") false false = .ok (ascii "\t<p>p\x7ba;b</p>")) := by
  refine ⟨?_, by decide, ?_⟩
  · intro tags
    have hblock := parseBlock_plain tags (ascii "a")
      { NewParserWithRenderer false with dumpLines := false, dumpParagraphs := false }
      (by decide) (by decide) ⟨ascii "a", none, by decide⟩ (by decide) (by decide) (by decide)
      (by decide)
    rw [parseBlockDefault_plain tags _ (ascii "a") (by decide) rfl rfl rfl rfl] at hblock
    rw [ToHtml_single_line tags (ascii "a") false false _ (by decide) (by decide) (by decide)
      hblock rfl rfl rfl]
    decide
  · intro tags
    have hP : parseP (ascii "p{a}b") = .ok (none, ascii "p\x7ba;b") := by decide
    have hblock : parseBlock tags
        { NewParserWithRenderer false with dumpLines := false, dumpParagraphs := false }
        (ascii "p{a}b") =
        parseBlockDefault tags { NewParserWithRenderer false with blockLineNo := 1 }
          (ascii "p\x7ba;b") := by
      have hlen : ¬ (ascii "p{a}b").length = 0 := by decide
      have hb : (ascii "p{a}b").getD 0 0 = 112 := by decide
      simp only [parseBlock, hlen, if_false, hb, hP]
      simp [NewParserWithRenderer, NewTextileParser]
    rw [parseBlockDefault_plain tags _ (ascii "p\x7ba;b") (by decide) rfl rfl rfl rfl] at hblock
    rw [ToHtml_single_line tags (ascii "p{a}b") false false _ (by decide) (by decide) (by decide)
      hblock rfl rfl rfl]
    decide

/-! ## Class and id attributes -/

/-- C11. Class/id serialisation: `serClassOrIdOpt` gives the empty string for an absent
or empty class field; ` class="s"` for a non-empty `s` without `#`; ` id="i"` for `#i`;
and ` class="c" id="i"` for `c#i` with `c` non-empty and free of `#`. -/
theorem serClassOrIdOpt_cases :
    serClassOrIdOpt none = [] ∧ serClassOrIdOpt (some []) = [] ∧
    (∀ s : Bytes, s ≠ [] → 35 ∉ s →
      serClassOrIdOpt (some s) = ascii " class=\"" ++ s ++ ascii "\"") ∧
    (∀ i : Bytes, serClassOrIdOpt (some ([35] ++ i)) = ascii " id=\"" ++ i ++ ascii "\"") ∧
    (∀ c i : Bytes, c ≠ [] → 35 ∉ c →
      serClassOrIdOpt (some (c ++ [35] ++ i)) =
        ascii " class=\"" ++ c ++ ascii "\" id=\"" ++ i ++ ascii "\"") := by
  refine ⟨rfl, rfl, ?_, ?_, ?_⟩
  · intro s hne h
    have hlen : ¬ s.length = 0 := by simpa using hne
    simp [serClassOrIdOpt, hlen, indexByte_none_of_not_mem s 35 h]
  · intro i
    simp [serClassOrIdOpt, indexByte]
  · intro c i hne h
    have hclen : ¬ c.length = 0 := by simpa using hne
    have hclen' : ¬ 0 = c.length := fun e => hclen e.symm
    have hidx := indexByte_append_of_not_mem c 35 i h
    have hlen : ¬ (c ++ 35 :: i).length = 0 := by simp
    have happ : c ++ [35] ++ i = c ++ 35 :: i := by simp
    have htake : (c ++ 35 :: i).take c.length = c := by simp
    have hdrop : (c ++ 35 :: i).drop (c.length + 1) = i := by
      have : c ++ 35 :: i = (c ++ [35]) ++ i := by simp
      rw [this, List.drop_left' (by simp)]
    rw [happ]
    simp only [serClassOrIdOpt, hlen, if_false, hidx, hclen', htake, hdrop]

/-- C12, on the code. `extractClassOpt` accepts `(foo bar)`: it returns the class token
`foo bar`, which has a space in it, and consumes the whole input, although a space is not
a class character. -/
theorem extractClassOpt_accepts_space :
    extractClassOpt (ascii "(foo bar)") = ([], some (ascii "foo bar")) ∧
      isClassChar 32 = false ∧ 32 ∈ ascii "foo bar" := by
  decide

/-! ## Headings -/

theorem parseAttributesOpt_dot (r : Bytes) :
    parseAttributesOpt (46 :: r) = .ok ((46 :: r, {}), 46 :: r) := by
  simp [parseAttributesOpt, parseStyle, parseStyleLoop, parseAttributesOptLoop, formatPaddingInfo,
    byteConcat]

/-- C13. Heading recognition: on `h`, a byte `c`, `. ` and a text `r`, `parseH` returns
the level `c - '0'` and the remainder `r` when `c` is one of the digits 1 to 6, and the
level -1 for every other byte `c`; `h3.rest`, with no space after the dot, is rejected
with level -1. -/
theorem parseH_level (c : Nat) (r : Bytes) (hc : c < 256) :
    (49 ≤ c ∧ c ≤ 54 →
      parseH ([104, c] ++ ascii ". " ++ r) =
        .ok ((r, (c : Int) - 48, some {}), [104, c] ++ ascii ". " ++ r)) ∧
    (¬ (49 ≤ c ∧ c ≤ 54) →
      parseH ([104, c] ++ ascii ". " ++ r) =
        .ok (([104, c] ++ ascii ". " ++ r, -1, none), [104, c] ++ ascii ". " ++ r)) ∧
    (parseH (ascii "h3.rest")).map (fun res => res.1.2.1) = .ok (-1) := by
  have hs : startsWithByte ([104, c] ++ ascii ". " ++ r) 104 4 = true := by
    simp [startsWithByte, ascii]
  have hl : [104, c] ++ ascii ". " ++ r = 104 :: c :: 46 :: 32 :: r := by simp [ascii]
  refine ⟨?_, ?_, by decide⟩
  · rintro ⟨h1, h2⟩
    have hn : (c + 256 - 48) % 256 = c - 48 := by omega
    have hn1 : ¬ (c - 48 < 1 ∨ c - 48 > 6) := by omega
    have hcast : ((c - 48 : Nat) : Int) = (c : Int) - 48 := by omega
    rw [hl] at hs ⊢
    simp only [parseH, hs, Bool.not_true, Bool.false_eq_true, if_false, List.getD_cons_succ,
      List.getD_cons_zero, hn, List.drop_succ_cons, List.drop_zero, parseAttributesOpt_dot]
    simp only [writeBack, hcast]
    have hA : ¬ (c - 48 = 0 ∨ 6 < c - 48) := by omega
    have hB : ¬ (r.length + 1 + 1 < 2) := by omega
    simp [hA, hB]
  · intro h
    have hn1 : (c + 256 - 48) % 256 < 1 ∨ (c + 256 - 48) % 256 > 6 := by omega
    rw [hl] at hs ⊢
    simp only [parseH, hs, Bool.not_true, Bool.false_eq_true, if_false, List.getD_cons_succ,
      List.getD_cons_zero]
    simp
    intro h1 h2
    exfalso
    omega

theorem parseH_level_witness :
    (49 ≤ 51 ∧ 51 ≤ 54 →
      parseH ([104, 51] ++ ascii ". " ++ ascii "rest") =
        .ok ((ascii "rest", ((51 : Nat) : Int) - 48, some {}),
          [104, 51] ++ ascii ". " ++ ascii "rest")) ∧
    (¬ (49 ≤ 51 ∧ 51 ≤ 54) →
      parseH ([104, 51] ++ ascii ". " ++ ascii "rest") =
        .ok (([104, 51] ++ ascii ". " ++ ascii "rest", -1, none),
          [104, 51] ++ ascii ". " ++ ascii "rest")) ∧
    (parseH (ascii "h3.rest")).map (fun res => res.1.2.1) = .ok (-1) :=
  parseH_level 51 (ascii "rest") (by decide)

/-! ## List markers -/

theorem parseListLoop_iff (m : Nat) (hm : m ≠ 32) (l : Bytes) : ∀ (s : Bytes) (level : Nat)
    (r : Bytes) (k : Nat),
    parseListLoop m l level s = some (r, k) ↔
      ∃ j s', s = List.replicate j m ++ 32 :: s' ∧ k = level + j ∧ 0 < k ∧ r = l.drop (k + 1) := by
  intro s
  induction s with
  | nil =>
    intro level r k
    simp [parseListLoop]
  | cons c t ih =>
    intro level r k
    by_cases hc : c = m
    · subst hc
      simp only [parseListLoop, ne_eq, not_true_eq_false, if_false, ih]
      constructor
      · rintro ⟨j, s', rfl, rfl, hk, rfl⟩
        exact ⟨j + 1, s', by simp [List.replicate_succ], by omega, hk, rfl⟩
      · rintro ⟨j, s', hs, rfl, hk, rfl⟩
        cases j with
        | zero =>
          simp at hs
          exact absurd hs.1 hm
        | succ j =>
          refine ⟨j, s', ?_, by omega, hk, rfl⟩
          simpa [List.replicate_succ] using hs
    · simp only [parseListLoop, ne_eq, hc, not_false_eq_true, if_true]
      constructor
      · intro h
        split at h
        · rename_i hcond
          simp only [Bool.and_eq_true, decide_eq_true_eq] at hcond
          simp only [Option.some.injEq, Prod.mk.injEq] at h
          obtain ⟨rfl, rfl⟩ := h
          exact ⟨0, t, by simp [hcond.1], by simp, hcond.2, rfl⟩
        · exact absurd h (by simp)
      · rintro ⟨j, s', hs, rfl, hk, rfl⟩
        cases j with
        | zero =>
          simp only [List.replicate_zero, List.nil_append, List.cons.injEq] at hs
          have hk' : 0 < level := by simpa using hk
          simp [hs.1, hk']
        | succ j =>
          simp only [List.replicate_succ, List.cons_append, List.cons.injEq] at hs
          exact absurd hs.1 hc

theorem parseListLoop_line_iff (m : Nat) (hm : m ≠ 32) (l r : Bytes) (k : Nat) :
    parseListLoop m l 0 l = some (r, k) ↔ (1 ≤ k ∧ l = List.replicate k m ++ [32] ++ r) := by
  rw [parseListLoop_iff m hm l l 0 r k]
  constructor
  · rintro ⟨j, s', hs, hk, hpos, hr⟩
    have hkj : k = j := by omega
    subst hkj
    refine ⟨hpos, ?_⟩
    have hd : l.drop (k + 1) = s' := by
      have : l = (List.replicate k m ++ [32]) ++ s' := by rw [hs]; simp
      rw [this, List.drop_left' (by simp)]
    rw [hr, hd, hs]
    simp
  · rintro ⟨hk, hl⟩
    refine ⟨k, r, by rw [hl]; simp, by simp, hk, ?_⟩
    have : l = (List.replicate k m ++ [32]) ++ r := hl
    rw [this, List.drop_left' (by simp)]

/-- C17. List-item marker parsing: `parseOl` (marker `#`) and `parseUl` (marker `*`)
recognise a line if and only if it is `k` copies of the marker with `k` at least 1, then
one space, then any text `r`; the result is then `(r, k)`. `# ` gives an empty remainder
and level 1. Every other line is reported as no match. -/
theorem parseOl_parseUl_iff :
    (∀ (l r : Bytes) (k : Nat),
      parseOl l = some (r, k) ↔ (1 ≤ k ∧ l = List.replicate k 35 ++ [32] ++ r)) ∧
    (∀ (l r : Bytes) (k : Nat),
      parseUl l = some (r, k) ↔ (1 ≤ k ∧ l = List.replicate k 42 ++ [32] ++ r)) ∧
    parseOl (ascii "# ") = some ([], 1) ∧
    (∀ l : Bytes, (¬ ∃ (k : Nat) (r : Bytes), 1 ≤ k ∧ l = List.replicate k 35 ++ [32] ++ r) →
      parseOl l = none) ∧
    (∀ l : Bytes, (¬ ∃ (k : Nat) (r : Bytes), 1 ≤ k ∧ l = List.replicate k 42 ++ [32] ++ r) →
      parseUl l = none) := by
  refine ⟨parseListLoop_line_iff 35 (by decide), parseListLoop_line_iff 42 (by decide),
    by decide, ?_, ?_⟩
  · intro l hno
    cases h : parseOl l with
    | none => rfl
    | some rk =>
      obtain ⟨r, k⟩ := rk
      exact absurd ⟨k, r, (parseListLoop_line_iff 35 (by decide) l r k).1 h⟩ hno
  · intro l hno
    cases h : parseUl l with
    | none => rfl
    | some rk =>
      obtain ⟨r, k⟩ := rk
      exact absurd ⟨k, r, (parseListLoop_line_iff 42 (by decide) l r k).1 h⟩ hno

/-! ## Literal passthrough -/

theorem trimRightNewlines_clean (x : Bytes) (h : lf ∉ x) : trimRightNewlines x = x := by
  have hrev : x.reverse.dropWhile (fun b => decide (b = 10)) = x.reverse := by
    cases hx : x.reverse with
    | nil => rfl
    | cons a t =>
      have ha : a ∈ x := by
        have : a ∈ x.reverse := by rw [hx]; simp
        simpa using this
      have : ¬ a = 10 := by
        rintro rfl
        exact h ha
      simp [List.dropWhile, this]
  simp [trimRightNewlines, hrev]

theorem trimRightNewlines_append_newlines (x : Bytes) :
    trimRightNewlines (x ++ ascii "\n\n") = trimRightNewlines x := by
  simp [trimRightNewlines, ascii, List.dropWhile]

/-- C18. Literal passthrough: for every text `x` without CR or LF, whatever its bytes,
`ToHtml` on `notextile. ` followed by `x` returns exactly `x`. -/
theorem ToHtml_notextile (tags : List Bytes) (x : Bytes) (dl dp : Bool)
    (hx : cr ∉ x ∧ lf ∉ x) :
    ToHtml tags (ascii "notextile. " ++ x) dl dp = .ok x := by
  have hne : ascii "notextile. " ++ x ≠ [] := by simp [ascii]
  have hnl : cr ∉ ascii "notextile. " ++ x ∧ lf ∉ ascii "notextile. " ++ x := by
    refine ⟨?_, ?_⟩
    · intro h
      rcases List.mem_append.1 h with h | h
      · revert h; decide
      · exact hx.1 h
    · intro h
      rcases List.mem_append.1 h with h | h
      · revert h; decide
      · exact hx.2 h
  have href : isUrlRef (ascii "notextile. " ++ x) = none := by
    simp [isUrlRef, ascii]
  have hfirst : ∀ p : TextileParser,
      firstPass p [ascii "notextile. " ++ x] = (p, [ascii "notextile. " ++ x]) := by
    intro p
    simp only [firstPass]
    rw [firstPassLoop_keep p [] _ [] href hne]
    rfl
  have hparse : parseNoTextile (ascii "notextile. " ++ x) = some x := by
    simp [parseNoTextile, startsWith, hasPrefix_append]
  have hlen : ¬ (ascii "notextile. " ++ x).length = 0 := by simpa using hne
  have hb : (ascii "notextile. " ++ x).getD 0 0 = 110 := by simp [ascii]
  have hblock : ∀ p : TextileParser, parseBlock tags p (ascii "notextile. " ++ x) =
      .ok (serNoTextile { p with blockLineNo := p.blockLineNo + 1 } x) := by
    intro p
    simp only [parseBlock, hlen, if_false, hb, hparse]
    simp
  simp only [ToHtml, toHtml, splitIntoLines_single _ hne hnl, hfirst, parseBlocks, hblock]
  simp only [serNoTextile, write, NewParserWithRenderer, NewTextileParser]
  rw [closeOlIfNecessary_zero _ rfl]
  simp only []
  rw [closeUlIfNecessary_zero _ rfl]
  simp only [closeP, write, Bool.false_eq_true, if_false, List.nil_append]
  rw [trimRightNewlines_append_newlines, trimRightNewlines_clean x hx.2]

theorem ToHtml_notextile_witness :
    ToHtml [ascii "pre"] (ascii "notextile. " ++ ascii "it's <b>*raw*</b> & _so_ on") false false
      = .ok (ascii "it's <b>*raw*</b> & _so_ on") :=
  ToHtml_notextile [ascii "pre"] (ascii "it's <b>*raw*</b> & _so_ on") false false (by decide)

/-! ## Lists and headings in the block dispatcher -/

theorem openListLoop_replicate (s : Bytes) : ∀ (k : Nat) (p : TextileParser),
    openListLoop s (k + 1) (k : Int) p =
      .ok { p with out := p.out ++ (List.replicate k s).flatten } := by
  intro k
  induction k with
  | zero => intro p; simp [openListLoop]
  | succ k ih =>
    intro p
    have hpos : ((k + 1 : Nat) : Int) > 0 := by omega
    have hpred : ((k + 1 : Nat) : Int) - 1 = (k : Int) := by omega
    rw [openListLoop]
    simp only [hpos, if_true, hpred, ih, write]
    simp [List.replicate_succ]

theorem closeOlLoop_levels : ∀ (k : Nat) (p : TextileParser), p.olLevel = (k : Int) →
    closeOlLoop (k + 1) p =
      .ok { p with olLevel := 0,
                   out := p.out ++ (List.replicate k (ascii "</li>\n\t</ol>")).flatten } := by
  intro k
  induction k with
  | zero =>
    intro p hp
    have : ¬ p.olLevel > 0 := by omega
    simp only [closeOlLoop, this, if_false]
    cases p
    simp_all
  | succ k ih =>
    intro p hp
    have hpos : p.olLevel > 0 := by omega
    rw [closeOlLoop]
    simp only [hpos, if_true]
    rw [ih _ (by simp [write]; omega)]
    simp [write, List.replicate_succ, ascii]

theorem closeUlLoop_levels : ∀ (k : Nat) (p : TextileParser), p.ulLevel = (k : Int) →
    closeUlLoop (k + 1) p =
      .ok { p with ulLevel := 0,
                   out := p.out ++ (List.replicate k (ascii "</li>\n\t</ul>")).flatten } := by
  intro k
  induction k with
  | zero =>
    intro p hp
    have : ¬ p.ulLevel > 0 := by omega
    simp only [closeUlLoop, this, if_false]
    cases p
    simp_all
  | succ k ih =>
    intro p hp
    have hpos : p.ulLevel > 0 := by omega
    rw [closeUlLoop]
    simp only [hpos, if_true]
    rw [ih _ (by simp [write]; omega)]
    simp [write, List.replicate_succ, ascii]

/-- What `closeOlIfNecessary` writes: one `</li>` and `</ol>` for each open level. -/
theorem closeOlIfNecessary_levels (k : Nat) (p : TextileParser) (hp : p.olLevel = (k : Int)) :
    closeOlIfNecessary p =
      .ok { p with olLevel := 0,
                   out := p.out ++ (List.replicate k (ascii "</li>\n\t</ol>")).flatten } := by
  have : p.olLevel.toNat = k := by omega
  simp only [closeOlIfNecessary, this]
  exact closeOlLoop_levels k p hp

theorem closeUlIfNecessary_levels (k : Nat) (p : TextileParser) (hp : p.ulLevel = (k : Int)) :
    closeUlIfNecessary p =
      .ok { p with ulLevel := 0,
                   out := p.out ++ (List.replicate k (ascii "</li>\n\t</ul>")).flatten } := by
  have : p.ulLevel.toNat = k := by omega
  simp only [closeUlIfNecessary, this]
  exact closeUlLoop_levels k p hp

/-- What `serOl` writes for an item with no trigger byte: `</li>` if a list is open, one
`<ol>` for each level the item is deeper than the current depth and none otherwise, then
`<li>` and the item escaped; the depth becomes the depth of the item. -/
theorem serOl_plain (tags : List Bytes) (p : TextileParser) (l : Bytes) (level : Int)
    (htrig : ∀ c ∈ l, c ∉ ascii "_*\"!@%<?-+^~") :
    serOl tags p l level =
      .ok { p with
        olLevel := level,
        out := (p.out ++ (if p.olLevel > 0 then ascii "</li>\n" else [])
          ++ (List.replicate (level - p.olLevel).toNat (ascii "\t<ol>\n")).flatten
          ++ ascii "\t\t<li>"
          ++ l.flatMap (fun b => if b = 39 then ascii "&#8217;" else [b])) } := by
  simp only [serOl]
  by_cases hopen : p.olLevel > 0
  · by_cases hdeep : level > p.olLevel
    · obtain ⟨k, hk⟩ : ∃ k : Nat, level - p.olLevel = (k : Int) :=
        ⟨(level - p.olLevel).toNat, by omega⟩
      have hk' : (level - p.olLevel).toNat = k := by omega
      simp only [hopen, if_true, write, hdeep, hk, hk', Int.toNat_ofNat, openListLoop_replicate]
      rw [parseInline_plain tags _ l htrig, serEscaped_eq]
    · have hk' : (level - p.olLevel).toNat = 0 := by omega
      simp only [hopen, if_true, write, hdeep, if_false, hk']
      rw [parseInline_plain tags _ l htrig, serEscaped_eq]
      simp
  · by_cases hdeep : level > p.olLevel
    · obtain ⟨k, hk⟩ : ∃ k : Nat, level - p.olLevel = (k : Int) :=
        ⟨(level - p.olLevel).toNat, by omega⟩
      have hk' : (level - p.olLevel).toNat = k := by omega
      simp only [hopen, if_false, write, hdeep, if_true, hk, hk', Int.toNat_ofNat,
        openListLoop_replicate]
      rw [parseInline_plain tags _ l htrig, serEscaped_eq]
      simp
    · have hk' : (level - p.olLevel).toNat = 0 := by omega
      simp only [hopen, if_false, write, hdeep, hk']
      rw [parseInline_plain tags _ l htrig, serEscaped_eq]
      simp

theorem parseBlock_olItem (tags : List Bytes) (p : TextileParser) (l rest : Bytes) (level : Nat)
    (h : parseOl l = some (rest, level)) :
    parseBlock tags p l = serOl tags { p with blockLineNo := p.blockLineNo + 1 } rest level := by
  obtain ⟨hk, hl⟩ := (parseListLoop_line_iff 35 (by decide) l rest level).1 h
  obtain ⟨j, rfl⟩ : ∃ j, level = j + 1 := ⟨level - 1, by omega⟩
  have hcons : l = 35 :: (List.replicate j 35 ++ [32] ++ rest) := by
    rw [hl]; simp [List.replicate_succ]
  rw [hcons] at h ⊢
  simp only [parseBlock, List.length_cons, Nat.add_one_ne_zero, if_false, List.getD_cons_zero, h]
  simp

theorem parseH_heading_starts (l rest : Bytes) (n : Int) (attrs : Option AttributesOpt)
    (l' : Bytes) (hH : parseH l = .ok ((rest, n, attrs), l')) (hn : n ≠ -1) :
    l.length ≠ 0 ∧ l.getD 0 0 = 104 := by
  by_cases hs : startsWithByte l 104 4 = true
  · simp only [startsWithByte, Bool.and_eq_true, decide_eq_true_eq] at hs
    exact ⟨by omega, hs.2⟩
  · have hs' : startsWithByte l 104 4 = false := by simpa using hs
    simp only [parseH, hs', Bool.not_false, if_true, Except.ok.injEq, Prod.mk.injEq] at hH
    exact absurd hH.1.2.1.symm hn

/-- What `parseBlock` does with a heading line: it writes the heading and nothing else,
and leaves every other field of the parser, the list depths among them, as it was. -/
theorem parseBlock_heading (tags : List Bytes) (p : TextileParser) (l rest : Bytes) (n : Int)
    (attrs : Option AttributesOpt) (l' : Bytes)
    (hH : parseH l = .ok ((rest, n, attrs), l')) (hn : n ≠ -1) :
    parseBlock tags p l =
      .ok { p with
        blockLineNo := p.blockLineNo + 1,
        out := (p.out ++ (ascii "\t<h" ++ decimal n ++ serAttributesOpt attrs ++ ascii ">")
          ++ rest ++ (ascii "</h" ++ decimal n ++ ascii ">")) } := by
  obtain ⟨hlen, hb⟩ := parseH_heading_starts l rest n attrs l' hH hn
  simp only [parseBlock, hlen, if_false, hb, if_true, hH, hn, ne_eq, not_false_eq_true, serH, write]

/-- The heading case of `parseBlock` leaves open lists open: whatever the depths of the
ordered and unordered lists, it writes the heading tag, the remainder and the closing
heading tag, no `</li>`, `</ol>` or `</ul>`, and both list depths are afterwards what
they were. -/
theorem parseBlock_heading_keeps_lists (tags : List Bytes) (p : TextileParser) (l rest : Bytes)
    (n : Int) (attrs : Option AttributesOpt) (l' : Bytes)
    (hH : parseH l = .ok ((rest, n, attrs), l')) (hn : n ≠ -1) :
    ∃ q, parseBlock tags p l = .ok q ∧ q.olLevel = p.olLevel ∧ q.ulLevel = p.ulLevel ∧
      q.out = p.out ++ (ascii "\t<h" ++ decimal n ++ serAttributesOpt attrs ++ ascii ">")
        ++ rest ++ (ascii "</h" ++ decimal n ++ ascii ">") :=
  ⟨_, parseBlock_heading tags p l rest n attrs l' hH hn, rfl, rfl, rfl⟩

theorem parseBlock_heading_keeps_lists_witness :
    ∃ q, parseBlock [] { NewTextileParser ⟨0⟩ with olLevel := 2, ulLevel := 1 }
        (ascii "h2(cls). Title") = .ok q ∧
      q.olLevel = ({ NewTextileParser ⟨0⟩ with olLevel := 2, ulLevel := 1 } : TextileParser).olLevel ∧
      q.ulLevel = ({ NewTextileParser ⟨0⟩ with olLevel := 2, ulLevel := 1 } : TextileParser).ulLevel ∧
      q.out = ({ NewTextileParser ⟨0⟩ with olLevel := 2, ulLevel := 1 } : TextileParser).out
        ++ (ascii "\t<h" ++ decimal 2
          ++ serAttributesOpt (some { «class» := some (ascii "cls") }) ++ ascii ">")
        ++ ascii "Title" ++ (ascii "</h" ++ decimal 2 ++ ascii ">") :=
  parseBlock_heading_keeps_lists [] _ (ascii "h2(cls). Title") (ascii "Title") 2
    (some { «class» := some (ascii "cls") }) (ascii "h2(cls). Title") (by decide) (by decide)

/-! ## Whole documents of list items -/

theorem firstPassLoop_all_keep (lines : List Bytes) : ∀ (p : TextileParser) (res : List Bytes),
    (∀ l ∈ lines, l ≠ [] ∧ isUrlRef l = none) →
    firstPassLoop p res lines = (p, res ++ lines) := by
  induction lines with
  | nil => intro p res _; simp [firstPassLoop]
  | cons l ls ih =>
    intro p res h
    rw [firstPassLoop_keep p res l ls (h l (by simp)).2 (h l (by simp)).1,
      ih p (res ++ [l]) (fun m hm => h m (List.mem_cons_of_mem _ hm))]
    simp

theorem trimRightNewlines_end (s : Bytes) (c : Nat) (hc : c ≠ 10) :
    trimRightNewlines (s ++ [c] ++ ascii "\n\n") = s ++ [c] := by
  simp [trimRightNewlines, ascii, List.dropWhile, hc]

/-- What `toHtml` returns when the lines are all kept by the pre-pass and `parseBlocks`
ends outside any paragraph and unordered list, at ordered-list depth `k`. -/
theorem toHtml_of_blocks (tags : List Bytes) (p q : TextileParser) (d : Bytes)
    (lines : List Bytes) (k : Nat)
    (hs : splitIntoLines d = .ok lines)
    (hk : ∀ l ∈ lines, l ≠ [] ∧ isUrlRef l = none)
    (hb : parseBlocks tags p lines = .ok q)
    (hol : q.olLevel = (k : Int)) (hul : q.ulLevel = 0) (hp : q.inP = false) :
    toHtml tags p d =
      .ok (trimRightNewlines
        (q.out ++ (List.replicate k (ascii "</li>\n\t</ol>")).flatten ++ ascii "\n\n")) := by
  have hfirst : firstPass p lines = (p, lines) := by
    simp only [firstPass]
    rw [firstPassLoop_all_keep lines p [] hk]
    rfl
  have hul2 : ∀ o : Bytes, closeUlIfNecessary { q with olLevel := 0, out := o } =
      .ok { q with olLevel := 0, out := o } := fun o => closeUlIfNecessary_zero _ hul
  simp only [toHtml, hs, hfirst, hb, closeOlIfNecessary_levels k q hol, hul2]
  simp only [closeP, hp, Bool.false_eq_true, if_false, write]

/-- The statements of `toHtml` after the pre-pass, when the pre-pass keeps every line. -/
theorem toHtml_lines (tags : List Bytes) (p : TextileParser) (d : Bytes) (lines : List Bytes)
    (hs : splitIntoLines d = .ok lines)
    (hk : ∀ l ∈ lines, l ≠ [] ∧ isUrlRef l = none) :
    toHtml tags p d =
      match parseBlocks tags p lines with
      | .error e => .error e
      | .ok p =>
        match closeOlIfNecessary p with
        | .error e => .error e
        | .ok p =>
          match closeUlIfNecessary p with
          | .error e => .error e
          | .ok p => .ok (trimRightNewlines (closeP p).out) := by
  have hfirst : firstPass p lines = (p, lines) := by
    simp only [firstPass]
    rw [firstPassLoop_all_keep lines p [] hk]
    rfl
  simp only [toHtml, hs, hfirst]

theorem parseBlock_olItem_plain (tags : List Bytes) (p : TextileParser) (l rest : Bytes)
    (level : Nat) (h : parseOl l = some (rest, level))
    (htrig : ∀ c ∈ rest, c ∉ ascii "_*\"!@%<?-+^~") :
    parseBlock tags p l =
      .ok { p with
        blockLineNo := p.blockLineNo + 1,
        olLevel := (level : Int),
        out := (p.out ++ (if p.olLevel > 0 then ascii "</li>\n" else [])
          ++ (List.replicate ((level : Int) - p.olLevel).toNat (ascii "\t<ol>\n")).flatten
          ++ ascii "\t\t<li>"
          ++ rest.flatMap (fun b => if b = 39 then ascii "&#8217;" else [b])) } := by
  rw [parseBlock_olItem tags p l rest level h, serOl_plain tags _ rest level htrig]

/-- The statements after the `switch` of `parseBlock` close an open list: on `# a`
followed by the plain line `b` the list is closed before the paragraph opens, for an
unordered list too. -/
theorem ToHtml_plain_line_closes_list :
    ToHtml [] (ascii "# a\nb") false false =
      .ok (ascii "\t<ol>\n\t\t<li>a</li>\n\t</ol>\t<p>b</p>") ∧
    ToHtml [] (ascii "* a\nb") false false =
      .ok (ascii "\t<ul>\n\t\t<li>a</li>\n\t</ul>\t<p>b</p>") := by
  refine ⟨by decide, by decide⟩

/-- C14, on the code. On `# a` followed by `h1. T` the heading is written inside the open
list item: the closing `</li>` and `</ol>` come after `</h1>`, at the end of the input,
not before `<h1>`, and after the heading line the ordered-list depth is still 1, not 0. -/
theorem ToHtml_heading_inside_list :
    (∀ tags : List Bytes, ToHtml tags (ascii "# a\nh1. T") false false =
      .ok (ascii "\t<ol>\n\t\t<li>a\t<h1>T</h1></li>\n\t</ol>")) ∧
    (∀ tags : List Bytes,
      (parseBlock tags { NewTextileParser ⟨0⟩ with olLevel := 1 } (ascii "h1. T")).map
        (fun q => (q.olLevel, q.out)) = .ok (1, ascii "\t<h1>T</h1>")) := by
  refine ⟨?_, ?_⟩
  · intro tags
    have hs : splitIntoLines (ascii "# a\nh1. T") = .ok [ascii "# a", ascii "h1. T"] := by decide
    have h1 := fun p => parseBlock_olItem_plain tags p (ascii "# a")
      (ascii "a") 1 (by decide) (by decide)
    have h2 := fun p => parseBlock_heading tags p (ascii "h1. T") (ascii "T") 1 (some {})
      (ascii "h1. T") (by decide) (by decide)
    simp only [ToHtml]
    rw [toHtml_lines tags _ _ _ hs (by decide)]
    simp only [parseBlocks, h1, h2]
    decide
  · intro tags
    rw [parseBlock_heading tags _ (ascii "h1. T") (ascii "T") 1 (some {}) (ascii "h1. T")
      (by decide) (by decide)]
    decide

/-- C15, on the code. On `## a` followed by `# b` two `<ol>` are opened and, the depth
going from 2 to 1, none is closed; the one `</ol>` comes at the end of the input. -/
theorem ToHtml_list_depth_decrease :
    ∀ tags : List Bytes, ToHtml tags (ascii "## a\n# b") false false =
      .ok (ascii "\t<ol>\n\t<ol>\n\t\t<li>a</li>\n\t\t<li>b</li>\n\t</ol>") := by
  intro tags
  have hs : splitIntoLines (ascii "## a\n# b") = .ok [ascii "## a", ascii "# b"] := by decide
  have h1 := fun p => parseBlock_olItem_plain tags p (ascii "## a") (ascii "a") 2
    (by decide) (by decide)
  have h2 := fun p => parseBlock_olItem_plain tags p (ascii "# b") (ascii "b") 1
    (by decide) (by decide)
  simp only [ToHtml]
  rw [toHtml_lines tags _ _ _ hs (by decide)]
  simp only [parseBlocks, h1, h2]
  decide

theorem parseOl_item (t : Bytes) : parseOl (ascii "# " ++ t) = some (t, 1) :=
  (parseListLoop_line_iff 35 (by decide) (ascii "# " ++ t) t 1).2 ⟨by omega, by simp [ascii]⟩

theorem isUrlRef_item (t : Bytes) : isUrlRef (ascii "# " ++ t) = none := by
  simp [isUrlRef, ascii]

/-- The items after the first of a flat ordered list: each closes the item before it and
opens its own. -/
theorem parseBlocks_olItems (tags : List Bytes) (ts : List Bytes) : ∀ p : TextileParser,
    (∀ t ∈ ts, ∀ c ∈ t, c ∉ ascii "_*\"!@%<?-+^~") → p.olLevel = 1 →
    parseBlocks tags p (ts.map (fun t => ascii "# " ++ t)) =
      .ok { p with
        blockLineNo := p.blockLineNo + (ts.length : Int),
        olLevel := 1,
        out := (p.out ++ ts.flatMap (fun t => ascii "</li>\n" ++ ascii "\t\t<li>"
          ++ t.flatMap (fun b => if b = 39 then ascii "&#8217;" else [b]))) } := by
  induction ts with
  | nil =>
    intro p _ hol
    cases p
    simp_all [parseBlocks]
  | cons t ts ih =>
    intro p hplain hol
    have ht := hplain t (by simp)
    have hts : ∀ u ∈ ts, ∀ c ∈ u, c ∉ ascii "_*\"!@%<?-+^~" :=
      fun u hu => hplain u (List.mem_cons_of_mem _ hu)
    simp only [List.map_cons, parseBlocks]
    rw [parseBlock_olItem_plain tags p _ t 1 (parseOl_item t) ht]
    simp only []
    rw [ih _ hts rfl]
    simp [hol, Int.add_assoc, Int.add_comm 1]

theorem flatMap_items_shift (e : Bytes → Bytes) : ∀ (ts : List Bytes) (t : Bytes),
    ascii "\t\t<li>" ++ e t ++ ts.flatMap (fun u => ascii "</li>\n" ++ ascii "\t\t<li>" ++ e u)
        ++ ascii "</li>\n" =
      (t :: ts).flatMap (fun u => ascii "\t\t<li>" ++ e u ++ ascii "</li>\n") := by
  intro ts
  induction ts with
  | nil => intro t; simp
  | cons u ts ih =>
    intro t
    have := ih u
    simp only [List.flatMap_cons, List.append_assoc] at this ⊢
    rw [this]

theorem intercalate_items_clean (ts : List Bytes) (h : ∀ t ∈ ts, cr ∉ t ∧ lf ∉ t) :
    ∀ x ∈ ts.map (fun t => ascii "# " ++ t), cr ∉ x ∧ lf ∉ x := by
  intro x hx
  obtain ⟨t, ht, rfl⟩ := List.mem_map.1 hx
  refine ⟨?_, ?_⟩
  · intro hm
    rcases List.mem_append.1 hm with hm | hm
    · revert hm; decide
    · exact (h t ht).1 hm
  · intro hm
    rcases List.mem_append.1 hm with hm | hm
    · revert hm; decide
    · exact (h t ht).2 hm

/-- The flat ordered list, from the split lines on. -/
theorem toHtml_flat_list (tags : List Bytes) (p : TextileParser) (d : Bytes) (t : Bytes)
    (ts : List Bytes)
    (hp : p.olLevel = 0 ∧ p.ulLevel = 0 ∧ p.inP = false ∧ p.out = [])
    (hs : splitIntoLines d = .ok ((t :: ts).map (fun t => ascii "# " ++ t)))
    (hplain : ∀ u ∈ t :: ts, ∀ c ∈ u, c ∉ ascii "_*\"!@%<?-+^~") :
    toHtml tags p d =
      .ok (ascii "\t<ol>\n"
        ++ (t :: ts).flatMap (fun u => ascii "\t\t<li>"
          ++ u.flatMap (fun b => if b = 39 then ascii "&#8217;" else [b]) ++ ascii "</li>\n")
        ++ ascii "\t</ol>") := by
  obtain ⟨hol, hul, hinp, hout⟩ := hp
  have hk : ∀ l ∈ (t :: ts).map (fun t => ascii "# " ++ t), l ≠ [] ∧ isUrlRef l = none := by
    intro l hl
    obtain ⟨u, _, rfl⟩ := List.mem_map.1 hl
    exact ⟨by simp [ascii], isUrlRef_item u⟩
  rw [toHtml_lines tags p d _ hs hk]
  simp only [List.map_cons, parseBlocks]
  rw [parseBlock_olItem_plain tags p _ t 1 (parseOl_item t) (hplain t (by simp))]
  simp only []
  rw [parseBlocks_olItems tags ts _ (fun u hu => hplain u (List.mem_cons_of_mem _ hu)) rfl]
  simp only []
  rw [closeOlIfNecessary_levels 1 _ rfl]
  simp only []
  rw [closeUlIfNecessary_zero _ (by exact hul)]
  have hshift := flatMap_items_shift
    (fun u => u.flatMap (fun b => if b = 39 then ascii "&#8217;" else [b])) ts t
  have hol' : ¬ p.olLevel > 0 := by omega
  have hone : ((1 : Nat) : Int) - 0 = 1 := by omega
  have hend : ascii "</li>\n\t</ol>" = ascii "</li>\n" ++ (ascii "\t</ol" ++ [62]) := by decide
  have hend2 : ascii "\t</ol>" = ascii "\t</ol" ++ [62] := by decide
  simp only [closeP, hinp, Bool.false_eq_true, if_false, write, hout, hol, hol',
    List.nil_append, List.append_nil, hone, Int.toNat_one, List.replicate_one,
    List.flatten_cons, List.flatten_nil, hend, hend2]
  rw [← hshift]
  simp only [← List.append_assoc]
  rw [trimRightNewlines_end _ 62 (by decide)]
  simp

theorem splitIntoLines_items (ts : List Bytes) (hne : ts ≠ [])
    (h : ∀ t ∈ ts, cr ∉ t ∧ lf ∉ t) (tail : Bytes) (htail : tail = [] ∨ tail = [lf]) :
    splitIntoLines (([lf] : Bytes).intercalate (ts.map (fun t => ascii "# " ++ t)) ++ tail) =
      .ok (ts.map (fun t => ascii "# " ++ t)) := by
  have hlines := intercalate_items_clean ts h
  have hne' : ts.map (fun t => ascii "# " ++ t) ≠ [] := by simpa using hne
  have hlast : ∀ x, (ts.map (fun t => ascii "# " ++ t)).getLast? = some x → x ≠ [] := by
    intro x hx
    have hm : x ∈ ts.map (fun t => ascii "# " ++ t) := List.mem_of_getLast?_eq_some hx
    obtain ⟨t, _, rfl⟩ := List.mem_map.1 hm
    simp [ascii]
  have := splitIntoLinesLoop_join [lf] (Or.inr (Or.inl rfl)) _ tail [] _ hlines hne'
    (by
      rcases htail with ht | ht
      · exact Or.inr ⟨ht, hlast⟩
      · exact Or.inl ht)
    (Nat.le_refl _)
  simpa [splitIntoLines] using this

/-- C16, as the code has it. Flat ordered list: for every non-empty list of item texts
with no trigger byte and no CR or LF, `ToHtml` on the lines `# t1`, ..., `# tn`, with or
without a final LF, returns a tab and `<ol>` on a line of its own, then for each item in
order a line of two tabs, `<li>`, the item with each apostrophe replaced by `&#8217;`,
and `</li>`, then a tab and `</ol>`: one `<ol>`, one `<li>` for each item, one `</ol>`. -/
theorem ToHtml_flat_ordered_list (tags : List Bytes) (ts : List Bytes) (dl dp : Bool)
    (hne : ts ≠ [])
    (hnl : ∀ t ∈ ts, cr ∉ t ∧ lf ∉ t)
    (hplain : ∀ t ∈ ts, ∀ c ∈ t, c ∉ ascii "_*\"!@%<?-+^~") :
    ToHtml tags (([lf] : Bytes).intercalate (ts.map (fun t => ascii "# " ++ t))) dl dp =
        .ok (ascii "\t<ol>\n"
          ++ ts.flatMap (fun t => ascii "\t\t<li>"
            ++ t.flatMap (fun b => if b = 39 then ascii "&#8217;" else [b]) ++ ascii "</li>\n")
          ++ ascii "\t</ol>") ∧
      ToHtml tags (([lf] : Bytes).intercalate (ts.map (fun t => ascii "# " ++ t)) ++ [lf]) dl dp =
        .ok (ascii "\t<ol>\n"
          ++ ts.flatMap (fun t => ascii "\t\t<li>"
            ++ t.flatMap (fun b => if b = 39 then ascii "&#8217;" else [b]) ++ ascii "</li>\n")
          ++ ascii "\t</ol>") := by
  obtain ⟨t, ts', rfl⟩ : ∃ t ts', ts = t :: ts' := by
    cases ts with
    | nil => exact absurd rfl hne
    | cons t ts' => exact ⟨t, ts', rfl⟩
  have h0 := splitIntoLines_items (t :: ts') hne hnl [] (Or.inl rfl)
  have h1 := splitIntoLines_items (t :: ts') hne hnl [lf] (Or.inr rfl)
  rw [List.append_nil] at h0
  exact ⟨toHtml_flat_list tags _ _ t ts' ⟨rfl, rfl, rfl, rfl⟩ h0 hplain,
    toHtml_flat_list tags _ _ t ts' ⟨rfl, rfl, rfl, rfl⟩ h1 hplain⟩

theorem ToHtml_flat_ordered_list_witness :
    ToHtml [] (([lf] : Bytes).intercalate ([ascii "one", ascii "two"].map (fun t => ascii "# " ++ t)))
        false false =
        .ok (ascii "\t<ol>\n"
          ++ [ascii "one", ascii "two"].flatMap (fun t => ascii "\t\t<li>"
            ++ t.flatMap (fun b => if b = 39 then ascii "&#8217;" else [b]) ++ ascii "</li>\n")
          ++ ascii "\t</ol>") ∧
      ToHtml [] (([lf] : Bytes).intercalate ([ascii "one", ascii "two"].map (fun t => ascii "# " ++ t))
          ++ [lf]) false false =
        .ok (ascii "\t<ol>\n"
          ++ [ascii "one", ascii "two"].flatMap (fun t => ascii "\t\t<li>"
            ++ t.flatMap (fun b => if b = 39 then ascii "&#8217;" else [b]) ++ ascii "</li>\n")
          ++ ascii "\t</ol>") :=
  ToHtml_flat_ordered_list [] [ascii "one", ascii "two"] false false (by decide) (by decide)
    (by decide)

/-- C16, as stated, fails on an item with an apostrophe: the item of `# it's` is written
as `it&#8217;s`, so the output has no `<li>it's</li>`. -/
theorem ToHtml_list_item_escaped :
    (∀ tags : List Bytes, ToHtml tags (ascii "# it's") false false =
      .ok (ascii "\t<ol>\n\t\t<li>it&#8217;s</li>\n\t</ol>")) ∧
    ascii "\t<ol>\n\t\t<li>it&#8217;s</li>\n\t</ol>" ≠ ascii "\t<ol>\n\t\t<li>it's</li>\n\t</ol>" := by
  refine ⟨?_, by decide⟩
  intro tags
  have hs : splitIntoLines (ascii "# it's") = .ok ([ascii "it's"].map (fun t => ascii "# " ++ t)) := by
    decide
  simp only [ToHtml]
  rw [toHtml_flat_list tags _ _ (ascii "it's") [] ⟨rfl, rfl, rfl, rfl⟩ hs (by decide)]
  decide

/-! ## HTML and XHTML -/

/-- The statements after the `switch` of `parseBlock`, on a line with no trigger byte and
a parser in no list and no raw HTML block: the paragraph is opened, or continued with a
line break whose spelling depends on the flavour, and the line is written escaped. -/
theorem parseBlockDefault_plain_line (tags : List Bytes) (p : TextileParser) (l : Bytes)
    (htrig : ∀ c ∈ l, c ∉ ascii "_*\"!@%<?-+^~")
    (hol : p.olLevel = 0) (hul : p.ulLevel = 0) (htags : p.blockTags = []) :
    parseBlockDefault tags p l =
      .ok { p with
        out := (p.out
          ++ (if p.inP then (if isXhtml p.r then ascii "<br />\n" else ascii "<br>\n")
              else ascii "\t<p>")
          ++ l.flatMap (fun b => if b = 39 then ascii "&#8217;" else [b])),
        inP := true } := by
  simp only [parseBlockDefault, closeOlIfNecessary_zero p hol, closeUlIfNecessary_zero p hul]
  have hcode : inHtmlCode p = false := by simp [inHtmlCode, lastBlockTagIs, htags]
  have hblock : inHtmlBlock p = false := by simp [inHtmlBlock, htags]
  simp only [hcode, Bool.false_eq_true, if_false, startNewLine, hblock]
  cases hp : p.inP
  · simp only [Bool.not_false, if_true, Bool.false_eq_true, if_false]
    rw [parseInline_plain tags _ l htrig, serEscaped_eq]
    simp [write]
  · cases hx : isXhtml p.r
    · simp only [Bool.not_true, Bool.false_eq_true, if_false, if_true]
      rw [parseInline_plain tags _ l htrig, serEscaped_eq]
      cases p
      simp_all [write]
    · simp only [Bool.not_true, Bool.false_eq_true, if_false, if_true]
      rw [parseInline_plain tags _ l htrig, serEscaped_eq]
      cases p
      simp_all [write]

theorem splitIntoLines_two (a b : Bytes) (ha : cr ∉ a ∧ lf ∉ a) (hb : cr ∉ b ∧ lf ∉ b)
    (hbne : b ≠ []) : splitIntoLines (a ++ [lf] ++ b) = .ok [a, b] := by
  have := splitIntoLinesLoop_join [lf] (Or.inr (Or.inl rfl)) [a, b] [] [] _
    (by
      intro x hx
      rcases List.mem_cons.1 hx with h | h
      · rw [h]; exact ha
      · have : x = b := by simpa using h
        rw [this]; exact hb)
    (by simp)
    (Or.inr ⟨rfl, fun x hx => by
      have : x = b := by simpa using hx.symm
      rw [this]
      exact hbne⟩)
    (Nat.le_refl _)
  simpa [splitIntoLines, List.intercalate] using this

/-- Two plain lines, in either flavour: one paragraph, the lines escaped, and between
them the line break of the flavour. -/
theorem toHtml_two_plain_lines (tags : List Bytes) (p : TextileParser) (a b : Bytes)
    (hp : p.olLevel = 0 ∧ p.ulLevel = 0 ∧ p.blockTags = [] ∧ p.inP = false ∧ p.out = [])
    (hane : a ≠ []) (hbne : b ≠ [])
    (hanl : cr ∉ a ∧ lf ∉ a) (hbnl : cr ∉ b ∧ lf ∉ b)
    (hatrig : ∀ c ∈ a, c ∉ ascii "_*\"!@%<?-+^~")
    (hbtrig : ∀ c ∈ b, c ∉ ascii "_*\"!@%<?-+^~")
    (haH : ∃ rest attrs, parseH a = .ok ((rest, -1, attrs), a))
    (hbH : ∃ rest attrs, parseH b = .ok ((rest, -1, attrs), b))
    (haP : parseP a = .ok (none, a)) (hbP : parseP b = .ok (none, b))
    (habq : parseBlockQuote a = none) (hbbq : parseBlockQuote b = none)
    (hant : parseNoTextile a = none) (hbnt : parseNoTextile b = none)
    (hali : parseOl a = none) (hbli : parseOl b = none)
    (haref : isUrlRef a = none) (hbref : isUrlRef b = none) :
    toHtml tags p (a ++ [lf] ++ b) =
      .ok (ascii "\t<p>" ++ a.flatMap (fun c => if c = 39 then ascii "&#8217;" else [c])
        ++ (if isXhtml p.r then ascii "<br />" else ascii "<br>") ++ [lf]
        ++ (b.flatMap (fun c => if c = 39 then ascii "&#8217;" else [c]) ++ ascii "</p>")) := by
  obtain ⟨hol, hul, htags, hinp, hout⟩ := hp
  have hs := splitIntoLines_two a b hanl hbnl hbne
  have hk : ∀ l ∈ [a, b], l ≠ [] ∧ isUrlRef l = none := by
    intro l hl
    rcases List.mem_cons.1 hl with h | h
    · rw [h]; exact ⟨hane, haref⟩
    · have : l = b := by simpa using h
      rw [this]; exact ⟨hbne, hbref⟩
  rw [toHtml_lines tags p _ _ hs hk]
  simp only [parseBlocks]
  rw [parseBlock_plain tags a p hane hatrig haH haP habq hant hali,
    parseBlockDefault_plain_line tags _ a hatrig (by exact hol) (by exact hul) (by exact htags)]
  simp only []
  rw [parseBlock_plain tags b _ hbne hbtrig hbH hbP hbbq hbnt hbli,
    parseBlockDefault_plain_line tags _ b hbtrig (by exact hol) (by exact hul) (by exact htags)]
  simp only []
  rw [closeOlIfNecessary_zero _ (by exact hol)]
  simp only []
  rw [closeUlIfNecessary_zero _ (by exact hul)]
  simp only [closeP, write, hinp, hout, Bool.false_eq_true, if_false, if_true, List.nil_append]
  cases hx : isXhtml p.r
  · simp only [Bool.false_eq_true, if_false]
    have := trimRightNewlines_closed (ascii "\t<p>"
      ++ a.flatMap (fun c => if c = 39 then ascii "&#8217;" else [c]) ++ ascii "<br>\n"
      ++ b.flatMap (fun c => if c = 39 then ascii "&#8217;" else [c]))
    rw [this]
    simp [ascii, lf]
  · simp only [if_true]
    have := trimRightNewlines_closed (ascii "\t<p>"
      ++ a.flatMap (fun c => if c = 39 then ascii "&#8217;" else [c]) ++ ascii "<br />\n"
      ++ b.flatMap (fun c => if c = 39 then ascii "&#8217;" else [c]))
    rw [this]
    simp [ascii, lf]

/-- A line that starts with `p` and is not an explicit paragraph goes on to the
statements after the `switch` of `parseBlock` as `parseP` left it. -/
theorem parseBlock_failed_p (tags : List Bytes) (p : TextileParser) (l l' : Bytes)
    (hb : l.getD 0 0 = 112) (hne : l ≠ []) (hP : parseP l = .ok (none, l')) :
    parseBlock tags p l = parseBlockDefault tags { p with blockLineNo := p.blockLineNo + 1 } l' := by
  have hlen : ¬ l.length = 0 := by simpa using hne
  simp only [parseBlock, hlen, if_false, hb, hP]
  simp

/-- C19, on the code. On the two lines `p{a}b` and `c`, neither of which is a block
construct or has a trigger byte, the text before the line break is `p{a;b` in both
flavours and not the first line: the attempt to read `p{a}b` as an explicit paragraph has
turned its closing brace into a semicolon. The two flavours differ in the line break
only. -/
theorem ToHtml_two_lines_brace_rewritten :
    (∀ tags : List Bytes, ToHtml tags (ascii "p{a}b\nc") false false =
      .ok (ascii "\t<p>p\x7ba;b" ++ ascii "<br>" ++ [lf] ++ ascii "c</p>")) ∧
    (∀ tags : List Bytes, ToXhtml tags (ascii "p{a}b\nc") false false =
      .ok (ascii "\t<p>p\x7ba;b" ++ ascii "<br />" ++ [lf] ++ ascii "c</p>")) ∧
    ascii "p\x7ba;b" ≠ (ascii "p{a}b").flatMap (fun c => if c = 39 then ascii "&#8217;" else [c]) := by
  have hs : splitIntoLines (ascii "p{a}b\nc") = .ok [ascii "p{a}b", ascii "c"] := by decide
  have h1 : ∀ (tags : List Bytes) (p : TextileParser), parseBlock tags p (ascii "p{a}b") =
      parseBlockDefault tags { p with blockLineNo := p.blockLineNo + 1 } (ascii "p\x7ba;b") :=
    fun tags p => parseBlock_failed_p tags p _ _ (by decide) (by decide) (by decide)
  have h2 : ∀ (tags : List Bytes) (p : TextileParser), parseBlock tags p (ascii "c") =
      parseBlockDefault tags { p with blockLineNo := p.blockLineNo + 1 } (ascii "c") :=
    fun tags p => parseBlock_plain tags (ascii "c") p (by decide) (by decide)
      ⟨ascii "c", none, by decide⟩ (by decide) (by decide) (by decide) (by decide)
  refine ⟨?_, ?_, by decide⟩
  · intro tags
    simp only [ToHtml]
    rw [toHtml_lines tags _ _ _ hs (by decide)]
    simp only [parseBlocks, h1, h2]
    rw [parseBlockDefault_plain_line tags _ (ascii "p\x7ba;b") (by decide) rfl rfl rfl]
    simp only []
    rw [parseBlockDefault_plain_line tags _ (ascii "c") (by decide) rfl rfl rfl]
    decide
  · intro tags
    simp only [ToXhtml]
    rw [toHtml_lines tags _ _ _ hs (by decide)]
    simp only [parseBlocks, h1, h2]
    rw [parseBlockDefault_plain_line tags _ (ascii "p\x7ba;b") (by decide) rfl rfl rfl]
    simp only []
    rw [parseBlockDefault_plain_line tags _ (ascii "c") (by decide) rfl rfl rfl]
    decide

/-! ## No index out of range -/

namespace Mem

theorem returns_pure {α : Type} (a : α) (P : α → Prop) (h : P a) :
    Returns (pure a : Except Stop α) P := ⟨a, rfl, h⟩

theorem returns_bind {α β : Type} (x : Except Stop α) (f : α → Except Stop β)
    (P : α → Prop) (Q : β → Prop) (hx : Returns x P) (hf : ∀ a, P a → Returns (f a) Q) :
    Returns (x >>= f) Q := by
  obtain ⟨a, rfl, ha⟩ := hx
  exact hf a ha

theorem returns_mono {α : Type} (x : Except Stop α) (P Q : α → Prop) (hx : Returns x P)
    (h : ∀ a, P a → Q a) : Returns x Q := by
  obtain ⟨a, rfl, ha⟩ := hx
  exact ⟨a, rfl, h a ha⟩

theorem index_eq (mem : Bytes) (s : Slice) (i : Nat) (h : i < s.len) :
    s.index mem i = .ok (mem.getD (s.off + i) 0) := by
  simp [Slice.index, h]

theorem slice_eq (s : Slice) (a b : Nat) (h1 : a ≤ b) (h2 : b ≤ s.len) :
    s.slice a b = .ok { off := s.off + a, len := b - a } := by
  simp [Slice.slice, h1, h2]

theorem sliceFrom_eq (s : Slice) (a : Nat) (h : a ≤ s.len) :
    s.sliceFrom a = .ok { off := s.off + a, len := s.len - a } := by
  simp [Slice.sliceFrom, Slice.slice, h]

theorem sliceTo_eq (s : Slice) (b : Nat) (h : b ≤ s.len) :
    s.sliceTo b = .ok { off := s.off, len := b } := by
  simp [Slice.sliceTo, Slice.slice, h]

theorem index_returns (mem : Bytes) (s : Slice) (i : Nat) (h : i < s.len) :
    Returns (s.index mem i) (fun c => c = mem.getD (s.off + i) 0) :=
  ⟨_, index_eq mem s i h, rfl⟩

theorem slice_returns (s : Slice) (a b : Nat) (h1 : a ≤ b) (h2 : b ≤ s.len) :
    Returns (s.slice a b) (fun r => r.len = b - a ∧ r.off = s.off + a) :=
  ⟨_, slice_eq s a b h1 h2, rfl, rfl⟩

theorem sliceFrom_returns (s : Slice) (a : Nat) (h : a ≤ s.len) :
    Returns (s.sliceFrom a) (fun r => r.len = s.len - a ∧ r.off = s.off + a) :=
  ⟨_, sliceFrom_eq s a h, rfl, rfl⟩

theorem sliceTo_returns (s : Slice) (b : Nat) (h : b ≤ s.len) :
    Returns (s.sliceTo b) (fun r => r.len = b ∧ r.off = s.off) :=
  ⟨_, sliceTo_eq s b h, rfl, rfl⟩

theorem bytes_length_le (mem : Bytes) (s : Slice) : (s.bytes mem).length ≤ s.len := by
  simp [Slice.bytes]

theorem bytes_getD (mem : Bytes) (s : Slice) (i : Nat) (h : i < (s.bytes mem).length) :
    (s.bytes mem).getD i 0 = mem.getD (s.off + i) 0 := by
  simp only [Slice.bytes, List.length_take, List.length_drop] at h
  simp only [Slice.bytes, List.getD_eq_getElem?_getD]
  rw [List.getElem?_take_of_lt (by omega), List.getElem?_drop]

theorem indexByte_lt (l : Bytes) (c : Nat) : ∀ i, indexByte l c = some i → i < l.length := by
  induction l with
  | nil => intro i h; simp [indexByte] at h
  | cons x t ih =>
    intro i h
    simp only [indexByte] at h
    split at h
    · simp at h; subst h; simp
    · cases h2 : indexByte t c with
      | none => simp [h2] at h
      | some j => simp [h2] at h; subst h; have := ih j h2; simp; omega

theorem indexByte_getD (l : Bytes) (c : Nat) : ∀ i, indexByte l c = some i → l.getD i 0 = c := by
  induction l with
  | nil => intro i h; simp [indexByte] at h
  | cons x t ih =>
    intro i h
    simp only [indexByte] at h
    split at h
    · rename_i hx; simp at h; subst h; simpa using hx
    · cases h2 : indexByte t c with
      | none => simp [h2] at h
      | some j => simp [h2] at h; subst h; simpa using ih j h2

/-- Where `bytes.IndexByte` finds `c` in a slice: inside it, at a byte equal to `c`. -/
theorem indexByte_bytes (mem : Bytes) (s : Slice) (c i : Nat)
    (h : indexByte (s.bytes mem) c = some i) : i < s.len ∧ mem.getD (s.off + i) 0 = c := by
  have h1 := indexByte_lt _ _ _ h
  have h2 := bytes_length_le mem s
  have h3 := indexByte_getD _ _ _ h
  rw [bytes_getD mem s i h1] at h3
  exact ⟨by omega, h3⟩

/-- A counted loop returns when each of its turns does; what it returns early was
returned by one of the turns. -/
theorem forIndex_returns {α : Type} (body : Nat → Except Stop (Option α)) (P : Nat → α → Prop) :
    ∀ (k i : Nat),
      (∀ j, i ≤ j → j < i + k → Returns (body j) (fun r => ∀ v, r = some v → P j v)) →
      Returns (forIndex body i k) (fun r => ∀ v, r = some v → ∃ j, i ≤ j ∧ j < i + k ∧ P j v) := by
  intro k
  induction k with
  | zero => intro i _; exact ⟨none, rfl, by simp⟩
  | succ k ih =>
    intro i h
    obtain ⟨r, hr, hP⟩ := h i (le_refl _) (by omega)
    cases r with
    | some v =>
      refine ⟨some v, by simp [forIndex, hr], ?_⟩
      intro v2 hv2
      simp at hv2; subst hv2
      exact ⟨i, le_refl _, by omega, hP v rfl⟩
    | none =>
      obtain ⟨r2, hr2, hP2⟩ := ih (i + 1) (fun j h1 h2 => h j (by omega) (by omega))
      refine ⟨r2, by simp [forIndex, hr, hr2], ?_⟩
      intro v hv
      obtain ⟨j, h1, h2, h3⟩ := hP2 v hv
      exact ⟨j, by omega, by omega, h3⟩

theorem startsWithByte_eq (mem : Bytes) (s : Slice) (b m : Nat) (hm : 1 ≤ m) :
    startsWithByte mem s b m = .ok (decide (m ≤ s.len ∧ mem.getD s.off 0 = b)) := by
  unfold startsWithByte
  by_cases h : m ≤ s.len
  · have h0 : 0 < s.len := by omega
    simp [h, index_eq mem s 0 h0, bind, Except.bind, pure, Except.pure]
  · simp [h, pure, Except.pure]

theorem extractLine_returns (mem : Bytes) (d : Option Slice) :
    Returns (extractLine mem d) (fun r => r.1 ≠ none → lenOpt r.2 < lenOpt d) := by
  unfold extractLine
  cases d with
  | none => exact returns_pure _ _ (by simp)
  | some d =>
    by_cases h0 : d.len = 0
    · simp only [h0, if_true]; exact returns_pure _ _ (by simp)
    · simp only [h0, if_false]
      apply returns_bind _ _ (fun r => ∀ v, r = some v → ∃ j, 0 ≤ j ∧ j < 0 + d.len ∧ v.1 = j)
      · apply forIndex_returns
        intro j _ hj
        rw [index_eq mem d j (by omega)]
        simp only [bind, Except.bind]
        split
        · exact returns_pure _ _ (by simp)
        · exact returns_pure _ _ (by simp)
      · intro r hr
        cases r with
        | none => exact returns_pure _ _ (by simp [lenOpt])
        | some v =>
          obtain ⟨pos, wasCr⟩ := v
          obtain ⟨j, _, hj, hv⟩ := hr _ rfl
          simp only at hv
          subst hv
          simp only [sliceTo_eq d pos (by omega), sliceFrom_eq d (pos + 1) (by omega), bind,
            Except.bind]
          split
          · rename_i hc
            rw [index_eq mem _ 0 (by simpa using hc.2)]
            simp only
            split
            · rw [sliceFrom_eq _ 1 (by have := hc.2; simp at this; simp; omega)]
              exact ⟨_, rfl, by simp [lenOpt]; omega⟩
            · exact ⟨_, rfl, by simp [lenOpt]; omega⟩
          · exact ⟨_, rfl, by simp [lenOpt]; omega⟩

theorem splitIntoLinesLoop_returns (mem : Bytes) : ∀ (fuel : Nat) (d : Option Slice)
    (res : List Slice), lenOpt d < fuel → ∃ r, splitIntoLinesLoop mem fuel d res = .ok r := by
  intro fuel
  induction fuel with
  | zero => intro d res h; omega
  | succ fuel ih =>
    intro d res h
    obtain ⟨⟨l, d2⟩, hr, hpost⟩ := extractLine_returns mem d
    simp only [splitIntoLinesLoop, hr, bind, Except.bind]
    cases l with
    | none => exact ⟨_, rfl⟩
    | some l =>
      have := hpost (by simp)
      exact ih d2 _ (by simp at this; omega)

theorem splitIntoLines_returns (mem : Bytes) (d : Slice) :
    ∃ r, splitIntoLines mem d = .ok r :=
  splitIntoLinesLoop_returns mem _ _ _ (by simp [lenOpt])

theorem extractUntil_returns (mem : Bytes) (l : Slice) (c : Nat) :
    Returns (extractUntil mem l c)
      (fun r => ∀ rest inside, r = some (rest, inside) → rest.len + inside.len + 1 = l.len) := by
  unfold extractUntil
  cases h : indexByte (l.bytes mem) c with
  | none => exact returns_pure _ _ (by simp)
  | some idx =>
    have h1 := (indexByte_bytes mem l c idx h).1
    simp only [sliceFrom_eq l (idx + 1) (by omega), sliceTo_eq l idx (by omega), bind, Except.bind]
    refine ⟨_, rfl, ?_⟩
    intro rest inside hr
    simp at hr
    obtain ⟨rfl, rfl⟩ := hr
    simp; omega

theorem extractInside_returns (mem : Bytes) (l : Slice) (a b : Nat) :
    Returns (extractInside mem l a b)
      (fun r => ∀ rest inside, r = some (rest, inside) → rest.len + inside.len + 2 = l.len) := by
  unfold extractInside
  by_cases h0 : l.len = 0
  · simp only [h0, if_true]; exact returns_pure _ _ (by simp)
  · simp only [h0, if_false, index_eq mem l 0 (by omega), bind, Except.bind]
    split
    · exact returns_pure _ _ (by simp)
    · simp only [sliceFrom_eq l 1 (by omega)]
      obtain ⟨r, hr, hpost⟩ := extractUntil_returns mem { off := l.off + 1, len := l.len - 1 } b
      simp only [hr]
      cases r with
      | none => exact ⟨_, rfl, by simp⟩
      | some v =>
        obtain ⟨rest, inside⟩ := v
        refine ⟨_, rfl, ?_⟩
        intro rest2 inside2 h2
        simp at h2
        obtain ⟨rfl, rfl⟩ := h2
        have := hpost rest inside rfl
        simp at this
        omega

end Mem

namespace Mem

theorem parseStartTag_returns (tags : List Bytes) (mem : Bytes) (l : Slice) :
    Returns (parseStartTag tags mem l)
      (fun r => ∀ rest html tag, r = some (rest, html, tag) → rest.len < l.len) := by
  unfold parseStartTag
  simp only [startsWithByte_eq mem l 60 3 (by decide), bind, Except.bind]
  by_cases hs : 3 ≤ l.len ∧ mem.getD l.off 0 = 60
  · simp only [hs, and_self, decide_True, Bool.not_true, Bool.false_eq_true, if_false]
    cases h : indexByte (l.bytes mem) 62 with
    | none => exact returns_pure _ _ (by simp)
    | some htmlEnd =>
      obtain ⟨h1, h2⟩ := indexByte_bytes mem l 62 htmlEnd h
      have h3 : 1 ≤ htmlEnd := by
        by_contra hx
        have h0 : htmlEnd = 0 := by omega
        rw [h0, Nat.add_zero, hs.2] at h2
        exact absurd h2 (by decide)
      simp only [sliceTo_eq l (htmlEnd + 1) (by omega)]
      cases h4 : indexByte (l.bytes mem) 32 with
      | none =>
        simp only [slice_eq l 1 htmlEnd h3 (by omega)]
        split
        · exact returns_pure _ _ (by simp)
        · simp only [sliceFrom_eq l (htmlEnd + 1) (by omega)]
          refine ⟨_, rfl, ?_⟩
          intro rest html tag hr
          simp at hr
          obtain ⟨rfl, _, _⟩ := hr
          simp; omega
      | some tagEnd =>
        obtain ⟨h5, h6⟩ := indexByte_bytes mem l 32 tagEnd h4
        have h7 : 1 ≤ tagEnd := by
          by_contra hx
          have h0 : tagEnd = 0 := by omega
          rw [h0, Nat.add_zero, hs.2] at h6
          exact absurd h6 (by decide)
        simp only [slice_eq l 1 tagEnd h7 (by omega)]
        split
        · exact returns_pure _ _ (by simp)
        · simp only [sliceFrom_eq l (htmlEnd + 1) (by omega)]
          refine ⟨_, rfl, ?_⟩
          intro rest html tag hr
          simp at hr
          obtain ⟨rfl, _, _⟩ := hr
          simp; omega
  · simp only [hs, decide_False, Bool.not_false, if_true]
    exact returns_pure _ _ (by simp)

theorem parseEndTag_returns (tags : List Bytes) (mem : Bytes) (l : Slice) :
    Returns (parseEndTag tags mem l)
      (fun r => ∀ rest html tag, r = some (rest, html, tag) → rest.len < l.len) := by
  unfold parseEndTag
  simp only [startsWithByte_eq mem l 60 4 (by decide), bind, Except.bind]
  by_cases hs : 4 ≤ l.len ∧ mem.getD l.off 0 = 60
  · simp only [hs, and_self, decide_True, Bool.not_true, Bool.false_eq_true, if_false,
      index_eq mem l 1 (by omega)]
    split
    · exact returns_pure _ _ (by simp)
    · rename_i hc
      cases h : indexByte (l.bytes mem) 62 with
      | none => exact returns_pure _ _ (by simp)
      | some htmlEnd =>
        obtain ⟨h1, h2⟩ := indexByte_bytes mem l 62 htmlEnd h
        have hc2 : mem.getD (l.off + 1) 0 = 47 := by simpa using hc
        have h3 : 2 ≤ htmlEnd := by
          by_contra hx
          have h0 : htmlEnd = 0 ∨ htmlEnd = 1 := by omega
          rcases h0 with h0 | h0
          · rw [h0, Nat.add_zero, hs.2] at h2
            exact absurd h2 (by decide)
          · rw [h0, hc2] at h2
            exact absurd h2 (by decide)
        simp only [slice_eq l 2 htmlEnd h3 (by omega)]
        split
        · exact returns_pure _ _ (by simp)
        · simp only [sliceFrom_eq l (htmlEnd + 1) (by omega), sliceTo_eq l (htmlEnd + 1) (by omega)]
          refine ⟨_, rfl, ?_⟩
          intro rest html tag hr
          simp at hr
          obtain ⟨rfl, _, _⟩ := hr
          simp; omega
  · simp only [hs, decide_False, Bool.not_false, if_true]
    exact returns_pure _ _ (by simp)

theorem parseHtml_returns (tags : List Bytes) (mem : Bytes) (l : Slice) :
    Returns (parseHtml tags mem l)
      (fun r => ∀ rest html tag start, r = some (rest, html, tag, start) → rest.len < l.len) := by
  unfold parseHtml
  obtain ⟨r1, hr1, hp1⟩ := parseEndTag_returns tags mem l
  obtain ⟨r2, hr2, hp2⟩ := parseStartTag_returns tags mem l
  simp only [hr1, bind, Except.bind]
  cases r1 with
  | some v =>
    obtain ⟨rest, html, tag⟩ := v
    refine ⟨_, rfl, ?_⟩
    intro rest2 html2 tag2 start hr
    simp at hr
    obtain ⟨rfl, _, _, _⟩ := hr
    exact hp1 _ _ _ rfl
  | none =>
    simp only [hr2]
    cases r2 with
    | some v =>
      obtain ⟨rest, html, tag⟩ := v
      refine ⟨_, rfl, ?_⟩
      intro rest2 html2 tag2 start hr
      simp at hr
      obtain ⟨rfl, _, _, _⟩ := hr
      exact hp2 _ _ _ rfl
    | none => exact ⟨_, rfl, by simp⟩

theorem extractUrlOrRefName_returns (mem : Bytes) (l : Slice) :
    Returns (extractUrlOrRefName mem l) (fun r => r.1.len ≤ l.len) := by
  unfold extractUrlOrRefName
  apply returns_bind _ _ (fun r => ∀ v, r = some v → ∃ j, 0 ≤ j ∧ j < 0 + l.len ∧ v.1.len ≤ l.len)
  · apply forIndex_returns
    intro j _ hj
    rw [index_eq mem l j (by omega)]
    simp only [bind, Except.bind]
    split
    · simp only [sliceFrom_eq l j (by omega), sliceTo_eq l j (by omega)]
      refine ⟨_, rfl, ?_⟩
      intro v hv
      simp at hv; subst hv
      simp
    · exact returns_pure _ _ (by simp)
  · intro r hr
    cases r with
    | some v =>
      obtain ⟨j, _, _, h⟩ := hr v rfl
      exact ⟨_, rfl, h⟩
    | none =>
      simp only [slice_eq l 0 0 (le_refl _) (Nat.zero_le _), bind, Except.bind]
      exact ⟨_, rfl, by simp⟩

theorem parseImgParts_returns (mem : Bytes) (l : Slice) :
    Returns (parseImgParts mem l)
      (fun r => ∀ imgSrc alt rest, r = some (imgSrc, alt, rest) → rest.len < l.len) := by
  unfold parseImgParts
  cases h : indexByte (l.bytes mem) 40 with
  | some endIdx =>
    obtain ⟨h1, _⟩ := indexByte_bytes mem l 40 endIdx h
    refine returns_bind _ _ _ _ (sliceTo_returns l endIdx (by omega)) ?_
    intro imgSrc _
    refine returns_bind _ _ _ _ (sliceFrom_returns l (endIdx + 1) (by omega)) ?_
    intro l2 hl2
    cases h2 : indexByte (l2.bytes mem) 41 with
    | none => exact returns_pure _ _ (by simp)
    | some e2 =>
      obtain ⟨h3, _⟩ := indexByte_bytes mem l2 41 e2 h2
      refine returns_bind _ _ _ _ (sliceTo_returns l2 e2 (by omega)) ?_
      intro alt _
      refine returns_bind _ _ _ _ (sliceFrom_returns l2 (e2 + 1) (by omega)) ?_
      intro l3 hl3
      split
      · exact returns_pure _ _ (by simp)
      · refine returns_bind _ _ _ _ (index_returns mem l3 0 (by omega)) ?_
        intro c _
        split
        · exact returns_pure _ _ (by simp)
        · refine returns_bind _ _ _ _ (sliceFrom_returns l3 1 (by omega)) ?_
          intro l4 hl4
          refine returns_pure _ _ ?_
          intro x y z hr
          simp at hr
          obtain ⟨_, _, rfl⟩ := hr
          omega
  | none =>
    cases h2 : indexByte (l.bytes mem) 33 with
    | none => exact returns_pure _ _ (by simp)
    | some endIdx =>
      obtain ⟨h1, _⟩ := indexByte_bytes mem l 33 endIdx h2
      refine returns_bind _ _ _ _ (sliceTo_returns l endIdx (by omega)) ?_
      intro imgSrc _
      refine returns_bind _ _ _ _ (sliceFrom_returns l (endIdx + 1) (by omega)) ?_
      intro l2 hl2
      refine returns_bind _ _ _ _ (slice_returns l2 0 0 (le_refl _) (Nat.zero_le _)) ?_
      intro alt _
      refine returns_pure _ _ ?_
      intro x y z hr
      simp at hr
      obtain ⟨_, _, rfl⟩ := hr
      omega

end Mem

namespace Mem

theorem parseImg_returns (mem : Bytes) (l : Slice) :
    Returns (parseImg mem l)
      (fun r => ∀ rest url imgSrc alt style, r = some (rest, url, imgSrc, alt, style) →
        rest.len < l.len) := by
  unfold parseImg
  split
  · exact returns_pure _ _ (by simp)
  · rename_i hlen
    refine returns_bind _ _ _ _ (index_returns mem l 0 (by omega)) ?_
    intro c _
    split
    · exact returns_pure _ _ (by simp)
    · refine returns_bind _ _ _ _ (sliceFrom_returns l 1 (by omega)) ?_
      intro l1 hl1
      refine returns_bind _ _ _ _ (index_returns mem l1 0 (by omega)) ?_
      intro c1 _
      refine returns_bind _ _ (fun r => r.2.len ≤ l1.len) _ ?_ ?_
      · split
        · refine returns_bind _ _ _ _ (sliceFrom_returns l1 1 (by omega)) ?_
          intro l2 hl2
          exact returns_pure _ _ (by simp only; omega)
        · exact returns_pure _ _ (le_refl _)
      · intro r hr
        obtain ⟨style, l2⟩ := r
        simp only at hr
        refine returns_bind _ _ _ _ (parseImgParts_returns mem l2) ?_
        intro parts hparts
        cases parts with
        | none => exact returns_pure _ _ (by simp)
        | some v =>
          obtain ⟨imgSrc, alt, l3⟩ := v
          have h3 := hparts _ _ _ rfl
          simp only
          split
          · refine returns_bind _ _ _ _ (index_returns mem l3 0 (by omega)) ?_
            intro c3 _
            split
            · refine returns_bind _ _ _ _ (sliceFrom_returns l3 1 (by omega)) ?_
              intro l4 hl4
              refine returns_bind _ _ _ _ (extractUrlOrRefName_returns mem l4) ?_
              intro r5 h5
              obtain ⟨l5, url⟩ := r5
              refine returns_pure _ _ ?_
              intro a b c d e hr
              simp at hr
              obtain ⟨rfl, _⟩ := hr
              simp only at h5
              omega
            · refine returns_pure _ _ ?_
              intro a b c d e hr
              simp at hr
              obtain ⟨rfl, _⟩ := hr
              omega
          · refine returns_pure _ _ ?_
            intro a b c d e hr
            simp at hr
            obtain ⟨rfl, _⟩ := hr
            omega

theorem countRepeatedChars_returns (mem : Bytes) (l : Slice) (c : Nat) :
    Returns (countRepeatedChars mem l c)
      (fun r => r.1.len ≤ l.len ∧ (0 < l.len → mem.getD l.off 0 = c → r.1.len < l.len)) := by
  unfold countRepeatedChars
  refine returns_bind _ _
    (fun r => ∀ v, r = some v → ∃ j, 0 ≤ j ∧ j < 0 + l.len ∧
      (v.1.len = l.len - j ∧ mem.getD (l.off + j) 0 ≠ c)) _ ?_ ?_
  · apply forIndex_returns
    intro j _ hj
    refine returns_bind _ _ _ _ (index_returns mem l j (by omega)) ?_
    intro b hb
    split
    · rename_i hne
      refine returns_bind _ _ _ _ (sliceFrom_returns l j (by omega)) ?_
      intro rest hrest
      refine returns_pure _ _ ?_
      intro v hv
      simp at hv; subst hv
      exact ⟨hrest.1, by rw [← hb]; exact hne⟩
    · exact returns_pure _ _ (by simp)
  · intro r hr
    cases r with
    | some v =>
      obtain ⟨j, _, hj, h1, h2⟩ := hr v rfl
      refine returns_pure _ _ ⟨by omega, ?_⟩
      intro _ h0
      have : j ≠ 0 := by
        intro hj0
        rw [hj0, Nat.add_zero] at h2
        exact h2 h0
      omega
    | none =>
      refine returns_bind _ _ _ _ (slice_returns l 0 0 (le_refl _) (Nat.zero_le _)) ?_
      intro rest hrest
      refine returns_pure _ _ ⟨by simp only; omega, ?_⟩
      intro h0 _
      simp only; omega

theorem parseStyleLoop_returns (mem : Bytes) : ∀ (fuel : Nat) (l : Slice) (pi : PaddingInfo),
    l.len < fuel → Returns (parseStyleLoop mem fuel l pi) (fun r => r.1.len ≤ l.len) := by
  intro fuel
  induction fuel with
  | zero => intro l pi h; omega
  | succ fuel ih =>
    intro l pi h
    unfold parseStyleLoop
    split
    · rename_i hpos
      refine returns_bind _ _ _ _ (index_returns mem l 0 (by omega)) ?_
      intro c hc
      split
      · split
        · refine returns_bind _ _ _ _ (index_returns mem l 1 (by omega)) ?_
          intro c1 _
          split
          · refine returns_bind _ _ _ _ (sliceFrom_returns l 2 (by omega)) ?_
            intro l2 hl2
            exact returns_mono _ _ _ (ih l2 _ (by omega)) (fun a ha => by omega)
          · refine returns_bind _ _ _ _ (sliceFrom_returns l 1 (by omega)) ?_
            intro l2 hl2
            exact returns_mono _ _ _ (ih l2 _ (by omega)) (fun a ha => by omega)
        · refine returns_bind _ _ _ _ (sliceFrom_returns l 1 (by omega)) ?_
          intro l2 hl2
          exact returns_mono _ _ _ (ih l2 _ (by omega)) (fun a ha => by omega)
      · split
        · refine returns_bind _ _ _ _ (sliceFrom_returns l 1 (by omega)) ?_
          intro l2 hl2
          exact returns_mono _ _ _ (ih l2 _ (by omega)) (fun a ha => by omega)
        · split
          · refine returns_bind _ _ _ _ (sliceFrom_returns l 1 (by omega)) ?_
            intro l2 hl2
            exact returns_mono _ _ _ (ih l2 _ (by omega)) (fun a ha => by omega)
          · split
            · rename_i h40
              refine returns_bind _ _ _ _ (countRepeatedChars_returns mem l 40) ?_
              intro r hr
              obtain ⟨l2, n⟩ := r
              have h2 := hr.2 hpos (by rw [Nat.add_zero] at hc; rw [← hc]; exact h40)
              simp only at h2
              exact returns_mono _ _ _ (ih l2 _ (by omega)) (fun a ha => by omega)
            · split
              · rename_i h41
                refine returns_bind _ _ _ _ (countRepeatedChars_returns mem l 41) ?_
                intro r hr
                obtain ⟨l2, n⟩ := r
                have h2 := hr.2 hpos (by rw [Nat.add_zero] at hc; rw [← hc]; exact h41)
                simp only at h2
                exact returns_mono _ _ _ (ih l2 _ (by omega)) (fun a ha => by omega)
              · exact returns_pure _ _ (le_refl _)
    · exact returns_pure _ _ (le_refl _)

theorem parseStyle_returns (mem : Bytes) (l : Slice) :
    Returns (parseStyle mem l) (fun r => r.1.len ≤ l.len) := by
  unfold parseStyle
  refine returns_bind _ _ _ _ (parseStyleLoop_returns mem (l.len + 1) l {} (by omega)) ?_
  intro r hr
  obtain ⟨l2, pi⟩ := r
  exact returns_pure _ _ hr

theorem endsWithByte_returns (mem : Bytes) (s : Data) (b : Nat) :
    Returns (endsWithByte mem s b) (fun _ => True) := by
  unfold endsWithByte
  split
  · exact returns_pure _ _ trivial
  · rename_i h0
    cases s with
    | inMem s =>
      simp only [Data.len] at h0
      simp only [Data.index, Data.len]
      refine returns_bind _ _ _ _ (index_returns mem s (s.len - 1) (by omega)) ?_
      intro c _
      exact returns_pure _ _ trivial
    | fresh x =>
      simp only [Data.len] at h0
      have : x.length - 1 < x.length := by
        have : x.length ≠ 0 := h0
        omega
      simp only [Data.index, Data.len, this, if_true]
      exact ⟨_, rfl, trivial⟩

end Mem

namespace Mem

theorem startsWithByte_returns (mem : Bytes) (s : Slice) (b m : Nat) (hm : 1 ≤ m) :
    Returns (startsWithByte mem s b m) (fun r => r = true → m ≤ s.len ∧ mem.getD s.off 0 = b) :=
  ⟨_, startsWithByte_eq mem s b m hm, by simp⟩

theorem extractClassOpt_returns (mem : Bytes) (l : Slice) :
    Returns (extractClassOpt mem l) (fun r => r.1.len ≤ l.len) := by
  unfold extractClassOpt
  refine returns_bind _ _ _ _ (startsWithByte_returns mem l 40 3 (by decide)) ?_
  intro sw hsw
  split
  · exact returns_pure _ _ (le_refl _)
  · rename_i h
    have hs := hsw (by simpa using h)
    refine returns_bind _ _ _ _ (index_returns mem l 1 (by omega)) ?_
    intro c _
    split
    · exact returns_pure _ _ (le_refl _)
    · refine returns_bind _ _
        (fun r => ∀ v, r = some v → ∃ j, 1 ≤ j ∧ j < 1 + (l.len - 1) ∧ v.1.len ≤ l.len) _ ?_ ?_
      · apply forIndex_returns
        intro j hj1 hj2
        refine returns_bind _ _ _ _ (index_returns mem l j (by omega)) ?_
        intro c _
        split
        · split
          · refine returns_bind _ _ _ _ (sliceFrom_returns l (j + 1) (by omega)) ?_
            intro rest hrest
            refine returns_bind _ _ _ _ (slice_returns l 1 j hj1 (by omega)) ?_
            intro cls _
            refine returns_pure _ _ ?_
            intro v hv
            simp at hv; subst hv
            simp only; omega
          · exact returns_pure _ _ (by simp)
        · exact returns_pure _ _ (by simp)
      · intro r hr
        cases r with
        | some v =>
          obtain ⟨j, _, _, h⟩ := hr v rfl
          exact returns_pure _ _ h
        | none => exact returns_pure _ _ (le_refl _)

theorem extractLangOpt_returns (mem : Bytes) (l : Slice) :
    Returns (extractLangOpt mem l) (fun r => r.1.len ≤ l.len) := by
  unfold extractLangOpt
  refine returns_bind _ _ _ _ (startsWithByte_returns mem l 91 3 (by decide)) ?_
  intro sw hsw
  split
  · exact returns_pure _ _ (le_refl _)
  · rename_i h
    have hs := hsw (by simpa using h)
    refine returns_bind _ _ _ _ (index_returns mem l 1 (by omega)) ?_
    intro c _
    split
    · exact returns_pure _ _ (le_refl _)
    · refine returns_bind _ _
        (fun r => ∀ v, r = some v → ∃ j, 1 ≤ j ∧ j < 1 + (l.len - 1) ∧ v.1.len ≤ l.len) _ ?_ ?_
      · apply forIndex_returns
        intro j hj1 hj2
        refine returns_bind _ _ _ _ (index_returns mem l j (by omega)) ?_
        intro c _
        split
        · split
          · refine returns_bind _ _ _ _ (sliceFrom_returns l (j + 1) (by omega)) ?_
            intro rest hrest
            refine returns_bind _ _ _ _ (slice_returns l 1 j hj1 (by omega)) ?_
            intro lang _
            refine returns_pure _ _ ?_
            intro v hv
            simp at hv; subst hv
            simp only; omega
          · exact returns_pure _ _ (by simp)
        · exact returns_pure _ _ (by simp)
      · intro r hr
        cases r with
        | some v =>
          obtain ⟨j, _, _, h⟩ := hr v rfl
          exact returns_pure _ _ h
        | none => exact returns_pure _ _ (le_refl _)

theorem extractStyleOpt_returns (mem : Bytes) (l : Slice) :
    Returns (extractStyleOpt mem l) (fun r => r.2.1.len ≤ l.len) := by
  unfold extractStyleOpt
  refine returns_bind _ _ _ _ (startsWithByte_returns mem l 123 3 (by decide)) ?_
  intro sw hsw
  split
  · exact returns_pure _ _ (le_refl _)
  · rename_i h
    have hs := hsw (by simpa using h)
    refine returns_bind _ _ _ _ (index_returns mem l 1 (by omega)) ?_
    intro c _
    split
    · exact returns_pure _ _ (le_refl _)
    · refine returns_bind _ _
        (fun r => ∀ v, r = some v → ∃ j, 1 ≤ j ∧ j < 1 + (l.len - 1) ∧ v.2.1.len ≤ l.len) _ ?_ ?_
      · apply forIndex_returns
        intro j hj1 hj2
        refine returns_bind _ _ _ _ (index_returns mem l j (by omega)) ?_
        intro c _
        split
        · split
          · refine returns_bind _ _ _ _ (sliceFrom_returns l (j + 1) (by omega)) ?_
            intro rest hrest
            refine returns_bind _ _ _ _ (slice_returns l 1 j hj1 (by omega)) ?_
            intro styleOpt _
            refine returns_bind _ _ _ _ (endsWithByte_returns mem (.inMem styleOpt) 59) ?_
            intro e _
            split
            · generalize append mem (Data.inMem styleOpt) [59] = ap
              obtain ⟨m2, s2⟩ := ap
              refine returns_pure _ _ ?_
              intro v hv
              simp at hv; subst hv
              simp only; omega
            · refine returns_pure _ _ ?_
              intro v hv
              simp at hv; subst hv
              simp only; omega
          · exact returns_pure _ _ (by simp)
        · exact returns_pure _ _ (by simp)
      · intro r hr
        cases r with
        | some v =>
          obtain ⟨j, _, _, h⟩ := hr v rfl
          exact returns_pure _ _ h
        | none => exact returns_pure _ _ (le_refl _)

theorem parseAttributesOptCase_returns (mem : Bytes) (l : Slice) (attrs : AttributesOpt)
    (c : Nat) :
    Returns (parseAttributesOptCase mem l attrs c) (fun r => r.2.1.len ≤ l.len) := by
  unfold parseAttributesOptCase
  split
  · refine returns_bind _ _ _ _ (extractClassOpt_returns mem l) ?_
    intro r hr
    obtain ⟨l2, cls⟩ := r
    exact returns_pure _ _ hr
  · split
    · refine returns_bind _ _ _ _ (extractLangOpt_returns mem l) ?_
      intro r hr
      obtain ⟨l2, lang⟩ := r
      exact returns_pure _ _ hr
    · split
      · refine returns_bind _ _ _ _ (extractStyleOpt_returns mem l) ?_
        intro r hr
        obtain ⟨m2, l2, st⟩ := r
        exact returns_pure _ _ hr
      · exact returns_pure _ _ (le_refl _)

theorem parseAttributesOptLoop_returns : ∀ (fuel : Nat) (mem : Bytes) (l : Slice)
    (attrs : AttributesOpt), l.len < fuel →
    Returns (parseAttributesOptLoop fuel mem l attrs) (fun r => r.2.1.len ≤ l.len) := by
  intro fuel
  induction fuel with
  | zero => intro mem l attrs h; omega
  | succ fuel ih =>
    intro mem l attrs h
    unfold parseAttributesOptLoop
    split
    · rename_i hpos
      refine returns_bind _ _ _ _ (index_returns mem l 0 (by omega)) ?_
      intro c _
      refine returns_bind _ _ _ _ (parseAttributesOptCase_returns mem l attrs c) ?_
      intro r hr
      obtain ⟨m2, l2, a2⟩ := r
      simp only at hr
      simp only
      split
      · exact returns_pure _ _ hr
      · rename_i hne
        exact returns_mono _ _ _ (ih m2 l2 a2 (by omega)) (fun a ha => by omega)
    · exact returns_pure _ _ (le_refl _)

theorem parseAttributesOpt_returns (mem : Bytes) (l : Slice) (h : 0 < l.len) :
    Returns (parseAttributesOpt mem l) (fun r => r.2.1.len ≤ l.len) := by
  unfold parseAttributesOpt
  refine returns_bind _ _ _ _ (index_returns mem l 0 h) ?_
  intro c _
  refine returns_bind _ _ (fun r => r.1.len ≤ l.len) _ ?_ ?_
  · split
    · refine returns_bind _ _ _ _ (extractClassOpt_returns mem l) ?_
      intro r hr
      obtain ⟨l2, cls⟩ := r
      exact returns_pure _ _ hr
    · exact returns_pure _ _ (le_refl _)
  · intro r hr
    obtain ⟨l2, a2⟩ := r
    simp only at hr
    refine returns_bind _ _ _ _ (parseStyle_returns mem l2) ?_
    intro r3 hr3
    obtain ⟨l3, style⟩ := r3
    simp only at hr3
    refine returns_bind _ _ _ _ (parseAttributesOptLoop_returns (l3.len + 1) mem l3 a2 (by omega)) ?_
    intro r4 hr4
    obtain ⟨m4, l4, a4⟩ := r4
    simp only at hr4
    simp only
    generalize byteConcat m4 a4.style style = bc
    obtain ⟨m5, st⟩ := bc
    exact returns_pure _ _ (by simp only; omega)

theorem parseSpan_returns (mem : Bytes) (l : Slice) :
    Returns (parseSpan mem l)
      (fun r => ∀ rest inside attrs, r.2 = some (rest, inside, attrs) →
        rest.len < l.len ∧ inside.len < l.len) := by
  unfold parseSpan
  refine returns_bind _ _ _ _ (startsWithByte_returns mem l 37 3 (by decide)) ?_
  intro sw hsw
  split
  · exact returns_pure _ _ (by simp)
  · rename_i h
    have hs := hsw (by simpa using h)
    refine returns_bind _ _ _ _ (sliceFrom_returns l 1 (by omega)) ?_
    intro l1 hl1
    refine returns_bind _ _ _ _ (parseAttributesOpt_returns mem l1 (by omega)) ?_
    intro r hr
    obtain ⟨m2, l2, attrs⟩ := r
    simp only at hr
    refine returns_bind _ _ _ _ (extractUntil_returns m2 l2 37) ?_
    intro r3 hr3
    cases r3 with
    | none => exact returns_pure _ _ (by simp)
    | some v =>
      obtain ⟨rest, inside⟩ := v
      have := hr3 rest inside rfl
      refine returns_pure _ _ ?_
      intro a b c habc
      simp at habc
      obtain ⟨rfl, rfl, _⟩ := habc
      omega

theorem parseStrongWithOptStyle_returns (mem : Bytes) (l : Slice) :
    Returns (parseStrongWithOptStyle mem l)
      (fun r => ∀ rest inside style, r.2 = some (rest, inside, style) →
        rest.len < l.len ∧ inside.len < l.len) := by
  unfold parseStrongWithOptStyle
  refine returns_bind _ _ _ _ (startsWithByte_returns mem l 42 3 (by decide)) ?_
  intro sw hsw
  split
  · exact returns_pure _ _ (by simp)
  · rename_i h
    have hs := hsw (by simpa using h)
    refine returns_bind _ _ _ _ (sliceFrom_returns l 1 (by omega)) ?_
    intro l1 hl1
    refine returns_bind _ _ _ _ (extractStyleOpt_returns mem l1) ?_
    intro r hr
    obtain ⟨m2, l2, st⟩ := r
    simp only at hr
    refine returns_bind _ _ _ _ (extractUntil_returns m2 l2 42) ?_
    intro r3 hr3
    cases r3 with
    | none => exact returns_pure _ _ (by simp)
    | some v =>
      obtain ⟨rest, inside⟩ := v
      have := hr3 rest inside rfl
      refine returns_pure _ _ ?_
      intro a b c habc
      simp at habc
      obtain ⟨rfl, rfl, _⟩ := habc
      omega

theorem parseEmWithOptClass_returns (mem : Bytes) (l : Slice) :
    Returns (parseEmWithOptClass mem l)
      (fun r => ∀ rest inside cls, r = some (rest, inside, cls) →
        rest.len < l.len ∧ inside.len < l.len) := by
  unfold parseEmWithOptClass
  split
  · exact returns_pure _ _ (by simp)
  · refine returns_bind _ _ _ _ (index_returns mem l 0 (by omega)) ?_
    intro c _
    split
    · exact returns_pure _ _ (by simp)
    · refine returns_bind _ _ _ _ (sliceFrom_returns l 1 (by omega)) ?_
      intro l1 hl1
      refine returns_bind _ _ _ _ (extractClassOpt_returns mem l1) ?_
      intro r hr
      obtain ⟨l2, cls⟩ := r
      simp only at hr
      simp only
      cases h : indexByte (l2.bytes mem) 95 with
      | none => exact returns_pure _ _ (by simp)
      | some idx =>
        obtain ⟨h1, _⟩ := indexByte_bytes mem l2 95 idx h
        refine returns_bind _ _ _ _ (sliceFrom_returns l2 (idx + 1) (by omega)) ?_
        intro rest hrest
        refine returns_bind _ _ _ _ (sliceTo_returns l2 idx (by omega)) ?_
        intro inside hinside
        refine returns_pure _ _ ?_
        intro a b c habc
        simp at habc
        obtain ⟨rfl, rfl, _⟩ := habc
        omega

theorem is2Byte_returns (mem : Bytes) (l : Slice) (b : Nat) :
    Returns (is2Byte mem l b)
      (fun r => ∀ rest inside, r = some (rest, inside) →
        rest.len < l.len ∧ inside.len < l.len) := by
  unfold is2Byte
  split
  · exact returns_pure _ _ (by simp)
  · refine returns_bind _ _ _ _ (index_returns mem l 0 (by omega)) ?_
    intro c0 _
    split
    · exact returns_pure _ _ (by simp)
    · refine returns_bind _ _ _ _ (index_returns mem l 1 (by omega)) ?_
      intro c1 _
      split
      · exact returns_pure _ _ (by simp)
      · refine returns_mono _
          (fun r => ∀ v, r = some v → ∃ j, 2 ≤ j ∧ j < 2 + (l.len - 1 - 2) ∧
            (v.1.len < l.len ∧ v.2.len < l.len)) _ ?_ ?_
        · apply forIndex_returns
          intro j hj1 hj2
          refine returns_bind _ _ _ _ (index_returns mem l j (by omega)) ?_
          intro c _
          split
          · refine returns_bind _ _ _ _ (index_returns mem l (j + 1) (by omega)) ?_
            intro c2 _
            split
            · refine returns_bind _ _ _ _ (sliceFrom_returns l (j + 2) (by omega)) ?_
              intro rest hrest
              refine returns_bind _ _ _ _ (slice_returns l 2 j hj1 (by omega)) ?_
              intro inside hinside
              refine returns_pure _ _ ?_
              intro v hv
              simp at hv; subst hv
              simp only; omega
            · exact returns_pure _ _ (by simp)
          · exact returns_pure _ _ (by simp)
        · intro r hr rest inside hri
          obtain ⟨j, _, _, h⟩ := hr _ hri
          exact h

theorem noDotSpace_returns (mem : Bytes) (l : Slice) :
    Returns (noDotSpace mem l) (fun r => r = false → 2 ≤ l.len) := by
  unfold noDotSpace
  split
  · exact returns_pure _ _ (by simp)
  · refine returns_bind _ _ _ _ (index_returns mem l 0 (by omega)) ?_
    intro c0 _
    split
    · exact returns_pure _ _ (by simp)
    · refine returns_bind _ _ _ _ (index_returns mem l 1 (by omega)) ?_
      intro c1 _
      exact returns_pure _ _ (fun _ => by omega)

theorem parseH_returns (mem : Bytes) (l : Slice) :
    Returns (parseH mem l) (fun _ => True) := by
  unfold parseH
  refine returns_bind _ _ _ _ (startsWithByte_returns mem l 104 4 (by decide)) ?_
  intro sw hsw
  split
  · exact returns_pure _ _ trivial
  · rename_i h
    have hs := hsw (by simpa using h)
    refine returns_bind _ _ _ _ (index_returns mem l 1 (by omega)) ?_
    intro c _
    simp only
    split
    · exact returns_pure _ _ trivial
    · refine returns_bind _ _ _ _ (sliceFrom_returns l 2 (by omega)) ?_
      intro l1 hl1
      refine returns_bind _ _ _ _ (parseAttributesOpt_returns mem l1 (by omega)) ?_
      intro r hr
      obtain ⟨m2, l2, attrs⟩ := r
      refine returns_bind _ _ _ _ (noDotSpace_returns m2 l2) ?_
      intro nd hnd
      split
      · exact returns_pure _ _ trivial
      · rename_i hf
        have := hnd (by simpa using hf)
        refine returns_bind _ _ _ _ (sliceFrom_returns l2 2 (by omega)) ?_
        intro rest _
        exact returns_pure _ _ trivial

theorem parseP_returns (mem : Bytes) (l : Slice) :
    Returns (parseP mem l) (fun _ => True) := by
  unfold parseP
  refine returns_bind _ _ _ _ (startsWithByte_returns mem l 112 3 (by decide)) ?_
  intro sw hsw
  split
  · exact returns_pure _ _ trivial
  · rename_i h
    have hs := hsw (by simpa using h)
    refine returns_bind _ _ _ _ (sliceFrom_returns l 1 (by omega)) ?_
    intro l1 hl1
    refine returns_bind _ _ _ _ (parseAttributesOpt_returns mem l1 (by omega)) ?_
    intro r hr
    obtain ⟨m2, l2, attrs⟩ := r
    refine returns_bind _ _ _ _ (noDotSpace_returns m2 l2) ?_
    intro nd hnd
    split
    · exact returns_pure _ _ trivial
    · rename_i hf
      have := hnd (by simpa using hf)
      refine returns_bind _ _ _ _ (sliceFrom_returns l2 2 (by omega)) ?_
      intro rest _
      exact returns_pure _ _ trivial

end Mem

namespace Mem

theorem hasPrefix_length : ∀ (p l : Bytes), hasPrefix l p = true → p.length ≤ l.length := by
  intro p
  induction p with
  | nil => intro l _; simp
  | cons a p ih =>
    intro l h
    cases l with
    | nil => simp [hasPrefix] at h
    | cons x l =>
      simp only [hasPrefix, Bool.and_eq_true] at h
      have := ih l h.2
      simp; omega

theorem bytesIndex_le (sep : Bytes) : ∀ (l : Bytes) (i : Nat), bytesIndex l sep = some i →
    i + sep.length ≤ l.length := by
  intro l
  induction l with
  | nil =>
    intro i h
    simp only [bytesIndex] at h
    split at h
    · rename_i hp
      have := hasPrefix_length _ _ hp
      simp at h; subst h; simpa using this
    · simp at h
  | cons x t ih =>
    intro i h
    simp only [bytesIndex] at h
    split at h
    · rename_i hp
      have := hasPrefix_length _ _ hp
      simp at h; subst h; simpa using this
    · cases h2 : bytesIndex t sep with
      | none => simp [h2] at h
      | some j =>
        simp [h2] at h; subst h
        have := ih j h2
        simp; omega

theorem detectUrl_returns (mem : Bytes) (l : Slice) :
    Returns (detectUrl mem l) (fun _ => True) := by
  unfold detectUrl
  cases h : bytesIndex (l.bytes mem) [58, 47, 47] with
  | none => exact returns_pure _ _ trivial
  | some i =>
    have h1 := bytesIndex_le _ _ _ h
    have h2 := bytes_length_le mem l
    simp only [List.length_cons, List.length_nil] at h1
    refine returns_bind _ _ _ _ (sliceTo_returns l i (by omega)) ?_
    intro s _
    split
    · exact returns_pure _ _ trivial
    · refine returns_bind _ _ (fun _ => True) _ ?_ ?_
      · refine returns_mono _ _ _ (forIndex_returns _ (fun _ _ => True) _ _ ?_) (fun _ _ => trivial)
        intro j hj1 hj2
        refine returns_bind _ _ _ _ (index_returns mem l j (by omega)) ?_
        intro c _
        split
        · refine returns_bind _ _ _ _ (sliceTo_returns l j (by omega)) ?_
          intro url _
          refine returns_bind _ _ _ _ (sliceFrom_returns l j (by omega)) ?_
          intro rest _
          exact returns_pure _ _ (by simp)
        · exact returns_pure _ _ (by simp)
      · intro r _
        cases r with
        | some v => exact returns_pure _ _ trivial
        | none =>
          refine returns_bind _ _ _ _ (slice_returns l 0 0 (le_refl _) (Nat.zero_le _)) ?_
          intro rest _
          exact returns_pure _ _ trivial

theorem isUrlRef_returns (mem : Bytes) (l : Slice) :
    Returns (isUrlRef mem l) (fun _ => True) := by
  unfold isUrlRef
  split
  · exact returns_pure _ _ trivial
  · refine returns_bind _ _ _ _ (index_returns mem l 0 (by omega)) ?_
    intro c _
    split
    · exact returns_pure _ _ trivial
    · refine returns_bind _ _ _ _ (sliceFrom_returns l 1 (by omega)) ?_
      intro l1 hl1
      cases h : indexByte (l1.bytes mem) 93 with
      | none => exact returns_pure _ _ trivial
      | some endIdx =>
        obtain ⟨h1, _⟩ := indexByte_bytes mem l1 93 endIdx h
        refine returns_bind _ _ _ _ (sliceTo_returns l1 endIdx (by omega)) ?_
        intro name _
        refine returns_bind _ _ _ _ (sliceFrom_returns l1 (endIdx + 1) (by omega)) ?_
        intro l2 _
        refine returns_bind _ _ _ _ (detectUrl_returns mem l2) ?_
        intro r _
        cases r with
        | none => exact returns_pure _ _ trivial
        | some v =>
          obtain ⟨url, rest⟩ := v
          simp only
          split
          · exact returns_pure _ _ trivial
          · exact returns_pure _ _ trivial

theorem parseUrlOrRefName_returns (mem : Bytes) (l : Slice) :
    Returns (parseUrlOrRefName mem l)
      (fun r => ∀ rest title u, r = some (rest, title, u) → rest.len < l.len) := by
  unfold parseUrlOrRefName
  split
  · exact returns_pure _ _ (by simp)
  · refine returns_bind _ _ _ _ (extractInside_returns mem l 34 34) ?_
    intro r hr
    cases r with
    | none => exact returns_pure _ _ (by simp)
    | some v =>
      obtain ⟨l1, title⟩ := v
      have h1 := hr l1 title rfl
      simp only
      refine returns_bind _ _ _ _ (startsWithByte_returns mem l1 58 1 (by decide)) ?_
      intro sw hsw
      split
      · exact returns_pure _ _ (by simp)
      · rename_i h
        have hs := hsw (by simpa using h)
        refine returns_bind _ _ _ _ (sliceFrom_returns l1 1 (by omega)) ?_
        intro l2 hl2
        refine returns_bind _ _ _ _ (extractUrlOrRefName_returns mem l2) ?_
        intro r3 hr3
        obtain ⟨rest, u⟩ := r3
        simp only at hr3
        refine returns_pure _ _ ?_
        intro a b c habc
        simp at habc
        obtain ⟨rfl, _, _⟩ := habc
        omega

theorem startsWith_returns (mem : Bytes) (l : Slice) (pre : Bytes) :
    Returns (startsWith mem l pre) (fun _ => True) := by
  unfold startsWith
  split
  · rename_i h
    have h1 := hasPrefix_length _ _ h
    have h2 := bytes_length_le mem l
    refine returns_bind _ _ _ _ (sliceFrom_returns l pre.length (by omega)) ?_
    intro rest _
    exact returns_pure _ _ trivial
  · exact returns_pure _ _ trivial

theorem parseList_returns (m : Nat) (mem : Bytes) (l : Slice) :
    Returns (parseList m mem l) (fun _ => True) := by
  unfold parseList
  refine returns_bind _ _ (fun _ => True) _ ?_ ?_
  · refine returns_mono _ _ _ (forIndex_returns _ (fun _ _ => True) _ _ ?_) (fun _ _ => trivial)
    intro j _ hj
    refine returns_bind _ _ _ _ (index_returns mem l j (by omega)) ?_
    intro c _
    split
    · split
      · refine returns_bind _ _ _ _ (sliceFrom_returns l (j + 1) (by omega)) ?_
        intro rest _
        exact returns_pure _ _ (by simp)
      · exact returns_pure _ _ (by simp)
    · exact returns_pure _ _ (by simp)
  · intro r _
    cases r with
    | some v => exact returns_pure _ _ trivial
    | none => exact returns_pure _ _ trivial

/-! ### The parser state -/

theorem lastBlockTagIs_returns (p : Textiler.TextileParser) (tag : Bytes) :
    Returns (lastBlockTagIs p tag) (fun r => r = true → 1 ≤ p.blockTags.length) := by
  unfold lastBlockTagIs
  split
  · exact returns_pure _ _ (by simp)
  · rename_i h
    have h1 : p.blockTags.length - 1 < p.blockTags.length := by omega
    rw [List.getElem?_eq_getElem h1]
    exact returns_pure _ _ (fun _ => by omega)

theorem popBlockTag_returns (p : Textiler.TextileParser) (tag : Bytes) :
    Returns (popBlockTag p tag) (fun _ => True) := by
  unfold popBlockTag
  split
  · exact returns_pure _ _ trivial
  · refine returns_bind _ _ _ _ (lastBlockTagIs_returns p tag) ?_
    intro r hr
    split
    · rename_i h
      have := hr h
      split
      · omega
      · exact returns_pure _ _ trivial
    · exact returns_pure _ _ trivial

theorem serEscapedInContext_returns (p : Textiler.TextileParser) (l : Bytes) :
    Returns (serEscapedInContext p l) (fun _ => True) := by
  unfold serEscapedInContext inHtmlCode inHtmlPre
  refine returns_bind _ _ _ _ (lastBlockTagIs_returns p _) ?_
  intro r _
  split
  · exact returns_pure _ _ trivial
  · refine returns_bind _ _ _ _ (lastBlockTagIs_returns p _) ?_
    intro r2 _
    split
    · exact returns_pure _ _ trivial
    · exact returns_pure _ _ trivial

theorem serClassOrIdOpt_returns (mem : Bytes) (s : Option Slice) :
    Returns (serClassOrIdOpt mem s) (fun _ => True) := by
  unfold serClassOrIdOpt
  cases s with
  | none => exact returns_pure _ _ trivial
  | some s =>
    simp only
    split
    · exact returns_pure _ _ trivial
    · cases h : indexByte (s.bytes mem) 35 with
      | none => exact returns_pure _ _ trivial
      | some idx =>
        obtain ⟨h1, _⟩ := indexByte_bytes mem s 35 idx h
        simp only
        split
        · refine returns_bind _ _ _ _ (sliceFrom_returns s 1 (by omega)) ?_
          intro id _
          exact returns_pure _ _ trivial
        · refine returns_bind _ _ _ _ (sliceTo_returns s idx (by omega)) ?_
          intro cls _
          refine returns_bind _ _ _ _ (sliceFrom_returns s (idx + 1) (by omega)) ?_
          intro id _
          exact returns_pure _ _ trivial

theorem prettyPrintStyle_returns (mem : Bytes) (s : Data) :
    Returns (prettyPrintStyle mem s) (fun _ => True) := by
  unfold prettyPrintStyle
  refine returns_bind _ _ _ _ (endsWithByte_returns mem _ 59) ?_
  intro e _
  split
  · exact returns_pure _ _ trivial
  · exact returns_pure _ _ trivial

theorem serStyleOpt_returns (mem : Bytes) (s : Option Data) :
    Returns (serStyleOpt mem s) (fun _ => True) := by
  unfold serStyleOpt
  cases s with
  | none => exact returns_pure _ _ trivial
  | some s =>
    simp only
    split
    · exact returns_pure _ _ trivial
    · refine returns_bind _ _ _ _ (prettyPrintStyle_returns mem s) ?_
      intro r _
      exact returns_pure _ _ trivial

theorem serAttributesOpt_returns (mem : Bytes) (attrs : Option AttributesOpt) :
    Returns (serAttributesOpt mem attrs) (fun _ => True) := by
  unfold serAttributesOpt
  cases attrs with
  | none => exact returns_pure _ _ trivial
  | some attrs =>
    refine returns_bind _ _ _ _ (serClassOrIdOpt_returns mem _) ?_
    intro s1 _
    refine returns_bind _ _ _ _ (serStyleOpt_returns mem _) ?_
    intro s2 _
    exact returns_pure _ _ trivial

theorem serP_returns (p : TextileParser) (s : Slice) (attrs : Option AttributesOpt) :
    Returns (serP p s attrs) (fun _ => True) := by
  unfold serP
  refine returns_bind _ _ _ _ (serAttributesOpt_returns p.mem attrs) ?_
  intro a _
  exact returns_pure _ _ trivial

theorem serBlockQuote_returns (p : TextileParser) (s : Slice) :
    Returns (serBlockQuote p s) (fun _ => True) := by
  unfold serBlockQuote
  refine returns_bind _ _ _ _ (serP_returns _ s none) ?_
  intro a _
  exact returns_pure _ _ trivial

theorem serH_returns (p : TextileParser) (rest : Slice) (n : Int)
    (attrs : Option AttributesOpt) : Returns (serH p rest n attrs) (fun _ => True) := by
  unfold serH
  refine returns_bind _ _ _ _ (serAttributesOpt_returns p.mem attrs) ?_
  intro a _
  exact returns_pure _ _ trivial

end Mem

namespace Mem

/-! ### The inline scanner -/

theorem serHtmlRaw_returns (rec : TextileParser → Slice → Except Stop TextileParser) (n : Nat)
    (hrec : ∀ p s, s.len < n → Returns (rec p s) (fun _ => True))
    (p : TextileParser) (before : Option Slice) (htmlRaw rest : Slice) (h : rest.len < n) :
    Returns (serHtmlRaw rec p before htmlRaw rest) (fun _ => True) := by
  unfold serHtmlRaw
  exact hrec _ _ h

theorem serTag_returns (rec : TextileParser → Slice → Except Stop TextileParser) (n : Nat)
    (hrec : ∀ p s, s.len < n → Returns (rec p s) (fun _ => True))
    (p : TextileParser) (tag : Bytes) (before inside rest : Slice)
    (h1 : inside.len < n) (h2 : rest.len < n) :
    Returns (serTag rec p tag before inside rest) (fun _ => True) := by
  unfold serTag
  refine returns_bind _ _ _ _ (hrec _ _ h1) ?_
  intro q _
  exact hrec _ _ h2

theorem serTagWithOptClass_returns (rec : TextileParser → Slice → Except Stop TextileParser)
    (n : Nat) (hrec : ∀ p s, s.len < n → Returns (rec p s) (fun _ => True))
    (p : TextileParser) (tag : Bytes) (before inside : Slice) (cls : Option Slice) (rest : Slice)
    (h1 : inside.len < n) (h2 : rest.len < n) :
    Returns (serTagWithOptClass rec p tag before inside cls rest) (fun _ => True) := by
  unfold serTagWithOptClass
  refine returns_bind _ _ _ _ (hrec _ _ h1) ?_
  intro q _
  exact hrec _ _ h2

theorem serTagWithOptStyle_returns (rec : TextileParser → Slice → Except Stop TextileParser)
    (n : Nat) (hrec : ∀ p s, s.len < n → Returns (rec p s) (fun _ => True))
    (p : TextileParser) (tag : Bytes) (before inside : Slice) (style : Option Data) (rest : Slice)
    (h1 : inside.len < n) (h2 : rest.len < n) :
    Returns (serTagWithOptStyle rec p tag before inside style rest) (fun _ => True) := by
  unfold serTagWithOptStyle
  refine returns_bind _ _ _ _ (hrec _ _ h1) ?_
  intro q _
  exact hrec _ _ h2

theorem serSpan_returns (rec : TextileParser → Slice → Except Stop TextileParser)
    (n : Nat) (hrec : ∀ p s, s.len < n → Returns (rec p s) (fun _ => True))
    (p : TextileParser) (before inside : Slice) (attrs : Option AttributesOpt) (rest : Slice)
    (h1 : inside.len < n) (h2 : rest.len < n) :
    Returns (serSpan rec p before inside attrs rest) (fun _ => True) := by
  unfold serSpan
  refine returns_bind _ _ _ _ (serAttributesOpt_returns p.mem attrs) ?_
  intro a _
  refine returns_bind _ _ _ _ (hrec _ _ h1) ?_
  intro q _
  exact hrec _ _ h2

theorem serUrl_returns (rec : TextileParser → Slice → Except Stop TextileParser)
    (n : Nat) (hrec : ∀ p s, s.len < n → Returns (rec p s) (fun _ => True))
    (p : TextileParser) (before title url rest : Slice) (h : rest.len < n) :
    Returns (serUrl rec p before title url rest) (fun _ => True) := by
  unfold serUrl
  exact hrec _ _ h

theorem serCode_returns (rec : TextileParser → Slice → Except Stop TextileParser)
    (n : Nat) (hrec : ∀ p s, s.len < n → Returns (rec p s) (fun _ => True))
    (p : TextileParser) (before inside rest : Slice) (h : rest.len < n) :
    Returns (serCode rec p before inside rest) (fun _ => True) := by
  unfold serCode
  exact hrec _ _ h

theorem serImg_returns (rec : TextileParser → Slice → Except Stop TextileParser)
    (n : Nat) (hrec : ∀ p s, s.len < n → Returns (rec p s) (fun _ => True))
    (p : TextileParser) (before imgSrc alt : Slice) (style : Nat) (url : Option Slice)
    (rest : Slice) (h : rest.len < n) :
    Returns (serImg rec p before imgSrc alt style url rest) (fun _ => True) := by
  unfold serImg
  exact hrec _ _ h

theorem extractInside_shorter (mem : Bytes) (l : Slice) (a b : Nat) :
    Returns (extractInside mem l a b)
      (fun r => ∀ rest inside, r = some (rest, inside) →
        rest.len < l.len ∧ inside.len < l.len) :=
  returns_mono _ _ _ (extractInside_returns mem l a b)
    (fun _ h rest inside hr => by have := h rest inside hr; omega)

theorem parseInlineTag_returns (rec : TextileParser → Slice → Except Stop TextileParser)
    (p : TextileParser) (l : Slice) (i : Nat) (tag : Bytes)
    (sub : Bytes → Slice → Except Stop (Option (Slice × Slice)))
    (hrec : ∀ p s, s.len < l.len → Returns (rec p s) (fun _ => True))
    (hsub : ∀ mem s, Returns (sub mem s)
      (fun r => ∀ rest inside, r = some (rest, inside) →
        rest.len < s.len ∧ inside.len < s.len))
    (hi : i < l.len) :
    Returns (parseInlineTag rec p l i tag sub) (fun _ => True) := by
  unfold parseInlineTag
  refine returns_bind _ _ _ _ (sliceFrom_returns l i (by omega)) ?_
  intro li hli
  refine returns_bind _ _ _ _ (hsub p.mem li) ?_
  intro r hr
  cases r with
  | none => exact returns_pure _ _ trivial
  | some v =>
    obtain ⟨rest, inside⟩ := v
    have := hr rest inside rfl
    refine returns_bind _ _ _ _ (sliceTo_returns l i (by omega)) ?_
    intro before _
    refine returns_bind _ _ _ _
      (serTag_returns rec l.len hrec p tag before inside rest (by omega) (by omega)) ?_
    intro q _
    exact returns_pure _ _ trivial

theorem parseInlineCase_returns (tags : List Bytes)
    (rec : TextileParser → Slice → Except Stop TextileParser)
    (p : TextileParser) (l : Slice) (i : Nat)
    (hrec : ∀ p s, s.len < l.len → Returns (rec p s) (fun _ => True))
    (hi : i < l.len) :
    Returns (parseInlineCase tags rec p l i) (fun _ => True) := by
  have htag : ∀ (tag : Bytes) (sub : Bytes → Slice → Except Stop (Option (Slice × Slice))),
      (∀ mem s, Returns (sub mem s)
        (fun r => ∀ rest inside, r = some (rest, inside) →
          rest.len < s.len ∧ inside.len < s.len)) →
      Returns (do
        match ← parseInlineTag rec p l i tag sub with
        | some p => pure (Sum.inr p)
        | none => pure (Sum.inl p) : Except Stop (TextileParser ⊕ TextileParser))
        (fun _ => True) := by
    intro tag sub hsub
    refine returns_bind _ _ _ _ (parseInlineTag_returns rec p l i tag sub hrec hsub hi) ?_
    intro r _
    cases r with
    | some q => exact returns_pure _ _ trivial
    | none => exact returns_pure _ _ trivial
  unfold parseInlineCase
  refine returns_bind _ _ _ _ (index_returns p.mem l i hi) ?_
  intro b _
  by_cases h95 : b = 95
  · rw [if_pos h95]
    refine returns_bind _ _ _ _
      (parseInlineTag_returns rec p l i _ parseItalic hrec (fun m s => is2Byte_returns m s 95) hi) ?_
    intro r _
    cases r with
    | some q => exact returns_pure _ _ trivial
    | none =>
      refine returns_bind _ _ _ _ (sliceFrom_returns l i (by omega)) ?_
      intro li hli
      refine returns_bind _ _ _ _ (parseEmWithOptClass_returns p.mem li) ?_
      intro r2 hr2
      cases r2 with
      | none => exact returns_pure _ _ trivial
      | some v =>
        obtain ⟨rest, inside, cls⟩ := v
        have := hr2 rest inside cls rfl
        refine returns_bind _ _ _ _ (sliceTo_returns l i (by omega)) ?_
        intro before _
        refine returns_bind _ _ _ _
          (serTagWithOptClass_returns rec l.len hrec p _ before inside cls rest
            (by omega) (by omega)) ?_
        intro q _
        exact returns_pure _ _ trivial
  rw [if_neg h95]
  by_cases h42 : b = 42
  · rw [if_pos h42]
    refine returns_bind _ _ _ _
      (parseInlineTag_returns rec p l i _ parseBold hrec (fun m s => is2Byte_returns m s 42) hi) ?_
    intro r _
    cases r with
    | some q => exact returns_pure _ _ trivial
    | none =>
      refine returns_bind _ _ _ _ (sliceFrom_returns l i (by omega)) ?_
      intro li hli
      refine returns_bind _ _ _ _ (parseStrongWithOptStyle_returns p.mem li) ?_
      intro r2 hr2
      obtain ⟨m2, r2⟩ := r2
      cases r2 with
      | none => exact returns_pure _ _ trivial
      | some v =>
        obtain ⟨rest, inside, style⟩ := v
        have := hr2 rest inside style rfl
        refine returns_bind _ _ _ _ (sliceTo_returns l i (by omega)) ?_
        intro before _
        refine returns_bind _ _ _ _
          (serTagWithOptStyle_returns rec l.len hrec _ _ before inside style rest
            (by omega) (by omega)) ?_
        intro q _
        exact returns_pure _ _ trivial
  rw [if_neg h42]
  by_cases h34 : b = 34
  · rw [if_pos h34]
    refine returns_bind _ _ _ _ (sliceFrom_returns l i (by omega)) ?_
    intro li hli
    refine returns_bind _ _ _ _ (parseUrlOrRefName_returns p.mem li) ?_
    intro r2 hr2
    cases r2 with
    | none => exact returns_pure _ _ trivial
    | some v =>
      obtain ⟨rest, title, u⟩ := v
      have := hr2 rest title u rfl
      refine returns_bind _ _ _ _ (sliceTo_returns l i (by omega)) ?_
      intro before _
      refine returns_bind _ _ _ _
        (serUrl_returns rec l.len hrec p before title _ rest (by omega)) ?_
      intro q _
      exact returns_pure _ _ trivial
  rw [if_neg h34]
  by_cases h33 : b = 33
  · rw [if_pos h33]
    refine returns_bind _ _ _ _ (sliceFrom_returns l i (by omega)) ?_
    intro li hli
    refine returns_bind _ _ _ _ (parseImg_returns p.mem li) ?_
    intro r2 hr2
    cases r2 with
    | none => exact returns_pure _ _ trivial
    | some v =>
      obtain ⟨rest, url, imgSrc, alt, style⟩ := v
      have := hr2 rest url imgSrc alt style rfl
      refine returns_bind _ _ _ _ (sliceTo_returns l i (by omega)) ?_
      intro before _
      refine returns_bind _ _ _ _
        (serImg_returns rec l.len hrec p before imgSrc alt style url rest (by omega)) ?_
      intro q _
      exact returns_pure _ _ trivial
  rw [if_neg h33]
  by_cases h64 : b = 64
  · rw [if_pos h64]
    refine returns_bind _ _ _ _ (sliceFrom_returns l i (by omega)) ?_
    intro li hli
    refine returns_bind _ _ _ _ (extractInside_shorter p.mem li 64 64) ?_
    intro r2 hr2
    cases r2 with
    | none => exact returns_pure _ _ trivial
    | some v =>
      obtain ⟨rest, inside⟩ := v
      have := hr2 rest inside rfl
      refine returns_bind _ _ _ _ (sliceTo_returns l i (by omega)) ?_
      intro before _
      refine returns_bind _ _ _ _
        (serCode_returns rec l.len hrec p before inside rest (by omega)) ?_
      intro q _
      exact returns_pure _ _ trivial
  rw [if_neg h64]
  by_cases h37 : b = 37
  · rw [if_pos h37]
    refine returns_bind _ _ _ _ (sliceFrom_returns l i (by omega)) ?_
    intro li hli
    refine returns_bind _ _ _ _ (parseSpan_returns p.mem li) ?_
    intro r2 hr2
    obtain ⟨m2, r2⟩ := r2
    cases r2 with
    | none => exact returns_pure _ _ trivial
    | some v =>
      obtain ⟨rest, inside, attrs⟩ := v
      have := hr2 rest inside attrs rfl
      refine returns_bind _ _ _ _ (sliceTo_returns l i (by omega)) ?_
      intro before _
      refine returns_bind _ _ _ _
        (serSpan_returns rec l.len hrec _ before inside _ rest (by omega) (by omega)) ?_
      intro q _
      exact returns_pure _ _ trivial
  rw [if_neg h37]
  by_cases h60 : b = 60
  · rw [if_pos h60]
    refine returns_bind _ _ _ _ (sliceFrom_returns l i (by omega)) ?_
    intro li hli
    refine returns_bind _ _ _ _ (parseHtml_returns tags p.mem li) ?_
    intro r2 hr2
    cases r2 with
    | none => exact returns_pure _ _ trivial
    | some v =>
      obtain ⟨rest, html, tag, start⟩ := v
      have := hr2 rest html tag start rfl
      refine returns_bind _ _ _ _ (sliceTo_returns l i (by omega)) ?_
      intro before hb
      refine returns_bind _ _ _ _ (hrec p before (by omega)) ?_
      intro q _
      refine returns_bind _ _ _ _ (serEscapedInContext_returns _ _) ?_
      intro c _
      refine returns_bind _ _ _ _ (hrec _ rest (by omega)) ?_
      intro q2 _
      exact returns_pure _ _ trivial
  rw [if_neg h60]
  by_cases h63 : b = 63
  · rw [if_pos h63]
    exact htag _ parseCite (fun m s => is2Byte_returns m s 63)
  rw [if_neg h63]
  by_cases h45 : b = 45
  · rw [if_pos h45]
    exact htag _ parseDel (fun m s => extractInside_shorter m s 45 45)
  rw [if_neg h45]
  by_cases h43 : b = 43
  · rw [if_pos h43]
    exact htag _ parseIns (fun m s => extractInside_shorter m s 43 43)
  rw [if_neg h43]
  by_cases h94 : b = 94
  · rw [if_pos h94]
    exact htag _ parseSup (fun m s => extractInside_shorter m s 94 94)
  rw [if_neg h94]
  by_cases h126 : b = 126
  · rw [if_pos h126]
    exact htag _ parseSub (fun m s => extractInside_shorter m s 126 126)
  rw [if_neg h126]
  exact returns_pure _ _ trivial

theorem parseInlineLoop_returns (tags : List Bytes)
    (rec : TextileParser → Slice → Except Stop TextileParser) (l : Slice)
    (hrec : ∀ p s, s.len < l.len → Returns (rec p s) (fun _ => True)) :
    ∀ (k : Nat) (p : TextileParser) (i : Nat), i + k ≤ l.len →
      Returns (parseInlineLoop tags rec l p i k) (fun _ => True) := by
  intro k
  induction k with
  | zero => intro p i _; exact returns_pure _ _ trivial
  | succ k ih =>
    intro p i h
    obtain ⟨r, hr, _⟩ := parseInlineCase_returns tags rec p l i hrec (by omega)
    simp only [parseInlineLoop, hr]
    cases r with
    | inr q => exact returns_pure _ _ trivial
    | inl q => exact ih q (i + 1) (by omega)

theorem parseInlineFuel_returns (tags : List Bytes) : ∀ (fuel : Nat) (p : TextileParser)
    (l : Slice), l.len < fuel → Returns (parseInlineFuel tags fuel p l) (fun _ => True) := by
  intro fuel
  induction fuel with
  | zero => intro p l h; omega
  | succ fuel ih =>
    intro p l h
    simp only [parseInlineFuel]
    exact parseInlineLoop_returns tags _ l (fun q s hs => ih q s (by omega)) l.len p 0 (by omega)

theorem parseInline_returns (tags : List Bytes) (p : TextileParser) (l : Slice) :
    Returns (parseInline tags p l) (fun _ => True) :=
  parseInlineFuel_returns tags (l.len + 1) p l (by omega)

end Mem

/-- The memory-level model on a span with an alignment and a style, where `byteConcat`
appends: with no room after the input the style text goes to a new array and the span is
written. -/
theorem ToHtml_span_no_room :
    Mem.ToHtml [] (ascii "%=\x7ba\x7dxyz%tail") [] false false =
      .ok (ascii "\t<p><span style=\"a; text-align:center;\">xyz</span>tail</p>") := by
  decide

/-- The same input in a backing array with room for the style text: the text is written
over `xyz%tail`, the closing `%` is gone and the line comes out as plain text. -/
theorem ToHtml_span_room :
    Mem.ToHtml [] (ascii "%=\x7ba\x7dxyz%tail") (List.replicate 40 0) false false =
      .ok (ascii "\t<p>%=\x7ba;text-ali</p>") := by
  decide

namespace Mem

/-! ### Blocks -/

theorem closeOlLoop_returns : ∀ (fuel : Nat) (p : Textiler.TextileParser),
    p.olLevel.toNat < fuel → Returns (closeOlLoop fuel p) (fun _ => True) := by
  intro fuel
  induction fuel with
  | zero => intro p h; omega
  | succ fuel ih =>
    intro p h
    unfold closeOlLoop
    split
    · rename_i hpos
      refine ih _ ?_
      simp only [write]
      omega
    · exact ⟨_, rfl, trivial⟩

theorem closeUlLoop_returns : ∀ (fuel : Nat) (p : Textiler.TextileParser),
    p.ulLevel.toNat < fuel → Returns (closeUlLoop fuel p) (fun _ => True) := by
  intro fuel
  induction fuel with
  | zero => intro p h; omega
  | succ fuel ih =>
    intro p h
    unfold closeUlLoop
    split
    · rename_i hpos
      refine ih _ ?_
      simp only [write]
      omega
    · exact ⟨_, rfl, trivial⟩

theorem closeOlIfNecessary_returns (p : Textiler.TextileParser) :
    Returns (closeOlIfNecessary p) (fun _ => True) :=
  closeOlLoop_returns _ p (by omega)

theorem closeUlIfNecessary_returns (p : Textiler.TextileParser) :
    Returns (closeUlIfNecessary p) (fun _ => True) :=
  closeUlLoop_returns _ p (by omega)

theorem openListLoop_returns (s : Bytes) : ∀ (fuel : Nat) (n : Int) (p : Textiler.TextileParser),
    n.toNat < fuel → Returns (openListLoop s fuel n p) (fun _ => True) := by
  intro fuel
  induction fuel with
  | zero => intro n p h; omega
  | succ fuel ih =>
    intro n p h
    unfold openListLoop
    split
    · exact ih _ _ (by omega)
    · exact ⟨_, rfl, trivial⟩

theorem openList_returns (s : Bytes) (n : Int) (c : Textiler.TextileParser) (g : Prop)
    [Decidable g] :
    Returns (if g then openListLoop s (n.toNat + 1) n c else pure c) (fun _ => True) := by
  split
  · exact openListLoop_returns _ _ _ _ (by omega)
  · exact returns_pure _ (fun _ => True) trivial

theorem serOlStart_returns (c : Textiler.TextileParser) (level : Int) :
    Returns (serOlStart c level) (fun _ => True) := by
  unfold serOlStart
  refine returns_bind _ _ (fun _ => True) _ (openList_returns _ _ _ _) ?_
  intro r _
  exact returns_pure _ (fun _ => True) trivial

theorem serUlStart_returns (c : Textiler.TextileParser) (level : Int) :
    Returns (serUlStart c level) (fun _ => True) := by
  unfold serUlStart
  refine returns_bind _ _ (fun _ => True) _ (openList_returns _ _ _ _) ?_
  intro r _
  exact returns_pure _ (fun _ => True) trivial

theorem serOl_returns (tags : List Bytes) (p : TextileParser) (l : Slice) (level : Int) :
    Returns (serOl tags p l level) (fun _ => True) := by
  unfold serOl
  refine returns_bind _ _ _ _ (serOlStart_returns p.core level) ?_
  intro c _
  exact parseInline_returns tags _ l

theorem serUl_returns (tags : List Bytes) (p : TextileParser) (l : Slice) (level : Int) :
    Returns (serUl tags p l level) (fun _ => True) := by
  unfold serUl
  refine returns_bind _ _ _ _ (serUlStart_returns p.core level) ?_
  intro c _
  exact parseInline_returns tags _ l

theorem parseBlockDefault_returns (tags : List Bytes) (p : TextileParser) (l : Slice) :
    Returns (parseBlockDefault tags p l) (fun _ => True) := by
  unfold parseBlockDefault
  refine returns_bind _ _ _ _ (closeOlIfNecessary_returns p.core) ?_
  intro c _
  refine returns_bind _ _ _ _ (closeUlIfNecessary_returns c) ?_
  intro c2 _
  unfold inHtmlCode
  refine returns_bind _ _ _ _ (lastBlockTagIs_returns c2 _) ?_
  intro r _
  split
  · exact returns_pure _ _ trivial
  · exact parseInline_returns tags _ l

theorem parseBlock_returns (tags : List Bytes) (p : TextileParser) (l : Slice) :
    Returns (parseBlock tags p l) (fun _ => True) := by
  unfold parseBlock
  by_cases h0 : l.len = 0
  · rw [if_pos h0]
    exact returns_pure _ _ trivial
  rw [if_neg h0]
  refine returns_bind _ _ _ _ (index_returns _ l 0 (by omega)) ?_
  intro b _
  by_cases h104 : b = 104
  · rw [if_pos h104]
    refine returns_bind _ _ _ _ (parseH_returns _ l) ?_
    intro r _
    obtain ⟨mem, rest, n, attrs⟩ := r
    simp only
    split
    · exact serH_returns _ rest n attrs
    · exact parseBlockDefault_returns tags _ l
  rw [if_neg h104]
  by_cases h60 : b = 60
  · rw [if_pos h60]
    refine returns_bind _ _ _ _ (parseHtml_returns tags _ l) ?_
    intro r hr
    cases r with
    | none => exact parseBlockDefault_returns tags _ l
    | some v =>
      obtain ⟨rest, html, tag, startTag⟩ := v
      have := hr rest html tag startTag rfl
      refine returns_bind _ _ _ _
        (serHtmlRaw_returns (parseInline tags) l.len
          (fun q s _ => parseInline_returns tags q s) _ none html rest this) ?_
      intro q _
      split
      · refine returns_bind _ _ _ _ (popBlockTag_returns _ _) ?_
        intro r2 _
        obtain ⟨c, popped⟩ := r2
        exact returns_pure _ _ trivial
      · exact returns_pure _ _ trivial
  rw [if_neg h60]
  by_cases h110 : b = 110
  · rw [if_pos h110]
    refine returns_bind _ _ _ _ (startsWith_returns _ l _) ?_
    intro r _
    cases r with
    | none => exact parseBlockDefault_returns tags _ l
    | some rest => exact returns_pure _ _ trivial
  rw [if_neg h110]
  by_cases h112 : b = 112
  · rw [if_pos h112]
    refine returns_bind _ _ _ _ (parseP_returns _ l) ?_
    intro r _
    obtain ⟨mem, r⟩ := r
    cases r with
    | none => exact parseBlockDefault_returns tags _ l
    | some v =>
      obtain ⟨rest, attrs⟩ := v
      exact serP_returns _ rest _
  rw [if_neg h112]
  by_cases h98 : b = 98
  · rw [if_pos h98]
    refine returns_bind _ _ _ _ (startsWith_returns _ l _) ?_
    intro r _
    cases r with
    | none => exact parseBlockDefault_returns tags _ l
    | some rest => exact serBlockQuote_returns _ rest
  rw [if_neg h98]
  by_cases h35 : b = 35
  · rw [if_pos h35]
    refine returns_bind _ _ _ _ (parseList_returns 35 _ l) ?_
    intro r _
    cases r with
    | none => exact parseBlockDefault_returns tags _ l
    | some v =>
      obtain ⟨rest, level⟩ := v
      exact serOl_returns tags _ rest _
  rw [if_neg h35]
  by_cases h42 : b = 42
  · rw [if_pos h42]
    refine returns_bind _ _ _ _ (parseList_returns 42 _ l) ?_
    intro r _
    cases r with
    | none => exact parseBlockDefault_returns tags _ l
    | some v =>
      obtain ⟨rest, level⟩ := v
      exact serUl_returns tags _ rest _
  rw [if_neg h42]
  exact parseBlockDefault_returns tags _ l

theorem parseBlocks_returns (tags : List Bytes) : ∀ (lines : List Slice) (p : TextileParser),
    Returns (parseBlocks tags p lines) (fun _ => True) := by
  intro lines
  induction lines with
  | nil => intro p; exact returns_pure _ _ trivial
  | cons l ls ih =>
    intro p
    obtain ⟨q, hq, _⟩ := parseBlock_returns tags p l
    simp only [parseBlocks, hq]
    exact ih q

theorem parseRef_returns (p : TextileParser) (line : Slice) :
    Returns (parseRef p line) (fun _ => True) := by
  unfold parseRef
  refine returns_bind _ _ _ _ (isUrlRef_returns p.mem line) ?_
  intro r _
  cases r with
  | none => exact returns_pure _ _ trivial
  | some v =>
    obtain ⟨name, url⟩ := v
    exact returns_pure _ _ trivial

theorem firstPassLoop_returns : ∀ (lines : List Slice) (p : TextileParser) (res : List Slice),
    Returns (firstPassLoop p res lines) (fun _ => True) := by
  intro lines
  induction lines with
  | nil => intro p res; exact returns_pure _ _ trivial
  | cons l ls ih =>
    intro p res
    obtain ⟨r, hr, _⟩ := parseRef_returns p l
    obtain ⟨q, isRef⟩ := r
    simp only [firstPassLoop, hr]
    cases isRef with
    | true => exact ih q res
    | false =>
      simp only
      split
      · exact ih q _
      · split
        · rename_i hres
          have h1 : res.length - 1 < res.length := by omega
          rw [List.getElem?_eq_getElem h1]
          simp only
          split
          · exact ih q _
          · exact ih q _
        · exact ih q _

theorem toHtml_returns (tags : List Bytes) (p : TextileParser) (d : Slice) :
    Returns (toHtml tags p d) (fun _ => True) := by
  unfold toHtml
  obtain ⟨lines, hl⟩ := splitIntoLines_returns p.mem d
  refine returns_bind _ _ (fun _ => True) _ ⟨lines, hl, trivial⟩ ?_
  intro lines _
  refine returns_bind _ _ _ _ (firstPassLoop_returns lines p []) ?_
  intro r _
  obtain ⟨q, kept⟩ := r
  refine returns_bind _ _ _ _ (parseBlocks_returns tags kept q) ?_
  intro q2 _
  refine returns_bind _ _ _ _ (closeOlIfNecessary_returns q2.core) ?_
  intro c _
  refine returns_bind _ _ _ _ (closeUlIfNecessary_returns c) ?_
  intro c2 _
  exact returns_pure _ _ trivial

/-- The unguarded read `l[0]` of `parseAttributesOpt` is out of range on an empty slice:
the function relies on its callers. -/
theorem parseAttributesOpt_empty (mem : Bytes) (off : Nat) :
    parseAttributesOpt mem { off := off, len := 0 } = .error .outOfRange := by
  simp [parseAttributesOpt, Slice.index, bind, Except.bind]

end Mem

/-- C20. For every input `d`, whatever follows it in its backing array (`spare`: the
bytes between the length and the capacity of `d`), and whatever the table of tags and the
two flags, `ToHtml` and `ToXhtml` run to completion and return bytes: no index or slice
expression of the run is out of range, and no loop runs out of the turns it is given.
Every index and slice expression of the source is a checked operation of the model,
among them `l[0]` in `parseAttributesOpt`, `l[1]` in `parseH`, `extractClassOpt`,
`extractStyleOpt` and `extractLangOpt`, and `l[0]` after the first byte in `parseImg`. -/
theorem ToHtml_ToXhtml_in_range (tags : List Bytes) (d spare : Bytes)
    (dumpLines dumpParagraphs : Bool) :
    (∃ out, Mem.ToHtml tags d spare dumpLines dumpParagraphs = .ok out) ∧
    (∃ out, Mem.ToXhtml tags d spare dumpLines dumpParagraphs = .ok out) := by
  constructor
  · obtain ⟨out, h, _⟩ := Mem.toHtml_returns tags
      { mem := d ++ spare, refs := [],
        core := { { NewParserWithRenderer false with dumpLines := dumpLines } with
          dumpParagraphs := dumpParagraphs } }
      { off := 0, len := d.length }
    exact ⟨out, h⟩
  · obtain ⟨out, h, _⟩ := Mem.toHtml_returns tags
      { mem := d ++ spare, refs := [],
        core := { { NewParserWithRenderer true with dumpLines := dumpLines } with
          dumpParagraphs := dumpParagraphs } }
      { off := 0, len := d.length }
    exact ⟨out, h⟩

/-! ## Escaping in a code context -/

theorem serAsHtmlCode_eq (l : Bytes) : ∀ p : TextileParser,
    serAsHtmlCode p l =
      { p with out := p.out ++ l.flatMap (fun b =>
          if b = 38 then ascii "&amp;" else if b = 60 then ascii "&lt;"
          else if b = 62 then ascii "&gt;" else [b]) } := by
  induction l with
  | nil => intro p; simp [serAsHtmlCode]
  | cons b t ih =>
    intro p
    by_cases h38 : b = 38
    · simp [serAsHtmlCode, needsHtmlCodeEscaping, h38, ih, write]
    · by_cases h60 : b = 60
      · simp [serAsHtmlCode, needsHtmlCodeEscaping, h60, ih, write]
      · by_cases h62 : b = 62
        · simp [serAsHtmlCode, needsHtmlCodeEscaping, h62, ih, write]
        · simp [serAsHtmlCode, needsHtmlCodeEscaping, h38, h60, h62, ih, write]

/-- C23, as the code has it. Under the code-escaping rule every byte is escaped on its
own, whatever surrounds it: `serAsHtmlCode` writes `&amp;` for each `&`, `&lt;` for each
`<`, `&gt;` for each `>` and every other byte as it is. A text with the entity `&amp;` in
it, `x` then `&amp;` then `y`, is therefore written with `&amp;amp;` in that place. -/
theorem serAsHtmlCode_escapes_every_amp (p : TextileParser) (x y : Bytes) :
    serAsHtmlCode p (x ++ ascii "&amp;" ++ y) =
      { p with out :=
          p.out ++ (serAsHtmlCode { p with out := [] } x).out ++ ascii "&amp;amp;"
            ++ (serAsHtmlCode { p with out := [] } y).out } ∧
    (∀ l : Bytes, serAsHtmlCode p l =
      { p with out := p.out ++ l.flatMap (fun b =>
          if b = 38 then ascii "&amp;" else if b = 60 then ascii "&lt;"
          else if b = 62 then ascii "&gt;" else [b]) }) := by
  refine ⟨?_, fun l => serAsHtmlCode_eq l p⟩
  simp only [serAsHtmlCode_eq, List.flatMap_append, List.nil_append]
  have h : (ascii "&amp;").flatMap (fun b =>
      if b = 38 then ascii "&amp;" else if b = 60 then ascii "&lt;"
      else if b = 62 then ascii "&gt;" else [b]) = ascii "&amp;amp;" := by decide
  rw [h]
  simp [List.append_assoc]

/-- C23, as stated, fails. The text `&amp;` under the code-escaping rule comes out as
`&amp;amp;`, and so does the line `&amp;` after a line `<code>` (with `code` a valid
tag): the converted document is `<code>`, a newline and `&amp;amp;`. -/
theorem serAsHtmlCode_double_escape :
    (serAsHtmlCode (NewTextileParser { flags := 0 }) (ascii "&amp;")).out = ascii "&amp;amp;" ∧
    ToHtml [ascii "code"] (ascii "<code>\n&amp;") false false =
      .ok (ascii "<code>\n&amp;amp;") := by
  decide

/-! ## Inline constructs: marker followed by text, text before a construct -/

/-- C25, on the code. `__r__rest` is written with the italic tag, as `<i>r</i>rest`:
`is2Byte` ends the construct at the first `__` and does not look at the byte after it.
The test `TestParseInline` expects the input back unchanged. On `__r__ rest` both agree:
`<i>r</i> rest`. (No byte of the two inputs is `<`, so the table of tags is not
consulted.) -/
theorem parseInline_italic_before_word :
    parseItalic (ascii "__r__rest") = some (ascii "rest", ascii "r") ∧
    (parseInline [] (NewTextileParser { flags := 0 }) (ascii "__r__rest")).map (fun q => q.out) =
      .ok (ascii "<i>r</i>rest") ∧
    (parseInline [] (NewTextileParser { flags := 0 }) (ascii "__r__ rest")).map (fun q => q.out) =
      .ok (ascii "<i>r</i> rest") ∧
    ToHtml [] (ascii "__r__rest") false false = .ok (ascii "\t<p><i>r</i>rest</p>") := by
  decide

/-- C24, on the code. On `it's _x_` the text before the emphasis is written as it is,
with its apostrophe: `serTagWithOptClass` writes `before` without escaping it. The
other constructs escape it: on `it's *x*` the output begins with `it&#8217;s `. -/
theorem parseInline_before_emphasis_unescaped :
    (parseInline [] (NewTextileParser { flags := 0 }) (ascii "it's _x_")).map (fun q => q.out) =
      .ok (ascii "it's <em>x</em>") ∧
    (parseInline [] (NewTextileParser { flags := 0 }) (ascii "it's *x*")).map (fun q => q.out) =
      .ok (ascii "it&#8217;s <strong>x</strong>") ∧
    ToHtml [] (ascii "it's _x_") false false = .ok (ascii "\t<p>it's <em>x</em></p>") := by
  decide

/-! ## Images without alt text -/

/-- An image without alt text followed by text without `(`: source `src`, empty alt, no
URL, and the text as remainder. -/
theorem parseImg_no_alt (src r : Bytes) (hne : src ≠ []) (h33 : 33 ∉ src) (h40 : 40 ∉ src)
    (hgt : src.head? ≠ some 62) (hr : 40 ∉ r) (hcolon : r.head? ≠ some 58) :
    parseImg ([33] ++ src ++ [33] ++ r) = some (r, [], src, [], 0) := by
  have hl : ¬ ([33] ++ src ++ [33] ++ r).length < 3 := by
    cases src with
    | nil => exact absurd rfl hne
    | cons a s => simp; omega
  have hdrop : ([33] ++ src ++ [33] ++ r).drop 1 = src ++ 33 :: r := by simp
  have hhead : ¬ (src ++ 33 :: r).getD 0 0 = 62 := by
    cases src with
    | nil => exact absurd rfl hne
    | cons a s => simpa using hgt
  have hno : indexByte (src ++ 33 :: r) 40 = none := by
    apply indexByte_none_of_not_mem
    simp [h40, hr]
  have hidx := indexByte_append_of_not_mem src 33 r h33
  have hr2 : ¬ (0 < r.length ∧ r[0]?.getD 0 = 58) := by
    cases r with
    | nil => simp
    | cons a t => simpa using hcolon
  simp only [parseImg, hl, if_false, hdrop, hhead, hno, hidx]
  simp
  intro h1 h2
  exact absurd ⟨h1, h2⟩ hr2

/-- C27, on the code. On `!a.gif! (see note)` no image is recognised: `parseImg` finds
the `(` of the text after the image before it looks for the closing `!`, takes
`a.gif! ` for the source and `see note` for the alt text, finds no `!` after the `)` and
gives up. The line is written as plain text. -/
theorem parseImg_paren_after_image :
    parseImg (ascii "!a.gif! (see note)") = none ∧
    (parseInline [] (NewTextileParser { flags := 0 }) (ascii "!a.gif! (see note)")).map
        (fun q => q.out) = .ok (ascii "!a.gif! (see note)") ∧
    ToHtml [] (ascii "!a.gif! (see note)") false false =
      .ok (ascii "\t<p>!a.gif! (see note)</p>") ∧
    parseImg (ascii "!a.gif! see note") = some (ascii " see note", [], ascii "a.gif", [], 0) := by
  refine ⟨by decide, by decide, by decide, by decide⟩

/-! ## Style pretty-printing -/

/-- C28, on the code. On `;;;` the pretty-printed style is `; ;;`, with two adjacent
semicolons: after the byte written in the state "after `;`" the loop goes back to the
regular state also when that byte is itself a semicolon. The style `a;;b` comes out as
`a; ;b;`, with no space after its second semicolon. -/
theorem prettyPrintStyle_adjacent_semicolons :
    prettyPrintStyle (ascii ";;;") = ascii "; ;;" ∧
    prettyPrintStyle (ascii "a;;b") = ascii "a; ;b;" ∧
    prettyPrintStyle (prettyPrintStyle (ascii ";;;")) = prettyPrintStyle (ascii ";;;") := by
  decide

/-! ## Unterminated markup -/

/-- From an index on, no trigger byte: the loop of `parseInline` reaches the end and
writes the line escaped. -/
theorem parseInlineLoop_plain_from (tags : List Bytes)
    (rec : TextileParser → Bytes → Except Stop TextileParser) (p : TextileParser) (l : Bytes) :
    ∀ (n i : Nat), i + n = l.length →
      (∀ j, i ≤ j → j < l.length → l.getD j 0 ∉ ascii "_*\"!@%<?-+^~") →
      parseInlineLoop tags rec p l i n = .ok (serEscaped p l) := by
  intro n
  induction n with
  | zero => intro i _ _; simp [parseInlineLoop]
  | succ n ih =>
    intro i hi htrig
    have hb := htrig i (le_refl _) (by omega)
    simp only [ascii, String.toList, List.map, Char.toNat, List.mem_cons, List.mem_singleton,
      List.not_mem_nil, or_false, not_or] at hb
    have hb' : l.getD i 0 ≠ 95 ∧ l.getD i 0 ≠ 42 ∧ l.getD i 0 ≠ 34 ∧ l.getD i 0 ≠ 33 ∧
        l.getD i 0 ≠ 64 ∧ l.getD i 0 ≠ 37 ∧ l.getD i 0 ≠ 60 ∧ l.getD i 0 ≠ 63 ∧
        l.getD i 0 ≠ 45 ∧ l.getD i 0 ≠ 43 ∧ l.getD i 0 ≠ 94 ∧ l.getD i 0 ≠ 126 := by
      simpa using hb
    obtain ⟨h1, h2, h3, h4, h5, h6, h7, h8, h9, h10, h11, h12⟩ := hb'
    rw [parseInlineLoop]
    simp only [h1, h2, h3, h4, h5, h6, h7, h8, h9, h10, h11, h12, if_false]
    exact ih (i + 1) (by omega) (fun j hj1 hj2 => htrig j (by omega) hj2)

theorem parseInlineFuel_plain (tags : List Bytes) (f : Nat) (p : TextileParser) (l : Bytes)
    (htrig : ∀ c ∈ l, c ∉ ascii "_*\"!@%<?-+^~") :
    parseInlineFuel tags (f + 1) p l = .ok (serEscaped p l) := by
  simp only [parseInlineFuel]
  exact parseInlineLoop_plain_from tags _ p l l.length 0 (by simp)
    (fun j _ hj => htrig _ (getD_mem_of_lt l j hj))

/-- The bytes of a line after a marker of `k` bytes are the bytes of the text. -/
theorem getD_append_right_mem (m x : Bytes) (j : Nat) (h1 : m.length ≤ j)
    (h2 : j < (m ++ x).length) : (m ++ x).getD j 0 ∈ x := by
  have h3 : j - m.length < x.length := by simp at h2; omega
  have : (m ++ x).getD j 0 = x.getD (j - m.length) 0 := by
    simp only [List.getD_eq_getElem?_getD]
    rw [List.getElem?_append_right h1]
  rw [this]
  exact getD_mem_of_lt x _ h3

theorem extractInside_unterminated (c : Nat) (x : Bytes) (h : c ∉ x) :
    extractInside (c :: x) c c = none := by
  simp [extractInside, extractUntil, indexByte_none_of_not_mem x c h]

theorem is2ByteLoop_none (l : Bytes) (b : Nat) : ∀ (s : Bytes) (i : Nat), b ∉ s →
    is2ByteLoop l b i s = none := by
  intro s
  induction s with
  | nil => intro i _; simp [is2ByteLoop]
  | cons x t ih =>
    intro i h
    simp only [List.mem_cons, not_or] at h
    cases t with
    | nil => simp [is2ByteLoop]
    | cons y t =>
      have hx : ¬ x = b := fun e => h.1 e.symm
      simp only [is2ByteLoop, hx, if_false]
      exact ih (i + 1) h.2

theorem is2Byte_none_of_not_mem (l : Bytes) (b : Nat) (h : b ∉ l.drop 2) :
    is2Byte l b = none := by
  unfold is2Byte
  split
  · rfl
  · split
    · rfl
    · exact is2ByteLoop_none l b _ 2 h

theorem extractClassOptLoop_drop (l : Bytes) : ∀ (t : Bytes) (i : Nat),
    ∃ k, (extractClassOptLoop l i t).1 = l.drop k := by
  intro t
  induction t with
  | nil => intro i; exact ⟨0, by simp [extractClassOptLoop]⟩
  | cons c t ih =>
    intro i
    simp only [extractClassOptLoop]
    split
    · split
      · exact ⟨i + 1, rfl⟩
      · exact ih (i + 1)
    · exact ih (i + 1)

theorem extractClassOpt_drop (l : Bytes) : ∃ k, (extractClassOpt l).1 = l.drop k := by
  unfold extractClassOpt
  split
  · exact ⟨0, by simp⟩
  · split
    · exact ⟨0, by simp⟩
    · exact extractClassOptLoop_drop l _ 1

theorem extractLangOptLoop_drop (l : Bytes) : ∀ (t : Bytes) (i : Nat),
    ∃ k, (extractLangOptLoop l i t).1 = l.drop k := by
  intro t
  induction t with
  | nil => intro i; exact ⟨0, by simp [extractLangOptLoop]⟩
  | cons c t ih =>
    intro i
    simp only [extractLangOptLoop]
    split
    · split
      · exact ⟨i + 1, rfl⟩
      · exact ih (i + 1)
    · exact ih (i + 1)

theorem extractLangOpt_drop (l : Bytes) : ∃ k, (extractLangOpt l).1 = l.drop k := by
  unfold extractLangOpt
  split
  · exact ⟨0, by simp⟩
  · split
    · exact ⟨0, by simp⟩
    · exact extractLangOptLoop_drop l _ 1

theorem parseEmWithOptClass_unterminated (x : Bytes) (h : 95 ∉ x) :
    parseEmWithOptClass (95 :: x) = none := by
  unfold parseEmWithOptClass
  split
  · rfl
  · obtain ⟨k, hk⟩ := extractClassOpt_drop x
    have hno : indexByte (extractClassOpt x).1 95 = none := by
      rw [hk]
      exact indexByte_none_of_not_mem _ _ (fun hm => h (List.mem_of_mem_drop hm))
    simp [hno]

theorem extractStyleOpt_no_brace (x : Bytes) (h : x.head? ≠ some 123) :
    extractStyleOpt x = ((x, none), x) := by
  have : startsWithByte x 123 3 = false := by
    cases x with
    | nil => simp [startsWithByte]
    | cons a t =>
      have : ¬ a = 123 := by simpa using h
      simp [startsWithByte, this]
  simp [extractStyleOpt, this]

theorem writeBack_tail (c : Nat) (x : Bytes) : writeBack (c :: x) x = c :: x := by
  simp [writeBack]

theorem parseStrongWithOptStyle_unterminated (x : Bytes) (h42 : 42 ∉ x)
    (h123 : x.head? ≠ some 123) :
    parseStrongWithOptStyle (42 :: x) = (none, 42 :: x) := by
  unfold parseStrongWithOptStyle
  split
  · rfl
  · simp [extractStyleOpt_no_brace x h123, extractUntil, indexByte_none_of_not_mem x 42 h42,
      writeBack_tail]

theorem countRepeatedCharsLoop_drop (l : Bytes) (c : Nat) : ∀ (t : Bytes) (n : Nat),
    n + t.length = l.length →
    ∃ k, n ≤ k ∧ (countRepeatedCharsLoop l c n t).1 = l.drop k := by
  intro t
  induction t with
  | nil =>
    intro n h
    exact ⟨l.length, by simp at h; omega, by simp [countRepeatedCharsLoop]⟩
  | cons b t ih =>
    intro n h
    simp only [countRepeatedCharsLoop]
    split
    · exact ⟨n, le_refl _, rfl⟩
    · obtain ⟨k, hk1, hk2⟩ := ih (n + 1) (by simp at h; omega)
      exact ⟨k, by omega, hk2⟩

theorem countRepeatedChars_head (c : Nat) (t : Bytes) :
    ∃ k, (countRepeatedChars (c :: t) c).1 = t.drop k := by
  obtain ⟨k, hk1, hk2⟩ := countRepeatedCharsLoop_drop (c :: t) c t 1 (by simp; omega)
  refine ⟨k - 1, ?_⟩
  have : k = (k - 1) + 1 := by omega
  simp only [countRepeatedChars, countRepeatedCharsLoop, ne_eq, not_true_eq_false, if_false]
  rw [hk2, this, List.drop_succ_cons]
  simp

theorem parseStyleLoop_drop : ∀ (fuel : Nat) (l : Bytes) (pi : PaddingInfo), l.length < fuel →
    ∃ k pi2, parseStyleLoop fuel l pi = .ok (l.drop k, pi2) := by
  intro fuel
  induction fuel with
  | zero => intro l pi h; omega
  | succ fuel ih =>
    intro l pi h
    cases l with
    | nil => exact ⟨0, pi, by simp [parseStyleLoop]⟩
    | cons a t =>
      have ht : t.length < fuel := by simp at h; omega
      have step : ∀ (j : Nat) (pi1 : PaddingInfo),
          ∃ k pi2, parseStyleLoop fuel (t.drop j) pi1 = .ok ((a :: t).drop k, pi2) := by
        intro j pi1
        have hlen : (t.drop j).length < fuel := by simp; omega
        obtain ⟨k, pi2, hk⟩ := ih (t.drop j) pi1 hlen
        exact ⟨j + k + 1, pi2, by rw [hk]; simp [List.drop_drop, Nat.add_comm]⟩
      rw [parseStyleLoop]
      simp only [List.length_cons, gt_iff_lt, Nat.zero_lt_succ, if_true, List.getD_cons_zero]
      by_cases h60 : a = 60
      · subst h60
        simp only [if_true]
        split
        · simpa using step 1 { pi with alignJustify := true }
        · simpa using step 0 { pi with alignLeft := true }
      · simp only [h60, if_false]
        by_cases h62 : a = 62
        · subst h62
          simp only [if_true]
          simpa using step 0 { pi with alignRight := true }
        · simp only [h62, if_false]
          by_cases h61 : a = 61
          · subst h61
            simp only [if_true]
            simpa using step 0 { pi with alignCenter := true }
          · simp only [h61, if_false]
            by_cases h40 : a = 40
            · subst h40
              simp only [if_true]
              obtain ⟨j, hj⟩ := countRepeatedChars_head 40 t
              have := step j { pi with paddingLeft := (countRepeatedChars (40 :: t) 40).2 }
              rw [← hj] at this
              exact this
            · simp only [h40, if_false]
              by_cases h41 : a = 41
              · subst h41
                simp only [if_true]
                obtain ⟨j, hj⟩ := countRepeatedChars_head 41 t
                have := step j { pi with paddingRight := (countRepeatedChars (41 :: t) 41).2 }
                rw [← hj] at this
                exact this
              · simp only [h41, if_false]
                exact ⟨0, pi, by simp⟩

theorem parseStyle_drop (l : Bytes) : ∃ k st, parseStyle l = .ok (l.drop k, st) := by
  obtain ⟨k, pi2, h⟩ := parseStyleLoop_drop (l.length + 1) l {} (by omega)
  exact ⟨k, formatPaddingInfo pi2, by simp [parseStyle, h]⟩

theorem parseAttributesOptLoop_no_brace : ∀ (fuel : Nat) (buf l : Bytes) (attrs : AttributesOpt),
    l.length < fuel → 123 ∉ l → attrs.style = none →
    ∃ k attrs2, parseAttributesOptLoop fuel buf l attrs = .ok (l.drop k, attrs2, buf) ∧
      attrs2.style = none := by
  intro fuel
  induction fuel with
  | zero => intro buf l attrs h; omega
  | succ fuel ih =>
    intro buf l attrs h hb hs
    cases l with
    | nil => exact ⟨0, attrs, by simp [parseAttributesOptLoop], hs⟩
    | cons a t =>
      have ha : ¬ a = 123 := fun e => hb (by simp [e])
      have step : ∀ (l2 : Bytes) (attrs1 : AttributesOpt) (j : Nat), l2 = (a :: t).drop j →
          attrs1.style = none →
          ∃ k attrs2,
            (if (a :: t).length = l2.length then
                (Except.ok (l2, attrs1, buf) : Except Stop (Bytes × AttributesOpt × Bytes))
              else parseAttributesOptLoop fuel buf l2 attrs1) = .ok ((a :: t).drop k, attrs2, buf) ∧
            attrs2.style = none := by
        intro l2 attrs1 j hj hs1
        split
        · exact ⟨j, attrs1, by rw [hj], hs1⟩
        · rename_i hne
          have hlen : l2.length < fuel := by
            have : l2.length ≤ (a :: t).length := by rw [hj]; simp
            simp at h
            simp at this hne
            omega
          have hb2 : 123 ∉ l2 := by
            rw [hj]
            exact fun hm => hb (List.mem_of_mem_drop hm)
          obtain ⟨k, attrs2, hk, hs2⟩ := ih buf l2 attrs1 hlen hb2 hs1
          exact ⟨j + k, attrs2, by rw [hk, hj]; simp [List.drop_drop, Nat.add_comm], hs2⟩
      rw [parseAttributesOptLoop]
      simp only [List.length_cons, gt_iff_lt, Nat.zero_lt_succ, if_true, List.getD_cons_zero]
      by_cases h40 : a = 40
      · simp only [h40, if_true]
        obtain ⟨j, hj⟩ := extractClassOpt_drop (40 :: t)
        have := step (extractClassOpt (40 :: t)).1
          { attrs with «class» := (extractClassOpt (40 :: t)).2 } j (by rw [hj, h40]) hs
        simpa [h40] using this
      · simp only [h40, if_false]
        by_cases h91 : a = 91
        · simp only [h91, if_true]
          obtain ⟨j, hj⟩ := extractLangOpt_drop (91 :: t)
          have := step (extractLangOpt (91 :: t)).1
            { attrs with lang := (extractLangOpt (91 :: t)).2 } j (by rw [hj, h91]) hs
          simpa [h91] using this
        · simp only [h91, ha, if_false]
          have := step (a :: t) attrs 0 (by simp) hs
          simpa using this

theorem parseAttributesOpt_no_brace (x : Bytes) (h : 123 ∉ x) :
    ∃ k attrs, parseAttributesOpt x = .ok ((x.drop k, attrs), x) := by
  unfold parseAttributesOpt
  have first : ∃ k1 a1, (if x.getD 0 0 = 40 then
        ((extractClassOpt x).1, ({ «class» := (extractClassOpt x).2 } : AttributesOpt))
      else (x, ({} : AttributesOpt))) = (x.drop k1, a1) ∧ a1.style = none := by
    split
    · obtain ⟨k, hk⟩ := extractClassOpt_drop x
      exact ⟨k, _, by rw [hk], rfl⟩
    · exact ⟨0, ({} : AttributesOpt), by simp, rfl⟩
  obtain ⟨k1, a1, h1, hs1⟩ := first
  obtain ⟨k2, st, h2⟩ := parseStyle_drop (x.drop k1)
  have hb2 : 123 ∉ (x.drop k1).drop k2 := fun hm => h (List.mem_of_mem_drop (List.mem_of_mem_drop hm))
  obtain ⟨k3, a3, h3, hs3⟩ := parseAttributesOptLoop_no_brace (((x.drop k1).drop k2).length + 1) x
    ((x.drop k1).drop k2) a1 (by omega) hb2 hs1
  refine ⟨k1 + k2 + k3, { a3 with style := st }, ?_⟩
  have h1' : (if x.getD 0 0 = 40 then
        match extractClassOpt x with
        | (l, cls) => (l, ({ «class» := cls, style := none, lang := none } : AttributesOpt))
      else (x, ({} : AttributesOpt))) = (x.drop k1, a1) := h1
  have hd : ((x.drop k1).drop k2).drop k3 = x.drop (k1 + k2 + k3) := by
    rw [List.drop_drop, List.drop_drop]
    congr 1
    try omega
  simp only [h1', h2, h3, hs3, hd]
  cases st <;> simp [byteConcat]

theorem parseSpan_unterminated (x : Bytes) (h37 : 37 ∉ x) (h123 : 123 ∉ x) :
    parseSpan (37 :: x) = .ok (none, 37 :: x) := by
  unfold parseSpan
  split
  · rfl
  · obtain ⟨k, attrs, hk⟩ := parseAttributesOpt_no_brace x h123
    have hno : indexByte (x.drop k) 37 = none :=
      indexByte_none_of_not_mem _ _ (fun hm => h37 (List.mem_of_mem_drop hm))
    simp [hk, extractUntil, hno, writeBack_tail]

/-- After a marker of one byte that no sub-parser accepts, the rest of the line has no
trigger byte: the loop goes on from index 1 to the end. -/
theorem parseInlineLoop_after_one (tags : List Bytes)
    (rec : TextileParser → Bytes → Except Stop TextileParser) (p : TextileParser) (c : Nat)
    (x : Bytes) (htrig : ∀ c ∈ x, c ∉ ascii "_*\"!@%<?-+^~") :
    parseInlineLoop tags rec p (c :: x) 1 x.length = .ok (serEscaped p (c :: x)) :=
  parseInlineLoop_plain_from tags rec p (c :: x) x.length 1 (by simp; omega)
    (fun j hj1 hj2 => htrig _ (getD_append_right_mem [c] x j hj1 hj2))

theorem parseInline_unterminated_inside (tags : List Bytes) (p : TextileParser) (c : Nat)
    (x : Bytes) (hc : c = 64 ∨ c = 45 ∨ c = 43 ∨ c = 94 ∨ c = 126) (hcx : c ∉ x)
    (htrig : ∀ c ∈ x, c ∉ ascii "_*\"!@%<?-+^~") :
    parseInline tags p (c :: x) = .ok (serEscaped p (c :: x)) := by
  have hin := extractInside_unterminated c x hcx
  simp only [parseInline, parseInlineFuel, List.length_cons]
  rw [parseInlineLoop]
  simp only [List.getD_cons_zero, List.drop_zero]
  rcases hc with h | h | h | h | h <;> subst h <;>
    simp [parseCode, parseDel, parseIns, parseSup, parseSub, hin,
      parseInlineLoop_after_one tags _ p _ x htrig]

theorem writeBack_self (l : Bytes) : writeBack l l = l := by
  simp [writeBack]

theorem parseInline_unterminated_em (tags : List Bytes) (p : TextileParser) (x : Bytes)
    (htrig : ∀ c ∈ x, c ∉ ascii "_*\"!@%<?-+^~") :
    parseInline tags p (95 :: x) = .ok (serEscaped p (95 :: x)) := by
  have h95 : 95 ∉ x := fun h => htrig 95 h (by decide)
  have h1 : parseItalic (95 :: x) = none :=
    is2Byte_none_of_not_mem _ _
      (by show 95 ∉ x.drop 1; exact fun hm => h95 (List.mem_of_mem_drop hm))
  have h2 := parseEmWithOptClass_unterminated x h95
  simp only [parseInline, parseInlineFuel, List.length_cons]
  rw [parseInlineLoop]
  simp only [List.getD_cons_zero, List.drop_zero, if_true, h1, h2]
  exact parseInlineLoop_after_one tags _ p _ x htrig

theorem parseInline_unterminated_strong (tags : List Bytes) (p : TextileParser) (x : Bytes)
    (htrig : ∀ c ∈ x, c ∉ ascii "_*\"!@%<?-+^~") (hbrace : x.head? ≠ some 123) :
    parseInline tags p (42 :: x) = .ok (serEscaped p (42 :: x)) := by
  have h42 : 42 ∉ x := fun h => htrig 42 h (by decide)
  have h1 : parseBold (42 :: x) = none :=
    is2Byte_none_of_not_mem _ _
      (by show 42 ∉ x.drop 1; exact fun hm => h42 (List.mem_of_mem_drop hm))
  have h2 := parseStrongWithOptStyle_unterminated x h42 hbrace
  simp only [parseInline, parseInlineFuel, List.length_cons]
  rw [parseInlineLoop]
  simp only [List.getD_cons_zero, List.drop_zero, h1, h2, writeBack_self]
  simp only [show ¬ (42 : Nat) = 95 by decide, if_false, if_true]
  exact parseInlineLoop_after_one tags _ p _ x htrig

theorem parseInline_unterminated_span (tags : List Bytes) (p : TextileParser) (x : Bytes)
    (htrig : ∀ c ∈ x, c ∉ ascii "_*\"!@%<?-+^~") (hbrace : 123 ∉ x) :
    parseInline tags p (37 :: x) = .ok (serEscaped p (37 :: x)) := by
  have h37 : 37 ∉ x := fun h => htrig 37 h (by decide)
  have h1 := parseSpan_unterminated x h37 hbrace
  simp only [parseInline, parseInlineFuel, List.length_cons]
  rw [parseInlineLoop]
  simp only [List.getD_cons_zero, List.drop_zero, h1, writeBack_self]
  simp only [show ¬ (37 : Nat) = 95 by decide, show ¬ (37 : Nat) = 42 by decide,
    show ¬ (37 : Nat) = 34 by decide, show ¬ (37 : Nat) = 33 by decide,
    show ¬ (37 : Nat) = 64 by decide, if_false, if_true]
  exact parseInlineLoop_after_one tags _ p _ x htrig

theorem parseInline_unterminated_cite (tags : List Bytes) (p : TextileParser) (x : Bytes)
    (htrig : ∀ c ∈ x, c ∉ ascii "_*\"!@%<?-+^~") :
    parseInline tags p (63 :: 63 :: x) = .ok (serEscaped p (63 :: 63 :: x)) := by
  have h63 : 63 ∉ x := fun h => htrig 63 h (by decide)
  have h1 : parseCite (63 :: 63 :: x) = none :=
    is2Byte_none_of_not_mem _ _ (by simpa using h63)
  have h2 : parseCite (63 :: x) = none :=
    is2Byte_none_of_not_mem _ _
      (by show 63 ∉ x.drop 1; exact fun hm => h63 (List.mem_of_mem_drop hm))
  have hrest : ∀ (rec : TextileParser → Bytes → Except Stop TextileParser),
      parseInlineLoop tags rec p (63 :: 63 :: x) 2 x.length =
        .ok (serEscaped p (63 :: 63 :: x)) := fun rec =>
    parseInlineLoop_plain_from tags rec p (63 :: 63 :: x) x.length 2 (by simp; omega)
      (fun j hj1 hj2 => htrig _ (getD_append_right_mem [63, 63] x j hj1 hj2))
  simp only [parseInline, parseInlineFuel, List.length_cons]
  rw [parseInlineLoop]
  simp only [List.getD_cons_zero, List.drop_zero, h1]
  simp only [show ¬ (63 : Nat) = 95 by decide, show ¬ (63 : Nat) = 42 by decide,
    show ¬ (63 : Nat) = 34 by decide, show ¬ (63 : Nat) = 33 by decide,
    show ¬ (63 : Nat) = 64 by decide, show ¬ (63 : Nat) = 37 by decide,
    show ¬ (63 : Nat) = 60 by decide, if_false, if_true]
  rw [parseInlineLoop]
  have hd : (63 :: 63 :: x).drop (0 + 1) = 63 :: x := by simp
  have hg : (63 :: 63 :: x).getD (0 + 1) 0 = 63 := by simp
  simp only [hd, hg, h2]
  simp only [show ¬ (63 : Nat) = 95 by decide, show ¬ (63 : Nat) = 42 by decide,
    show ¬ (63 : Nat) = 34 by decide, show ¬ (63 : Nat) = 33 by decide,
    show ¬ (63 : Nat) = 64 by decide, show ¬ (63 : Nat) = 37 by decide,
    show ¬ (63 : Nat) = 60 by decide, if_false, if_true]
  exact hrest _

theorem parseStrongWithOptStyle_empty (x : Bytes) (hne : x ≠ []) :
    parseStrongWithOptStyle (42 :: 42 :: x) = (some (x, [], none), 42 :: 42 :: x) := by
  have h : extractStyleOpt (42 :: x) = ((42 :: x, none), 42 :: x) :=
    extractStyleOpt_no_brace _ (by simp)
  simp [parseStrongWithOptStyle, startsWithByte, h, extractUntil, indexByte, writeBack, hne]

theorem parseEmWithOptClass_empty (x : Bytes) :
    parseEmWithOptClass (95 :: 95 :: x) = some (x, [], none) := by
  simp [parseEmWithOptClass, extractClassOpt, startsWithByte, indexByte]

/-- Two `*` before a text with no trigger byte are an empty strong, then the text. -/
theorem parseInline_double_star (tags : List Bytes) (p : TextileParser) (x : Bytes)
    (hne : x ≠ []) (htrig : ∀ c ∈ x, c ∉ ascii "_*\"!@%<?-+^~") :
    parseInline tags p (42 :: 42 :: x) =
      .ok { p with out := p.out ++ ascii "<strong></strong>"
        ++ x.flatMap (fun b => if b = 39 then ascii "&#8217;" else [b]) } := by
  have h42 : 42 ∉ x := fun h => htrig 42 h (by decide)
  have h1 : parseBold (42 :: 42 :: x) = none :=
    is2Byte_none_of_not_mem _ _ (by simpa using h42)
  have h2 := parseStrongWithOptStyle_empty x hne
  have hstep : parseInline tags p (42 :: 42 :: x) =
      parseInlineLoop tags (parseInlineFuel tags (x.length + 1 + 1)) p (42 :: 42 :: x) 0
        (x.length + 1 + 1) := rfl
  rw [hstep, parseInlineLoop]
  simp only [List.getD_cons_zero, List.drop_zero, h1, h2]
  simp only [show ¬ (42 : Nat) = 95 by decide, if_false, if_true]
  simp only [serTagWithOptStyle, List.take_zero, serEscaped, parseInlineFuel_nil,
    parseInlineFuel_plain tags _ _ x htrig, serEscaped_eq]
  simp [serTagStartWithOptStyle, serTagEnd, write, ascii, List.append_assoc]

/-- Two `_` before a text with no trigger byte are an empty emphasis, then the text. -/
theorem parseInline_double_underscore (tags : List Bytes) (p : TextileParser) (x : Bytes)
    (htrig : ∀ c ∈ x, c ∉ ascii "_*\"!@%<?-+^~") :
    parseInline tags p (95 :: 95 :: x) =
      .ok { p with out := p.out ++ ascii "<em></em>"
        ++ x.flatMap (fun b => if b = 39 then ascii "&#8217;" else [b]) } := by
  have h95 : 95 ∉ x := fun h => htrig 95 h (by decide)
  have h1 : parseItalic (95 :: 95 :: x) = none :=
    is2Byte_none_of_not_mem _ _ (by simpa using h95)
  have h2 := parseEmWithOptClass_empty x
  have hstep : parseInline tags p (95 :: 95 :: x) =
      parseInlineLoop tags (parseInlineFuel tags (x.length + 1 + 1)) p (95 :: 95 :: x) 0
        (x.length + 1 + 1) := rfl
  rw [hstep, parseInlineLoop]
  simp only [List.getD_cons_zero, List.drop_zero, h1, h2, if_true]
  simp only [serTagWithOptClass, List.take_zero, parseInlineFuel_nil,
    parseInlineFuel_plain tags _ _ x htrig, serEscaped_eq]
  simp [serTagStartWithOptClass, serTagEnd, write, ascii, List.append_assoc]

/-- What an opening marker with no closing marker gives, marker by marker. For every
non-empty text `x` with no inline trigger byte:
after an opening marker `_`, `@`, `-`, `+`, `^`, `~` or `??`, after `*` when `x` does not
begin with an opening brace, and after `%` when `x` has no opening brace, `parseInline`
writes exactly the marker and `x` with its apostrophes escaped (so no HTML tag); after
`**` it writes an empty `<strong></strong>` and after `__` an empty `<em></em>`, each
followed by `x` escaped. -/
theorem parseInline_unterminated (tags : List Bytes) (p : TextileParser) (x : Bytes)
    (hne : x ≠ []) (htrig : ∀ c ∈ x, c ∉ ascii "_*\"!@%<?-+^~") :
    (∀ m ∈ [ascii "_", ascii "@", ascii "-", ascii "+", ascii "^", ascii "~", ascii "??"],
      parseInline tags p (m ++ x) =
        .ok { p with out := p.out ++ m
          ++ x.flatMap (fun b => if b = 39 then ascii "&#8217;" else [b]) }) ∧
    (x.head? ≠ some 123 →
      parseInline tags p (ascii "*" ++ x) =
        .ok { p with out := p.out ++ ascii "*"
          ++ x.flatMap (fun b => if b = 39 then ascii "&#8217;" else [b]) }) ∧
    (123 ∉ x →
      parseInline tags p (ascii "%" ++ x) =
        .ok { p with out := p.out ++ ascii "%"
          ++ x.flatMap (fun b => if b = 39 then ascii "&#8217;" else [b]) }) ∧
    parseInline tags p (ascii "**" ++ x) =
      .ok { p with out := p.out ++ ascii "<strong></strong>"
        ++ x.flatMap (fun b => if b = 39 then ascii "&#8217;" else [b]) } ∧
    parseInline tags p (ascii "__" ++ x) =
      .ok { p with out := p.out ++ ascii "<em></em>"
        ++ x.flatMap (fun b => if b = 39 then ascii "&#8217;" else [b]) } := by
  have hin : ∀ c, (c = 64 ∨ c = 45 ∨ c = 43 ∨ c = 94 ∨ c = 126) → c ∉ x := by
    intro c hc hx
    have := htrig c hx
    rcases hc with h | h | h | h | h <;> subst h <;> exact this (by decide)
  refine ⟨?_, ?_, ?_, parseInline_double_star tags p x hne htrig,
    parseInline_double_underscore tags p x htrig⟩
  · intro m hm
    simp only [List.mem_cons, List.mem_singleton, List.not_mem_nil, or_false] at hm
    rcases hm with h | h | h | h | h | h | h <;> subst h
    · show parseInline tags p (95 :: x) = _
      rw [parseInline_unterminated_em tags p x htrig, serEscaped_eq]
      simp [ascii]
    · show parseInline tags p (64 :: x) = _
      rw [parseInline_unterminated_inside tags p 64 x (by simp) (hin _ (by simp)) htrig,
        serEscaped_eq]
      simp [ascii]
    · show parseInline tags p (45 :: x) = _
      rw [parseInline_unterminated_inside tags p 45 x (by simp) (hin _ (by simp)) htrig,
        serEscaped_eq]
      simp [ascii]
    · show parseInline tags p (43 :: x) = _
      rw [parseInline_unterminated_inside tags p 43 x (by simp) (hin _ (by simp)) htrig,
        serEscaped_eq]
      simp [ascii]
    · show parseInline tags p (94 :: x) = _
      rw [parseInline_unterminated_inside tags p 94 x (by simp) (hin _ (by simp)) htrig,
        serEscaped_eq]
      simp [ascii]
    · show parseInline tags p (126 :: x) = _
      rw [parseInline_unterminated_inside tags p 126 x (by simp) (hin _ (by simp)) htrig,
        serEscaped_eq]
      simp [ascii]
    · show parseInline tags p (63 :: 63 :: x) = _
      rw [parseInline_unterminated_cite tags p x htrig, serEscaped_eq]
      simp [ascii]
  · intro hb
    show parseInline tags p (42 :: x) = _
    rw [parseInline_unterminated_strong tags p x htrig hb, serEscaped_eq]
    simp [ascii]
  · intro hb
    show parseInline tags p (37 :: x) = _
    rw [parseInline_unterminated_span tags p x htrig hb, serEscaped_eq]
    simp [ascii]

theorem parseInline_unterminated_witness :
    ascii "bold" ≠ [] ∧ (∀ c ∈ ascii "bold", c ∉ ascii "_*\"!@%<?-+^~") ∧
    parseInline [] (NewTextileParser { flags := 0 }) (ascii "**" ++ ascii "bold") =
      .ok { NewTextileParser { flags := 0 } with
        out := (NewTextileParser { flags := 0 }).out ++ ascii "<strong></strong>"
          ++ (ascii "bold").flatMap (fun b => if b = 39 then ascii "&#8217;" else [b]) } :=
  ⟨by decide, by decide,
    (parseInline_unterminated [] (NewTextileParser { flags := 0 }) (ascii "bold")
      (by decide) (by decide)).2.2.2.1⟩

/-- Texts with an opening brace after `*` or `%` that come out as they are: no complete
style token stands where the attributes are read (an empty pair of braces is none), or
the token already ends with a semicolon. -/
theorem parseInline_unterminated_brace_literal :
    (parseInline [] (NewTextileParser { flags := 0 }) (ascii "%ab\x7bc\x7dd")).map
      (fun q => q.out) = .ok (ascii "%ab\x7bc\x7dd") ∧
    (parseInline [] (NewTextileParser { flags := 0 }) (ascii "%\x7b\x7db")).map
      (fun q => q.out) = .ok (ascii "%\x7b\x7db") ∧
    (parseInline [] (NewTextileParser { flags := 0 }) (ascii "*\x7b\x7db")).map
      (fun q => q.out) = .ok (ascii "*\x7b\x7db") ∧
    (parseInline [] (NewTextileParser { flags := 0 }) (ascii "*\x7ba;\x7db")).map
      (fun q => q.out) = .ok (ascii "*\x7ba;\x7db") ∧
    (parseInline [] (NewTextileParser { flags := 0 }) (ascii "*\x7babc")).map
      (fun q => q.out) = .ok (ascii "*\x7babc") := by
  refine ⟨by decide, by decide, by decide, by decide, by decide⟩

/-- C22, on the code. An opening marker with no closing marker is not always written
back as it is. `**a` gives `<strong></strong>a` and `__a` gives `<em></em>a`: the two
marker bytes are read as an opening and a closing marker around nothing, while `??a`
comes out as `??a`. On `*` or `%` followed by a style token, as in `*{a}b` and `%{a}b`,
the closing brace comes out as a semicolon. -/
theorem parseInline_double_marker_is_empty_tag :
    (parseInline [] (NewTextileParser { flags := 0 }) (ascii "**a")).map (fun q => q.out) =
      .ok (ascii "<strong></strong>a") ∧
    (parseInline [] (NewTextileParser { flags := 0 }) (ascii "__a")).map (fun q => q.out) =
      .ok (ascii "<em></em>a") ∧
    (parseInline [] (NewTextileParser { flags := 0 }) (ascii "*\x7ba\x7db")).map (fun q => q.out) =
      .ok (ascii "*\x7ba;b") ∧
    (parseInline [] (NewTextileParser { flags := 0 }) (ascii "%\x7ba\x7db")).map (fun q => q.out) =
      .ok (ascii "%\x7ba;b") ∧
    (parseInline [] (NewTextileParser { flags := 0 }) (ascii "??a")).map (fun q => q.out) =
      .ok (ascii "??a") := by
  refine ⟨by decide, by decide, by decide, by decide, by decide⟩

/-! ## Termination of the inline scanner -/

namespace Mem

theorem bind_congr_post {α β : Type} (x : Except Stop α) (f g : α → Except Stop β)
    (P : α → Prop) (hx : Returns x P) (h : ∀ a, P a → f a = g a) : (x >>= f) = (x >>= g) := by
  obtain ⟨a, rfl, ha⟩ := hx
  exact h a ha

theorem bind_congr_fun {α β : Type} (x : Except Stop α) (f g : α → Except Stop β)
    (h : ∀ a, f a = g a) : (x >>= f) = (x >>= g) := by
  have : f = g := funext h
  rw [this]

theorem serTag_congr (rec rec2 : TextileParser → Slice → Except Stop TextileParser) (n : Nat)
    (hrec : ∀ q s, s.len < n → rec q s = rec2 q s)
    (p : TextileParser) (tag : Bytes) (before inside rest : Slice)
    (h1 : inside.len < n) (h2 : rest.len < n) :
    serTag rec p tag before inside rest = serTag rec2 p tag before inside rest := by
  unfold serTag
  dsimp only
  rw [hrec _ _ h1]
  refine bind_congr_fun _ _ _ ?_
  intro q
  exact hrec _ _ h2

theorem serTagWithOptClass_congr (rec rec2 : TextileParser → Slice → Except Stop TextileParser)
    (n : Nat) (hrec : ∀ q s, s.len < n → rec q s = rec2 q s)
    (p : TextileParser) (tag : Bytes) (before inside : Slice) (cls : Option Slice) (rest : Slice)
    (h1 : inside.len < n) (h2 : rest.len < n) :
    serTagWithOptClass rec p tag before inside cls rest =
      serTagWithOptClass rec2 p tag before inside cls rest := by
  unfold serTagWithOptClass
  dsimp only
  rw [hrec _ _ h1]
  refine bind_congr_fun _ _ _ ?_
  intro q
  exact hrec _ _ h2

theorem serTagWithOptStyle_congr (rec rec2 : TextileParser → Slice → Except Stop TextileParser)
    (n : Nat) (hrec : ∀ q s, s.len < n → rec q s = rec2 q s)
    (p : TextileParser) (tag : Bytes) (before inside : Slice) (style : Option Data) (rest : Slice)
    (h1 : inside.len < n) (h2 : rest.len < n) :
    serTagWithOptStyle rec p tag before inside style rest =
      serTagWithOptStyle rec2 p tag before inside style rest := by
  unfold serTagWithOptStyle
  dsimp only
  rw [hrec _ _ h1]
  refine bind_congr_fun _ _ _ ?_
  intro q
  exact hrec _ _ h2

theorem serSpan_congr (rec rec2 : TextileParser → Slice → Except Stop TextileParser)
    (n : Nat) (hrec : ∀ q s, s.len < n → rec q s = rec2 q s)
    (p : TextileParser) (before inside : Slice) (attrs : Option AttributesOpt) (rest : Slice)
    (h1 : inside.len < n) (h2 : rest.len < n) :
    serSpan rec p before inside attrs rest = serSpan rec2 p before inside attrs rest := by
  unfold serSpan
  refine bind_congr_fun _ _ _ ?_
  intro a
  dsimp only
  rw [hrec _ _ h1]
  refine bind_congr_fun _ _ _ ?_
  intro q
  exact hrec _ _ h2

theorem serUrl_congr (rec rec2 : TextileParser → Slice → Except Stop TextileParser)
    (n : Nat) (hrec : ∀ q s, s.len < n → rec q s = rec2 q s)
    (p : TextileParser) (before title url rest : Slice) (h : rest.len < n) :
    serUrl rec p before title url rest = serUrl rec2 p before title url rest := by
  unfold serUrl
  exact hrec _ _ h

theorem serCode_congr (rec rec2 : TextileParser → Slice → Except Stop TextileParser)
    (n : Nat) (hrec : ∀ q s, s.len < n → rec q s = rec2 q s)
    (p : TextileParser) (before inside rest : Slice) (h : rest.len < n) :
    serCode rec p before inside rest = serCode rec2 p before inside rest := by
  unfold serCode
  exact hrec _ _ h

theorem serImg_congr (rec rec2 : TextileParser → Slice → Except Stop TextileParser)
    (n : Nat) (hrec : ∀ q s, s.len < n → rec q s = rec2 q s)
    (p : TextileParser) (before imgSrc alt : Slice) (style : Nat) (url : Option Slice)
    (rest : Slice) (h : rest.len < n) :
    serImg rec p before imgSrc alt style url rest =
      serImg rec2 p before imgSrc alt style url rest := by
  unfold serImg
  exact hrec _ _ h

theorem parseInlineTag_congr (rec rec2 : TextileParser → Slice → Except Stop TextileParser)
    (p : TextileParser) (l : Slice) (i : Nat) (tag : Bytes)
    (sub : Bytes → Slice → Except Stop (Option (Slice × Slice)))
    (hrec : ∀ q s, s.len < l.len → rec q s = rec2 q s)
    (hsub : ∀ mem s, Returns (sub mem s)
      (fun r => ∀ rest inside, r = some (rest, inside) →
        rest.len < s.len ∧ inside.len < s.len))
    (hi : i < l.len) :
    parseInlineTag rec p l i tag sub = parseInlineTag rec2 p l i tag sub := by
  unfold parseInlineTag
  refine bind_congr_post _ _ _ _ (sliceFrom_returns l i (by omega)) ?_
  intro li hli
  refine bind_congr_post _ _ _ _ (hsub p.mem li) ?_
  intro r hr
  cases r with
  | none => rfl
  | some v =>
    obtain ⟨rest, inside⟩ := v
    have := hr rest inside rfl
    refine bind_congr_fun _ _ _ ?_
    intro before
    rw [serTag_congr rec rec2 l.len hrec p tag before inside rest (by omega) (by omega)]

theorem parseInlineCase_congr (tags : List Bytes)
    (rec rec2 : TextileParser → Slice → Except Stop TextileParser)
    (p : TextileParser) (l : Slice) (i : Nat)
    (hrec : ∀ q s, s.len < l.len → rec q s = rec2 q s)
    (hi : i < l.len) :
    parseInlineCase tags rec p l i = parseInlineCase tags rec2 p l i := by
  have htag : ∀ (tag : Bytes) (sub : Bytes → Slice → Except Stop (Option (Slice × Slice))),
      (∀ mem s, Returns (sub mem s)
        (fun r => ∀ rest inside, r = some (rest, inside) →
          rest.len < s.len ∧ inside.len < s.len)) →
      parseInlineTag rec p l i tag sub = parseInlineTag rec2 p l i tag sub :=
    fun tag sub hsub => parseInlineTag_congr rec rec2 p l i tag sub hrec hsub hi
  unfold parseInlineCase
  refine bind_congr_post _ _ _ _ (index_returns p.mem l i hi) ?_
  intro b _
  by_cases h95 : b = 95
  · rw [if_pos h95, if_pos h95, htag _ parseItalic (fun m s => is2Byte_returns m s 95)]
    refine bind_congr_fun _ _ _ ?_
    intro r
    cases r with
    | some q => rfl
    | none =>
      refine bind_congr_post _ _ _ _ (sliceFrom_returns l i (by omega)) ?_
      intro li hli
      refine bind_congr_post _ _ _ _ (parseEmWithOptClass_returns p.mem li) ?_
      intro r2 hr2
      cases r2 with
      | none => rfl
      | some v =>
        obtain ⟨rest, inside, cls⟩ := v
        have := hr2 rest inside cls rfl
        refine bind_congr_fun _ _ _ ?_
        intro before
        dsimp only
        rw [serTagWithOptClass_congr rec rec2 l.len hrec p _ before inside cls rest
          (by omega) (by omega)]
  rw [if_neg h95, if_neg h95]
  by_cases h42 : b = 42
  · rw [if_pos h42, if_pos h42, htag _ parseBold (fun m s => is2Byte_returns m s 42)]
    refine bind_congr_fun _ _ _ ?_
    intro r
    cases r with
    | some q => rfl
    | none =>
      refine bind_congr_post _ _ _ _ (sliceFrom_returns l i (by omega)) ?_
      intro li hli
      refine bind_congr_post _ _ _ _ (parseStrongWithOptStyle_returns p.mem li) ?_
      intro r2 hr2
      obtain ⟨m2, r2⟩ := r2
      cases r2 with
      | none => rfl
      | some v =>
        obtain ⟨rest, inside, style⟩ := v
        have := hr2 rest inside style rfl
        refine bind_congr_fun _ _ _ ?_
        intro before
        dsimp only
        rw [serTagWithOptStyle_congr rec rec2 l.len hrec _ _ before inside style rest
          (by omega) (by omega)]
  rw [if_neg h42, if_neg h42]
  by_cases h34 : b = 34
  · rw [if_pos h34, if_pos h34]
    refine bind_congr_post _ _ _ _ (sliceFrom_returns l i (by omega)) ?_
    intro li hli
    refine bind_congr_post _ _ _ _ (parseUrlOrRefName_returns p.mem li) ?_
    intro r2 hr2
    cases r2 with
    | none => rfl
    | some v =>
      obtain ⟨rest, title, u⟩ := v
      have := hr2 rest title u rfl
      refine bind_congr_fun _ _ _ ?_
      intro before
      dsimp only
      rw [serUrl_congr rec rec2 l.len hrec p before title _ rest (by omega)]
  rw [if_neg h34, if_neg h34]
  by_cases h33 : b = 33
  · rw [if_pos h33, if_pos h33]
    refine bind_congr_post _ _ _ _ (sliceFrom_returns l i (by omega)) ?_
    intro li hli
    refine bind_congr_post _ _ _ _ (parseImg_returns p.mem li) ?_
    intro r2 hr2
    cases r2 with
    | none => rfl
    | some v =>
      obtain ⟨rest, url, imgSrc, alt, style⟩ := v
      have := hr2 rest url imgSrc alt style rfl
      refine bind_congr_fun _ _ _ ?_
      intro before
      dsimp only
      rw [serImg_congr rec rec2 l.len hrec p before imgSrc alt style url rest (by omega)]
  rw [if_neg h33, if_neg h33]
  by_cases h64 : b = 64
  · rw [if_pos h64, if_pos h64]
    refine bind_congr_post _ _ _ _ (sliceFrom_returns l i (by omega)) ?_
    intro li hli
    refine bind_congr_post _ _ _ _ (extractInside_shorter p.mem li 64 64) ?_
    intro r2 hr2
    cases r2 with
    | none => rfl
    | some v =>
      obtain ⟨rest, inside⟩ := v
      have := hr2 rest inside rfl
      refine bind_congr_fun _ _ _ ?_
      intro before
      dsimp only
      rw [serCode_congr rec rec2 l.len hrec p before inside rest (by omega)]
  rw [if_neg h64, if_neg h64]
  by_cases h37 : b = 37
  · rw [if_pos h37, if_pos h37]
    refine bind_congr_post _ _ _ _ (sliceFrom_returns l i (by omega)) ?_
    intro li hli
    refine bind_congr_post _ _ _ _ (parseSpan_returns p.mem li) ?_
    intro r2 hr2
    obtain ⟨m2, r2⟩ := r2
    cases r2 with
    | none => rfl
    | some v =>
      obtain ⟨rest, inside, attrs⟩ := v
      have := hr2 rest inside attrs rfl
      refine bind_congr_fun _ _ _ ?_
      intro before
      dsimp only
      rw [serSpan_congr rec rec2 l.len hrec _ before inside _ rest (by omega) (by omega)]
  rw [if_neg h37, if_neg h37]
  by_cases h60 : b = 60
  · rw [if_pos h60, if_pos h60]
    refine bind_congr_post _ _ _ _ (sliceFrom_returns l i (by omega)) ?_
    intro li hli
    refine bind_congr_post _ _ _ _ (parseHtml_returns tags p.mem li) ?_
    intro r2 hr2
    cases r2 with
    | none => rfl
    | some v =>
      obtain ⟨rest, html, tag, start⟩ := v
      have := hr2 rest html tag start rfl
      refine bind_congr_post _ _ _ _ (sliceTo_returns l i (by omega)) ?_
      intro before hb
      dsimp only
      rw [hrec p before (by omega)]
      refine bind_congr_fun _ _ _ ?_
      intro q
      refine bind_congr_fun _ _ _ ?_
      intro c
      rw [hrec _ rest (by omega)]
  rw [if_neg h60, if_neg h60]
  by_cases h63 : b = 63
  · rw [if_pos h63, if_pos h63, htag _ parseCite (fun m s => is2Byte_returns m s 63)]
  rw [if_neg h63, if_neg h63]
  by_cases h45 : b = 45
  · rw [if_pos h45, if_pos h45, htag _ parseDel (fun m s => extractInside_shorter m s 45 45)]
  rw [if_neg h45, if_neg h45]
  by_cases h43 : b = 43
  · rw [if_pos h43, if_pos h43, htag _ parseIns (fun m s => extractInside_shorter m s 43 43)]
  rw [if_neg h43, if_neg h43]
  by_cases h94 : b = 94
  · rw [if_pos h94, if_pos h94, htag _ parseSup (fun m s => extractInside_shorter m s 94 94)]
  rw [if_neg h94, if_neg h94]
  by_cases h126 : b = 126
  · rw [if_pos h126, if_pos h126, htag _ parseSub (fun m s => extractInside_shorter m s 126 126)]
  rw [if_neg h126, if_neg h126]

theorem parseInlineLoop_congr (tags : List Bytes)
    (rec rec2 : TextileParser → Slice → Except Stop TextileParser) (l : Slice)
    (hrec : ∀ q s, s.len < l.len → rec q s = rec2 q s) :
    ∀ (k : Nat) (p : TextileParser) (i : Nat), i + k ≤ l.len →
      parseInlineLoop tags rec l p i k = parseInlineLoop tags rec2 l p i k := by
  intro k
  induction k with
  | zero => intro p i _; rfl
  | succ k ih =>
    intro p i h
    simp only [parseInlineLoop]
    rw [parseInlineCase_congr tags rec rec2 p l i hrec (by omega)]
    cases parseInlineCase tags rec2 p l i with
    | error e => rfl
    | ok r =>
      cases r with
      | inr q => rfl
      | inl q => exact ih q (i + 1) (by omega)

/-- Fuel beyond the length of the slice does not change the result. -/
theorem parseInlineFuel_enough (tags : List Bytes) : ∀ (f g : Nat) (p : TextileParser)
    (l : Slice), l.len < f → l.len < g →
    parseInlineFuel tags f p l = parseInlineFuel tags g p l := by
  intro f
  induction f with
  | zero => intro g p l h; omega
  | succ f ih =>
    intro g p l hf hg
    cases g with
    | zero => omega
    | succ g =>
      simp only [parseInlineFuel]
      exact parseInlineLoop_congr tags _ _ l (fun q s hs => ih g q s (by omega) (by omega))
        l.len p 0 (by omega)

end Mem

/-- C21. The inline scanner terminates on every input. For every parser state and
every slice `l`: `parseInline` returns; every recursive call it makes is on a slice
strictly shorter than `l` (the loop of `parseInline` gives the same result with any two
functions in the place of the recursive call that agree on the slices shorter than `l`);
and the result is the same for every amount of fuel above the length of `l`, so that
the recursion is well-founded on the length. -/
theorem parseInline_terminates (tags : List Bytes) (p : Mem.TextileParser) (l : Mem.Slice) :
    (∃ q, Mem.parseInline tags p l = .ok q) ∧
    (∀ rec rec2 : Mem.TextileParser → Mem.Slice → Except Stop Mem.TextileParser,
      (∀ q s, s.len < l.len → rec q s = rec2 q s) →
      Mem.parseInlineLoop tags rec l p 0 l.len = Mem.parseInlineLoop tags rec2 l p 0 l.len) ∧
    (∀ fuel, l.len < fuel → Mem.parseInlineFuel tags fuel p l = Mem.parseInline tags p l) := by
  refine ⟨?_, ?_, ?_⟩
  · obtain ⟨q, hq, _⟩ := Mem.parseInline_returns tags p l
    exact ⟨q, hq⟩
  · intro rec rec2 h
    exact Mem.parseInlineLoop_congr tags rec rec2 l h l.len p 0 (by omega)
  · intro fuel h
    exact Mem.parseInlineFuel_enough tags fuel (l.len + 1) p l h (by omega)

/-! ## The stack of tracked raw-HTML tags -/

theorem blockTags_write (p : TextileParser) (s : Bytes) : (write p s).blockTags = p.blockTags :=
  rfl

theorem blockTags_serEscaped (p : TextileParser) (l : Bytes) :
    (serEscaped p l).blockTags = p.blockTags := by
  rw [serEscaped_eq]

theorem blockTags_serAsHtmlCode (p : TextileParser) (l : Bytes) :
    (serAsHtmlCode p l).blockTags = p.blockTags := by
  rw [serAsHtmlCode_eq]

theorem blockTags_serTagStartWithOptClass (p : TextileParser) (tag : Bytes) (c : Option Bytes) :
    (serTagStartWithOptClass p tag c).blockTags = p.blockTags := by
  cases c <;> rfl

theorem blockTags_serTagStartWithOptStyle (p : TextileParser) (tag : Bytes) (c : Option Bytes) :
    (serTagStartWithOptStyle p tag c).blockTags = p.blockTags := by
  cases c <;> rfl

theorem blockTags_serTagEnd (p : TextileParser) (tag : Bytes) :
    (serTagEnd p tag).blockTags = p.blockTags :=
  rfl

theorem blockTags_startNewLine (p : TextileParser) : (startNewLine p).blockTags = p.blockTags := by
  unfold startNewLine
  split
  · split <;> rfl
  · split
    · rfl
    · split <;> rfl

theorem blockTags_closeP (p : TextileParser) : (closeP p).blockTags = p.blockTags := by
  unfold closeP
  split <;> rfl

namespace Mem

theorem closeOlLoop_keeps : ∀ (fuel : Nat) (p : Textiler.TextileParser),
    p.olLevel.toNat < fuel →
    Returns (closeOlLoop fuel p) (fun q => q.blockTags = p.blockTags) := by
  intro fuel
  induction fuel with
  | zero => intro p h; omega
  | succ fuel ih =>
    intro p h
    unfold closeOlLoop
    split
    · rename_i hpos
      refine returns_mono _ _ _ (ih _ ?_) (fun q hq => hq)
      simp only [write]
      omega
    · exact ⟨_, rfl, rfl⟩

theorem closeUlLoop_keeps : ∀ (fuel : Nat) (p : Textiler.TextileParser),
    p.ulLevel.toNat < fuel →
    Returns (closeUlLoop fuel p) (fun q => q.blockTags = p.blockTags) := by
  intro fuel
  induction fuel with
  | zero => intro p h; omega
  | succ fuel ih =>
    intro p h
    unfold closeUlLoop
    split
    · rename_i hpos
      refine returns_mono _ _ _ (ih _ ?_) (fun q hq => hq)
      simp only [write]
      omega
    · exact ⟨_, rfl, rfl⟩

theorem openListLoop_keeps (s : Bytes) : ∀ (fuel : Nat) (n : Int) (p : Textiler.TextileParser),
    n.toNat < fuel → Returns (openListLoop s fuel n p) (fun q => q.blockTags = p.blockTags) := by
  intro fuel
  induction fuel with
  | zero => intro n p h; omega
  | succ fuel ih =>
    intro n p h
    unfold openListLoop
    split
    · exact returns_mono _ _ _ (ih _ _ (by omega)) (fun q hq => hq)
    · exact ⟨_, rfl, rfl⟩

theorem openList_keeps (s : Bytes) (n : Int) (c : Textiler.TextileParser) (g : Prop)
    [Decidable g] :
    Returns (if g then openListLoop s (n.toNat + 1) n c else pure c)
      (fun q => q.blockTags = c.blockTags) := by
  split
  · exact openListLoop_keeps _ _ _ _ (by omega)
  · exact returns_pure _ (fun q : Textiler.TextileParser => q.blockTags = c.blockTags) rfl

theorem serOlStart_keeps (c : Textiler.TextileParser) (level : Int) :
    Returns (serOlStart c level) (fun q => q.blockTags = c.blockTags) := by
  unfold serOlStart
  refine returns_bind _ _ _ _ (openList_keeps _ _ _ _) ?_
  intro r hr
  refine returns_pure _ (fun q : Textiler.TextileParser => q.blockTags = c.blockTags) ?_
  show r.blockTags = c.blockTags
  rw [hr]
  split <;> rfl

theorem serUlStart_keeps (c : Textiler.TextileParser) (level : Int) :
    Returns (serUlStart c level) (fun q => q.blockTags = c.blockTags) := by
  unfold serUlStart
  refine returns_bind _ _ _ _ (openList_keeps _ _ _ _) ?_
  intro r hr
  refine returns_pure _ (fun q : Textiler.TextileParser => q.blockTags = c.blockTags) ?_
  show r.blockTags = c.blockTags
  rw [hr]
  split <;> rfl

theorem serEscapedInContext_keeps (p : Textiler.TextileParser) (l : Bytes) :
    Returns (serEscapedInContext p l) (fun q => q.blockTags = p.blockTags) := by
  unfold serEscapedInContext inHtmlCode inHtmlPre
  refine returns_bind _ _ _ _ (lastBlockTagIs_returns p _) ?_
  intro r _
  split
  · exact returns_pure _ _ (blockTags_serAsHtmlCode p l)
  · refine returns_bind _ _ _ _ (lastBlockTagIs_returns p _) ?_
    intro r2 _
    split
    · exact returns_pure _ _ (blockTags_serAsHtmlCode p l)
    · exact returns_pure _ _ (blockTags_serEscaped p l)

theorem serP_keeps (p : TextileParser) (s : Slice) (attrs : Option AttributesOpt) :
    Returns (serP p s attrs) (fun q => q.core.blockTags = p.core.blockTags) := by
  unfold serP
  refine returns_bind _ _ _ _ (serAttributesOpt_returns p.mem attrs) ?_
  intro a _
  exact returns_pure _ _ rfl

theorem serBlockQuote_keeps (p : TextileParser) (s : Slice) :
    Returns (serBlockQuote p s) (fun q => q.core.blockTags = p.core.blockTags) := by
  unfold serBlockQuote
  refine returns_bind _ _ _ _ (serP_keeps _ s none) ?_
  intro a ha
  exact returns_pure _ _ ha

theorem serH_keeps (p : TextileParser) (rest : Slice) (n : Int)
    (attrs : Option AttributesOpt) :
    Returns (serH p rest n attrs) (fun q => q.core.blockTags = p.core.blockTags) := by
  unfold serH
  refine returns_bind _ _ _ _ (serAttributesOpt_returns p.mem attrs) ?_
  intro a _
  exact returns_pure _ _ rfl

theorem serHtmlRaw_keeps (rec : TextileParser → Slice → Except Stop TextileParser) (n : Nat)
    (hrec : ∀ p s, s.len < n → Returns (rec p s) (fun q => q.core.blockTags = p.core.blockTags))
    (p : TextileParser) (before : Option Slice) (htmlRaw rest : Slice) (h : rest.len < n) :
    Returns (serHtmlRaw rec p before htmlRaw rest)
      (fun q => q.core.blockTags = p.core.blockTags) := by
  unfold serHtmlRaw
  refine returns_mono _ _ _ (hrec _ _ h) ?_
  intro q hq
  rw [hq]
  cases before <;> simp [blockTags_write, blockTags_serEscaped]

theorem serTag_keeps (rec : TextileParser → Slice → Except Stop TextileParser) (n : Nat)
    (hrec : ∀ p s, s.len < n → Returns (rec p s) (fun q => q.core.blockTags = p.core.blockTags))
    (p : TextileParser) (tag : Bytes) (before inside rest : Slice)
    (h1 : inside.len < n) (h2 : rest.len < n) :
    Returns (serTag rec p tag before inside rest)
      (fun q => q.core.blockTags = p.core.blockTags) := by
  unfold serTag
  dsimp only
  refine returns_bind _ _ _ _ (hrec _ _ h1) ?_
  intro q hq
  refine returns_mono _ _ _ (hrec _ _ h2) ?_
  intro q2 hq2
  rw [hq2]
  simp only [blockTags_serTagEnd, hq, blockTags_serTagStartWithOptClass, blockTags_serEscaped]

theorem serTagWithOptClass_keeps (rec : TextileParser → Slice → Except Stop TextileParser)
    (n : Nat)
    (hrec : ∀ p s, s.len < n → Returns (rec p s) (fun q => q.core.blockTags = p.core.blockTags))
    (p : TextileParser) (tag : Bytes) (before inside : Slice) (cls : Option Slice) (rest : Slice)
    (h1 : inside.len < n) (h2 : rest.len < n) :
    Returns (serTagWithOptClass rec p tag before inside cls rest)
      (fun q => q.core.blockTags = p.core.blockTags) := by
  unfold serTagWithOptClass
  dsimp only
  refine returns_bind _ _ _ _ (hrec _ _ h1) ?_
  intro q hq
  refine returns_mono _ _ _ (hrec _ _ h2) ?_
  intro q2 hq2
  rw [hq2]
  simp only [blockTags_serTagEnd, hq, blockTags_serTagStartWithOptClass, blockTags_write]

theorem serTagWithOptStyle_keeps (rec : TextileParser → Slice → Except Stop TextileParser)
    (n : Nat)
    (hrec : ∀ p s, s.len < n → Returns (rec p s) (fun q => q.core.blockTags = p.core.blockTags))
    (p : TextileParser) (tag : Bytes) (before inside : Slice) (style : Option Data) (rest : Slice)
    (h1 : inside.len < n) (h2 : rest.len < n) :
    Returns (serTagWithOptStyle rec p tag before inside style rest)
      (fun q => q.core.blockTags = p.core.blockTags) := by
  unfold serTagWithOptStyle
  dsimp only
  refine returns_bind _ _ _ _ (hrec _ _ h1) ?_
  intro q hq
  refine returns_mono _ _ _ (hrec _ _ h2) ?_
  intro q2 hq2
  rw [hq2]
  simp only [blockTags_serTagEnd, hq, blockTags_serTagStartWithOptStyle, blockTags_serEscaped]

theorem serSpan_keeps (rec : TextileParser → Slice → Except Stop TextileParser)
    (n : Nat)
    (hrec : ∀ p s, s.len < n → Returns (rec p s) (fun q => q.core.blockTags = p.core.blockTags))
    (p : TextileParser) (before inside : Slice) (attrs : Option AttributesOpt) (rest : Slice)
    (h1 : inside.len < n) (h2 : rest.len < n) :
    Returns (serSpan rec p before inside attrs rest)
      (fun q => q.core.blockTags = p.core.blockTags) := by
  unfold serSpan
  refine returns_bind _ _ _ _ (serAttributesOpt_returns p.mem attrs) ?_
  intro a _
  dsimp only
  refine returns_bind _ _ _ _ (hrec _ _ h1) ?_
  intro q hq
  refine returns_mono _ _ _ (hrec _ _ h2) ?_
  intro q2 hq2
  rw [hq2]
  simp only [blockTags_write, hq, blockTags_serEscaped]

theorem serUrl_keeps (rec : TextileParser → Slice → Except Stop TextileParser)
    (n : Nat)
    (hrec : ∀ p s, s.len < n → Returns (rec p s) (fun q => q.core.blockTags = p.core.blockTags))
    (p : TextileParser) (before title url rest : Slice) (h : rest.len < n) :
    Returns (serUrl rec p before title url rest)
      (fun q => q.core.blockTags = p.core.blockTags) := by
  unfold serUrl
  refine returns_mono _ _ _ (hrec _ _ h) ?_
  intro q hq
  rw [hq]
  simp only [blockTags_write, blockTags_serEscaped]

theorem serCode_keeps (rec : TextileParser → Slice → Except Stop TextileParser)
    (n : Nat)
    (hrec : ∀ p s, s.len < n → Returns (rec p s) (fun q => q.core.blockTags = p.core.blockTags))
    (p : TextileParser) (before inside rest : Slice) (h : rest.len < n) :
    Returns (serCode rec p before inside rest)
      (fun q => q.core.blockTags = p.core.blockTags) := by
  unfold serCode
  refine returns_mono _ _ _ (hrec _ _ h) ?_
  intro q hq
  rw [hq]
  simp only [blockTags_write, blockTags_serEscaped]

theorem serImg_keeps (rec : TextileParser → Slice → Except Stop TextileParser)
    (n : Nat)
    (hrec : ∀ p s, s.len < n → Returns (rec p s) (fun q => q.core.blockTags = p.core.blockTags))
    (p : TextileParser) (before imgSrc alt : Slice) (style : Nat) (url : Option Slice)
    (rest : Slice) (h : rest.len < n) :
    Returns (serImg rec p before imgSrc alt style url rest)
      (fun q => q.core.blockTags = p.core.blockTags) := by
  unfold serImg
  refine returns_mono _ _ _ (hrec _ _ h) ?_
  intro q hq
  rw [hq]
  dsimp only
  split <;> split <;> split <;> simp only [blockTags_write, blockTags_serEscaped]

end Mem

namespace Mem

theorem parseInlineTag_keeps (rec : TextileParser → Slice → Except Stop TextileParser)
    (p : TextileParser) (l : Slice) (i : Nat) (tag : Bytes)
    (sub : Bytes → Slice → Except Stop (Option (Slice × Slice)))
    (hrec : ∀ p s, s.len < l.len →
      Returns (rec p s) (fun q => q.core.blockTags = p.core.blockTags))
    (hsub : ∀ mem s, Returns (sub mem s)
      (fun r => ∀ rest inside, r = some (rest, inside) →
        rest.len < s.len ∧ inside.len < s.len))
    (hi : i < l.len) :
    Returns (parseInlineTag rec p l i tag sub)
      (fun r => ∀ q, r = some q → q.core.blockTags = p.core.blockTags) := by
  unfold parseInlineTag
  refine returns_bind _ _ _ _ (sliceFrom_returns l i (by omega)) ?_
  intro li hli
  refine returns_bind _ _ _ _ (hsub p.mem li) ?_
  intro r hr
  cases r with
  | none => exact returns_pure _ _ (by simp)
  | some v =>
    obtain ⟨rest, inside⟩ := v
    have := hr rest inside rfl
    refine returns_bind _ _ _ _ (sliceTo_returns l i (by omega)) ?_
    intro before _
    refine returns_bind _ _ _ _
      (serTag_keeps rec l.len hrec p tag before inside rest (by omega) (by omega)) ?_
    intro q hq
    refine returns_pure _ _ ?_
    intro q2 h2
    simp at h2
    subst h2
    exact hq

theorem parseInlineCase_keeps (tags : List Bytes)
    (rec : TextileParser → Slice → Except Stop TextileParser)
    (p : TextileParser) (l : Slice) (i : Nat)
    (hrec : ∀ p s, s.len < l.len →
      Returns (rec p s) (fun q => q.core.blockTags = p.core.blockTags))
    (hi : i < l.len) :
    Returns (parseInlineCase tags rec p l i)
      (fun r => (Sum.elim id id r).core.blockTags = p.core.blockTags) := by
  have htag : ∀ (tag : Bytes) (sub : Bytes → Slice → Except Stop (Option (Slice × Slice))),
      (∀ mem s, Returns (sub mem s)
        (fun r => ∀ rest inside, r = some (rest, inside) →
          rest.len < s.len ∧ inside.len < s.len)) →
      Returns (do
        match ← parseInlineTag rec p l i tag sub with
        | some p => pure (Sum.inr p)
        | none => pure (Sum.inl p) : Except Stop (TextileParser ⊕ TextileParser))
        (fun r => (Sum.elim id id r).core.blockTags = p.core.blockTags) := by
    intro tag sub hsub
    refine returns_bind _ _ _ _ (parseInlineTag_keeps rec p l i tag sub hrec hsub hi) ?_
    intro r hr
    cases r with
    | some q => exact returns_pure _ _ (hr q rfl)
    | none => exact returns_pure _ _ rfl
  unfold parseInlineCase
  refine returns_bind _ _ _ _ (index_returns p.mem l i hi) ?_
  intro b _
  by_cases h95 : b = 95
  · rw [if_pos h95]
    refine returns_bind _ _ _ _
      (parseInlineTag_keeps rec p l i _ parseItalic hrec (fun m s => is2Byte_returns m s 95) hi) ?_
    intro r hr
    cases r with
    | some q => exact returns_pure _ _ (hr q rfl)
    | none =>
      refine returns_bind _ _ _ _ (sliceFrom_returns l i (by omega)) ?_
      intro li hli
      refine returns_bind _ _ _ _ (parseEmWithOptClass_returns p.mem li) ?_
      intro r2 hr2
      cases r2 with
      | none => exact returns_pure _ _ rfl
      | some v =>
        obtain ⟨rest, inside, cls⟩ := v
        have := hr2 rest inside cls rfl
        refine returns_bind _ _ _ _ (sliceTo_returns l i (by omega)) ?_
        intro before _
        refine returns_bind _ _ _ _
          (serTagWithOptClass_keeps rec l.len hrec p _ before inside cls rest
            (by omega) (by omega)) ?_
        intro q hq
        exact returns_pure _ _ hq
  rw [if_neg h95]
  by_cases h42 : b = 42
  · rw [if_pos h42]
    refine returns_bind _ _ _ _
      (parseInlineTag_keeps rec p l i _ parseBold hrec (fun m s => is2Byte_returns m s 42) hi) ?_
    intro r hr
    cases r with
    | some q => exact returns_pure _ _ (hr q rfl)
    | none =>
      refine returns_bind _ _ _ _ (sliceFrom_returns l i (by omega)) ?_
      intro li hli
      refine returns_bind _ _ _ _ (parseStrongWithOptStyle_returns p.mem li) ?_
      intro r2 hr2
      obtain ⟨m2, r2⟩ := r2
      cases r2 with
      | none => exact returns_pure _ _ rfl
      | some v =>
        obtain ⟨rest, inside, style⟩ := v
        have := hr2 rest inside style rfl
        refine returns_bind _ _ _ _ (sliceTo_returns l i (by omega)) ?_
        intro before _
        refine returns_bind _ _ _ _
          (serTagWithOptStyle_keeps rec l.len hrec _ _ before inside style rest
            (by omega) (by omega)) ?_
        intro q hq
        exact returns_pure _ _ hq
  rw [if_neg h42]
  by_cases h34 : b = 34
  · rw [if_pos h34]
    refine returns_bind _ _ _ _ (sliceFrom_returns l i (by omega)) ?_
    intro li hli
    refine returns_bind _ _ _ _ (parseUrlOrRefName_returns p.mem li) ?_
    intro r2 hr2
    cases r2 with
    | none => exact returns_pure _ _ rfl
    | some v =>
      obtain ⟨rest, title, u⟩ := v
      have := hr2 rest title u rfl
      refine returns_bind _ _ _ _ (sliceTo_returns l i (by omega)) ?_
      intro before _
      refine returns_bind _ _ _ _
        (serUrl_keeps rec l.len hrec p before title _ rest (by omega)) ?_
      intro q hq
      exact returns_pure _ _ hq
  rw [if_neg h34]
  by_cases h33 : b = 33
  · rw [if_pos h33]
    refine returns_bind _ _ _ _ (sliceFrom_returns l i (by omega)) ?_
    intro li hli
    refine returns_bind _ _ _ _ (parseImg_returns p.mem li) ?_
    intro r2 hr2
    cases r2 with
    | none => exact returns_pure _ _ rfl
    | some v =>
      obtain ⟨rest, url, imgSrc, alt, style⟩ := v
      have := hr2 rest url imgSrc alt style rfl
      refine returns_bind _ _ _ _ (sliceTo_returns l i (by omega)) ?_
      intro before _
      refine returns_bind _ _ _ _
        (serImg_keeps rec l.len hrec p before imgSrc alt style url rest (by omega)) ?_
      intro q hq
      exact returns_pure _ _ hq
  rw [if_neg h33]
  by_cases h64 : b = 64
  · rw [if_pos h64]
    refine returns_bind _ _ _ _ (sliceFrom_returns l i (by omega)) ?_
    intro li hli
    refine returns_bind _ _ _ _ (extractInside_shorter p.mem li 64 64) ?_
    intro r2 hr2
    cases r2 with
    | none => exact returns_pure _ _ rfl
    | some v =>
      obtain ⟨rest, inside⟩ := v
      have := hr2 rest inside rfl
      refine returns_bind _ _ _ _ (sliceTo_returns l i (by omega)) ?_
      intro before _
      refine returns_bind _ _ _ _
        (serCode_keeps rec l.len hrec p before inside rest (by omega)) ?_
      intro q hq
      exact returns_pure _ _ hq
  rw [if_neg h64]
  by_cases h37 : b = 37
  · rw [if_pos h37]
    refine returns_bind _ _ _ _ (sliceFrom_returns l i (by omega)) ?_
    intro li hli
    refine returns_bind _ _ _ _ (parseSpan_returns p.mem li) ?_
    intro r2 hr2
    obtain ⟨m2, r2⟩ := r2
    cases r2 with
    | none => exact returns_pure _ _ rfl
    | some v =>
      obtain ⟨rest, inside, attrs⟩ := v
      have := hr2 rest inside attrs rfl
      refine returns_bind _ _ _ _ (sliceTo_returns l i (by omega)) ?_
      intro before _
      refine returns_bind _ _ _ _
        (serSpan_keeps rec l.len hrec _ before inside _ rest (by omega) (by omega)) ?_
      intro q hq
      exact returns_pure _ _ hq
  rw [if_neg h37]
  by_cases h60 : b = 60
  · rw [if_pos h60]
    refine returns_bind _ _ _ _ (sliceFrom_returns l i (by omega)) ?_
    intro li hli
    refine returns_bind _ _ _ _ (parseHtml_returns tags p.mem li) ?_
    intro r2 hr2
    cases r2 with
    | none => exact returns_pure _ _ rfl
    | some v =>
      obtain ⟨rest, html, tag, start⟩ := v
      have := hr2 rest html tag start rfl
      refine returns_bind _ _ _ _ (sliceTo_returns l i (by omega)) ?_
      intro before hb
      refine returns_bind _ _ _ _ (hrec p before (by omega)) ?_
      intro q hq
      refine returns_bind _ _ _ _ (serEscapedInContext_keeps _ _) ?_
      intro c hc
      refine returns_bind _ _ _ _ (hrec _ rest (by omega)) ?_
      intro q2 hq2
      refine returns_pure _ _ ?_
      show q2.core.blockTags = p.core.blockTags
      rw [hq2]
      show c.blockTags = p.core.blockTags
      rw [hc, hq]
  rw [if_neg h60]
  by_cases h63 : b = 63
  · rw [if_pos h63]
    exact htag _ parseCite (fun m s => is2Byte_returns m s 63)
  rw [if_neg h63]
  by_cases h45 : b = 45
  · rw [if_pos h45]
    exact htag _ parseDel (fun m s => extractInside_shorter m s 45 45)
  rw [if_neg h45]
  by_cases h43 : b = 43
  · rw [if_pos h43]
    exact htag _ parseIns (fun m s => extractInside_shorter m s 43 43)
  rw [if_neg h43]
  by_cases h94 : b = 94
  · rw [if_pos h94]
    exact htag _ parseSup (fun m s => extractInside_shorter m s 94 94)
  rw [if_neg h94]
  by_cases h126 : b = 126
  · rw [if_pos h126]
    exact htag _ parseSub (fun m s => extractInside_shorter m s 126 126)
  rw [if_neg h126]
  exact returns_pure _ _ rfl

theorem parseInlineLoop_keeps (tags : List Bytes)
    (rec : TextileParser → Slice → Except Stop TextileParser) (l : Slice)
    (hrec : ∀ p s, s.len < l.len →
      Returns (rec p s) (fun q => q.core.blockTags = p.core.blockTags)) :
    ∀ (k : Nat) (p : TextileParser) (i : Nat), i + k ≤ l.len →
      Returns (parseInlineLoop tags rec l p i k)
        (fun q => q.core.blockTags = p.core.blockTags) := by
  intro k
  induction k with
  | zero =>
    intro p i _
    exact returns_pure _ _ (blockTags_serEscaped _ _)
  | succ k ih =>
    intro p i h
    obtain ⟨r, hr, hp⟩ := parseInlineCase_keeps tags rec p l i hrec (by omega)
    simp only [parseInlineLoop, hr]
    cases r with
    | inr q => exact returns_pure _ _ hp
    | inl q =>
      refine returns_mono _ _ _ (ih q (i + 1) (by omega)) ?_
      intro q2 hq2
      rw [hq2]
      exact hp

theorem parseInlineFuel_keeps (tags : List Bytes) : ∀ (fuel : Nat) (p : TextileParser)
    (l : Slice), l.len < fuel →
    Returns (parseInlineFuel tags fuel p l) (fun q => q.core.blockTags = p.core.blockTags) := by
  intro fuel
  induction fuel with
  | zero => intro p l h; omega
  | succ fuel ih =>
    intro p l h
    simp only [parseInlineFuel]
    exact parseInlineLoop_keeps tags _ l (fun q s hs => ih q s (by omega)) l.len p 0 (by omega)

theorem parseInline_keeps (tags : List Bytes) (p : TextileParser) (l : Slice) :
    Returns (parseInline tags p l) (fun q => q.core.blockTags = p.core.blockTags) :=
  parseInlineFuel_keeps tags (l.len + 1) p l (by omega)

theorem serOl_keeps (tags : List Bytes) (p : TextileParser) (l : Slice) (level : Int) :
    Returns (serOl tags p l level) (fun q => q.core.blockTags = p.core.blockTags) := by
  unfold serOl
  refine returns_bind _ _ _ _ (serOlStart_keeps p.core level) ?_
  intro c hc
  refine returns_mono _ _ _ (parseInline_keeps tags _ l) ?_
  intro q hq
  rw [hq]
  exact hc

theorem serUl_keeps (tags : List Bytes) (p : TextileParser) (l : Slice) (level : Int) :
    Returns (serUl tags p l level) (fun q => q.core.blockTags = p.core.blockTags) := by
  unfold serUl
  refine returns_bind _ _ _ _ (serUlStart_keeps p.core level) ?_
  intro c hc
  refine returns_mono _ _ _ (parseInline_keeps tags _ l) ?_
  intro q hq
  rw [hq]
  exact hc

theorem parseBlockDefault_keeps (tags : List Bytes) (p : TextileParser) (l : Slice) :
    Returns (parseBlockDefault tags p l) (fun q => q.core.blockTags = p.core.blockTags) := by
  unfold parseBlockDefault
  refine returns_bind _ _ _ _ (closeOlLoop_keeps _ p.core (by omega)) ?_
  intro c hc
  refine returns_bind _ _ _ _ (closeUlLoop_keeps _ c (by omega)) ?_
  intro c2 hc2
  unfold inHtmlCode
  refine returns_bind _ _ _ _ (lastBlockTagIs_returns c2 _) ?_
  intro r _
  split
  · refine returns_pure _ _ ?_
    show (serAsHtmlCode (startNewLine c2) _).blockTags = p.core.blockTags
    rw [blockTags_serAsHtmlCode, blockTags_startNewLine, hc2, hc]
  · refine returns_mono _ _ _ (parseInline_keeps tags _ l) ?_
    intro q hq
    rw [hq]
    show (startNewLine c2).blockTags = p.core.blockTags
    rw [blockTags_startNewLine, hc2, hc]

end Mem

theorem tagSkipPre_iff (tag : Bytes) :
    tagSkipPre tag = true ↔ tag = ascii "pre" ∨ tag = ascii "code" := by
  unfold tagSkipPre
  by_cases h1 : tag = ascii "pre"
  · simp [h1]
  · by_cases h2 : tag = ascii "code"
    · simp [h2]
    · simp [h1, h2]

theorem pushBlockTag_other (p : TextileParser) (tag : Bytes)
    (h1 : tag ≠ ascii "pre") (h2 : tag ≠ ascii "code") : pushBlockTag p tag = p := by
  have h : ¬ tagSkipPre tag = true := by
    rw [tagSkipPre_iff]
    exact fun h => h.elim h1 h2
  unfold pushBlockTag
  rw [if_neg h]

theorem pushBlockTag_tracked (p : TextileParser) (tag : Bytes)
    (h : tag = ascii "pre" ∨ tag = ascii "code") :
    pushBlockTag p tag = { p with blockTags := p.blockTags ++ [tag] } := by
  unfold pushBlockTag
  rw [if_pos ((tagSkipPre_iff tag).2 h)]

theorem pushBlockTag_only (p : TextileParser) (tag : Bytes)
    (h : ∀ t ∈ p.blockTags, t = ascii "pre" ∨ t = ascii "code") :
    ∀ t ∈ (pushBlockTag p tag).blockTags, t = ascii "pre" ∨ t = ascii "code" := by
  by_cases hs : tag = ascii "pre" ∨ tag = ascii "code"
  · rw [pushBlockTag_tracked p tag hs]
    intro t ht
    rcases List.mem_append.1 ht with h1 | h1
    · exact h t h1
    · rw [List.mem_singleton.1 h1]
      exact hs
  · rw [pushBlockTag_other p tag (fun h1 => hs (Or.inl h1)) (fun h2 => hs (Or.inr h2))]
    exact h

theorem lastBlockTagIs_eq (p : TextileParser) (tag : Bytes) :
    lastBlockTagIs p tag = decide (p.blockTags.getLast? = some tag) := by
  unfold lastBlockTagIs
  split
  · rename_i h
    have : p.blockTags = [] := List.length_eq_zero.1 h
    simp [this]
  · rename_i h
    have h1 : p.blockTags.length - 1 < p.blockTags.length := by omega
    have hne : p.blockTags ≠ [] := fun h2 => h (by rw [h2]; rfl)
    rw [List.getLast?_eq_getLast _ hne, List.getLast_eq_getElem]
    simp [List.getD_eq_getElem?_getD, List.getElem?_eq_getElem h1]

theorem popBlockTag_eq (p : TextileParser) (tag : Bytes) :
    popBlockTag p tag =
      if (tag = ascii "pre" ∨ tag = ascii "code") ∧ p.blockTags.getLast? = some tag then
        ({ p with blockTags := p.blockTags.dropLast }, true)
      else (p, false) := by
  unfold popBlockTag
  rw [lastBlockTagIs_eq, ← List.dropLast_eq_take]
  by_cases hs : tag = ascii "pre" ∨ tag = ascii "code"
  · have h1 : tagSkipPre tag = true := (tagSkipPre_iff tag).2 hs
    by_cases h2 : p.blockTags.getLast? = some tag
    · simp [h1, h2, hs]
    · simp [h1, h2]
  · have h1 : tagSkipPre tag = false := by
      cases h : tagSkipPre tag
      · rfl
      · exact absurd ((tagSkipPre_iff tag).1 h) hs
    simp [h1, hs]

theorem popBlockTag_only (p : TextileParser) (tag : Bytes)
    (h : ∀ t ∈ p.blockTags, t = ascii "pre" ∨ t = ascii "code") :
    ∀ t ∈ (popBlockTag p tag).1.blockTags, t = ascii "pre" ∨ t = ascii "code" := by
  rw [popBlockTag_eq]
  split
  · intro t ht
    exact h t (List.mem_of_mem_dropLast ht)
  · exact h

namespace Mem

theorem lastBlockTagIs_value (p : Textiler.TextileParser) (tag : Bytes) :
    lastBlockTagIs p tag = .ok (Textiler.lastBlockTagIs p tag) := by
  unfold lastBlockTagIs Textiler.lastBlockTagIs
  split
  · rfl
  · rename_i h
    have h1 : p.blockTags.length - 1 < p.blockTags.length := by omega
    rw [List.getElem?_eq_getElem h1]
    simp [List.getD_eq_getElem?_getD, List.getElem?_eq_getElem h1]
    rfl

theorem popBlockTag_value (p : Textiler.TextileParser) (tag : Bytes) :
    popBlockTag p tag = .ok (Textiler.popBlockTag p tag) := by
  unfold popBlockTag Textiler.popBlockTag
  rw [lastBlockTagIs_value]
  cases h1 : tagSkipPre tag
  · rfl
  · cases h2 : Textiler.lastBlockTagIs p tag
    · rfl
    · have h3 : ¬ p.blockTags.length < 1 := by
        intro h3
        unfold Textiler.lastBlockTagIs at h2
        rw [if_pos (by omega)] at h2
        exact absurd h2 (by decide)
      simp [h3]
      rfl

theorem keeps_only (x : Except Stop TextileParser) (bt : List Bytes)
    (h : ∀ t ∈ bt, t = ascii "pre" ∨ t = ascii "code")
    (hx : Returns x (fun q => q.core.blockTags = bt)) :
    Returns x (fun q => ∀ t ∈ q.core.blockTags, t = ascii "pre" ∨ t = ascii "code") := by
  refine returns_mono _ _ _ hx ?_
  intro q hq
  rw [hq]
  exact h

theorem parseBlock_only (tags : List Bytes) (p : TextileParser) (l : Slice)
    (h : ∀ t ∈ p.core.blockTags, t = ascii "pre" ∨ t = ascii "code") :
    Returns (parseBlock tags p l)
      (fun q => ∀ t ∈ q.core.blockTags, t = ascii "pre" ∨ t = ascii "code") := by
  unfold parseBlock
  by_cases h0 : l.len = 0
  · rw [if_pos h0]
    refine returns_pure _ _ ?_
    show ∀ t ∈ (closeP p.core).blockTags, _
    rw [blockTags_closeP]
    exact h
  rw [if_neg h0]
  refine returns_bind _ _ _ _ (index_returns _ l 0 (by omega)) ?_
  intro b _
  by_cases h104 : b = 104
  · rw [if_pos h104]
    refine returns_bind _ _ _ _ (parseH_returns _ l) ?_
    intro r _
    obtain ⟨mem, rest, n, attrs⟩ := r
    simp only
    split
    · exact keeps_only _ _ h (serH_keeps _ rest n attrs)
    · exact keeps_only _ _ h (parseBlockDefault_keeps tags _ l)
  rw [if_neg h104]
  by_cases h60 : b = 60
  · rw [if_pos h60]
    refine returns_bind _ _ _ _ (parseHtml_returns tags _ l) ?_
    intro r hr
    cases r with
    | none => exact keeps_only _ _ h (parseBlockDefault_keeps tags _ l)
    | some v =>
      obtain ⟨rest, html, tag, startTag⟩ := v
      have := hr rest html tag startTag rfl
      refine returns_bind _ _ _ _
        (serHtmlRaw_keeps (parseInline tags) l.len
          (fun q s _ => parseInline_keeps tags q s) _ none html rest this) ?_
      intro q hq
      have hq2 : ∀ t ∈ q.core.blockTags, t = ascii "pre" ∨ t = ascii "code" := by
        rw [hq]
        show ∀ t ∈ (startNewLine _).blockTags, _
        rw [blockTags_startNewLine]
        cases startTag
        · exact h
        · exact pushBlockTag_only _ _ h
      split
      · rw [popBlockTag_value]
        refine returns_pure _ _ ?_
        exact popBlockTag_only _ _ hq2
      · exact returns_pure _ _ hq2
  rw [if_neg h60]
  by_cases h110 : b = 110
  · rw [if_pos h110]
    refine returns_bind _ _ _ _ (startsWith_returns _ l _) ?_
    intro r _
    cases r with
    | none => exact keeps_only _ _ h (parseBlockDefault_keeps tags _ l)
    | some rest => exact returns_pure _ _ h
  rw [if_neg h110]
  by_cases h112 : b = 112
  · rw [if_pos h112]
    refine returns_bind _ _ _ _ (parseP_returns _ l) ?_
    intro r _
    obtain ⟨mem, r⟩ := r
    cases r with
    | none => exact keeps_only _ _ h (parseBlockDefault_keeps tags _ l)
    | some v =>
      obtain ⟨rest, attrs⟩ := v
      exact keeps_only _ _ h (serP_keeps _ rest _)
  rw [if_neg h112]
  by_cases h98 : b = 98
  · rw [if_pos h98]
    refine returns_bind _ _ _ _ (startsWith_returns _ l _) ?_
    intro r _
    cases r with
    | none => exact keeps_only _ _ h (parseBlockDefault_keeps tags _ l)
    | some rest => exact keeps_only _ _ h (serBlockQuote_keeps _ rest)
  rw [if_neg h98]
  by_cases h35 : b = 35
  · rw [if_pos h35]
    refine returns_bind _ _ _ _ (parseList_returns 35 _ l) ?_
    intro r _
    cases r with
    | none => exact keeps_only _ _ h (parseBlockDefault_keeps tags _ l)
    | some v =>
      obtain ⟨rest, level⟩ := v
      exact keeps_only _ _ h (serOl_keeps tags _ rest _)
  rw [if_neg h35]
  by_cases h42 : b = 42
  · rw [if_pos h42]
    refine returns_bind _ _ _ _ (parseList_returns 42 _ l) ?_
    intro r _
    cases r with
    | none => exact keeps_only _ _ h (parseBlockDefault_keeps tags _ l)
    | some v =>
      obtain ⟨rest, level⟩ := v
      exact keeps_only _ _ h (serUl_keeps tags _ rest _)
  rw [if_neg h42]
  exact keeps_only _ _ h (parseBlockDefault_keeps tags _ l)

theorem parseBlocks_only (tags : List Bytes) : ∀ (lines : List Slice) (p : TextileParser),
    (∀ t ∈ p.core.blockTags, t = ascii "pre" ∨ t = ascii "code") →
    Returns (parseBlocks tags p lines)
      (fun q => ∀ t ∈ q.core.blockTags, t = ascii "pre" ∨ t = ascii "code") := by
  intro lines
  induction lines with
  | nil => intro p h; exact returns_pure _ _ h
  | cons l ls ih =>
    intro p h
    obtain ⟨q, hq, hq2⟩ := parseBlock_only tags p l h
    simp only [parseBlocks, hq]
    exact ih q hq2

end Mem

/-- The stack in use: over the backing array `<pre><div></pre>` cut into its three tags,
`<pre>` is pushed, `<div>` is not, and `</pre>` pops. -/
theorem parseBlocks_pre_div_pre :
    (Mem.parseBlocks [ascii "pre", ascii "div"]
      { mem := ascii "<pre><div></pre>", refs := [], core := NewTextileParser { flags := 0 } }
      [{ off := 0, len := 5 }]).map (fun q => q.core.blockTags) = .ok [ascii "pre"] ∧
    (Mem.parseBlocks [ascii "pre", ascii "div"]
      { mem := ascii "<pre><div></pre>", refs := [], core := NewTextileParser { flags := 0 } }
      [{ off := 0, len := 5 }, { off := 5, len := 5 }]).map (fun q => q.core.blockTags)
        = .ok [ascii "pre"] ∧
    (Mem.parseBlocks [ascii "pre", ascii "div"]
      { mem := ascii "<pre><div></pre>", refs := [], core := NewTextileParser { flags := 0 } }
      [{ off := 0, len := 5 }, { off := 5, len := 5 }, { off := 10, len := 6 }]).map
        (fun q => q.core.blockTags) = .ok [] := by
  refine ⟨by decide, by decide, by decide⟩

/-- C26. The stack of tracked raw HTML tags holds only `pre` and `code`: from a fresh parser
(any renderer, any table of references, any backing array), running `parseBlock` over any
sequence of lines returns a parser whose `blockTags` are all `pre` or `code`. `pushBlockTag`
with any other tag leaves the parser unchanged and with `pre` or `code` appends the tag;
`popBlockTag` removes the top element exactly when the tag is `pre` or `code` and equals the
top element, and leaves the parser unchanged otherwise; the bounds-checked `popBlockTag`
computes the same result. -/
theorem blockTags_only_pre_code (tags : List Bytes) (mem : Bytes)
    (refs : List (Bytes × Mem.UrlRef)) (r : TextileRenderer) (lines : List Mem.Slice) :
    (∃ q, Mem.parseBlocks tags { mem := mem, refs := refs, core := NewTextileParser r } lines
        = .ok q ∧
      ∀ t ∈ q.core.blockTags, t = ascii "pre" ∨ t = ascii "code") ∧
    (∀ (p : TextileParser) (tag : Bytes), tag ≠ ascii "pre" → tag ≠ ascii "code" →
      pushBlockTag p tag = p) ∧
    (∀ (p : TextileParser) (tag : Bytes), tag = ascii "pre" ∨ tag = ascii "code" →
      pushBlockTag p tag = { p with blockTags := p.blockTags ++ [tag] }) ∧
    (∀ (p : TextileParser) (tag : Bytes),
      popBlockTag p tag =
        if (tag = ascii "pre" ∨ tag = ascii "code") ∧ p.blockTags.getLast? = some tag then
          ({ p with blockTags := p.blockTags.dropLast }, true)
        else (p, false)) ∧
    (∀ (p : TextileParser) (tag : Bytes),
      Mem.popBlockTag p tag = .ok (popBlockTag p tag)) ∧
    (∀ (p : Mem.TextileParser) (l : Mem.Slice),
      (∀ t ∈ p.core.blockTags, t = ascii "pre" ∨ t = ascii "code") →
      ∃ q, Mem.parseBlock tags p l = .ok q ∧
        ∀ t ∈ q.core.blockTags, t = ascii "pre" ∨ t = ascii "code") :=
  ⟨Mem.parseBlocks_only tags lines _ (fun t ht => absurd ht (List.not_mem_nil t)),
   pushBlockTag_other, pushBlockTag_tracked, popBlockTag_eq, Mem.popBlockTag_value,
   fun p l h => Mem.parseBlock_only tags p l h⟩

/-! ## `prettyPrintStyle`: the two parts of the claim that hold -/

theorem prettyPrintStyleLoop_regular (res : Bytes) (b : Nat) (t : Bytes) :
    prettyPrintStyleLoop res 0 (b :: t) =
      prettyPrintStyleLoop (res ++ [b]) (if b = 59 then 1 else 0) t := by
  by_cases hb : b = 59
  · simp [prettyPrintStyleLoop, hb]
  · simp [prettyPrintStyleLoop, hb]

theorem prettyPrintStyleLoop_after_space (res : Bytes) (t : Bytes) :
    prettyPrintStyleLoop res 1 (32 :: t) = prettyPrintStyleLoop res 1 t := by
  simp [prettyPrintStyleLoop]

theorem prettyPrintStyleLoop_after_other (res : Bytes) (b : Nat) (t : Bytes) (hb : b ≠ 32) :
    prettyPrintStyleLoop res 1 (b :: t) = prettyPrintStyleLoop (res ++ [32, b]) 0 t := by
  simp [prettyPrintStyleLoop, hb]

/-- The loop of `prettyPrintStyle` read a second time: from either state, what the loop
writes for `s` is written again, and the same state reached, when the loop reads its own
output; and the state "after `;`" is reached only with a `;` written last (or with
nothing written, from that state). -/
theorem prettyPrintStyleLoop_sync : ∀ (s : Bytes) (st : Nat), st = 0 ∨ st = 1 →
    ∃ (out : Bytes) (st2 : Nat), (st2 = 0 ∨ st2 = 1) ∧
      (∀ res t, prettyPrintStyleLoop res st (s ++ t) = prettyPrintStyleLoop (res ++ out) st2 t) ∧
      (∀ res t, prettyPrintStyleLoop res st (out ++ t) =
        prettyPrintStyleLoop (res ++ out) st2 t) ∧
      (st2 = 1 → out.getLast? = some 59 ∨ (out = [] ∧ st = 1)) := by
  intro s
  induction s with
  | nil =>
    intro st hst
    exact ⟨[], st, hst, by simp, by simp, fun h => Or.inr ⟨rfl, h⟩⟩
  | cons b s ih =>
    intro st hst
    rcases hst with h0 | h1
    · subst h0
      obtain ⟨out, st2, h1, h2, h3, h4⟩ :=
        ih (if b = 59 then 1 else 0) (by by_cases hb : b = 59 <;> simp [hb])
      refine ⟨b :: out, st2, h1, ?_, ?_, ?_⟩
      · intro res t
        rw [List.cons_append, prettyPrintStyleLoop_regular, h2]
        simp
      · intro res t
        rw [List.cons_append, prettyPrintStyleLoop_regular, h3]
        simp
      · intro hs
        left
        rcases h4 hs with h5 | ⟨h5, h6⟩
        · cases out with
          | nil => simp at h5
          | cons c out => simpa using h5
        · subst h5
          by_cases hb : b = 59
          · simp [hb]
          · simp [hb] at h6
    · subst h1
      by_cases hb : b = 32
      · subst hb
        obtain ⟨out, st2, h1, h2, h3, h4⟩ := ih 1 (Or.inr rfl)
        refine ⟨out, st2, h1, ?_, h3, h4⟩
        intro res t
        rw [List.cons_append, prettyPrintStyleLoop_after_space, h2]
      · obtain ⟨out, st2, h1, h2, h3, h4⟩ := ih 0 (Or.inl rfl)
        refine ⟨32 :: b :: out, st2, h1, ?_, ?_, ?_⟩
        · intro res t
          rw [List.cons_append, prettyPrintStyleLoop_after_other _ _ _ hb, h2]
          simp
        · intro res t
          rw [List.cons_append, List.cons_append, prettyPrintStyleLoop_after_space,
            prettyPrintStyleLoop_after_other _ _ _ hb, h3]
          simp
        · intro hs
          left
          rcases h4 hs with h5 | ⟨_, h6⟩
          · cases out with
            | nil => simp at h5
            | cons c out => simpa using h5
          · exact absurd h6 (by decide)

/-- The output of `prettyPrintStyle` always ends with a semicolon. -/
theorem prettyPrintStyle_ends_semicolon (s : Bytes) :
    (prettyPrintStyle s).getLast? = some 59 := by
  unfold prettyPrintStyle
  cases h : endsWithByte (prettyPrintStyleLoop [] 0 s) 59
  · simp [h]
  · simpa [h] using (endsWithByte_iff _ _).1 h

/-- The function `prettyPrintStyle` is idempotent. -/
theorem prettyPrintStyle_idempotent (s : Bytes) :
    prettyPrintStyle (prettyPrintStyle s) = prettyPrintStyle s := by
  obtain ⟨out, st2, h1, h2, h3, h4⟩ := prettyPrintStyleLoop_sync s 0 (Or.inl rfl)
  have hs : prettyPrintStyleLoop [] 0 s = out := by
    have := h2 [] []
    simpa [prettyPrintStyleLoop] using this
  have ho : prettyPrintStyleLoop [] 0 out = out := by
    have := h3 [] []
    simpa [prettyPrintStyleLoop] using this
  cases h : endsWithByte out 59
  · have hst : st2 = 0 := by
      rcases h1 with h1 | h1
      · exact h1
      · rcases h4 h1 with h5 | ⟨_, h6⟩
        · rw [(endsWithByte_iff _ _).2 h5] at h
          exact absurd h (by decide)
        · exact absurd h6 (by decide)
    subst hst
    have h5 : prettyPrintStyle s = out ++ [59] := by
      unfold prettyPrintStyle
      simp [hs, h]
    have h6 : prettyPrintStyleLoop [] 0 (out ++ [59]) = out ++ [59] := by
      rw [h3 [] [59]]
      simp [prettyPrintStyleLoop]
    have h7 : endsWithByte (out ++ [59]) 59 = true := (endsWithByte_iff _ _).2 (by simp)
    rw [h5]
    unfold prettyPrintStyle
    simp [h6, h7]
  · have h5 : prettyPrintStyle s = out := by
      unfold prettyPrintStyle
      simp [hs, h]
    rw [h5]
    unfold prettyPrintStyle
    simp [ho, h]

end Textiler
